import Mathlib

/-!
# A verification development for the Lisp interpreter (`lisp.hpp`, `lisp.cpp`)

The C++ program is embedded shallowly:

* `Base_Object` is the class hierarchy of `lisp.hpp` as one inductive type;
* `IStream` is a `std::istream` reduced to what the reader uses (buffer,
  `eofbit`, `failbit`) with `ws`, `get`, `peek`, `unget` and `operator>>(int&)`
  following the C++ standard's description of these members;
* `readParse`, `readList`, `readString`, `commentSkip` are the reader;
* `printObj` is the family of `operator<<` members;
* `World` holds every `Env` object ever allocated (index `0` is the global
  `Environment`) and the counter `totalSym`; the members of `Env` take the
  world and the index of `this`;
* loops and recursion that need not terminate take a fuel argument, and running
  out of fuel is reported as `Res.timeout`;
* a C++ `throw "..."` is `Res.throw`, and behaviour the program does not define
  or does not catch (`std::bad_cast`, writing past `symbolName`) is `Res.fault`;
* what depends on the world outside the program (clock, standard input, files)
  is `Res.external`; standard output is not modelled.

Interned symbols are identified by their name.  `SymbolTable` below models
`sMap` with explicit object addresses and shows that this is sound: the address
`registerSymbol` returns is a function of the name.
-/

namespace Lisp

/-! ## Results -/

/-- Outcome of running a piece of the program. -/
inductive Res (α : Type) where
  | ok (a : α)
  | throw (msg : String)
  | fault (what : String)
  | external (what : String)
  | timeout
  deriving Repr, DecidableEq

/-- Sequencing of outcomes: anything but `ok` is propagated. -/
def Res.bind {α β : Type} (x : Res α) (f : α → Res β) : Res β :=
  match x with
  | .ok a => f a
  | .throw m => .throw m
  | .fault m => .fault m
  | .external m => .external m
  | .timeout => .timeout

/-- The value carried by a successful outcome. -/
def Res.value? {α σ : Type} : Res (α × σ) → Option α
  | .ok (a, _) => some a
  | _ => none

/-- True when a `char const*` was thrown. -/
def Res.isThrow {α : Type} : Res α → Bool
  | .throw _ => true
  | _ => false

/-! ## Objects -/

/-- A `Symbol` object.  Objects made by `registerSymbol` are unique per name
(`gen = none`); every call of the built-in `gensym` makes a fresh object that is
never entered in `sMap` (`gen = some n`, `n` the value of `totalSym` used). -/
structure Symbol where
  name : String
  gen : Option Nat
  deriving DecidableEq, Repr

/-- The objects created by `new PredefinedProc` in `Env::Env`, one per name. -/
inductive Builtin where
  | eqP | nullP | consP | listP | symbolP | intP | stringP | procP
  | add | sub | mul | div | mod | numEq | lt
  | print | println | printToString
  | car | cdr | cons
  | gensym | boundP | getTime | eval | read | load | macroexpandAll
  | envPrint | envPrintAll
  deriving DecidableEq, Repr

/-- The classes derived from `Base_Object`.  An `EnvSPtr` is the index of the
environment in the world. -/
inductive Base_Object where
  | integer (value : Int)
  | string (value : String)
  | symbol (s : Symbol)
  | cons (car cdr : Base_Object)
  | proc (parameterList body : Base_Object) (env : Nat)
  | macroObj (parameterList body : Base_Object) (env : Nat)
  | predefined (b : Builtin)
  deriving DecidableEq, Repr

/-- The object `registerSymbol(name)` returns: the one symbol of that name. -/
def registerSymbol (name : String) : Base_Object :=
  .symbol ⟨name, none⟩

/-- `Base_Object::isnull`: a `Symbol` whose name is `"null"`. -/
def Base_Object.isnull : Base_Object → Bool
  | .symbol s => s.name == "null"
  | _ => false

/-- `typep<Cons>()`. -/
def Base_Object.isCons : Base_Object → Bool
  | .cons _ _ => true
  | _ => false

/-! ## Input streams -/

/-- The part of a `std::istream` the reader observes.  `consumed` holds the
characters already extracted, most recent first, which is what `unget` can put
back; `badbit` is folded into `failbit`. -/
structure IStream where
  consumed : List Char
  rest : List Char
  eofbit : Bool
  failbit : Bool
  deriving DecidableEq, Repr

/-- A fresh stream over the given text. -/
def IStream.ofList (text : List Char) : IStream :=
  ⟨[], text, false, false⟩

/-- `is.good()`. -/
def IStream.good (s : IStream) : Bool :=
  !s.eofbit && !s.failbit

/-- What `char c = is.get()` stores when `get` returns `Traits::eof()`. -/
def eofChar : Char := Char.ofNat 255

/-- `std::isspace` in the "C" locale. -/
def isspace (c : Char) : Bool :=
  c == ' ' || c == '\t' || c == '\n' || c == Char.ofNat 11 || c == Char.ofNat 12 || c == '\r'

/-- `is >> std::ws`: with a good stream, whitespace is extracted and `eofbit` is
set when the end is reached; otherwise the sentry sets `failbit`. -/
def IStream.ws (s : IStream) : IStream :=
  if s.good then
    { consumed := (s.rest.takeWhile isspace).reverse ++ s.consumed
      rest := s.rest.dropWhile isspace
      eofbit := (s.rest.dropWhile isspace).isEmpty
      failbit := false }
  else { s with failbit := true }

/-- `is.get()` assigned to a `char`. -/
def IStream.get (s : IStream) : Char × IStream :=
  if s.good then
    match s.rest with
    | c :: r => (c, { s with consumed := c :: s.consumed, rest := r })
    | [] => (eofChar, { s with eofbit := true, failbit := true })
  else (eofChar, { s with failbit := true })

/-- `is.peek()`; `none` is `Traits::eof()`. -/
def IStream.peek (s : IStream) : Option Char × IStream :=
  if s.good then
    match s.rest with
    | c :: _ => (some c, s)
    | [] => (none, { s with eofbit := true })
  else (none, { s with failbit := true })

/-- `is.unget()`: clears `eofbit` first, then puts the last character back if
the stream is good. -/
def IStream.unget (s : IStream) : IStream :=
  if s.failbit then { s with eofbit := false }
  else
    match s.consumed with
    | c :: cs => { consumed := cs, rest := c :: s.rest, eofbit := false, failbit := false }
    | [] => { s with eofbit := false, failbit := true }

/-- `'0' <= c && c <= '9'`. -/
def isDigitChar (c : Char) : Bool :=
  '0'.toNat ≤ c.toNat && c.toNat ≤ '9'.toNat

/-- Value of a run of decimal digits. -/
def digitsValue (ds : List Char) : Nat :=
  ds.foldl (fun acc d => acc * 10 + (d.toNat - '0'.toNat)) 0

/-- `INT_MAX` of a 32-bit `int`. -/
def INT_MAX : Int := 2147483647

/-- `INT_MIN` of a 32-bit `int`. -/
def INT_MIN : Int := -2147483648

/-- `is >> value` for `int value`: leading whitespace is skipped, an optional
sign and the longest run of digits are extracted.  Reaching the end of the
input sets `eofbit`; no digit at all stores `0` and sets `failbit`; a value out
of range stores `INT_MAX` or `INT_MIN` and sets `failbit`.  `none` stands for
`value` left as it was (the sentry failed). -/
def IStream.readInt (s : IStream) : Option Int × IStream :=
  if s.good then
    let s1 := s.ws
    if s1.eofbit then (none, { s1 with failbit := true })
    else
      let neg := s1.rest.head? == some '-'
      let signed := s1.rest.head? == some '-' || s1.rest.head? == some '+'
      let body := if signed then s1.rest.tail else s1.rest
      let sign := if signed then s1.rest.take 1 else []
      let ds := body.takeWhile isDigitChar
      let after := body.dropWhile isDigitChar
      let v : Int := if neg then -(digitsValue ds : Int) else (digitsValue ds : Int)
      let s2 : IStream :=
        { consumed := ds.reverse ++ sign ++ s1.consumed
          rest := after
          eofbit := after.isEmpty
          failbit := false }
      if ds.isEmpty then (some 0, { s2 with failbit := true })
      else if v > INT_MAX then (some INT_MAX, { s2 with failbit := true })
      else if v < INT_MIN then (some INT_MIN, { s2 with failbit := true })
      else (some v, s2)
  else (none, { s with failbit := true })

/-! ## Reader -/

/-- `isSymbolChar`. -/
def isSymbolChar (c : Char) : Bool :=
  c != '(' && c != ')' && c != ' ' && c != '\t' && c != '\n' && c != '\r' && c != Char.ofNat 0

/-- The inner loop of `commentSkip`:
`while (c != 0 && c != '\n' && c != '\r') c = is.get();`. -/
def skipLine : Nat → Char → IStream → Res (Char × IStream)
  | fuel, c, s =>
    if c != Char.ofNat 0 && c != '\n' && c != '\r' then
      match fuel with
      | 0 => .timeout
      | n + 1 => skipLine n s.get.1 s.get.2
    else .ok (c, s)

/-- The outer loop of `commentSkip`: `while (c == ';') { ... }`. -/
def commentLoop : Nat → Char → IStream → Res IStream
  | fuel, c, s =>
    if c == ';' then
      match fuel with
      | 0 => .timeout
      | n + 1 =>
        match skipLine n c s with
        | .ok (_, s1) => commentLoop n (s1.ws.peek.1.getD eofChar) s1.ws.peek.2
        | .throw m => .throw m
        | .fault m => .fault m
        | .external m => .external m
        | .timeout => .timeout
    else .ok s

/-- `commentSkip`. -/
def commentSkip (fuel : Nat) (s : IStream) : Res IStream :=
  commentLoop fuel (s.ws.peek.1.getD eofChar) s.ws.peek.2

/-- The `switch` of `readString` on the character after a backslash. -/
def escapeChar (c : Char) : Char :=
  if c == 'n' then '\n'
  else if c == 'f' then Char.ofNat 12
  else if c == 'b' then Char.ofNat 8
  else if c == 'r' then '\r'
  else if c == 't' then '\t'
  else if c == '\n' || c == '\r' then Char.ofNat 0
  else c

/-- The loop of `readString`; `acc` is the `stringstream`, last character
first. -/
def readStringLoop : Nat → Char → IStream → List Char → Res (Base_Object × IStream)
  | fuel, c, s, acc =>
    if c != '"' then
      match fuel with
      | 0 => .timeout
      | n + 1 =>
        let c1 := if c == '\\' then escapeChar s.get.1 else c
        let s1 := if c == '\\' then s.get.2 else s
        let acc1 := if c1 != Char.ofNat 0 then c1 :: acc else acc
        if s1.eofbit then .throw "Parser contains errors"
        else readStringLoop n s1.get.1 s1.get.2 acc1
    else .ok (.string (String.mk acc.reverse), s)

/-- `readString`. -/
def readString (fuel : Nat) (s : IStream) : Res (Base_Object × IStream) :=
  readStringLoop fuel s.get.1 s.get.2 []

/-- The symbol loop of `readParse`:
`while (isSymbolChar(c) && !is.eof()) { symbolName[i++] = c; c = is.get(); }`.
`room` is the number of free cells of `char symbolName[512]`; storing a
character when none is left writes past the array. -/
def readSymbolLoop : Nat → Char → IStream → List Char → Res (List Char × IStream)
  | room, c, s, acc =>
    if isSymbolChar c && !s.eofbit then
      match room with
      | 0 => .fault "symbolName overflow"
      | k + 1 => readSymbolLoop k s.get.1 s.get.2 (c :: acc)
    else .ok (acc.reverse, s)

/-- The last branch of `readParse`, entered with the character `c` just
extracted.  A name of 512 characters fills the array, and the terminating
`symbolName[i] = 0` then writes past it. -/
def readSymbol (c : Char) (s : IStream) : Res (Base_Object × IStream) :=
  match readSymbolLoop 512 c s [] with
  | .ok (name, s1) =>
    if name.length = 0 then .throw "Parser contains errors"
    else if name.length = 512 then .fault "symbolName overflow"
    else .ok (registerSymbol (String.mk name), s1.unget)
  | .throw m => .throw m
  | .fault m => .fault m
  | .external m => .external m
  | .timeout => .timeout

/-- The integer branch of `readParse`: `is.unget(); int value; is >> value;`. -/
def readInteger (s : IStream) : Res (Base_Object × IStream) :=
  match s.unget.readInt with
  | (some v, s1) => .ok (.integer v, s1)
  | (none, _) => .fault "uninitialised int"

mutual

/-- `readParse`. -/
def readParse : Nat → IStream → Res (Base_Object × IStream)
  | 0, _ => .timeout
  | fuel + 1, s =>
    match commentSkip fuel s with
    | .ok s1 =>
      if s1.eofbit then .throw "Parser contains errors"
      else
        let c := s1.get.1
        let s2 := s1.get.2
        if c == '(' then readList fuel s2
        else if isDigitChar c then readInteger s2
        else if c == '-' && (s2.peek.1.map isDigitChar == some true) then readInteger s2.peek.2
        else
          let s3 := if c == '-' then s2.peek.2 else s2
          if c == '"' then readString fuel s3
          else readSymbol c s3
    | .throw m => .throw m
    | .fault m => .fault m
    | .external m => .external m
    | .timeout => .timeout

/-- `readList`. -/
def readList : Nat → IStream → Res (Base_Object × IStream)
  | 0, _ => .timeout
  | fuel + 1, s =>
    let s1 := s.ws
    if s1.eofbit then .throw "Parser contains errors"
    else
      let c := s1.get.1
      let s2 := s1.get.2
      if c == ')' then .ok (registerSymbol "null", s2)
      else if c == '.' then
        match readParse fuel s2 with
        | .ok (cdr, s3) =>
          if s3.ws.get.1 != ')' then .throw "Parser contains errors"
          else .ok (cdr, s3.ws.get.2)
        | .throw m => .throw m
        | .fault m => .fault m
        | .external m => .external m
        | .timeout => .timeout
      else
        match readParse fuel s2.unget with
        | .ok (car, s4) =>
          match readList fuel s4 with
          | .ok (cdr, s5) => .ok (.cons car cdr, s5)
          | .throw m => .throw m
          | .fault m => .fault m
          | .external m => .external m
          | .timeout => .timeout
        | .throw m => .throw m
        | .fault m => .fault m
        | .external m => .external m
        | .timeout => .timeout

end

/-- `Env::read`: a thrown `char const*` is caught and the null handle
(`none`) is returned. -/
def Env.read (fuel : Nat) (s : IStream) : Res (Option Base_Object) :=
  match readParse fuel s with
  | .ok (o, _) => .ok (some o)
  | .throw _ => .ok none
  | .fault m => .fault m
  | .external m => .external m
  | .timeout => .timeout

/-! ## Printer -/

/-- One decimal digit. -/
def digitChar (d : Nat) : Char := Char.ofNat ('0'.toNat + d)

/-- Decimal digits of `n`, most significant first, in front of `acc`. -/
def printNatAux : Nat → Nat → List Char → List Char
  | 0, _, acc => acc
  | fuel + 1, n, acc =>
    if n / 10 = 0 then digitChar (n % 10) :: acc
    else printNatAux fuel (n / 10) (digitChar (n % 10) :: acc)

/-- `os << value` for a non-negative `int`. -/
def printNat (n : Nat) : List Char := printNatAux (n + 1) n []

/-- `os << value` for `int value`. -/
def printInt (v : Int) : List Char :=
  if v < 0 then '-' :: printNat v.natAbs else printNat v.natAbs

mutual

/-- The `operator<<` members: the text written for an object. -/
def printObj : Base_Object → List Char
  | .integer v => printInt v
  | .string v => v.data
  | .symbol s => s.name.data
  | .cons car cdr => '(' :: (printObj car ++ (printTail cdr ++ [')']))
  | .proc _ _ _ => "<Proc>".data
  | .macroObj _ _ _ => "<Macro>".data
  | .predefined _ => "<PredefinedProc>".data

/-- The `while (true)` loop of `Cons::operator<<` over the cdr chain. -/
def printTail : Base_Object → List Char
  | .cons car cdr => ' ' :: (printObj car ++ printTail cdr)
  | .integer v => " . ".data ++ printInt v
  | .string v => " . ".data ++ v.data
  | .symbol s => if s.name == "null" then [] else " . ".data ++ s.name.data
  | .proc _ _ _ => " . ".data ++ "<Proc>".data
  | .macroObj _ _ _ => " . ".data ++ "<Macro>".data
  | .predefined _ => " . ".data ++ "<PredefinedProc>".data

end

/-! ## List helpers of `lisp.cpp` -/

/-- `isProperList`. -/
def isProperList : Base_Object → Bool
  | .cons _ cdr => isProperList cdr
  | .symbol s => s.name == "null"
  | _ => false

/-- `listLength`: the number of `Cons` cells on the cdr chain. -/
def listLength : Base_Object → Nat
  | .cons _ cdr => 1 + listLength cdr
  | _ => 0

/-- `listNth`; `none` is the null handle. -/
def listNth : Base_Object → Nat → Option Base_Object
  | .cons car _, 0 => some car
  | .cons _ cdr, i + 1 => listNth cdr i
  | _, _ => none

/-- `listNthCdr`; `none` is the null handle. -/
def listNthCdr : Base_Object → Nat → Option Base_Object
  | o, 0 => some o
  | .cons _ cdr, i + 1 => listNthCdr cdr i
  | _, _ + 1 => none

/-- `boolToLobj`. -/
def boolToLobj (b : Bool) : Base_Object :=
  registerSymbol (if b then "t" else "f")

/-- `vectorToList`. -/
def vectorToList : List Base_Object → Base_Object
  | [] => registerSymbol "null"
  | o :: os => .cons o (vectorToList os)

/-! ## Environments -/

/-- A `Symbol*` used as a key of `symbolValueMap`; `none` is the null pointer. -/
abbrev SymPtr := Option Symbol

/-- The data members of class `Env` (`envobj` is the object's own index). -/
structure Env where
  outEnvironment : Option Nat
  environmentLex : Option Nat
  symbolValueMap : List (SymPtr × Base_Object)
  closed : Bool
  deriving DecidableEq, Repr

/-- The state of the program: all `Env` objects allocated so far, index `0`
being the global `Environment`, and the counter `totalSym`.  Objects are held
by value, so the addresses that `eq?` compares are not part of the state:
`addressEq` records, in the order in which the program makes them, the outcomes
of the comparisons of two handles that the values do not decide. -/
structure World where
  envs : List Env
  totalSym : Nat
  addressEq : List Bool := []
  deriving DecidableEq, Repr

/-- `symbolValueMap.count(symbol) != 0`. -/
def mapCount : List (SymPtr × Base_Object) → SymPtr → Bool
  | [], _ => false
  | (k, _) :: m, key => if k = key then true else mapCount m key

/-- Reading an existing entry `symbolValueMap[symbol]`. -/
def mapFind : List (SymPtr × Base_Object) → SymPtr → Option Base_Object
  | [], _ => none
  | (k, v) :: m, key => if k = key then some v else mapFind m key

/-- The assignment `symbolValueMap[symbol] = objPtr`. -/
def mapSet : List (SymPtr × Base_Object) → SymPtr → Base_Object → List (SymPtr × Base_Object)
  | [], key, v => [(key, v)]
  | (k, v0) :: m, key, v => if k = key then (k, v) :: m else (k, v0) :: mapSet m key v

/-- Replace the `Env` at an index. -/
def updateEnv : List Env → Nat → (Env → Env) → List Env
  | [], _, _ => []
  | e :: es, 0, f => f e :: es
  | e :: es, i + 1, f => e :: updateEnv es i f

/-- `Env::createSubEnvironment(l)` called on the environment `self`. -/
def Env.createSubEnvironment (W : World) (self : Nat) (l : Option Nat) : Nat × World :=
  (W.envs.length,
   { W with envs := W.envs ++ [{ outEnvironment := some self, environmentLex := l,
                                 symbolValueMap := [], closed := false }] })

/-- `Env::bind` called on the environment `self`. -/
def Env.bind (W : World) (self : Nat) (objPtr : Base_Object) (symbol : SymPtr) : World :=
  { W with envs := (updateEnv W.envs self
      (fun e => { e with symbolValueMap := mapSet e.symbolValueMap symbol objPtr })) }

/-- `Env::isSpecialVariable`: the key is present in the map of `Environment`. -/
def Env.isSpecialVariable (W : World) (symbol : SymPtr) : Bool :=
  match W.envs[0]? with
  | some root => mapCount root.symbolValueMap symbol
  | none => false

/-- `Env::resolveEnvDyn`: the walk along `outEnvironment`. -/
def Env.resolveEnvDyn : Nat → World → Nat → SymPtr → Res (Option Nat)
  | 0, _, _, _ => .timeout
  | fuel + 1, W, self, symbol =>
    match W.envs[self]? with
    | none => .fault "dangling Env"
    | some e =>
      if mapCount e.symbolValueMap symbol then .ok (some self)
      else
        match e.outEnvironment with
        | some o => Env.resolveEnvDyn fuel W o symbol
        | none => .ok none

/-- `Env::resolveEnvLex`: the walk that prefers `environmentLex` and takes
`outEnvironment` only where there is no lexical link. -/
def Env.resolveEnvLex : Nat → World → Nat → SymPtr → Res (Option Nat)
  | 0, _, _, _ => .timeout
  | fuel + 1, W, self, symbol =>
    match W.envs[self]? with
    | none => .fault "dangling Env"
    | some e =>
      if mapCount e.symbolValueMap symbol then .ok (some self)
      else
        match e.environmentLex with
        | some l => Env.resolveEnvLex fuel W l symbol
        | none =>
          match e.outEnvironment with
          | some o => Env.resolveEnvLex fuel W o symbol
          | none => .ok none

/-- `Env::findEnvironment`. -/
def Env.findEnvironment (fuel : Nat) (W : World) (self : Nat) (symbol : SymPtr) :
    Res (Option Nat) :=
  if Env.isSpecialVariable W symbol then Env.resolveEnvDyn fuel W self symbol
  else Env.resolveEnvLex fuel W self symbol

/-- `Env::findSymbolInMap`; `none` is the null handle. -/
def Env.findSymbolInMap (fuel : Nat) (W : World) (self : Nat) (symbol : SymPtr) :
    Res (Option Base_Object) :=
  (Env.findEnvironment fuel W self symbol).bind fun r =>
    match r with
    | none => .ok none
    | some env =>
      match W.envs[env]? with
      | some e => .ok (mapFind e.symbolValueMap symbol)
      | none => .fault "dangling Env"

/-- `Env::merge(env)` called on the environment `self`. -/
def Env.merge (W : World) (self : Nat) (env : Nat) : World :=
  match W.envs[env]? with
  | none => W
  | some e =>
    { W with envs := updateEnv W.envs self (fun me =>
        { outEnvironment := me.outEnvironment
          environmentLex := if e.environmentLex.isSome then e.environmentLex else me.environmentLex
          symbolValueMap :=
            e.symbolValueMap.foldl (fun m kv => mapSet m kv.1 kv.2) me.symbolValueMap
          closed := me.closed }) }

/-- `Env::isClosed`. -/
def Env.isClosed (W : World) (self : Nat) : Bool :=
  match W.envs[self]? with
  | some e => e.closed
  | none => true

/-- The assignment `closed = true` in the `lambda` and `macro` branches. -/
def Env.setClosed (W : World) (self : Nat) : World :=
  { W with envs := updateEnv W.envs self (fun e => { e with closed := true }) }

/-! ## Built-in procedures -/

/-- Arithmetic of a 32-bit `int`: results are reduced to the range of `int` by
two's complement wrap-around. -/
def wrap32 (x : Int) : Int := (x + 2147483648) % 4294967296 - 2147483648

/-- The comparison `args[i].get() == args[i + 1].get()` of two handles, where
the values decide it.  Symbols and predefined procedures are one object each,
and objects never change, so handles to objects that differ point to different
objects.  For two handles to equal objects of another class the addresses
decide (`none`): they point to one object when both were taken from the same
binding or the same place of a form, and to two objects when each was made by
its own literal or computation. -/
def sameObject : Base_Object → Base_Object → Option Bool
  | .symbol a, .symbol b => some (a = b)
  | .predefined a, .predefined b => some (a = b)
  | a, b => if a = b then none else some false

/-- The loop `for (i = 0; i < args.size() - 1; ++i)` of `eq?`: `false` as soon
as two neighbours are not the same object.  A comparison that the values do not
decide takes its outcome from the record `ans` of such outcomes; when the
record is used up the two handles point to two objects, as they do in
`(eq? 1 1)`.  Returns what is left of the record. -/
def eqChain : List Bool → List Base_Object → Bool × List Bool
  | ans, a :: b :: rest =>
    match sameObject a b with
    | some true => eqChain ans (b :: rest)
    | some false => (false, ans)
    | none =>
      match ans with
      | true :: ans1 => eqChain ans1 (b :: rest)
      | false :: ans1 => (false, ans1)
      | [] => (false, [])
  | ans, _ => (true, ans)

/-- The loops of `+` and `*`: fold the operands into `value`, throwing at the
first operand that is not an `Integer`. -/
def foldInts (msg : String) (op : Int → Int → Int) : Int → List Base_Object → Res Int
  | value, [] => .ok value
  | value, .integer v :: rest => foldInts msg op (wrap32 (op value v)) rest
  | _, _ :: _ => .throw msg

/-- The loop of `/`.  The quotient of `INT_MIN` and `-1` is not an `int`: the
division has no defined behaviour, and the compiled program is stopped by the
processor (SIGFPE). -/
def divInts : Int → List Base_Object → Res Int
  | value, [] => .ok value
  | value, .integer divisor :: rest =>
    if divisor = 0 then .throw "dividing by zero"
    else if value = INT_MIN ∧ divisor = -1 then .fault "integer overflow in division"
    else divInts (wrap32 (value.tdiv divisor)) rest
  | _, _ :: _ => .throw "Invalid arguments of function '/'"

/-- The first loop of `=` and `<`: every operand is an `Integer`. -/
def allIntegers : List Base_Object → Bool
  | [] => true
  | .integer _ :: rest => allIntegers rest
  | _ :: _ => false

/-- The second loop of `=` and `<` over adjacent operands. -/
def intChain (rel : Int → Int → Bool) : List Base_Object → Bool
  | .integer a :: .integer b :: rest => rel a b && intChain rel (.integer b :: rest)
  | _ => true

/-- The text collected by `print-to-string`. -/
def printAll : List Base_Object → List Char
  | [] => []
  | o :: os => printObj o ++ printAll os

/-- What the evaluator calls recursively, with one unit of fuel less. -/
structure Rec where
  eval : World → Nat → Base_Object → Bool → Res (Base_Object × World)
  macroExpand : World → Nat → Base_Object → Res (Base_Object × World)

/-- `Env::evalTop`: `eval(macroExpand(objPtr))`. -/
def Rec.evalTop (r : Rec) (W : World) (self : Nat) (objPtr : Base_Object) :
    Res (Base_Object × World) :=
  (r.macroExpand W self objPtr).bind fun x => r.eval x.2 self x.1 false

/-- The lambdas bound in `Env::Env`, applied to `env` (the index `self`) and the
vector `args`.  Standard output is not part of the model, so the printing
procedures only return `null`; `get-time`, `read` and `load` consult the clock,
standard input and the file system and are reported as `Res.external`.  The
remainder of `INT_MIN` and `-1` stops the program like their quotient. -/
def applyBuiltin (fuel : Nat) (r : Rec) (b : Builtin) (W : World) (self : Nat)
    (args : List Base_Object) : Res (Base_Object × World) :=
  match b with
  | .eqP =>
    if args.length = 0 then .throw "Invalid arguments of function 'eq?'"
    else
      .ok (registerSymbol (if (eqChain W.addressEq args).1 then "t" else "f"),
           { W with addressEq := (eqChain W.addressEq args).2 })
  | .nullP =>
    match args with
    | [a] => .ok (boolToLobj a.isnull, W)
    | _ => .throw "Invalid arguments of function 'null'"
  | .consP =>
    match args with
    | [a] => .ok (boolToLobj a.isCons, W)
    | _ => .throw "Invalid arguments of function 'null'"
  | .listP =>
    match args with
    | [a] => .ok (boolToLobj (a.isCons || a.isnull), W)
    | _ => .throw "Invalid arguments of function 'null'"
  | .symbolP =>
    match args with
    | [.symbol _] => .ok (boolToLobj true, W)
    | [_] => .ok (boolToLobj false, W)
    | _ => .throw "Invalid arguments of function 'null'"
  | .intP =>
    match args with
    | [.integer _] => .ok (boolToLobj true, W)
    | [_] => .ok (boolToLobj false, W)
    | _ => .throw "Invalid arguments of function 'null'"
  | .stringP =>
    match args with
    | [.string _] => .ok (boolToLobj true, W)
    | [_] => .ok (boolToLobj false, W)
    | _ => .throw "Invalid arguments of function 'null'"
  | .procP =>
    match args with
    | [.proc _ _ _] => .ok (boolToLobj true, W)
    | [.predefined _] => .ok (boolToLobj true, W)
    | [_] => .ok (boolToLobj false, W)
    | _ => .throw "Invalid arguments of function 'null'"
  | .add =>
    (foldInts "Invalid arguments of function '+'" (fun x y => x + y) 0 args).bind fun v =>
      .ok (.integer v, W)
  | .sub =>
    match args with
    | [.integer value] => .ok (.integer (wrap32 (-value)), W)
    | .integer value :: rest =>
      (foldInts "Invalid arguments of function '-'" (fun x y => x - y) value rest).bind fun v =>
        .ok (.integer v, W)
    | _ => .throw "Invalid arguments of function '-'"
  | .mul =>
    (foldInts "Invalid arguments of function '*'" (fun x y => x * y) 1 args).bind fun v =>
      .ok (.integer v, W)
  | .div =>
    match args with
    | .integer value :: rest => (divInts value rest).bind fun v => .ok (.integer v, W)
    | _ => .throw "Invalid arguments of function '/'"
  | .mod =>
    match args with
    | [.integer value, .integer divisor] =>
      if divisor = 0 then .throw "dividing by zero"
      else if value = INT_MIN ∧ divisor = -1 then .fault "integer overflow in division"
      else .ok (.integer (wrap32 (value.tmod divisor)), W)
    | _ => .throw "Invalid arguments of function 'mod'"
  | .numEq =>
    if args.length = 0 then .throw "Invalid arguments of function '='"
    else if !allIntegers args then .throw "Invalid arguments of function '='"
    else .ok (registerSymbol (if intChain (fun a b => a == b) args then "t" else "null"), W)
  | .lt =>
    if args.length = 0 then .throw "Invalid arguments of function '<'"
    else if !allIntegers args then .throw "Invalid arguments of function '<'"
    else .ok (registerSymbol (if intChain (fun a b => decide (a < b)) args then "t" else "null"), W)
  | .print => .ok (registerSymbol "null", W)
  | .println => .ok (registerSymbol "null", W)
  | .printToString => .ok (.string (String.mk (printAll args)), W)
  | .car =>
    match args with
    | [.cons car _] => .ok (car, W)
    | _ => .throw "Invalid arguments of function 'car'"
  | .cdr =>
    match args with
    | [.cons _ cdr] => .ok (cdr, W)
    | _ => .throw "Invalid arguments of function 'cdr'"
  | .cons =>
    match args with
    | [a, d] => .ok (.cons a d, W)
    | _ => .throw "Invalid arguments of function 'cons'"
  | .gensym =>
    match args with
    | [] =>
      .ok (.symbol ⟨"#g" ++ String.mk (printNat W.totalSym), some W.totalSym⟩,
           { W with totalSym := W.totalSym + 1 })
    | [.string pre] =>
      .ok (.symbol ⟨"#" ++ pre ++ String.mk (printNat W.totalSym), some W.totalSym⟩,
           { W with totalSym := W.totalSym + 1 })
    | _ => .throw "Invalid arguments of function 'gensym'"
  | .boundP =>
    match args with
    | [.symbol s] =>
      (Env.findSymbolInMap fuel W self (some s)).bind fun o => .ok (boolToLobj o.isSome, W)
    | _ => .throw "Invalid arguments of function 'bound?'"
  | .getTime =>
    if args.length ≠ 0 then .throw "Invalid arguments of function 'get-time'"
    else .external "std::clock"
  | .eval =>
    match args with
    | [a] => r.evalTop W self a
    | _ => .throw "Invalid arguments of function 'eval'"
  | .read =>
    if args.length ≠ 0 then .throw "Invalid arguments of function 'read'"
    else .external "std::cin"
  | .load =>
    match args with
    | [.string _] => .external "std::ifstream"
    | _ => .throw "Invalid arguments of function 'load'"
  | .macroexpandAll =>
    match args with
    | [a] => r.macroExpand W self a
    | _ => .throw "Invalid arguments of function 'macroexpand-all'"
  | .envPrint =>
    if args.length ≠ 0 then .throw "Invalid arguments of function 'env-print'"
    else .ok (registerSymbol "null", W)
  | .envPrintAll =>
    if args.length ≠ 0 then .throw "Invalid arguments of function 'env-print-all'"
    else .ok (registerSymbol "null", W)

/-- The bindings made by the constructor `Env::Env()`, in the order of the
`bind` calls. -/
def rootBindings : List (SymPtr × Base_Object) :=
  [ (some ⟨"t", none⟩, registerSymbol "t"),
    (some ⟨"null", none⟩, registerSymbol "null"),
    (some ⟨"eq?", none⟩, .predefined .eqP),
    (some ⟨"null?", none⟩, .predefined .nullP),
    (some ⟨"cons?", none⟩, .predefined .consP),
    (some ⟨"list?", none⟩, .predefined .listP),
    (some ⟨"symbol?", none⟩, .predefined .symbolP),
    (some ⟨"int?", none⟩, .predefined .intP),
    (some ⟨"string?", none⟩, .predefined .stringP),
    (some ⟨"proc?", none⟩, .predefined .procP),
    (some ⟨"+", none⟩, .predefined .add),
    (some ⟨"-", none⟩, .predefined .sub),
    (some ⟨"*", none⟩, .predefined .mul),
    (some ⟨"/", none⟩, .predefined .div),
    (some ⟨"mod", none⟩, .predefined .mod),
    (some ⟨"=", none⟩, .predefined .numEq),
    (some ⟨"<", none⟩, .predefined .lt),
    (some ⟨"print", none⟩, .predefined .print),
    (some ⟨"println", none⟩, .predefined .println),
    (some ⟨"print-to-string", none⟩, .predefined .printToString),
    (some ⟨"car", none⟩, .predefined .car),
    (some ⟨"cdr", none⟩, .predefined .cdr),
    (some ⟨"cons", none⟩, .predefined .cons),
    (some ⟨"gensym", none⟩, .predefined .gensym),
    (some ⟨"bound?", none⟩, .predefined .boundP),
    (some ⟨"get-time", none⟩, .predefined .getTime),
    (some ⟨"eval", none⟩, .predefined .eval),
    (some ⟨"read", none⟩, .predefined .read),
    (some ⟨"load", none⟩, .predefined .load),
    (some ⟨"macroexpand-all", none⟩, .predefined .macroexpandAll),
    (some ⟨"exit", none⟩, registerSymbol "exit"),
    (some ⟨"env-print", none⟩, .predefined .envPrint),
    (some ⟨"env-print-all", none⟩, .predefined .envPrintAll) ]

/-- `Env::createEnvironment()` as called by `main`: the world in which the only
`Env` is the root, built by `Env::Env()` with `closed = true` and no links. -/
def Env.createEnvironment : World :=
  { envs := [{ outEnvironment := none, environmentLex := none,
               symbolValueMap := rootBindings, closed := true }]
    totalSym := 0 }

/-! ## Evaluator -/

/-- `evalListElements(env, objPtr)`.  C++ leaves the order in which the two
arguments of `make_shared<Cons>` are evaluated unspecified; the model takes the
order of the compiled program, which evaluates the arguments of a call from the
last to the first: the rest of the list is evaluated before the car. -/
def evalListElements (r : Rec) (env : Nat) : World → Base_Object → Res (Base_Object × World)
  | W, .cons car cdr =>
    (evalListElements r env W cdr).bind fun y =>
      (r.eval y.2 env car false).bind fun x => .ok (.cons x.1 y.1, x.2)
  | W, o => .ok (o, W)

/-- The function `map` of `lisp.cpp` with `Env::macroExpand` as `func`: as in
`evalListElements`, the rest of the list is mapped before `func` is applied to
the car. -/
def mapExpand (r : Rec) (self : Nat) : World → Base_Object → Res (Base_Object × World)
  | W, .cons car cdr =>
    (mapExpand r self W cdr).bind fun y =>
      (r.macroExpand y.2 self car).bind fun x => .ok (.cons x.1 y.1, x.2)
  | W, o => .ok (o, W)

/-- The loop of `Env::eval` that fills the vector `args` of a
`PredefinedProc`. -/
def evalArgs (r : Rec) (self : Nat) : World → Base_Object → Res (List Base_Object × World)
  | W, .cons car cdr =>
    (r.eval W self car false).bind fun x =>
      (evalArgs r self x.2 cdr).bind fun y => .ok (x.1 :: y.1, y.2)
  | W, _ => .ok ([], W)

/-- The `while` loop of `makeEnvForMacro`: parameters are bound to the
argument forms as they stand.  Returns what is left of `prms` and `args`. -/
def macroBindLoop (env : Nat) : World → Base_Object → Base_Object →
    Res (World × Base_Object × Base_Object)
  | W, .cons p prms, .cons a args =>
    match p with
    | .symbol s => macroBindLoop env (Env.bind W env a (some s)) prms args
    | _ => .fault "std::bad_cast"
  | W, prms, args => .ok (W, prms, args)

/-- The `while` loop of `makeEnvForApply`: each argument form is evaluated in
`outEnvironment` and bound in `env`. -/
def applyBindLoop (r : Rec) (outEnvironment env : Nat) : World → Base_Object → Base_Object →
    Res (World × Base_Object × Base_Object)
  | W, .cons p prms, .cons a args =>
    match p with
    | .symbol s =>
      (r.eval W outEnvironment a false).bind fun x =>
        applyBindLoop r outEnvironment env (Env.bind x.2 env x.1 (some s)) prms args
    | _ => .fault "std::bad_cast"
  | W, prms, args => .ok (W, prms, args)

/-- The tail of both `makeEnvFor...` functions:
`if (tail && !outEnvironment->isClosed()) { outEnvironment->merge(env); env = outEnvironment; }`. -/
def mergeIfTail (W : World) (outEnvironment env : Nat) (tail : Bool) : Nat × World :=
  if tail && !Env.isClosed W outEnvironment then (outEnvironment, Env.merge W outEnvironment env)
  else (env, W)

/-- `makeEnvForMacro`. -/
def makeEnvForMacro (W : World) (outEnvironment procEnv : Nat) (prms args : Base_Object)
    (tail : Bool) : Res (Nat × World) :=
  let sub := Env.createSubEnvironment W outEnvironment (some procEnv)
  if !isProperList args then .throw "Wrong usage of macro"
  else
    (macroBindLoop sub.1 sub.2 prms args).bind fun x =>
      match x.2.1 with
      | .symbol s =>
        if s.name == "null" then .ok (mergeIfTail x.1 outEnvironment sub.1 tail)
        else .ok (mergeIfTail (Env.bind x.1 sub.1 x.2.2 (some s)) outEnvironment sub.1 tail)
      | _ => .ok (mergeIfTail x.1 outEnvironment sub.1 tail)

/-- `makeEnvForApply`. -/
def makeEnvForApply (r : Rec) (W : World) (outEnvironment procEnv : Nat)
    (prms args : Base_Object) (tail : Bool) : Res (Nat × World) :=
  let sub := Env.createSubEnvironment W outEnvironment (some procEnv)
  if !isProperList args then .throw "Wrong usage"
  else
    (applyBindLoop r outEnvironment sub.1 sub.2 prms args).bind fun x =>
      match x.2.1 with
      | .symbol s =>
        if s.name == "null" then .ok (mergeIfTail x.1 outEnvironment sub.1 tail)
        else
          (evalListElements r outEnvironment x.1 x.2.2).bind fun rest =>
            .ok (mergeIfTail (Env.bind rest.2 sub.1 rest.1 (some s)) outEnvironment sub.1 tail)
      | _ => .ok (mergeIfTail x.1 outEnvironment sub.1 tail)

/-- The `do` branch after `cons = &cons->cdr->getAs<Cons>()`: `car` and `cdr`
are the members of the current cell. -/
def doLoop (r : Rec) (self : Nat) (tail : Bool) : World → Base_Object → Base_Object →
    Res (Base_Object × World)
  | W, car, .cons car1 cdr1 =>
    (r.eval W self car false).bind fun x => doLoop r self tail x.2 car1 cdr1
  | W, car, _ => r.eval W self car tail

/-- The binding loop of `let`: forms are evaluated in `self`, bound in `env`.
A binder that is not a `Symbol` makes `getAs<Symbol>` throw `std::bad_cast`. -/
def letLoop (r : Rec) (self env : Nat) : World → Base_Object → Res World
  | W, .cons objSymbol (.cons objForm rest) =>
    match objSymbol with
    | .symbol s =>
      (r.eval W self objForm false).bind fun x =>
        letLoop r self env (Env.bind x.2 env x.1 (some s)) rest
    | _ => .fault "std::bad_cast"
  | W, .symbol s => if s.name == "null" then .ok W else .fault "null Cons"
  | _, _ => .fault "null Cons"

/-- The binding loop of `let*`: forms are evaluated and bound in `env`.  For a
binder that is not a `Symbol` the `dynamic_cast` yields the null pointer, which
is then used as the key. -/
def letStarLoop (r : Rec) (env : Nat) : World → Base_Object → Res World
  | W, .cons objSymbol (.cons objForm rest) =>
    (r.eval W env objForm false).bind fun x =>
      letStarLoop r env
        (Env.bind x.2 env x.1 (match objSymbol with | .symbol s => some s | _ => none)) rest
  | W, .symbol s => if s.name == "null" then .ok W else .fault "null Cons"
  | _, _ => .fault "null Cons"

/-- `std::make_shared<Cons>(registerSymbol("do"), listNthCdr(objPtr, 2))`. -/
def doBody (objPtr : Base_Object) : Res Base_Object :=
  match listNthCdr objPtr 2 with
  | some body => .ok (.cons (registerSymbol "do") body)
  | none => .fault "null object"

/-- `Env::procSpecialForm`; the inner `none` is the null handle returned when
the form is not handled here. -/
def Env.procSpecialForm (fuel : Nat) (r : Rec) (W : World) (self : Nat)
    (objPtr : Base_Object) (tail : Bool) : Res (Option (Base_Object × World)) :=
  match objPtr with
  | .cons (.symbol op) cdr =>
    let length := listLength objPtr
    let operand := op.name
    if operand == "if" then
      if length == 3 || length == 4 then
        match listNth objPtr 1, listNth objPtr 2 with
        | some cond, some thenForm =>
          (r.eval W self cond false).bind fun c =>
            if !c.1.isnull then (r.eval c.2 self thenForm tail).bind fun x => .ok (some x)
            else if length == 4 then
              match listNth objPtr 3 with
              | some elseForm => (r.eval c.2 self elseForm tail).bind fun x => .ok (some x)
              | none => .fault "null object"
            else .ok (some (registerSymbol "null", c.2))
        | _, _ => .fault "null object"
      else .ok none
    else if operand == "quote" then
      if length == 2 then
        match listNth objPtr 1 with
        | some x => .ok (some (x, W))
        | none => .fault "null object"
      else .ok none
    else if operand == "do" then
      if length == 1 then .ok (some (registerSymbol "null", W))
      else
        match cdr with
        | .cons car1 cdr1 => (doLoop r self tail W car1 cdr1).bind fun x => .ok (some x)
        | _ => .fault "std::bad_cast"
    else if operand == "define" then
      if length == 3 then
        match listNth objPtr 1, listNth objPtr 2 with
        | some (.symbol symbol), some form =>
          (r.eval W self form tail).bind fun x =>
            .ok (some (.symbol symbol, Env.bind x.2 0 x.1 (some symbol)))
        | some _, some _ => .throw "Wrong 'define'"
        | _, _ => .fault "null object"
      else .ok none
    else if operand == "set!" then
      if length == 3 then
        match listNth objPtr 1, listNth objPtr 2 with
        | some (.symbol symbol), some form =>
          (Env.findEnvironment fuel W self (some symbol)).bind fun found =>
            (r.eval W self form tail).bind fun x =>
              .ok (some (x.1, Env.bind x.2 (found.getD 0) x.1 (some symbol)))
        | some _, some _ => .throw "Wrong 'set!'"
        | _, _ => .fault "null object"
      else .ok none
    else if operand == "let" then
      if length < 2 then .throw "Wrong usage"
      else
        match listNth objPtr 1 with
        | none => .fault "null object"
        | some bindings =>
          if !isProperList bindings then .throw "Wrong let bindings"
          else if listLength bindings % 2 != 0 then .throw "Odd number of let bindings"
          else
            let sub := Env.createSubEnvironment W self none
            (letLoop r self sub.1 sub.2 bindings).bind fun W1 =>
              let target := mergeIfTail W1 self sub.1 tail
              (doBody objPtr).bind fun body =>
                (r.eval target.2 target.1 body true).bind fun x => .ok (some x)
    else if operand == "let*" then
      if length < 2 then .throw "Wrong 'let*'"
      else
        match listNth objPtr 1 with
        | none => .fault "null object"
        | some bindings =>
          if !isProperList bindings then .throw "bad let* bindings"
          else if listLength bindings % 2 != 0 then
            .throw "number of bindings elements of let* is odd"
          else
            let target :=
              if tail && !Env.isClosed W self then (self, W)
              else Env.createSubEnvironment W self none
            (letStarLoop r target.1 target.2 bindings).bind fun W1 =>
              (doBody objPtr).bind fun body =>
                (r.eval W1 target.1 body true).bind fun x => .ok (some x)
    else if operand == "lambda" then
      if 2 ≤ length then
        match listNth objPtr 1 with
        | some pl =>
          (doBody objPtr).bind fun body => .ok (some (.proc pl body self, Env.setClosed W self))
        | none => .fault "null object"
      else .ok none
    else if operand == "macro" then
      if 2 ≤ length then
        match listNth objPtr 1 with
        | some pl =>
          (doBody objPtr).bind fun body => .ok (some (.macroObj pl body self, Env.setClosed W self))
        | none => .fault "null object"
      else .ok none
    else .ok none
  | _ => .ok none

/-- The part of `Env::eval` after `procSpecialForm` has returned the null
handle: the application of the value of `cons->car` to `cons->cdr`;
`TailCallOptimisation` is `true`. -/
def Env.applyStep (fuel : Nat) (r : Rec) (W : World) (self : Nat) (car cdr : Base_Object)
    (tail : Bool) : Res (Base_Object × World) :=
  (r.eval W self car false).bind fun op =>
    match op.1 with
    | .proc parameterList body env =>
      (makeEnvForApply r op.2 self env parameterList cdr tail).bind fun e =>
        r.eval e.2 e.1 body true
    | .predefined b =>
      if !isProperList cdr then .throw "Wrong usage of Predefined Function"
      else (evalArgs r self op.2 cdr).bind fun a => applyBuiltin fuel r b a.2 self a.1
    | _ => .throw "Wrong usage"

/-- The body of `Env::eval`. -/
def Env.evalStep (fuel : Nat) (r : Rec) (W : World) (self : Nat) (objPtr : Base_Object)
    (tail : Bool) : Res (Base_Object × World) :=
  match objPtr with
  | .symbol s =>
    (Env.findSymbolInMap fuel W self (some s)).bind fun rr =>
      match rr with
      | some v => .ok (v, W)
      | none => .throw "Evaluated unresolvable symbol"
  | .integer _ => .ok (objPtr, W)
  | .string _ => .ok (objPtr, W)
  | .cons car cdr =>
    (Env.procSpecialForm fuel r W self objPtr tail).bind fun psfr =>
      match psfr with
      | some res => .ok res
      | none => Env.applyStep fuel r W self car cdr tail
  | _ => .ok (objPtr, W)

/-- The body of `Env::macroExpand`. -/
def Env.macroExpandStep (fuel : Nat) (r : Rec) (W : World) (self : Nat)
    (objPtr : Base_Object) : Res (Base_Object × World) :=
  match objPtr with
  | .cons (.symbol opSymbol) cdr =>
    if opSymbol.name == "quote" then .ok (objPtr, W)
    else
      (Env.findSymbolInMap fuel W self (some opSymbol)).bind fun op =>
        match op with
        | some (.macroObj parameterList body env) =>
          (makeEnvForMacro W self env parameterList cdr false).bind fun e =>
            (r.eval e.2 e.1 body false).bind fun x => r.macroExpand x.2 self x.1
        | _ => mapExpand r self W objPtr
  | .cons _ _ => mapExpand r self W objPtr
  | _ => .ok (objPtr, W)

/-- The evaluator and the expander with a bound on the depth of nested calls. -/
def interp : Nat → Rec
  | 0 => { eval := fun _ _ _ _ => .timeout, macroExpand := fun _ _ _ => .timeout }
  | fuel + 1 =>
    { eval := Env.evalStep fuel (interp fuel)
      macroExpand := Env.macroExpandStep fuel (interp fuel) }

/-- `Env::eval` called on the environment `self`. -/
def Env.eval (fuel : Nat) (W : World) (self : Nat) (objPtr : Base_Object) (tail : Bool) :
    Res (Base_Object × World) :=
  (interp fuel).eval W self objPtr tail

/-- `Env::macroExpand` called on the environment `self`. -/
def Env.macroExpand (fuel : Nat) (W : World) (self : Nat) (objPtr : Base_Object) :
    Res (Base_Object × World) :=
  (interp fuel).macroExpand W self objPtr

/-- `Env::evalTop` called on the environment `self`. -/
def Env.evalTop (fuel : Nat) (W : World) (self : Nat) (objPtr : Base_Object) :
    Res (Base_Object × World) :=
  (interp fuel).evalTop W self objPtr

/-- `Env::repl` on the root, reading from `is`, without the printing: the
values that the loop prints are collected.  The loop ends when `read` returns
the null handle ("Parse failed.", also at the end of the input) or when a value
is the symbol `exit`; `turns` bounds the number of iterations. -/
def Env.repl (fuel : Nat) : Nat → World → IStream → Res (List Base_Object × World)
  | 0, _, _ => .timeout
  | turns + 1, W, is =>
    match readParse fuel is with
    | .ok (o, is1) =>
      (Env.evalTop fuel W 0 o).bind fun x =>
        if x.1 = registerSymbol "exit" then .ok ([x.1], x.2)
        else (Env.repl fuel turns x.2 is1).bind fun y => .ok (x.1 :: y.1, y.2)
    | .throw _ => .ok ([], W)
    | .fault m => .fault m
    | .external m => .external m
    | .timeout => .timeout

/-! ## The symbol table with explicit addresses -/

/-- The global `sMap` together with the `Symbol` objects it owns: `objects[a]`
is the `name` member of the object at address `a`, and `sMap` maps a name to an
address. -/
structure SymbolTable where
  sMap : List (String × Nat)
  objects : List String
  deriving DecidableEq, Repr

/-- `sMap.find(name)`. -/
def SymbolTable.find : List (String × Nat) → String → Option Nat
  | [], _ => none
  | (k, a) :: m, name => if k = name then some a else SymbolTable.find m name

/-- The table at program start. -/
def SymbolTable.empty : SymbolTable := ⟨[], []⟩

/-- `registerSymbol(name)` on the table: the address returned and the table
afterwards. -/
def SymbolTable.registerSymbol (T : SymbolTable) (name : String) : Nat × SymbolTable :=
  match SymbolTable.find T.sMap name with
  | none =>
    (T.objects.length,
     { sMap := (name, T.objects.length) :: T.sMap, objects := T.objects ++ [name] })
  | some objPtr => (objPtr, T)

/-- A sequence of `registerSymbol` calls whose results are not looked at. -/
def SymbolTable.registerAll : SymbolTable → List String → SymbolTable
  | T, [] => T
  | T, n :: ns => SymbolTable.registerAll (T.registerSymbol n).2 ns

/-! ## Definitions used in the statements -/

/-- The world left by `Env::repl` after it has read and evaluated all of `text`,
starting from the world made by `Env::createEnvironment()`. -/
def worldAfter (text : String) : World :=
  match Env.repl 60 20 Env.createEnvironment (IStream.ofList text.data) with
  | .ok (_, W) => W
  | _ => Env.createEnvironment

/-- Every entry of `sMap` points to an object carrying the entry's name. -/
def SymbolTable.Consistent (T : SymbolTable) : Prop :=
  ∀ k a, SymbolTable.find T.sMap k = some a → T.objects[a]? = some k

/-- The first call `registerSymbol(n)`, made after the calls for the names `before` on the table
of the program start: the address returned and the table afterwards. -/
def SymbolTable.firstCall (before : List String) (n : String) : Nat × SymbolTable :=
  (SymbolTable.registerAll SymbolTable.empty before).registerSymbol n

/-- Names of the special forms dispatched by `procSpecialForm`. -/
def specialNames : List String :=
  ["if", "quote", "do", "define", "set!", "let", "let*", "lambda", "macro"]


/-- The null symbol, the end of a proper list. -/
abbrev nil : Base_Object := registerSymbol "null"

/-- The text of the definition of `fact` in the scenario. -/
def factDefText : String := "(define fact (lambda (n) (if (= n 0) 1 (* n (fact (- n 1))))))"

/-- The parameter `n` of `fact`. -/
def symN : Symbol := ⟨"n", none⟩

/-- The form `(= n 0)`. -/
def factCond : Base_Object :=
  .cons (registerSymbol "=") (.cons (.symbol symN) (.cons (.integer 0) nil))

/-- The form `(- n 1)`. -/
def factPred : Base_Object :=
  .cons (registerSymbol "-") (.cons (.symbol symN) (.cons (.integer 1) nil))

/-- The form `(* n (fact (- n 1)))`. -/
def factElse : Base_Object :=
  .cons (registerSymbol "*") (.cons (.symbol symN)
    (.cons (.cons (registerSymbol "fact") (.cons factPred nil)) nil))

/-- The body stored in the `Proc`: `(do (if (= n 0) 1 (* n (fact (- n 1)))))`. -/
def factBody : Base_Object :=
  .cons (registerSymbol "do")
    (.cons (.cons (registerSymbol "if") (.cons factCond (.cons (.integer 1) (.cons factElse nil))))
      nil)

/-- The `Proc` object bound to `fact`. -/
def factProc : Base_Object := .proc (.cons (.symbol symN) nil) factBody 0

/-- The root environment after the definition of `fact`. -/
def factRoot : Env :=
  { outEnvironment := none, environmentLex := none,
    symbolValueMap := rootBindings ++ [(some ⟨"fact", none⟩, factProc)], closed := true }

/-- The environment created for a call of `fact` from the environment `i`, with `n` bound
to `v`. -/
def factFrame (i : Nat) (v : Int) : Env :=
  { outEnvironment := some i, environmentLex := some 0,
    symbolValueMap := [(some symN, .integer v)], closed := false }

/-- The environments of nested calls of `fact`, the first one made from environment `i`. -/
def factFrames : Nat → List Int → List Env
  | _, [] => []
  | i, v :: vs => factFrame i v :: factFrames (i + 1) vs

/-- The world during nested calls of `fact` with the given values of `n`, outermost first;
`extra` are further environments allocated after those of the calls. -/
def factWorld (stack : List Int) (extra : List Env) : World :=
  { envs := factRoot :: (factFrames 0 stack ++ extra), totalSym := 0 }

/-- The values of `n` in the calls that `(fact k)` nests: `k - 1`, ..., `0`. -/
def countdown : Nat → List Int
  | 0 => []
  | k + 1 => (k : Int) :: countdown k

/-- The text of the macro definition of the scenario. -/
def macroDefText : String := "(define m (macro (a b) (cons (quote +) (cons a (cons b null)))))"

/-- The `Macro` object bound to `m` by that definition. -/
def macroM : Base_Object :=
  .macroObj (.cons (registerSymbol "a") (.cons (registerSymbol "b") nil))
    (.cons (registerSymbol "do")
      (.cons (.cons (registerSymbol "cons")
        (.cons (.cons (registerSymbol "quote") (.cons (registerSymbol "+") nil))
          (.cons (.cons (registerSymbol "cons") (.cons (registerSymbol "a")
            (.cons (.cons (registerSymbol "cons") (.cons (registerSymbol "b")
              (.cons (registerSymbol "null") nil))) nil))) nil))) nil)) 0

/-- `reachesRoot W key d F`: walking `outEnvironment` from the environment `F` reaches the root
(index `0`) after `d` steps, and none of the `d` environments passed binds `key`. -/
def reachesRoot (W : World) (key : SymPtr) : Nat → Nat → Bool
  | 0, F => F == 0
  | d + 1, F =>
    match W.envs[F]? with
    | some e =>
      !mapCount e.symbolValueMap key &&
        (match e.outEnvironment with
         | some o => reachesRoot W key d o
         | none => false)
    | none => false

/-- The value bound to `key` in the root environment, if any. -/
def rootValue (W : World) (key : SymPtr) : Option Base_Object :=
  match W.envs[0]? with
  | some root => mapFind root.symbolValueMap key
  | none => none

/-- The program of the example: `add` is defined, called, and then `+` is redefined. -/
def redefineText : String := "(define add (lambda (a b) (+ a b))) (add 2 3) (define + *)"

/-- The form `(lambda (p1 ... pk) c)` with an integer literal as body. -/
def constLambda (ps : List Symbol) (c : Int) : Base_Object :=
  .cons (registerSymbol "lambda") (.cons (vectorToList (ps.map .symbol)) (.cons (.integer c) nil))

/-- `typep<Macro>()`. -/
def Base_Object.isMacro : Base_Object → Bool
  | .macroObj _ _ _ => true
  | _ => false

/-- The symbol `x`. -/
def symX : Symbol := ⟨"x", none⟩

/-- The stream `s` with the text `t` appended to what is still to be read. -/
def IStream.withSuffix (s : IStream) (t : List Char) : IStream :=
  { s with rest := s.rest ++ t }

/-- The stream after a token that ended at the end of the input, seen with the text `t`
following instead: nothing more was consumed and no flag is set. -/
def IStream.atEnd (s : IStream) (t : List Char) : IStream :=
  ⟨s.consumed, t, false, false⟩

/-- The stream `s` with the text `p` (most recent first) already extracted before it. -/
def IStream.withConsumed (s : IStream) (p : List Char) : IStream :=
  { s with consumed := s.consumed ++ p }

/-- The text `(quote X)`. -/
def quoteText (X : List Char) : List Char :=
  "(quote ".data ++ X ++ [')']

/-- The form `(quote x)`. -/
def quoteForm (x : Base_Object) : Base_Object :=
  .cons (registerSymbol "quote") (.cons x (registerSymbol "null"))

/-- A character that starts neither a comment nor a string. -/
def plainChar (c : Char) : Bool :=
  c != ';' && c != '"'

/-- The names of the symbols that `readParse` makes: at most 511
symbol characters, the first of which is not white space, a digit, `;` or `"`, and is not a
minus sign followed by a digit. -/
def nameOk (name : List Char) : Bool :=
  match name with
  | [] => false
  | c :: more =>
    name.all isSymbolChar && decide (name.length < 512) && !isspace c && !isDigitChar c &&
      plainChar c && !(c == '-' && (more.head?.map isDigitChar == some true))

/-- A symbol whose name starts with a dot. -/
def startsWithDot : Base_Object → Bool
  | .symbol s => s.name.data.head? == some '.'
  | _ => false

/-- The values that `readParse` reads back from their printed text: integers in the range of
`int`, interned symbols with a name as above, and pairs of such values whose car is not a
symbol starting with a dot. -/
def readable : Base_Object → Bool
  | .integer v => decide (INT_MIN ≤ v) && decide (v ≤ INT_MAX)
  | .symbol s => s.gen.isNone && nameOk s.name.data
  | .cons car cdr => readable car && !startsWithDot car && readable cdr
  | _ => false

/-- A nesting depth that is enough for `readParse` to read the printed text of a value. -/
def readFuel : Base_Object → Nat
  | .cons car cdr => readFuel car + readFuel cdr + 1
  | _ => 2

/-- The values that `readParse` makes: integers in the range of `int`, strings, interned
symbols with a name as described at `nameOk`, and pairs of such values. -/
def wellRead : Base_Object → Bool
  | .integer v => decide (INT_MIN ≤ v) && decide (v ≤ INT_MAX)
  | .string _ => true
  | .symbol s => s.gen.isNone && nameOk s.name.data
  | .cons car cdr => wellRead car && wellRead cdr
  | _ => false

/-- A value without a `String` in it and without a pair whose car is a symbol with a name that
starts with a dot. -/
def printable : Base_Object → Bool
  | .string _ => false
  | .cons car cdr => printable car && !startsWithDot car && printable cdr
  | _ => true

/-! ## Definitions for the statements about the evaluator -/

/-- A relation between the world before and the world after that holds across every single
change the evaluator makes to the world. -/
structure WorldRel (Q : World → World → Prop) : Prop where
  refl : ∀ W, Q W W
  trans : ∀ A B C, Q A B → Q B C → Q A C
  bind : ∀ W i o s, Q W (Env.bind W i o s)
  merge : ∀ W i j, Q W (Env.merge W i j)
  setClosed : ∀ W i, Q W (Env.setClosed W i)
  sub : ∀ W i l, Q W (Env.createSubEnvironment W i l).2
  sym : ∀ W n, Q W { W with totalSym := n }
  addr : ∀ W l, Q W { W with addressEq := l }

/-- The evaluator `r` relates the world it is given to the world it returns. -/
def Rec.Keeps (Q : World → World → Prop) (r : Rec) : Prop :=
  (∀ W self o t v W1, r.eval W self o t = .ok (v, W1) → Q W W1) ∧
  (∀ W self o v W1, r.macroExpand W self o = .ok (v, W1) → Q W W1)

/-- No `Proc` or `Macro` inside the object holds the environment `k`. -/
def noRefObj (k : Nat) : Base_Object → Bool
  | .cons a d => noRefObj k a && noRefObj k d
  | .proc pl body env => env != k && noRefObj k pl && noRefObj k body
  | .macroObj pl body env => env != k && noRefObj k pl && noRefObj k body
  | _ => true

/-- Neither link of the environment is `k`, and no value bound in it refers to `k`. -/
def noRefEnv (k : Nat) (e : Env) : Bool :=
  e.outEnvironment != some k && e.environmentLex != some k &&
    e.symbolValueMap.all fun kv => noRefObj k kv.2

/-- Two worlds that differ at most in the environment `k`, which is `eA` in the first and `eB`
in the second, and to which no other environment refers. -/
structure Sim (k : Nat) (eA eB : Env) (W W1 : World) : Prop where
  kA : W.envs[k]? = some eA
  kB : W1.envs[k]? = some eB
  len : W.envs.length = W1.envs.length
  sym : W.totalSym = W1.totalSym
  addr : W.addressEq = W1.addressEq
  off : ∀ j, j ≠ k → W.envs[j]? = W1.envs[j]?
  noRef : ∀ j e, j ≠ k → W.envs[j]? = some e → noRefEnv k e = true
  root : k ≠ 0

/-- Two worlds that agree on every environment other than `k`, to which no other environment
refers. -/
structure Agree (k : Nat) (W W1 : World) : Prop where
  off : ∀ j, j ≠ k → W.envs[j]? = W1.envs[j]?
  noRef : ∀ j e, j ≠ k → W.envs[j]? = some e → noRefEnv k e = true
  root : k ≠ 0

/-- Two results of the same kind whose values are related by `R`. -/
def ResRel {α β : Type} (R : α → β → Prop) : Res α → Res β → Prop
  | .ok a, .ok b => R a b
  | .throw m, .throw m1 => m = m1
  | .fault m, .fault m1 => m = m1
  | .external m, .external m1 => m = m1
  | .timeout, .timeout => True
  | _, _ => False

/-- The same value, without reference to `k`, in two worlds related by `Sim`. -/
def ValRel (k : Nat) (eA eB : Env) (a b : Base_Object × World) : Prop :=
  a.1 = b.1 ∧ noRefObj k a.1 = true ∧ Sim k eA eB a.2 b.2

/-- The evaluator `r` neither reads nor writes the environment `k` as long as nothing refers
to it. -/
def Rec.Indep (k : Nat) (eA eB : Env) (r : Rec) : Prop :=
  (∀ W W1 self o t, Sim k eA eB W W1 → self ≠ k → noRefObj k o = true →
    ResRel (ValRel k eA eB) (r.eval W self o t) (r.eval W1 self o t)) ∧
  (∀ W W1 self o, Sim k eA eB W W1 → self ≠ k → noRefObj k o = true →
    ResRel (ValRel k eA eB) (r.macroExpand W self o) (r.macroExpand W1 self o))

/-- The same list of values, none referring to `k`, in two related worlds. -/
def ArgsRel (k : Nat) (eA eB : Env) (a b : List Base_Object × World) : Prop :=
  a.1 = b.1 ∧ (∀ x ∈ a.1, noRefObj k x = true) ∧ Sim k eA eB a.2 b.2

/-- The state of a parameter-binding loop: related worlds and the same rest of the parameters
and arguments. -/
def LoopRel (k : Nat) (eA eB : Env) (a b : World × Base_Object × Base_Object) : Prop :=
  Sim k eA eB a.1 b.1 ∧ a.2 = b.2 ∧ noRefObj k a.2.1 = true ∧ noRefObj k a.2.2 = true

/-- The same environment, other than `k`, in two related worlds. -/
def FrameRel (k : Nat) (eA eB : Env) (a b : Nat × World) : Prop :=
  a.1 = b.1 ∧ a.1 ≠ k ∧ Sim k eA eB a.2 b.2

/-- Both results are the null handle, or both are values related by `ValRel`. -/
def OptRel (k : Nat) (eA eB : Env) :
    Option (Base_Object × World) → Option (Base_Object × World) → Prop
  | some a, some b => ValRel k eA eB a b
  | none, none => True
  | _, _ => False

/-- The symbols that `Env::Env()` binds to themselves. -/
def selfBound : List String := ["t", "null", "exit"]

/-- A shape violation: a form of `length` cells (the head and the arguments) whose head is the
symbol `name` has a number of arguments that the special form does not take:
`if` other than 2 or 3, `quote` other than 1, `define` and `set!` other than 2, `lambda` and
`macro` none. -/
def shapeViolated (name : String) (length : Nat) : Bool :=
  (name == "if" && !(length == 3 || length == 4)) ||
  (name == "quote" && length != 2) ||
  ((name == "define" || name == "set!") && length != 3) ||
  ((name == "lambda" || name == "macro") && length < 2)

/-- `typeid(*objPtr) == typeid(Integer)`. -/
def Base_Object.isInteger : Base_Object → Bool
  | .integer _ => true
  | _ => false

/-- The partial sums `acc + v1`, `acc + v1 + v2`, ... all lie in the range of `int`. -/
def runningSumsInRange : Int → List Int → Bool
  | _, [] => true
  | acc, v :: vs =>
    decide (INT_MIN ≤ acc + v) && decide (acc + v ≤ INT_MAX) && runningSumsInRange (acc + v) vs

/-- The quotients `acc / d1`, `(acc / d1) / d2`, ... that are computed before the first zero
divisor all lie in the range of `int` (this excludes `INT_MIN / -1`, which is left undefined). -/
def quotientsInRange : Int → List Int → Bool
  | _, [] => true
  | acc, d :: ds =>
    d == 0 || (decide (INT_MIN ≤ acc.tdiv d) && decide (acc.tdiv d ≤ INT_MAX) &&
      quotientsInRange (acc.tdiv d) ds)

/-- The form `(define s e)`. -/
def defineOf (s : Symbol) (e : Base_Object) : Base_Object :=
  .cons (registerSymbol "define") (.cons (.symbol s) (.cons e (registerSymbol "null")))

/-- The form `(set! s e)`. -/
def setOf (s : Symbol) (e : Base_Object) : Base_Object :=
  .cons (registerSymbol "set!") (.cons (.symbol s) (.cons e (registerSymbol "null")))

/-- A root environment and a `let` frame below it that binds `x` to `1`. -/
def letFrameWorld : World :=
  Env.bind (Env.createSubEnvironment Env.createEnvironment 0 none).2 1 (.integer 1) (some symX)

/-- The flat binding list `s1 v1 ... sn vn` of `let` and `let*`. -/
def flatBindings : List (Symbol × Base_Object) → Base_Object
  | [] => nil
  | (s, v) :: bs => .cons (.symbol s) (.cons v (flatBindings bs))

/-- The form `(let* (s1 v1 ... sn vn) body...)`. -/
def letStarForm (bs : List (Symbol × Base_Object)) (body : List Base_Object) : Base_Object :=
  .cons (registerSymbol "let*") (.cons (flatBindings bs) (vectorToList body))

/-- The body of a `let` or `let*` as the specification describes it: the forms are evaluated
in order in the frame `env`, the last one in tail position, and the value of the last one is
the result (`null` when there is no form). -/
def evalBody (f : Nat) (env : Nat) : World → List Base_Object → Res (Base_Object × World)
  | W, [] => .ok (nil, W)
  | W, e :: es =>
    match es with
    | [] => Env.eval f W env e true
    | _ :: _ => (Env.eval f W env e false).bind fun x => evalBody f env x.2 es

/-- The bindings of `let*` as the specification describes them: each value form is evaluated
in the frame `env`, in which the earlier symbols are bound already, and then its symbol is
bound there. -/
def letStarSeq (f : Nat) (env : Nat) : World → List (Symbol × Base_Object) → Res World
  | W, [] => .ok W
  | W, (s, v) :: bs =>
    (Env.eval f W env v false).bind fun x => letStarSeq f env (Env.bind x.2 env x.1 (some s)) bs

/-- The frame in which `let*` evaluates and binds: the current frame `F` when the form is in
tail position and `F` is not closed, a new child of `F` otherwise. -/
def letStarFrame (W : World) (F : Nat) (tail : Bool) : Nat × World :=
  if (tail && !Env.isClosed W F) = true then (F, W) else Env.createSubEnvironment W F none

/-- The symbol `y`. -/
def symY : Symbol := ⟨"y", none⟩

/-- The parameter list `p1 ... pk . r`: the symbols `ps` followed by the dotted tail `r`. -/
def paramList : List Symbol → Symbol → Base_Object
  | [], r => .symbol r
  | p :: ps, r => .cons (.symbol p) (paramList ps r)

/-- The values of the forms `as`, each evaluated once in the frame `out`, from left to right. -/
def evalValues (f : Nat) (out : Nat) : World → List Base_Object →
    Res (List Base_Object × World)
  | W, [] => .ok ([], W)
  | W, a :: as =>
    (Env.eval f W out a false).bind fun x =>
      (evalValues f out x.2 as).bind fun y => .ok (x.1 :: y.1, y.2)

/-- Each parameter is bound in `env` to the value of its argument form evaluated in the
caller's frame `out`. -/
def bindParams (f : Nat) (out env : Nat) : World → List (Symbol × Base_Object) → Res World
  | W, [] => .ok W
  | W, (p, a) :: pas =>
    (Env.eval f W out a false).bind fun x =>
      bindParams f out env (Env.bind x.2 env x.1 (some p)) pas

/-- The values of the forms `as`, listed in the order of the forms, each evaluated once in the
frame `out`: the last form is evaluated first and the first form last, which is the order in
which the compiled program evaluates the rest arguments of a call. -/
def evalValuesBack (f : Nat) (out : Nat) : World → List Base_Object →
    Res (List Base_Object × World)
  | W, [] => .ok ([], W)
  | W, a :: as =>
    (evalValuesBack f out W as).bind fun y =>
      (Env.eval f y.2 out a false).bind fun x => .ok (x.1 :: y.1, x.2)

/-- The frame of a call as the specification describes it, for the parameters `p1 ... pk . r`
and the argument forms `args`: a child of the caller's frame `out` with the lexical link
`procEnv`, in which each `pi` is bound to the value of the `i`-th argument and `r` to the list
of the values of the remaining arguments, in the order of the arguments. -/
def restCallFrame (f : Nat) (W : World) (out procEnv : Nat) (ps : List Symbol) (r : Symbol)
    (args : List Base_Object) (tail : Bool) : Res (Nat × World) :=
  (bindParams f out W.envs.length (Env.createSubEnvironment W out (some procEnv)).2
      (ps.zip (args.take ps.length))).bind fun W1 =>
    (evalValuesBack f out W1 (args.drop ps.length)).bind fun rest =>
      .ok (mergeIfTail (Env.bind rest.2 W.envs.length (vectorToList rest.1) (some r))
        out W.envs.length tail)

/-- The form `(let (s1 v1 ... sn vn) body...)`. -/
def letForm (bs : List (Symbol × Base_Object)) (body : List Base_Object) : Base_Object :=
  .cons (registerSymbol "let") (.cons (flatBindings bs) (vectorToList body))

/-- The child environment that `createSubEnvironment()` makes for the frame `F`, with the
bindings `m`. -/
def childEnv (F : Nat) (m : List (SymPtr × Base_Object)) : Env :=
  { outEnvironment := some F, environmentLex := none, symbolValueMap := m, closed := false }

/-- The map that results from binding the pairs in order, starting from `m`. -/
def bindPairs (m : List (SymPtr × Base_Object)) (ps : List (Symbol × Base_Object)) :
    List (SymPtr × Base_Object) :=
  ps.foldl (fun m p => mapSet m (some p.1) p.2) m

/-- All the pairs bound in the environment `env`, in order. -/
def bindAll (W : World) (env : Nat) : List (Symbol × Base_Object) → World
  | [] => W
  | (s, x) :: ps => bindAll (Env.bind W env x (some s)) env ps

/-- `let` as the specification describes it: every value form is evaluated in the enclosing
frame `F`, while the child has no binding yet; then the child receives all the bindings; then
the body is evaluated with them (in the child, or in `F` after the merge made for a form in
tail position), and the value of its last form is the result. -/
def letParallel (f g : Nat) (W : World) (F : Nat) (bs : List (Symbol × Base_Object))
    (body : List Base_Object) (tail : Bool) : Res (Base_Object × World) :=
  (evalValues f F (Env.createSubEnvironment W F none).2 (bs.map Prod.snd)).bind fun x =>
    evalBody g
      (mergeIfTail (bindAll x.2 W.envs.length ((bs.map Prod.fst).zip x.1)) F W.envs.length tail).1
      (mergeIfTail (bindAll x.2 W.envs.length ((bs.map Prod.fst).zip x.1)) F W.envs.length tail).2
      body

/-- No environment of the world refers to an environment that does not exist yet: no link and
no procedure bound in it holds the index that the next new environment will get. -/
def World.fresh (W : World) : Bool :=
  W.envs.all (noRefEnv W.envs.length)

/-- Every `Proc` and `Macro` inside the object holds an environment below `n`. -/
def inRangeObj (n : Nat) : Base_Object → Bool
  | .cons a d => inRangeObj n a && inRangeObj n d
  | .proc pl body env => decide (env < n) && inRangeObj n pl && inRangeObj n body
  | .macroObj pl body env => decide (env < n) && inRangeObj n pl && inRangeObj n body
  | _ => true

/-- A link that is set points below `n`. -/
def inRangeLink (n : Nat) : Option Nat → Bool
  | some i => decide (i < n)
  | none => true

/-- Both links of the environment and every value bound in it point below `n`. -/
def inRangeEnv (n : Nat) (e : Env) : Bool :=
  inRangeLink n e.outEnvironment && inRangeLink n e.environmentLex &&
    e.symbolValueMap.all fun kv => inRangeObj n kv.2

/-- Every environment of the world refers to environments of the world only. -/
def World.wf (W : World) : Bool :=
  W.envs.all (inRangeEnv W.envs.length)

/-- The evaluator `r` keeps the world well formed and returns values that refer to
environments of the world only. -/
def Rec.Wf (r : Rec) : Prop :=
  (∀ W self o t v W1, W.wf = true → self < W.envs.length →
    inRangeObj W.envs.length o = true → r.eval W self o t = .ok (v, W1) →
    W1.wf = true ∧ inRangeObj W1.envs.length v = true ∧ W.envs.length ≤ W1.envs.length) ∧
  (∀ W self o v W1, W.wf = true → self < W.envs.length →
    inRangeObj W.envs.length o = true → r.macroExpand W self o = .ok (v, W1) →
    W1.wf = true ∧ inRangeObj W1.envs.length v = true ∧ W.envs.length ≤ W1.envs.length)

/-- What a step that starts in the world `W` guarantees of the value `v` and the world `W1` it
returns. -/
def WfOut (W : World) (v : Base_Object) (W1 : World) : Prop :=
  W1.wf = true ∧ inRangeObj W1.envs.length v = true ∧ W.envs.length ≤ W1.envs.length

/-- What a parameter-binding loop guarantees of its final state. -/
def WfLoop (W : World) (y : World × Base_Object × Base_Object) : Prop :=
  y.1.wf = true ∧ inRangeObj y.1.envs.length y.2.1 = true ∧
    inRangeObj y.1.envs.length y.2.2 = true ∧ W.envs.length ≤ y.1.envs.length

/-- What the making of the environment of a call guarantees. -/
def WfFrame (W : World) (y : Nat × World) : Prop :=
  y.2.wf = true ∧ y.1 < y.2.envs.length ∧ W.envs.length ≤ y.2.envs.length

/-! ## Definitions for the statements about reader failures, the expander, resolution,
tail calls and predicates -/

/-- A character that ends the inner loop of `commentSkip`: NUL, line feed or carriage return. -/
def isLineEnd (c : Char) : Bool :=
  c == Char.ofNat 0 || c == '\n' || c == '\r'

/-- The text that follows the opening double quote of a string literal holds no double quote
that closes it: every double quote in it comes right after a backslash that is not itself
escaped. -/
def unterminated : List Char → Bool
  | [] => true
  | c :: r =>
    if c == '\\' then
      match r with
      | [] => true
      | _ :: r2 => unterminated r2
    else if c == '"' then false
    else unterminated r

/-- A `Cons` whose head is a symbol named `quote`: the test
`opSymbol->name == "quote"` of `Env::macroExpand`. -/
def headIsQuote : Base_Object → Bool
  | .cons (.symbol s) _ => s.name == "quote"
  | _ => false

/-- A `Cons` that `Env::macroExpand` hands to `map`: its head is not a symbol, or it is a symbol
other than `quote` whose lookup from the frame `F` ends and does not give a `Macro`. -/
def plainHead (fuel : Nat) (W : World) (F : Nat) : Base_Object → Bool
  | .cons (.symbol s) _ =>
    s.name != "quote" &&
      match Env.findSymbolInMap fuel W F (some s) with
      | .ok (some o) => !o.isMacro
      | .ok none => true
      | _ => false
  | .cons _ _ => true
  | _ => false

/-- The list of the elements `es` whose last cdr is `t`. -/
def listWithTail : List Base_Object → Base_Object → Base_Object
  | [], t => t
  | e :: es, t => .cons e (listWithTail es t)

/-- The expansions of the forms of the list, listed in the order of the forms, each form
expanded once by `Env::macroExpand` in the frame `F`: the last form is expanded first and the
first form last, which is the order of the compiled program. -/
def expandEach (f : Nat) (F : Nat) : World → List Base_Object → Res (List Base_Object × World)
  | W, [] => .ok ([], W)
  | W, e :: es =>
    (expandEach f F W es).bind fun y =>
      (Env.macroExpand f y.2 F e).bind fun x => .ok (x.1 :: y.1, x.2)

/-- The expansion of a `Cons` in the words of the specification: the `Cons` of the expansion of
the car and of the expansion of the cdr, the cdr being expanded as a form. -/
def expandCarCdr (f : Nat) (W : World) (F : Nat) : Base_Object → Res (Base_Object × World)
  | .cons car cdr =>
    (Env.macroExpand f W F cdr).bind fun y =>
      (Env.macroExpand f y.2 F car).bind fun x => .ok (.cons x.1 y.1, x.2)
  | o => .ok (o, W)

/-- The form `(m 3 4)`. -/
def formM34 : Base_Object :=
  .cons (registerSymbol "m") (.cons (.integer 3) (.cons (.integer 4) nil))

/-- The form `(f m 3 4)`, whose cdr is `(m 3 4)`. -/
def formFM34 : Base_Object :=
  .cons (registerSymbol "f") formM34

/-- The form `(+ 3 4)`. -/
def formPlus34 : Base_Object :=
  .cons (registerSymbol "+") (.cons (.integer 3) (.cons (.integer 4) nil))

/-- The test `symbolValueMap.count(symbol)` in the frame `G`. -/
def bindsIn (W : World) (s : SymPtr) (G : Nat) : Bool :=
  match W.envs[G]? with
  | some e => mapCount e.symbolValueMap s
  | none => false

/-- The frame that the lexical search visits after a frame that does not bind the symbol: the
frame of the lexical link when there is one, the frame of the outer link otherwise. -/
def nextFrame (e : Env) : Option Nat :=
  match e.environmentLex with
  | some l => some l
  | none => e.outEnvironment

/-- The frames that the lexical search can visit from `F`, in order, at most `n` of them. -/
def searchPath (W : World) : Nat → Nat → List Nat
  | 0, _ => []
  | n + 1, F =>
    F :: match W.envs[F]? with
      | some e =>
        (match nextFrame e with
         | some G => searchPath W n G
         | none => [])
      | none => []

/-- The frames reached from `F` by following the same link up to `n` times. -/
def chainFrom (link : Env → Option Nat) (W : World) : Nat → Nat → List Nat
  | 0, _ => []
  | n + 1, F =>
    match W.envs[F]? with
    | some e =>
      (match link e with
       | some G => G :: chainFrom link W n G
       | none => [])
    | none => []

/-- The order of the search in the words of the specification: `F` itself, then the frames of
its lex chain, then the frames of its outer chain. -/
def statedOrder (W : World) (n : Nat) (F : Nat) : List Nat :=
  F :: (chainFrom Env.environmentLex W n F ++ chainFrom Env.outEnvironment W n F)

/-- The first frame of the list that binds the symbol. -/
def firstBinding (W : World) (s : SymPtr) (l : List Nat) : Option Nat :=
  l.find? (bindsIn W s)

/-- The text that defines a procedure `g` whose body refers to `x`. -/
def freeXText : String := "(define g (lambda () x))"

/-- The world inside the call `(g)` of `(let (x 1) (+ (g) 0))` entered after `freeXText`:
frame 1 is the frame of the `let`, a child of the root that binds `x` to 1; frame 2 is the frame
of the call, whose outer link is frame 1 and whose lexical link is the frame that `g` captured,
the root. -/
def callInLetWorld : World :=
  (Env.createSubEnvironment
    (Env.bind (Env.createSubEnvironment (worldAfter freeXText) 0 none).2 1 (.integer 1)
      (some symX)) 1 (some 0)).2

/-- The names that `Env::Env` binds to `eq?` and to the type predicates, each with the
procedure bound to it. -/
def predicateNames : List (String × Builtin) :=
  [("eq?", .eqP), ("null?", .nullP), ("cons?", .consP), ("list?", .listP),
   ("symbol?", .symbolP), ("int?", .intP), ("string?", .stringP), ("proc?", .procP)]

/-- The type predicates and `eq?`. -/
def predicates : List Builtin :=
  predicateNames.map Prod.snd

/-- The form `(if (p (quote v)) A B)`. -/
def ifPredicateForm (p : Symbol) (v A B : Base_Object) : Base_Object :=
  .cons (registerSymbol "if")
    (.cons (.cons (.symbol p) (.cons (quoteForm v) nil)) (.cons A (.cons B nil)))

/-- The parameter list `(p1 ... pk)`. -/
def plainParams (ps : List Symbol) : Base_Object :=
  vectorToList (ps.map .symbol)

/-- The frame that `createSubEnvironment(procEnv)` makes for a call from the frame `F`, with
the bindings `m`. -/
def callFrame (F procEnv : Nat) (m : List (SymPtr × Base_Object)) : Env :=
  { outEnvironment := some F, environmentLex := some procEnv, symbolValueMap := m,
    closed := false }

/-- The frame of a call in tail position as the specification describes it, for the parameters
`ps` and the argument forms `args`: the arguments are evaluated in the caller's frame `F` while
the new child has no binding; then the child receives the parameter bindings; then, when `F`
is not closed, the child is merged into `F` and `F` is the frame of the call, and otherwise the
child is. -/
def tailCallFrame (f : Nat) (W : World) (F procEnv : Nat) (ps : List Symbol)
    (args : List Base_Object) : Res (Nat × World) :=
  (evalValues f F (Env.createSubEnvironment W F (some procEnv)).2
      ((ps.zip args).map Prod.snd)).bind fun x =>
    .ok (mergeIfTail (bindAll x.2 W.envs.length (((ps.zip args).map Prod.fst).zip x.1))
      F W.envs.length true)

/-- The caller's frame `eF` after the merge of the child made for a call: its own bindings
overwritten by the bindings `m` of the child, and its lexical link replaced by the frame that
the procedure captured. -/
def mergedFrame (eF : Env) (procEnv : Nat) (m : List (SymPtr × Base_Object)) : Env :=
  { outEnvironment := eF.outEnvironment
    environmentLex := some procEnv
    symbolValueMap := m.foldl (fun acc kv => mapSet acc kv.1 kv.2) eF.symbolValueMap
    closed := eF.closed }

/-- The frame `j` exists and is marked closed. -/
def World.closedAt (W : World) (j : Nat) : Bool :=
  match W.envs[j]? with
  | some e => e.closed
  | none => false

/-- The symbol `a`. -/
def symA : Symbol := ⟨"a", none⟩

/-- The symbol `b`. -/
def symB : Symbol := ⟨"b", none⟩

/-- The world after `(define g (lambda (b) (+ a b)))` with one more frame, as made for a call
of a procedure with the parameter `a` from the root: frame 1 is an open child of the root that
binds `a` to 1. -/
def tailCallWorld : World :=
  Env.bind (Env.createSubEnvironment (worldAfter "(define g (lambda (b) (+ a b)))") 0
    (some 0)).2 1 (.integer 1) (some symA)

/-! ## Definitions for the statement about closure capture -/

theorem Res.bind_ok {α β : Type} (a : α) (f : α → Res β) : (Res.ok a).bind f = f a := rfl

theorem Res.bind_assoc {α β γ : Type} (x : Res α) (f : α → Res β) (g : β → Res γ) :
    (x.bind f).bind g = x.bind fun a => (f a).bind g := by
  cases x <;> rfl

theorem Env.eval_succ (f : Nat) (W : World) (self : Nat) (o : Base_Object) (t : Bool) :
    Env.eval (f + 1) W self o t = Env.evalStep f (interp f) W self o t := rfl

theorem Env.eval_integer (f : Nat) (W : World) (self : Nat) (v : Int) (t : Bool) :
    Env.eval (f + 1) W self (.integer v) t = .ok (.integer v, W) := rfl

theorem Env.eval_symbol (f : Nat) (W : World) (self : Nat) (s : Symbol) (t : Bool) :
    Env.eval (f + 1) W self (.symbol s) t =
      (Env.findSymbolInMap f W self (some s)).bind fun rr =>
        match rr with
        | some v => .ok (v, W)
        | none => .throw "Evaluated unresolvable symbol" := rfl

theorem Env.eval_cons (f : Nat) (W : World) (self : Nat) (car cdr : Base_Object) (t : Bool) :
    Env.eval (f + 1) W self (.cons car cdr) t =
      (Env.procSpecialForm f (interp f) W self (.cons car cdr) t).bind fun psfr =>
        match psfr with
        | some res => .ok res
        | none => Env.applyStep f (interp f) W self car cdr t := rfl

theorem Env.eval_if (f : Nat) (W : World) (self : Nat) (c a b : Base_Object) (t : Bool) :
    Env.eval (f + 1) W self (.cons (registerSymbol "if") (.cons c (.cons a (.cons b nil)))) t =
      (Env.eval f W self c false).bind fun cv =>
        if !cv.1.isnull then Env.eval f cv.2 self a t else Env.eval f cv.2 self b t := by
  have h : Env.procSpecialForm f (interp f) W self
      (.cons (registerSymbol "if") (.cons c (.cons a (.cons b nil)))) t =
      ((interp f).eval W self c false).bind fun cv =>
        if !cv.1.isnull then ((interp f).eval cv.2 self a t).bind fun x => .ok (some x)
        else ((interp f).eval cv.2 self b t).bind fun x => .ok (some x) := rfl
  rw [Env.eval_cons, h, Res.bind_assoc]
  congr 1
  funext cv
  split
  · show (Res.bind (Res.bind (Env.eval f cv.2 self a t) _) _) = _
    cases Env.eval f cv.2 self a t <;> rfl
  · show (Res.bind (Res.bind (Env.eval f cv.2 self b t) _) _) = _
    cases Env.eval f cv.2 self b t <;> rfl

theorem Env.eval_do1 (f : Nat) (W : World) (self : Nat) (e : Base_Object) (t : Bool) :
    Env.eval (f + 1) W self (.cons (registerSymbol "do") (.cons e nil)) t =
      Env.eval f W self e t := by
  have h : Env.procSpecialForm f (interp f) W self (.cons (registerSymbol "do") (.cons e nil)) t =
      ((interp f).eval W self e t).bind fun x => .ok (some x) := rfl
  rw [Env.eval_cons, h]
  show (Res.bind (Res.bind (Env.eval f W self e t) _) _) = _
  cases Env.eval f W self e t <;> rfl

theorem Env.procSpecialForm_none (f : Nat) (r : Rec) (W : World) (self : Nat) (op : Symbol)
    (cdr : Base_Object) (t : Bool) (h : op.name ∉ specialNames) :
    Env.procSpecialForm f r W self (.cons (.symbol op) cdr) t = .ok none := by
  simp only [specialNames, List.mem_cons, List.mem_singleton, not_or, List.mem_nil_iff,
    not_false_eq_true, and_true] at h
  obtain ⟨h1, h2, h3, h4, h5, h6, h7, h8, h9⟩ := h
  simp [Env.procSpecialForm, h1, h2, h3, h4, h5, h6, h7, h8, h9]

theorem Env.eval_app (f : Nat) (W : World) (self : Nat) (op : Symbol)
    (cdr : Base_Object) (t : Bool) (h : op.name ∉ specialNames) :
    Env.eval (f + 1) W self (.cons (.symbol op) cdr) t =
      Env.applyStep f (interp f) W self (.symbol op) cdr t := by
  rw [Env.eval_cons, Env.procSpecialForm_none _ _ _ _ _ _ _ h]
  rfl

theorem Env.eval_integer_of_le (f : Nat) (hf : 1 ≤ f) (W : World) (self : Nat) (v : Int)
    (t : Bool) : Env.eval f W self (.integer v) t = .ok (.integer v, W) := by
  obtain ⟨e, rfl⟩ : ∃ e, f = e + 1 := ⟨f - 1, by omega⟩
  rfl

/-- Application of a predefined procedure to two argument forms whose values are known. -/
theorem Env.eval_predef2 (f : Nat) (W W1 W2 : World) (self : Nat) (op : Symbol) (b : Builtin)
    (a1 a2 v1 v2 : Base_Object) (t : Bool) (hop : op.name ∉ specialNames)
    (h0 : Env.eval f W self (.symbol op) false = .ok (.predefined b, W))
    (h1 : Env.eval f W self a1 false = .ok (v1, W1))
    (h2 : Env.eval f W1 self a2 false = .ok (v2, W2)) :
    Env.eval (f + 1) W self (.cons (.symbol op) (.cons a1 (.cons a2 nil))) t =
      applyBuiltin f (interp f) b W2 self [v1, v2] := by
  have h0' : (interp f).eval W self (.symbol op) false = .ok (.predefined b, W) := h0
  have h1' : (interp f).eval W self a1 false = .ok (v1, W1) := h1
  have h2' : (interp f).eval W1 self a2 false = .ok (v2, W2) := h2
  rw [Env.eval_app _ _ _ _ _ _ hop]
  simp only [Env.applyStep, evalArgs, h0', h1', h2', Res.bind]
  simp [isProperList, registerSymbol]

/-- An `int` result within range is not changed by the wrap-around. -/
theorem wrap32_of_inRange (x : Int) (h1 : INT_MIN ≤ x) (h2 : x ≤ INT_MAX) : wrap32 x = x := by
  unfold wrap32
  unfold INT_MIN at h1
  unfold INT_MAX at h2
  omega

theorem mapFind_mapSet_ne (m : List (SymPtr × Base_Object)) (k key : SymPtr) (w : Base_Object)
    (h : k ≠ key) : mapFind (mapSet m k w) key = mapFind m key := by
  induction m with
  | nil => simp [mapSet, mapFind, h]
  | cons kv m ih =>
    obtain ⟨k0, v0⟩ := kv
    simp only [mapSet]
    by_cases hk : k0 = k
    · subst hk
      simp [mapFind, h]
    · rw [if_neg hk]
      simp only [mapFind, ih]

theorem mapFind_mapSet_self (m : List (SymPtr × Base_Object)) (k : SymPtr) (w : Base_Object) :
    mapFind (mapSet m k w) k = some w := by
  induction m with
  | nil => simp [mapSet, mapFind]
  | cons kv m ih =>
    obtain ⟨k0, v0⟩ := kv
    simp only [mapSet]
    by_cases hk : k0 = k
    · subst hk
      simp [mapFind]
    · rw [if_neg hk]
      simp [mapFind, hk, ih]

theorem takeWhile_dropWhile_append (p : Char → Bool) (xs ys : List Char)
    (h : xs.dropWhile p ≠ []) :
    (xs ++ ys).dropWhile p = xs.dropWhile p ++ ys ∧ (xs ++ ys).takeWhile p = xs.takeWhile p := by
  induction xs with
  | nil => simp at h
  | cons x xs ih =>
    by_cases hx : p x = true
    · simp only [List.dropWhile_cons, hx, if_true] at h
      simp [List.dropWhile_cons, List.takeWhile_cons, hx, ih h]
    · simp [List.dropWhile_cons, List.takeWhile_cons, hx]

theorem takeWhile_dropWhile_append_stop (p : Char → Bool) (xs ys : List Char) (y : Char)
    (h : xs.dropWhile p = []) (hy : p y = false) :
    (xs ++ y :: ys).dropWhile p = y :: ys ∧ (xs ++ y :: ys).takeWhile p = xs ∧
      xs.takeWhile p = xs := by
  induction xs with
  | nil => simp [hy]
  | cons x xs ih =>
    by_cases hx : p x = true
    · simp only [List.dropWhile_cons, hx, if_true] at h
      simp [List.dropWhile_cons, List.takeWhile_cons, hx, ih h]
    · simp [List.dropWhile_cons, hx] at h

theorem IStream.good_iff (s : IStream) : s.good = true ↔ s.eofbit = false ∧ s.failbit = false := by
  cases s with
  | mk cs r e f => cases e <;> cases f <;> simp [IStream.good]

theorem IStream.withSuffix_good (s : IStream) (t : List Char) :
    (s.withSuffix t).good = s.good := rfl

/-- `ws` that stops before the end of the input does the same when more text follows. -/
theorem IStream.ws_withSuffix (s : IStream) (t : List Char) (hg : s.good = true)
    (he : s.ws.eofbit = false) :
    (s.withSuffix t).ws = s.ws.withSuffix t ∧ s.ws.good = true ∧ s.ws.rest ≠ [] := by
  obtain ⟨cs, r, e, f⟩ := s
  obtain ⟨he1, hf1⟩ := (IStream.good_iff _).1 hg
  simp only at he1 hf1
  subst he1 hf1
  have hne : r.dropWhile isspace ≠ [] := by
    intro h
    simp [IStream.ws, IStream.good, h] at he
  obtain ⟨h1, h2⟩ := takeWhile_dropWhile_append isspace r t hne
  have hemp : (r.dropWhile isspace).isEmpty = false := by
    cases h : r.dropWhile isspace with
    | nil => exact absurd h hne
    | cons a l => rfl
  have hemp2 : (r.dropWhile isspace ++ t).isEmpty = false := by
    cases h : r.dropWhile isspace with
    | nil => exact absurd h hne
    | cons a l => rfl
  refine ⟨?_, ?_, ?_⟩
  · simp only [IStream.ws, IStream.withSuffix, IStream.good, Bool.not_false, Bool.and_self,
      if_true, h1, h2, hemp, hemp2]
  · simp [IStream.ws, IStream.good, hemp]
  · simpa [IStream.ws, IStream.good] using hne

/-- A successful `get` does the same when more text follows. -/
theorem IStream.get_withSuffix (s : IStream) (t : List Char) (hg : s.good = true)
    (hr : s.rest ≠ []) :
    (s.withSuffix t).get = (s.get.1, s.get.2.withSuffix t) ∧ s.get.2.good = true ∧
      s.rest = s.get.1 :: s.get.2.rest := by
  cases s with
  | mk cs r e f =>
    cases r with
    | nil => exact absurd rfl hr
    | cons c r =>
      obtain ⟨he, hf⟩ := (IStream.good_iff _).1 hg
      simp only at he hf
      subst he hf
      simp [IStream.get, IStream.withSuffix, IStream.good]

theorem IStream.peek_withSuffix (s : IStream) (t : List Char) (hg : s.good = true)
    (hr : s.rest ≠ []) :
    (s.withSuffix t).peek = (s.peek.1, s.peek.2.withSuffix t) ∧ s.peek.2 = s ∧
      s.peek.1 = s.rest.head? := by
  cases s with
  | mk cs r e f =>
    cases r with
    | nil => exact absurd rfl hr
    | cons c r =>
      obtain ⟨he, hf⟩ := (IStream.good_iff _).1 hg
      simp only at he hf
      subst he hf
      simp [IStream.peek, IStream.withSuffix, IStream.good]

theorem IStream.unget_withSuffix (s : IStream) (t : List Char) (hg : s.good = true)
    (hc : s.consumed ≠ []) :
    (s.withSuffix t).unget = s.unget.withSuffix t ∧ s.unget.good = true ∧ s.unget.rest ≠ [] := by
  cases s with
  | mk cs r e f =>
    cases cs with
    | nil => exact absurd rfl hc
    | cons c cs =>
      obtain ⟨he, hf⟩ := (IStream.good_iff _).1 hg
      simp only at he hf
      subst he hf
      simp [IStream.unget, IStream.withSuffix, IStream.good]


theorem eofChar_ne : (eofChar != Char.ofNat 0 && eofChar != '\n' && eofChar != '\r') = true := by
  decide

theorem IStream.get_bad (s : IStream) (h : s.good = false) :
    s.get.1 = eofChar ∧ s.get.2.good = false ∧ s.get.2.eofbit = s.eofbit := by
  obtain ⟨cs, r, e, f⟩ := s
  cases e <;> cases f <;> simp [IStream.get, IStream.good] at h ⊢

/-- Once the stream has failed, the comment-skipping loop never finds the end of the line. -/
theorem skipLine_bad : ∀ (fuel : Nat) (s : IStream), s.good = false →
    ∀ r, skipLine fuel eofChar s ≠ .ok r := by
  intro fuel
  induction fuel with
  | zero =>
    intro s _ r h
    rw [skipLine, eofChar_ne] at h
    simp at h
  | succ n ih =>
    intro s hs r h
    rw [skipLine, eofChar_ne] at h
    simp only [if_true] at h
    obtain ⟨h1, h2, _⟩ := IStream.get_bad s hs
    rw [h1] at h
    exact ih _ h2 r h

theorem IStream.get_good_nil (cs : List Char) :
    (IStream.get ⟨cs, [], false, false⟩) = (eofChar, ⟨cs, [], true, true⟩) := rfl

theorem skipLine_withSuffix (t : List Char) : ∀ (fuel : Nat) (c : Char) (s : IStream) (c' : Char)
    (s' : IStream), s.good = true → skipLine fuel c s = .ok (c', s') →
    s'.good = true ∧ skipLine fuel c (s.withSuffix t) = .ok (c', s'.withSuffix t) := by
  intro fuel
  induction fuel with
  | zero =>
    intro c s c' s' hg h
    rw [skipLine] at h ⊢
    split at h
    · simp at h
    · rename_i hc
      simp only [Res.ok.injEq, Prod.mk.injEq] at h
      obtain ⟨rfl, rfl⟩ := h
      simp [hg, hc]
  | succ n ih =>
    intro c s c' s' hg h
    rw [skipLine] at h ⊢
    split at h
    · rename_i hc
      simp only [hc, if_true]
      by_cases hr : s.rest = []
      · exfalso
        obtain ⟨cs, r, e, f⟩ := s
        obtain ⟨he1, hf1⟩ := (IStream.good_iff _).1 hg
        simp only at he1 hf1 hr
        subst he1 hf1 hr
        rw [IStream.get_good_nil] at h
        exact skipLine_bad n ⟨cs, [], true, true⟩ rfl _ h
      · obtain ⟨h1, h2, _⟩ := IStream.get_withSuffix s t hg hr
        rw [h1]
        exact ih _ _ _ _ h2 h
    · rename_i hc
      simp only [Res.ok.injEq, Prod.mk.injEq] at h
      obtain ⟨rfl, rfl⟩ := h
      simp [hg, hc]


theorem IStream.peek_bad (s : IStream) (h : s.good = false) :
    s.peek.1 = none ∧ s.peek.2.eofbit = s.eofbit := by
  obtain ⟨cs, r, e, f⟩ := s
  cases e <;> cases f <;> simp [IStream.peek, IStream.good] at h ⊢

theorem IStream.ws_eof (s : IStream) (_ : s.good = true) (he : s.ws.eofbit = true) :
    s.ws.good = false := by
  simp [IStream.good, he]

theorem commentLoop_withSuffix (t : List Char) : ∀ (fuel : Nat) (c : Char) (s s1 : IStream),
    s.good = true → s.rest.head? = some c → commentLoop fuel c s = .ok s1 → s1.eofbit = false →
    (s1.good = true ∧ s1.rest ≠ [] ∧ s1.rest.head? ≠ some ';') ∧
      commentLoop fuel c (s.withSuffix t) = .ok (s1.withSuffix t) := by
  intro fuel
  induction fuel with
  | zero =>
    intro c s s1 hg hc h he
    rw [commentLoop] at h ⊢
    split at h
    · simp at h
    · rename_i hne
      simp only [Res.ok.injEq] at h
      subst h
      refine ⟨⟨hg, ?_, ?_⟩, by simp [hne]⟩
      · intro h0; simp [h0] at hc
      · rw [hc]; intro h0; simp at h0; simp [h0] at hne
  | succ n ih =>
    intro c s s1 hg hc h he
    rw [commentLoop] at h ⊢
    split at h
    · rename_i hsemi
      simp only [hsemi, if_true]
      cases hsk : skipLine n c s with
      | ok r =>
        obtain ⟨c', s2⟩ := r
        obtain ⟨hg2, hctx⟩ := skipLine_withSuffix t n c s c' s2 hg hsk
        simp only [hsk] at h
        simp only [hctx]
        cases hws : s2.ws.eofbit with
        | true =>
          exfalso
          have hbad := IStream.ws_eof s2 hg2 hws
          obtain ⟨hp1, hp2⟩ := IStream.peek_bad _ hbad
          rw [hp1] at h
          simp only [Option.getD_none] at h
          cases n with
          | zero =>
            rw [commentLoop] at h
            simp only [show (eofChar == ';') = false by decide] at h
            simp only [Bool.false_eq_true, if_false, Res.ok.injEq] at h
            rw [← h, hp2, hws] at he
            cases he
          | succ m =>
            rw [commentLoop] at h
            simp only [show (eofChar == ';') = false by decide] at h
            simp only [Bool.false_eq_true, if_false, Res.ok.injEq] at h
            rw [← h, hp2, hws] at he
            cases he
        | false =>
          obtain ⟨hw1, hw2, hw3⟩ := IStream.ws_withSuffix s2 t hg2 hws
          obtain ⟨hp1, hp2, hp3⟩ := IStream.peek_withSuffix s2.ws t hw2 hw3
          rw [hw1, hp1]
          rw [hp2] at h ⊢
          obtain ⟨c1, hc1⟩ : ∃ c1, s2.ws.rest.head? = some c1 := by
            cases hr : s2.ws.rest with
            | nil => exact absurd hr hw3
            | cons a l => exact ⟨a, rfl⟩
          rw [hp3, hc1] at h ⊢
          exact ih c1 s2.ws s1 hw2 hc1 h he
      | throw m => simp [hsk] at h
      | fault m => simp [hsk] at h
      | external m => simp [hsk] at h
      | timeout => simp [hsk] at h
    · rename_i hne
      simp only [Res.ok.injEq] at h
      subst h
      refine ⟨⟨hg, ?_, ?_⟩, by simp [hne]⟩
      · intro h0; simp [h0] at hc
      · rw [hc]; intro h0; simp at h0; simp [h0] at hne

/-- `commentSkip` that ends before the end of the input does the same when more text follows,
and leaves a good stream whose next character does not start a comment. -/
theorem commentSkip_withSuffix (t : List Char) (fuel : Nat) (s s1 : IStream)
    (hg : s.good = true) (h : commentSkip fuel s = .ok s1) (he : s1.eofbit = false) :
    (s1.good = true ∧ s1.rest ≠ [] ∧ s1.rest.head? ≠ some ';') ∧
      commentSkip fuel (s.withSuffix t) = .ok (s1.withSuffix t) := by
  unfold commentSkip at h ⊢
  cases hws : s.ws.eofbit with
  | true =>
    exfalso
    have hbad := IStream.ws_eof s hg hws
    obtain ⟨hp1, hp2⟩ := IStream.peek_bad _ hbad
    rw [hp1] at h
    simp only [Option.getD_none] at h
    cases fuel with
    | zero =>
      rw [commentLoop] at h
      simp only [show (eofChar == ';') = false by decide] at h
      simp only [Bool.false_eq_true, if_false, Res.ok.injEq] at h
      rw [← h, hp2, hws] at he
      cases he
    | succ m =>
      rw [commentLoop] at h
      simp only [show (eofChar == ';') = false by decide] at h
      simp only [Bool.false_eq_true, if_false, Res.ok.injEq] at h
      rw [← h, hp2, hws] at he
      cases he
  | false =>
    obtain ⟨hw1, hw2, hw3⟩ := IStream.ws_withSuffix s t hg hws
    obtain ⟨hp1, hp2, hp3⟩ := IStream.peek_withSuffix s.ws t hw2 hw3
    rw [hw1, hp1]
    rw [hp2] at h ⊢
    obtain ⟨c1, hc1⟩ : ∃ c1, s.ws.rest.head? = some c1 := by
      cases hr : s.ws.rest with
      | nil => exact absurd hr hw3
      | cons a l => exact ⟨a, rfl⟩
    rw [hp3, hc1] at h ⊢
    exact commentLoop_withSuffix t fuel c1 s.ws s1 hw2 hc1 h he


theorem readStringLoop_eof (fuel : Nat) (s : IStream) (acc : List Char) (he : s.eofbit = true)
    (r : Base_Object × IStream) : readStringLoop fuel eofChar s acc ≠ .ok r := by
  intro h
  cases fuel with
  | zero =>
    rw [readStringLoop] at h
    simp [show (eofChar != '"') = true by decide] at h
  | succ n =>
    rw [readStringLoop] at h
    simp [show (eofChar != '"') = true by decide, show (eofChar == '\\') = false by decide,
      he] at h

theorem IStream.get_eof_of_nil (s : IStream) (hg : s.good = true) (hr : s.rest = []) :
    s.get.1 = eofChar ∧ s.get.2.eofbit = true := by
  obtain ⟨cs, r, e, f⟩ := s
  obtain ⟨he1, hf1⟩ := (IStream.good_iff _).1 hg
  simp only at he1 hf1 hr
  subst he1 hf1 hr
  exact ⟨rfl, rfl⟩

theorem readStringLoop_withSuffix (t : List Char) : ∀ (fuel : Nat) (c : Char) (s : IStream)
    (acc : List Char) (v : Base_Object) (s1 : IStream), s.good = true →
    readStringLoop fuel c s acc = .ok (v, s1) →
    s1.good = true ∧ readStringLoop fuel c (s.withSuffix t) acc = .ok (v, s1.withSuffix t) := by
  intro fuel
  induction fuel with
  | zero =>
    intro c s acc v s1 hg h
    rw [readStringLoop] at h ⊢
    split at h
    · simp at h
    · rename_i hc
      simp only [Res.ok.injEq, Prod.mk.injEq] at h
      obtain ⟨rfl, rfl⟩ := h
      simp [hg, hc]
  | succ n ih =>
    intro c s acc v s1 hg h
    rw [readStringLoop] at h ⊢
    split at h
    · rename_i hc
      simp only [hc, if_true]
      by_cases hesc : (c == '\\') = true
      · simp only [hesc, if_true] at h ⊢
        by_cases hr : s.rest = []
        · exfalso
          obtain ⟨_, h2⟩ := IStream.get_eof_of_nil s hg hr
          simp [h2] at h
        · obtain ⟨h1, h2, _⟩ := IStream.get_withSuffix s t hg hr
          rw [h1]
          simp only
          have he2 : s.get.2.eofbit = false := ((IStream.good_iff _).1 h2).1
          have he3 : (s.get.2.withSuffix t).eofbit = false := he2
          simp only [he2, he3, Bool.false_eq_true, if_false] at h ⊢
          by_cases hr2 : s.get.2.rest = []
          · exfalso
            obtain ⟨h3, h4⟩ := IStream.get_eof_of_nil s.get.2 h2 hr2
            rw [h3] at h
            exact readStringLoop_eof n _ _ h4 _ h
          · obtain ⟨h5, h6, _⟩ := IStream.get_withSuffix s.get.2 t h2 hr2
            rw [h5]
            exact ih _ _ _ _ _ h6 h
      · simp only [hesc, Bool.false_eq_true, if_false] at h ⊢
        have he2 : s.eofbit = false := ((IStream.good_iff _).1 hg).1
        have he3 : (s.withSuffix t).eofbit = false := he2
        simp only [he2, he3, Bool.false_eq_true, if_false] at h ⊢
        by_cases hr2 : s.rest = []
        · exfalso
          obtain ⟨h3, h4⟩ := IStream.get_eof_of_nil s hg hr2
          rw [h3] at h
          exact readStringLoop_eof n _ _ h4 _ h
        · obtain ⟨h5, h6, _⟩ := IStream.get_withSuffix s t hg hr2
          rw [h5]
          exact ih _ _ _ _ _ h6 h
    · rename_i hc
      simp only [Res.ok.injEq, Prod.mk.injEq] at h
      obtain ⟨rfl, rfl⟩ := h
      simp [hg, hc]

theorem readString_withSuffix (t : List Char) (fuel : Nat) (s : IStream)
    (v : Base_Object) (s1 : IStream) (hg : s.good = true)
    (h : readString fuel s = .ok (v, s1)) :
    s1.good = true ∧ readString fuel (s.withSuffix t) = .ok (v, s1.withSuffix t) := by
  unfold readString at h ⊢
  by_cases hr : s.rest = []
  · exfalso
    obtain ⟨h3, h4⟩ := IStream.get_eof_of_nil s hg hr
    rw [h3] at h
    exact readStringLoop_eof fuel _ _ h4 _ h
  · obtain ⟨h5, h6, _⟩ := IStream.get_withSuffix s t hg hr
    rw [h5]
    exact readStringLoop_withSuffix t fuel _ _ _ _ _ h6 h


theorem readSymbolLoop_withSuffix (t : List Char) : ∀ (room : Nat) (c : Char) (s : IStream)
    (acc name : List Char) (s1 : IStream), s.good = true → s.consumed ≠ [] →
    readSymbolLoop room c s acc = .ok (name, s1) →
    (s1.eofbit = false → s1.good = true ∧ s1.consumed ≠ [] ∧
      readSymbolLoop room c (s.withSuffix t) acc = .ok (name, s1.withSuffix t)) ∧
    (s1.eofbit = true → s1.rest = [] ∧ s1.failbit = true ∧
      readSymbolLoop room c (s.withSuffix (')' :: t)) acc =
        .ok (name, ⟨')' :: s1.consumed, t, false, false⟩)) := by
  intro room
  induction room with
  | zero =>
    intro c s acc name s1 hg hc h
    rw [readSymbolLoop] at h
    split at h
    · simp at h
    · rename_i hcond
      simp only [Res.ok.injEq, Prod.mk.injEq] at h
      obtain ⟨rfl, rfl⟩ := h
      have he : s.eofbit = false := ((IStream.good_iff _).1 hg).1
      refine ⟨fun _ => ⟨hg, hc, ?_⟩, fun h1 => ?_⟩
      · rw [readSymbolLoop]
        have : (s.withSuffix t).eofbit = s.eofbit := rfl
        simp only [this, hcond]
        simp
      · rw [he] at h1; cases h1
  | succ k ih =>
    intro c s acc name s1 hg hc h
    have he : s.eofbit = false := ((IStream.good_iff _).1 hg).1
    rw [readSymbolLoop] at h
    split at h
    · rename_i hcond
      have hsym : isSymbolChar c = true := by
        simp only [Bool.and_eq_true] at hcond
        exact hcond.1
      by_cases hr : s.rest = []
      · -- the end of the input is reached inside the symbol
        obtain ⟨cs, r, e, f⟩ := s
        obtain ⟨he1, hf1⟩ := (IStream.good_iff _).1 hg
        simp only at he1 hf1 hr
        subst he1 hf1 hr
        simp only [IStream.get_good_nil] at h
        rw [readSymbolLoop.eq_def] at h
        simp only [Bool.not_true, Bool.and_false, Bool.false_eq_true, if_false, Res.ok.injEq,
          Prod.mk.injEq] at h
        obtain ⟨rfl, rfl⟩ := h
        refine ⟨fun h1 => Bool.noConfusion h1, fun _ => ⟨rfl, rfl, ?_⟩⟩
        rw [readSymbolLoop.eq_def]
        simp only [IStream.withSuffix, hsym, Bool.not_false, Bool.and_self, if_true,
          List.nil_append]
        have hget : (IStream.get ⟨cs, ')' :: t, false, false⟩) =
            (')', ⟨')' :: cs, t, false, false⟩) := rfl
        rw [hget, readSymbolLoop.eq_def]
        simp [isSymbolChar]
      · obtain ⟨h1, h2, _⟩ := IStream.get_withSuffix s t hg hr
        obtain ⟨h1', _, _⟩ := IStream.get_withSuffix s (')' :: t) hg hr
        have hc2 : s.get.2.consumed ≠ [] := by
          obtain ⟨cs, r, e, f⟩ := s
          cases r with
          | nil => exact absurd rfl hr
          | cons a l =>
            obtain ⟨he1, hf1⟩ := (IStream.good_iff _).1 hg
            simp only at he1 hf1
            subst he1 hf1
            simp [IStream.get, IStream.good]
        obtain ⟨ihA, ihB⟩ := ih s.get.1 s.get.2 (c :: acc) name s1 h2 hc2 h
        refine ⟨fun hs1 => ?_, fun hs1 => ?_⟩
        · obtain ⟨a1, a2, a3⟩ := ihA hs1
          refine ⟨a1, a2, ?_⟩
          rw [readSymbolLoop]
          have : (s.withSuffix t).eofbit = s.eofbit := rfl
          simp only [this, hcond, if_true, h1]
          exact a3
        · obtain ⟨b1, b2, b3⟩ := ihB hs1
          refine ⟨b1, b2, ?_⟩
          rw [readSymbolLoop]
          have : (s.withSuffix (')' :: t)).eofbit = s.eofbit := rfl
          simp only [this, hcond, if_true, h1']
          exact b3
    · rename_i hcond
      simp only [Res.ok.injEq, Prod.mk.injEq] at h
      obtain ⟨rfl, rfl⟩ := h
      refine ⟨fun _ => ⟨hg, hc, ?_⟩, fun h1 => ?_⟩
      · rw [readSymbolLoop]
        have : (s.withSuffix t).eofbit = s.eofbit := rfl
        simp only [this, hcond]
        simp
      · rw [he] at h1; cases h1

/-- The symbol branch of `readParse` when more text follows.  Either the symbol ended before the
end of the input, and then nothing changes, or it ran up to the end, and then a following `)`
ends it in the same place. -/
theorem readSymbol_withSuffix (t : List Char) (c : Char) (s : IStream) (v : Base_Object)
    (s1 : IStream) (hg : s.good = true) (hc : s.consumed ≠ [])
    (h : readSymbol c s = .ok (v, s1)) :
    (s1.rest ≠ [] ∧ s1.good = true ∧ readSymbol c (s.withSuffix t) = .ok (v, s1.withSuffix t)) ∨
    (s1.rest = [] ∧ s1.eofbit = false ∧ s1.failbit = true ∧
      readSymbol c (s.withSuffix (')' :: t)) = .ok (v, s1.atEnd (')' :: t))) := by
  unfold readSymbol at h
  cases hloop : readSymbolLoop 512 c s [] with
  | ok r =>
    obtain ⟨name, s2⟩ := r
    simp only [hloop] at h
    split at h
    · simp at h
    · split at h
      · simp at h
      · rename_i hn1 hn2
        simp only [Res.ok.injEq, Prod.mk.injEq] at h
        obtain ⟨rfl, rfl⟩ := h
        obtain ⟨hA, hB⟩ := readSymbolLoop_withSuffix t 512 c s [] name s2 hg hc hloop
        cases he : s2.eofbit with
        | false =>
          obtain ⟨a1, a2, a3⟩ := hA he
          obtain ⟨u1, u2, u3⟩ := IStream.unget_withSuffix s2 t a1 a2
          left
          refine ⟨u3, u2, ?_⟩
          unfold readSymbol
          simp only [a3, hn1, hn2, if_false, u1]
        | true =>
          obtain ⟨b1, b2, b3⟩ := hB he
          right
          obtain ⟨cs, r, e, f⟩ := s2
          simp only at b1 b2 he
          subst b1 b2 he
          refine ⟨rfl, rfl, rfl, ?_⟩
          unfold readSymbol
          simp only [b3, hn1, hn2, if_false]
          rfl
  | throw m => simp [hloop] at h
  | fault m => simp [hloop] at h
  | external m => simp [hloop] at h
  | timeout => simp [hloop] at h


/-- The case distinction that ends `IStream.readInt`. -/
theorem readInt_final_mid (ds : List Char) (v0 : Int) (C after t : List Char) (v : Int)
    (s' : IStream) (hafter : after ≠ [])
    (h : (if ds.isEmpty = true then ((some 0 : Option Int), (⟨C, after, after.isEmpty, true⟩ : IStream))
      else if v0 > INT_MAX then (some INT_MAX, ⟨C, after, after.isEmpty, true⟩)
      else if v0 < INT_MIN then (some INT_MIN, ⟨C, after, after.isEmpty, true⟩)
      else (some v0, ⟨C, after, after.isEmpty, false⟩)) = (some v, s')) :
    s'.rest ≠ [] ∧
    (if ds.isEmpty = true then
        ((some 0 : Option Int), (⟨C, after ++ t, (after ++ t).isEmpty, true⟩ : IStream))
      else if v0 > INT_MAX then (some INT_MAX, ⟨C, after ++ t, (after ++ t).isEmpty, true⟩)
      else if v0 < INT_MIN then (some INT_MIN, ⟨C, after ++ t, (after ++ t).isEmpty, true⟩)
      else (some v0, ⟨C, after ++ t, (after ++ t).isEmpty, false⟩)) =
      (some v, s'.withSuffix t) := by
  have hemp : after.isEmpty = false := by
    cases after with
    | nil => exact absurd rfl hafter
    | cons x y => rfl
  have hemp2 : (after ++ t).isEmpty = false := by
    cases after with
    | nil => exact absurd rfl hafter
    | cons x y => rfl
  rw [hemp] at h
  rw [hemp2]
  by_cases h1 : ds.isEmpty = true
  · simp only [h1, if_true] at h ⊢
    cases h
    exact ⟨hafter, rfl⟩
  · simp only [h1, if_false] at h ⊢
    by_cases h2 : v0 > INT_MAX
    · simp only [h2, if_true] at h ⊢
      cases h
      exact ⟨hafter, rfl⟩
    · simp only [h2, if_false] at h ⊢
      by_cases h3 : v0 < INT_MIN
      · simp only [h3, if_true] at h ⊢
        cases h
        exact ⟨hafter, rfl⟩
      · simp only [h3, if_false] at h ⊢
        cases h
        exact ⟨hafter, rfl⟩

theorem readInt_final_rest (ds : List Char) (v0 : Int) (C after : List Char) (e : Bool)
    (v : Int) (s' : IStream)
    (h : (if ds.isEmpty = true then ((some 0 : Option Int), (⟨C, after, e, true⟩ : IStream))
      else if v0 > INT_MAX then (some INT_MAX, ⟨C, after, e, true⟩)
      else if v0 < INT_MIN then (some INT_MIN, ⟨C, after, e, true⟩)
      else (some v0, ⟨C, after, e, false⟩)) = (some v, s')) :
    s'.rest = after ∧ s'.eofbit = e := by
  by_cases h1 : ds.isEmpty = true
  · simp only [h1, if_true] at h
    cases h; exact ⟨rfl, rfl⟩
  · simp only [h1, if_false] at h
    by_cases h2 : v0 > INT_MAX
    · simp only [h2, if_true] at h
      cases h; exact ⟨rfl, rfl⟩
    · simp only [h2, if_false] at h
      by_cases h3 : v0 < INT_MIN
      · simp only [h3, if_true] at h
        cases h; exact ⟨rfl, rfl⟩
      · simp only [h3, if_false] at h
        cases h; exact ⟨rfl, rfl⟩

theorem readInt_final_end (ds : List Char) (v0 : Int) (C t : List Char) (v : Int)
    (s' : IStream)
    (h : (if ds.isEmpty = true then ((some 0 : Option Int), (⟨C, [], true, true⟩ : IStream))
      else if v0 > INT_MAX then (some INT_MAX, ⟨C, [], true, true⟩)
      else if v0 < INT_MIN then (some INT_MIN, ⟨C, [], true, true⟩)
      else (some v0, ⟨C, [], true, false⟩)) = (some v, s'))
    (hflag : ¬ (s'.eofbit = true ∧ s'.failbit = true)) :
    (if ds.isEmpty = true then ((some 0 : Option Int), (⟨C, t, false, true⟩ : IStream))
      else if v0 > INT_MAX then (some INT_MAX, ⟨C, t, false, true⟩)
      else if v0 < INT_MIN then (some INT_MIN, ⟨C, t, false, true⟩)
      else (some v0, ⟨C, t, false, false⟩)) = (some v, s'.atEnd t) := by
  by_cases h1 : ds.isEmpty = true
  · simp only [h1, if_true, Prod.mk.injEq] at h
    obtain ⟨hv, rfl⟩ := h
    exact absurd ⟨rfl, rfl⟩ hflag
  · simp only [h1, if_false] at h ⊢
    by_cases h2 : v0 > INT_MAX
    · simp only [h2, if_true, Prod.mk.injEq] at h
      obtain ⟨hv, rfl⟩ := h
      exact absurd ⟨rfl, rfl⟩ hflag
    · simp only [h2, if_false] at h ⊢
      by_cases h3 : v0 < INT_MIN
      · simp only [h3, if_true, Prod.mk.injEq] at h
        obtain ⟨hv, rfl⟩ := h
        exact absurd ⟨rfl, rfl⟩ hflag
      · simp only [h3, if_false] at h ⊢
        cases h
        rfl

/-- `operator>>(int&)` when more text follows: if the digits ended before the end of the input
nothing changes; if they ran up to the end and the extraction did not fail, a following `)` ends
them in the same place. -/
theorem IStream.readInt_withSuffix (t : List Char) (s : IStream) (v : Int) (s' : IStream)
    (hg : s.good = true) (h : s.readInt = (some v, s')) :
    (s'.rest ≠ [] → (s.withSuffix t).readInt = (some v, s'.withSuffix t)) ∧
    (s'.rest = [] → ¬ (s'.eofbit = true ∧ s'.failbit = true) →
      (s.withSuffix (')' :: t)).readInt = (some v, s'.atEnd (')' :: t))) ∧
    (s'.rest = [] → s'.eofbit = true) := by
  unfold IStream.readInt at h
  simp only [hg, if_true] at h
  cases hws : s.ws.eofbit with
  | true => simp [hws] at h
  | false =>
    simp only [hws, Bool.false_eq_true, if_false] at h
    obtain ⟨w1, w2, w3⟩ := IStream.ws_withSuffix s t hg hws
    obtain ⟨w1', _, _⟩ := IStream.ws_withSuffix s (')' :: t) hg hws
    have hgs : ∀ u, (s.withSuffix u).good = true := fun u => hg
    have hes : ∀ u, (s.ws.withSuffix u).eofbit = false := fun u => hws
    obtain ⟨a, l, hal⟩ : ∃ a l, s.ws.rest = a :: l := by
      cases hr : s.ws.rest with
      | nil => exact absurd hr w3
      | cons a l => exact ⟨a, l, rfl⟩
    have hrest : ∀ u, (s.ws.withSuffix u).rest = a :: (l ++ u) := by
      intro u; simp [IStream.withSuffix, hal]
    have hcons : ∀ u, (s.ws.withSuffix u).consumed = s.ws.consumed := fun u => rfl
    simp only [hal, List.head?_cons, List.tail_cons, List.take_succ_cons, List.take_zero] at h
    generalize hsigned : (some a == some '-' || some a == some '+') = signed at h
    generalize hbody : (if signed = true then l else a :: l) = body at h
    have hbody' : ∀ u, (if signed = true then l ++ u else a :: (l ++ u)) = body ++ u := by
      intro u
      cases signed
      · simp only [Bool.false_eq_true, if_false] at hbody ⊢; rw [← hbody]; rfl
      · simp only [if_true] at hbody ⊢; rw [← hbody]
    by_cases hafter : body.dropWhile isDigitChar = []
    · obtain ⟨d1, d2, d3⟩ := takeWhile_dropWhile_append_stop isDigitChar body t ')' hafter
        (by decide)
      rw [hafter] at h
      simp only [List.isEmpty_nil] at h
      obtain ⟨hs'rest, hs'eof⟩ := readInt_final_rest _ _ _ _ _ _ _ h
      refine ⟨fun hne => absurd hs'rest hne, fun _ hflag => ?_, fun _ => hs'eof⟩
      unfold IStream.readInt
      simp only [hgs, if_true, w1', hes, Bool.false_eq_true, if_false, hrest, hcons,
        List.head?_cons, List.tail_cons, List.take_succ_cons, List.take_zero, hsigned, hbody',
        d1, d2, List.isEmpty_cons]
      rw [d3] at h
      exact readInt_final_end _ _ _ _ _ _ h hflag
    · obtain ⟨d1, d2⟩ := takeWhile_dropWhile_append isDigitChar body t hafter
      obtain ⟨hne', hres⟩ := readInt_final_mid _ _ _ _ t _ _ hafter h
      refine ⟨fun _ => ?_, fun hnil => absurd hnil hne', fun hnil => absurd hnil hne'⟩
      unfold IStream.readInt
      simp only [hgs, if_true, w1, hes, Bool.false_eq_true, if_false, hrest, hcons,
        List.head?_cons, List.tail_cons, List.take_succ_cons, List.take_zero, hsigned, hbody',
        d1, d2]
      exact hres

theorem commentLoop_not_semi (fuel : Nat) (c : Char) (s : IStream) (h : (c == ';') = false) :
    commentLoop fuel c s = .ok s := by
  cases fuel <;> (rw [commentLoop]; simp [h])

theorem commentSkip_bad (fuel : Nat) (s : IStream) (h : s.good = false) :
    ∃ s1, commentSkip fuel s = .ok s1 ∧ s1.good = false ∧ s1.eofbit = s.eofbit := by
  unfold commentSkip
  have hws : s.ws.good = false ∧ s.ws.eofbit = s.eofbit := by
    obtain ⟨cs, r, e, f⟩ := s
    cases e <;> cases f <;> simp [IStream.ws, IStream.good] at h ⊢
  have hpk : s.ws.peek.1 = none ∧ s.ws.peek.2.good = false ∧ s.ws.peek.2.eofbit = s.ws.eofbit := by
    generalize s.ws = u at hws
    obtain ⟨cs, r, e, f⟩ := u
    cases e <;> cases f <;> simp [IStream.peek, IStream.good] at hws ⊢
  rw [hpk.1]
  exact ⟨_, commentLoop_not_semi _ _ _ (by decide), hpk.2.1, hpk.2.2.trans hws.2⟩

theorem readSymbolLoop_bad : ∀ (room : Nat) (s : IStream) (acc : List Char), s.good = false →
    s.eofbit = false → ∀ r, readSymbolLoop room eofChar s acc ≠ .ok r := by
  intro room
  induction room with
  | zero =>
    intro s acc _ he r h
    rw [readSymbolLoop.eq_def] at h
    simp [he, show isSymbolChar eofChar = true by decide] at h
  | succ k ih =>
    intro s acc hg he r h
    rw [readSymbolLoop.eq_def] at h
    simp only [he, show isSymbolChar eofChar = true by decide, Bool.not_false, Bool.and_self,
      if_true] at h
    obtain ⟨g1, g2, g3⟩ := IStream.get_bad s hg
    rw [g1] at h
    exact ih _ _ g2 (g3.trans he) r h

/-- A stream that is not good never yields a form. -/
theorem readParse_bad (fuel : Nat) (s : IStream) (h : s.good = false)
    (r : Base_Object × IStream) : readParse fuel s ≠ .ok r := by
  intro hr
  cases fuel with
  | zero => rw [readParse] at hr; cases hr
  | succ n =>
    obtain ⟨s1, h1, h2, h3⟩ := commentSkip_bad n s h
    rw [readParse] at hr
    simp only [h1] at hr
    cases he : s1.eofbit with
    | true => simp [he] at hr
    | false =>
      simp only [he, Bool.false_eq_true, if_false] at hr
      obtain ⟨g1, g2, g3⟩ := IStream.get_bad s1 h2
      rw [g1] at hr
      simp only [show (eofChar == '(') = false by decide,
        show isDigitChar eofChar = false by decide, show (eofChar == '-') = false by decide,
        show (eofChar == '"') = false by decide, Bool.false_and, Bool.false_eq_true,
        if_false] at hr
      unfold readSymbol at hr
      cases hl : readSymbolLoop 512 eofChar s1.get.2 [] with
      | ok x => exact readSymbolLoop_bad 512 _ _ g2 (g3.trans he) x hl
      | throw m => simp [hl] at hr
      | fault m => simp [hl] at hr
      | external m => simp [hl] at hr
      | timeout => simp [hl] at hr

theorem IStream.ws_get_bad (s : IStream) (h : s.good = false) :
    s.ws.get.1 = eofChar ∧ s.ws.get.2.good = false ∧ s.ws.eofbit = s.eofbit ∧
      s.ws.get.2.eofbit = s.eofbit ∧ s.ws.get.2.unget.good = false := by
  obtain ⟨cs, r, e, f⟩ := s
  cases e <;> cases f <;> simp [IStream.ws, IStream.get, IStream.unget, IStream.good] at h ⊢

/-- A stream that is not good never yields a list. -/
theorem readList_bad (fuel : Nat) (s : IStream) (h : s.good = false)
    (r : Base_Object × IStream) : readList fuel s ≠ .ok r := by
  intro hr
  cases fuel with
  | zero => rw [readList] at hr; cases hr
  | succ n =>
    obtain ⟨g1, g2, g3, g4, g5⟩ := IStream.ws_get_bad s h
    rw [readList] at hr
    cases he : s.eofbit with
    | true => simp [g3, he] at hr
    | false =>
      simp only [g3, he, Bool.false_eq_true, if_false, g1,
        show (eofChar == ')') = false by decide, show (eofChar == '.') = false by decide] at hr
      cases hp : readParse n s.ws.get.2.unget with
      | ok x => exact readParse_bad n _ g5 x hp
      | throw m => simp [hp] at hr
      | fault m => simp [hp] at hr
      | external m => simp [hp] at hr
      | timeout => simp [hp] at hr

theorem IStream.get_consumed (s : IStream) (hg : s.good = true) (hr : s.rest ≠ []) :
    s.get.2.consumed ≠ [] := by
  obtain ⟨cs, r, e, f⟩ := s
  cases r with
  | nil => exact absurd rfl hr
  | cons a l => simp [IStream.get, hg]

/-- The integer branch of `readParse` when more text follows. -/
theorem readInteger_withSuffix (t : List Char) (s : IStream) (v : Base_Object) (s' : IStream)
    (hg : s.good = true) (hc : s.consumed ≠ []) (h : readInteger s = .ok (v, s')) :
    (s'.rest ≠ [] → readInteger (s.withSuffix t) = .ok (v, s'.withSuffix t)) ∧
    (s'.rest = [] → ¬ (s'.eofbit = true ∧ s'.failbit = true) →
      readInteger (s.withSuffix (')' :: t)) = .ok (v, s'.atEnd (')' :: t))) ∧
    (s'.rest = [] → s'.eofbit = true) := by
  unfold readInteger at h
  obtain ⟨u1, u2, _⟩ := IStream.unget_withSuffix s t hg hc
  obtain ⟨u1', _, _⟩ := IStream.unget_withSuffix s (')' :: t) hg hc
  cases hri : s.unget.readInt with
  | mk o s1 =>
    cases o with
    | none => simp [hri] at h
    | some i =>
      simp only [hri, Res.ok.injEq, Prod.mk.injEq] at h
      obtain ⟨rfl, rfl⟩ := h
      obtain ⟨r1, r2, r3⟩ := IStream.readInt_withSuffix t s.unget i s1 u2 hri
      refine ⟨fun hne => ?_, fun hnil hflag => ?_, r3⟩
      · unfold readInteger
        rw [u1, r1 hne]
      · unfold readInteger
        rw [u1', r2 hnil hflag]

theorem readSymbol_eof (c : Char) (s : IStream) (he : s.eofbit = true)
    (r : Base_Object × IStream) : readSymbol c s ≠ .ok r := by
  intro h
  unfold readSymbol at h
  rw [readSymbolLoop.eq_def] at h
  simp [he] at h

/-- One level of `readParse` when more text follows, given the behaviour of `readList` one level
down. -/
theorem readParse_step_withSuffix (n : Nat)
    (hL : ∀ (s : IStream) (v : Base_Object) (s' : IStream), s.good = true →
      readList n s = .ok (v, s') →
      s'.good = true ∧ ∀ t, readList n (s.withSuffix t) = .ok (v, s'.withSuffix t))
    (s : IStream) (v : Base_Object) (s' : IStream) (hg : s.good = true)
    (h : readParse (n + 1) s = .ok (v, s')) :
    (s'.good = true ∧ ∀ t, readParse (n + 1) (s.withSuffix t) = .ok (v, s'.withSuffix t)) ∨
    (s'.good = false ∧ (s'.rest = [] → ¬ (s'.eofbit = true ∧ s'.failbit = true) →
      ∀ t, readParse (n + 1) (s.withSuffix (')' :: t)) = .ok (v, s'.atEnd (')' :: t)))) := by
  rw [readParse] at h
  cases hcs : commentSkip n s with
  | throw m => simp [hcs] at h
  | fault m => simp [hcs] at h
  | external m => simp [hcs] at h
  | timeout => simp [hcs] at h
  | ok s1 =>
    simp only [hcs] at h
    cases he : s1.eofbit with
    | true => simp [he] at h
    | false =>
      simp only [he, Bool.false_eq_true, if_false] at h
      have hcsk := fun t => commentSkip_withSuffix t n s s1 hg hcs he
      obtain ⟨c1, c2, c3⟩ := (hcsk []).1
      have hget := fun t => IStream.get_withSuffix s1 t c1 c2
      have g2 := (hget []).2.1
      have gA : ∀ t, (s1.withSuffix t).get.1 = s1.get.1 := fun t => by rw [(hget t).1]
      have gB : ∀ t, (s1.withSuffix t).get.2 = s1.get.2.withSuffix t := fun t => by
        rw [(hget t).1]
      have gc := IStream.get_consumed s1 c1 c2
      have hunf : ∀ t (X : Res (Base_Object × IStream)),
          (if (s1.get.1 == '(') = true then readList n (s1.get.2.withSuffix t)
            else if isDigitChar s1.get.1 = true then readInteger (s1.get.2.withSuffix t)
            else if (s1.get.1 == '-' &&
                ((s1.get.2.withSuffix t).peek.1.map isDigitChar == some true)) = true then
              readInteger (s1.get.2.withSuffix t).peek.2
            else if (s1.get.1 == '"') = true then
              readString n (if (s1.get.1 == '-') = true then (s1.get.2.withSuffix t).peek.2
                else s1.get.2.withSuffix t)
            else readSymbol s1.get.1 (if (s1.get.1 == '-') = true then
                (s1.get.2.withSuffix t).peek.2 else s1.get.2.withSuffix t)) = X →
          readParse (n + 1) (s.withSuffix t) = X := by
        intro t X hX
        rw [readParse]
        simp only [(hcsk t).2, show (s1.withSuffix t).eofbit = false from he,
          Bool.false_eq_true, if_false, gA, gB]
        exact hX
      cases hparen : (s1.get.1 == '(') with
      | true =>
        simp only [hparen, if_true] at h
        obtain ⟨l1, l2⟩ := hL _ _ _ g2 h
        refine Or.inl ⟨l1, fun t => hunf t _ ?_⟩
        simp only [hparen, if_true]
        exact l2 t
      | false =>
        simp only [hparen, Bool.false_eq_true, if_false] at h
        cases hdig : isDigitChar s1.get.1 with
        | true =>
          simp only [hdig, if_true] at h
          have hri := fun t => readInteger_withSuffix t s1.get.2 v s' g2 gc h
          by_cases hg' : s'.good = true
          · have hne : s'.rest ≠ [] := by
              intro hnil
              have := (hri []).2.2 hnil
              rw [IStream.good_iff] at hg'
              rw [hg'.1] at this
              cases this
            refine Or.inl ⟨hg', fun t => hunf t _ ?_⟩
            simp only [hparen, hdig, Bool.false_eq_true, if_false, if_true]
            exact (hri t).1 hne
          · refine Or.inr ⟨by simpa using hg', fun hnil hflag t => hunf _ _ ?_⟩
            simp only [hparen, hdig, Bool.false_eq_true, if_false, if_true]
            exact (hri t).2.1 hnil hflag
        | false =>
          simp only [hdig, Bool.false_eq_true, if_false] at h
          have symLeaf : readSymbol s1.get.1 s1.get.2 = .ok (v, s') →
              (s'.good = true ∧
                ∀ t, readSymbol s1.get.1 (s1.get.2.withSuffix t) = .ok (v, s'.withSuffix t)) ∨
              (s'.good = false ∧ (s'.rest = [] → ¬ (s'.eofbit = true ∧ s'.failbit = true) →
                ∀ t, readSymbol s1.get.1 (s1.get.2.withSuffix (')' :: t)) =
                  .ok (v, s'.atEnd (')' :: t)))) := by
            intro hs
            have hsy := fun t => readSymbol_withSuffix t s1.get.1 s1.get.2 v s' g2 gc hs
            by_cases hg' : s'.good = true
            · refine Or.inl ⟨hg', fun t => ?_⟩
              rcases hsy t with ⟨_, _, h3⟩ | ⟨_, _, h3, _⟩
              · exact h3
              · rw [IStream.good_iff] at hg'
                rw [hg'.2] at h3
                cases h3
            · refine Or.inr ⟨by simpa using hg', fun _ _ t => ?_⟩
              rcases hsy t with ⟨_, h2, _⟩ | ⟨_, _, _, h4⟩
              · exact absurd h2 hg'
              · exact h4
          cases hminus : (s1.get.1 == '-') with
          | true =>
            simp only [hminus, Bool.true_and, if_true] at h
            have hnq : (s1.get.1 == '"') = false := by
              cases hq : (s1.get.1 == '"') with
              | true =>
                have e1 := eq_of_beq hminus
                have e2 := eq_of_beq hq
                rw [e1] at e2
                exact absurd e2 (by decide)
              | false => rfl
            simp only [hnq, Bool.false_eq_true, if_false] at h
            by_cases hr2 : s1.get.2.rest = []
            · -- a minus sign that ends the input is not read as anything
              exfalso
              have hpk : s1.get.2.peek.1 = none ∧ s1.get.2.peek.2.eofbit = true := by
                generalize s1.get.2 = u at g2 hr2
                obtain ⟨cs, r, e, f⟩ := u
                simp only at hr2
                subst hr2
                simp [IStream.peek, g2]
              simp only [hpk.1, Option.map_none', show ((none : Option Bool) == some true) = false
                from rfl, Bool.false_eq_true, if_false] at h
              exact readSymbol_eof _ _ hpk.2 _ h
            · have hpk := fun t => IStream.peek_withSuffix s1.get.2 t g2 hr2
              have pA : ∀ t, (s1.get.2.withSuffix t).peek.1 = s1.get.2.peek.1 := fun t => by
                rw [(hpk t).1]
              have pB : ∀ t, (s1.get.2.withSuffix t).peek.2 = s1.get.2.withSuffix t := fun t => by
                rw [(hpk t).1, (hpk t).2.1]
              rw [(hpk []).2.1] at h
              cases hd2 : (s1.get.2.peek.1.map isDigitChar == some true) with
              | true =>
                simp only [hd2, if_true] at h
                have hri := fun t => readInteger_withSuffix t s1.get.2 v s' g2 gc h
                by_cases hg' : s'.good = true
                · have hne : s'.rest ≠ [] := by
                    intro hnil
                    have := (hri []).2.2 hnil
                    rw [IStream.good_iff] at hg'
                    rw [hg'.1] at this
                    cases this
                  refine Or.inl ⟨hg', fun t => hunf t _ ?_⟩
                  simp only [hparen, hdig, hminus, pA, pB, hd2, Bool.true_and,
                    Bool.false_eq_true, if_false, if_true]
                  exact (hri t).1 hne
                · refine Or.inr ⟨by simpa using hg', fun hnil hflag t => hunf _ _ ?_⟩
                  simp only [hparen, hdig, hminus, pA, pB, hd2, Bool.true_and,
                    Bool.false_eq_true, if_false, if_true]
                  exact (hri t).2.1 hnil hflag
              | false =>
                simp only [hd2, Bool.false_eq_true, if_false] at h
                rcases symLeaf h with ⟨k1, k2⟩ | ⟨k1, k2⟩
                · refine Or.inl ⟨k1, fun t => hunf t _ ?_⟩
                  simp only [hparen, hdig, hminus, hnq, pA, pB, hd2, Bool.true_and,
                    Bool.false_eq_true, if_false, if_true]
                  exact k2 t
                · refine Or.inr ⟨k1, fun hnil hflag t => hunf _ _ ?_⟩
                  simp only [hparen, hdig, hminus, hnq, pA, pB, hd2, Bool.true_and,
                    Bool.false_eq_true, if_false, if_true]
                  exact k2 hnil hflag t
          | false =>
            simp only [hminus, Bool.false_and, Bool.false_eq_true, if_false] at h
            cases hq : (s1.get.1 == '"') with
            | true =>
              simp only [hq, if_true] at h
              have hst := fun t => readString_withSuffix t n s1.get.2 v s' g2 h
              refine Or.inl ⟨(hst []).1, fun t => hunf t _ ?_⟩
              simp only [hparen, hdig, hminus, hq, Bool.false_and, Bool.false_eq_true, if_false,
                if_true]
              exact (hst t).2
            | false =>
              simp only [hq, Bool.false_eq_true, if_false] at h
              rcases symLeaf h with ⟨k1, k2⟩ | ⟨k1, k2⟩
              · refine Or.inl ⟨k1, fun t => hunf t _ ?_⟩
                simp only [hparen, hdig, hminus, hq, Bool.false_and, Bool.false_eq_true,
                  if_false]
                exact k2 t
              · refine Or.inr ⟨k1, fun hnil hflag t => hunf _ _ ?_⟩
                simp only [hparen, hdig, hminus, hq, Bool.false_and, Bool.false_eq_true,
                  if_false]
                exact k2 hnil hflag t

/-- The reader when more text follows: a form or list that was read completely, leaving a good
stream, is read in the same way and leaves the same stream with the extra text still to come. -/
theorem read_withSuffix : ∀ (fuel : Nat),
    (∀ (s : IStream) (v : Base_Object) (s' : IStream), s.good = true →
      readParse fuel s = .ok (v, s') → s'.good = true →
      ∀ t, readParse fuel (s.withSuffix t) = .ok (v, s'.withSuffix t)) ∧
    (∀ (s : IStream) (v : Base_Object) (s' : IStream), s.good = true →
      readList fuel s = .ok (v, s') →
      s'.good = true ∧ ∀ t, readList fuel (s.withSuffix t) = .ok (v, s'.withSuffix t)) := by
  intro fuel
  induction fuel with
  | zero =>
    constructor
    · intro s v s' _ h
      rw [readParse] at h
      cases h
    · intro s v s' _ h
      rw [readList] at h
      cases h
  | succ n ih =>
    obtain ⟨ihP, ihL⟩ := ih
    constructor
    · intro s v s' hg h hg'
      rcases readParse_step_withSuffix n ihL s v s' hg h with ⟨_, k⟩ | ⟨k, _⟩
      · exact k
      · rw [hg'] at k
        cases k
    · intro s v s' hg h
      rw [readList] at h
      cases hws : s.ws.eofbit with
      | true => simp [hws] at h
      | false =>
        simp only [hws, Bool.false_eq_true, if_false] at h
        have hw := fun t => IStream.ws_withSuffix s t hg hws
        obtain ⟨_, w2, w3⟩ := hw []
        have hget := fun t => IStream.get_withSuffix s.ws t w2 w3
        have g2 := (hget []).2.1
        have gA : ∀ t, ((s.withSuffix t).ws).get.1 = s.ws.get.1 := fun t => by
          rw [(hw t).1, (hget t).1]
        have gB : ∀ t, ((s.withSuffix t).ws).get.2 = s.ws.get.2.withSuffix t := fun t => by
          rw [(hw t).1, (hget t).1]
        have gE : ∀ t, ((s.withSuffix t).ws).eofbit = false := fun t => by
          rw [(hw t).1]; exact hws
        have gc := IStream.get_consumed s.ws w2 w3
        cases hclose : (s.ws.get.1 == ')') with
        | true =>
          simp only [hclose, if_true, Res.ok.injEq, Prod.mk.injEq] at h
          obtain ⟨rfl, rfl⟩ := h
          refine ⟨g2, fun t => ?_⟩
          rw [readList]
          simp only [gE, gA, gB, hclose, Bool.false_eq_true, if_false, if_true]
        | false =>
          simp only [hclose, Bool.false_eq_true, if_false] at h
          cases hdot : (s.ws.get.1 == '.') with
          | true =>
            simp only [hdot, if_true] at h
            cases hp : readParse n s.ws.get.2 with
            | throw m => simp [hp] at h
            | fault m => simp [hp] at h
            | external m => simp [hp] at h
            | timeout => simp [hp] at h
            | ok r =>
              obtain ⟨cdr, s3⟩ := r
              simp only [hp] at h
              cases hcl : (s3.ws.get.1 != ')') with
              | true => simp [hcl] at h
              | false =>
                simp only [hcl, Bool.false_eq_true, if_false, Res.ok.injEq, Prod.mk.injEq] at h
                obtain ⟨rfl, rfl⟩ := h
                have hg3 : s3.good = true := by
                  by_contra hb
                  have hb' : s3.good = false := by simpa using hb
                  rw [(IStream.ws_get_bad s3 hb').1] at hcl
                  exact absurd hcl (by decide)
                have he3 : s3.ws.eofbit = false := by
                  cases he : s3.ws.eofbit with
                  | false => rfl
                  | true =>
                    have hb := IStream.ws_eof s3 hg3 he
                    rw [(IStream.get_bad _ hb).1] at hcl
                    exact absurd hcl (by decide)
                have hw3 := fun t => IStream.ws_withSuffix s3 t hg3 he3
                obtain ⟨_, x2, x3⟩ := hw3 []
                have hget3 := fun t => IStream.get_withSuffix s3.ws t x2 x3
                refine ⟨(hget3 []).2.1, fun t => ?_⟩
                rw [readList]
                simp only [gE, gA, gB, hclose, hdot, Bool.false_eq_true, if_false, if_true,
                  ihP _ _ _ g2 hp hg3 t, (hw3 t).1, (hget3 t).1, hcl]
          | false =>
            simp only [hdot, Bool.false_eq_true, if_false] at h
            have hu := fun t => IStream.unget_withSuffix s.ws.get.2 t g2 gc
            cases hp : readParse n s.ws.get.2.unget with
            | throw m => simp [hp] at h
            | fault m => simp [hp] at h
            | external m => simp [hp] at h
            | timeout => simp [hp] at h
            | ok r =>
              obtain ⟨car, s4⟩ := r
              simp only [hp] at h
              cases hl : readList n s4 with
              | throw m => simp [hl] at h
              | fault m => simp [hl] at h
              | external m => simp [hl] at h
              | timeout => simp [hl] at h
              | ok r2 =>
                obtain ⟨cdr, s5⟩ := r2
                simp only [hl, Res.ok.injEq, Prod.mk.injEq] at h
                obtain ⟨rfl, rfl⟩ := h
                have hg4 : s4.good = true := by
                  by_contra hb
                  exact readList_bad n s4 (by simpa using hb) _ hl
                obtain ⟨l1, l2⟩ := ihL _ _ _ hg4 hl
                refine ⟨l1, fun t => ?_⟩
                rw [readList]
                simp only [gE, gA, gB, hclose, hdot, Bool.false_eq_true, if_false,
                  (hu t).1, ihP _ _ _ (hu []).2.1 hp hg4 t, l2 t]

theorem IStream.ws_withConsumed (s : IStream) (p : List Char) :
    (s.withConsumed p).ws = s.ws.withConsumed p := by
  obtain ⟨cs, r, e, f⟩ := s
  cases e <;> cases f <;> simp [IStream.ws, IStream.withConsumed, IStream.good]

theorem IStream.get_withConsumed (s : IStream) (p : List Char) :
    (s.withConsumed p).get.1 = s.get.1 ∧ (s.withConsumed p).get.2 = s.get.2.withConsumed p := by
  obtain ⟨cs, r, e, f⟩ := s
  cases r <;> cases e <;> cases f <;> simp [IStream.get, IStream.withConsumed, IStream.good]

theorem IStream.peek_withConsumed (s : IStream) (p : List Char) :
    (s.withConsumed p).peek.1 = s.peek.1 ∧ (s.withConsumed p).peek.2 = s.peek.2.withConsumed p := by
  obtain ⟨cs, r, e, f⟩ := s
  cases r <;> cases e <;> cases f <;> simp [IStream.peek, IStream.withConsumed, IStream.good]

theorem IStream.unget_withConsumed (s : IStream) (p : List Char) (hc : s.consumed ≠ []) :
    (s.withConsumed p).unget = s.unget.withConsumed p := by
  obtain ⟨cs, r, e, f⟩ := s
  cases cs with
  | nil => exact absurd rfl hc
  | cons a l => cases f <;> simp [IStream.unget, IStream.withConsumed]

theorem IStream.get_consumed_ne (s : IStream) (hc : s.consumed ≠ []) : s.get.2.consumed ≠ [] := by
  obtain ⟨cs, r, e, f⟩ := s
  cases r <;> cases e <;> cases f <;> simp [IStream.get, IStream.good] <;> exact hc

theorem IStream.readInt_withConsumed (s : IStream) (p : List Char) :
    (s.withConsumed p).readInt.1 = s.readInt.1 ∧
      (s.withConsumed p).readInt.2 = s.readInt.2.withConsumed p := by
  unfold IStream.readInt
  rw [IStream.ws_withConsumed]
  have hgood : (s.withConsumed p).good = s.good := rfl
  rw [hgood]
  cases hg : s.good with
  | false => exact ⟨rfl, rfl⟩
  | true =>
    simp only [if_true]
    have he : (s.ws.withConsumed p).eofbit = s.ws.eofbit := rfl
    have hr : (s.ws.withConsumed p).rest = s.ws.rest := rfl
    have hc : (s.ws.withConsumed p).consumed = s.ws.consumed ++ p := rfl
    rw [he, hr, hc]
    cases hws : s.ws.eofbit with
    | true => exact ⟨rfl, rfl⟩
    | false =>
      simp only [Bool.false_eq_true, if_false]
      split_ifs <;> simp [IStream.withConsumed]

theorem skipLine_withConsumed (p : List Char) : ∀ (fuel : Nat) (c : Char) (s : IStream),
    skipLine fuel c (s.withConsumed p) =
      (skipLine fuel c s).bind fun r => .ok (r.1, r.2.withConsumed p) := by
  intro fuel
  induction fuel with
  | zero =>
    intro c s
    rw [skipLine, skipLine]
    split <;> rfl
  | succ n ih =>
    intro c s
    rw [skipLine, skipLine]
    split
    · rw [(IStream.get_withConsumed s p).1, (IStream.get_withConsumed s p).2]
      exact ih _ _
    · rfl

theorem commentLoop_withConsumed (p : List Char) : ∀ (fuel : Nat) (c : Char) (s : IStream),
    commentLoop fuel c (s.withConsumed p) =
      (commentLoop fuel c s).bind fun r => .ok (r.withConsumed p) := by
  intro fuel
  induction fuel with
  | zero =>
    intro c s
    rw [commentLoop, commentLoop]
    split <;> rfl
  | succ n ih =>
    intro c s
    rw [commentLoop, commentLoop]
    split
    · rw [skipLine_withConsumed]
      cases skipLine n c s with
      | ok r =>
        obtain ⟨c1, s1⟩ := r
        simp only [Res.bind]
        rw [IStream.ws_withConsumed, (IStream.peek_withConsumed _ p).1,
          (IStream.peek_withConsumed _ p).2]
        exact ih _ _
      | throw m => rfl
      | fault m => rfl
      | external m => rfl
      | timeout => rfl
    · rfl

theorem commentSkip_withConsumed (p : List Char) (fuel : Nat) (s : IStream) :
    commentSkip fuel (s.withConsumed p) =
      (commentSkip fuel s).bind fun r => .ok (r.withConsumed p) := by
  unfold commentSkip
  rw [IStream.ws_withConsumed, (IStream.peek_withConsumed _ p).1, (IStream.peek_withConsumed _ p).2]
  exact commentLoop_withConsumed p _ _ _

theorem readStringLoop_withConsumed (p : List Char) : ∀ (fuel : Nat) (c : Char) (s : IStream)
    (acc : List Char), readStringLoop fuel c (s.withConsumed p) acc =
      (readStringLoop fuel c s acc).bind fun r => .ok (r.1, r.2.withConsumed p) := by
  intro fuel
  induction fuel with
  | zero =>
    intro c s acc
    rw [readStringLoop, readStringLoop]
    split <;> rfl
  | succ n ih =>
    intro c s acc
    rw [readStringLoop, readStringLoop]
    split
    · simp only [(IStream.get_withConsumed s p).1, (IStream.get_withConsumed s p).2]
      cases hbs : (c == '\\') with
      | true =>
        simp only [if_true]
        have he : (s.get.2.withConsumed p).eofbit = s.get.2.eofbit := rfl
        rw [he]
        split
        · rfl
        · rw [(IStream.get_withConsumed _ p).1, (IStream.get_withConsumed _ p).2]
          exact ih _ _ _
      | false =>
        simp only [Bool.false_eq_true, if_false]
        have he : (s.withConsumed p).eofbit = s.eofbit := rfl
        rw [he]
        split
        · rfl
        · rw [(IStream.get_withConsumed _ p).1, (IStream.get_withConsumed _ p).2]
          exact ih _ _ _
    · rfl

theorem readString_withConsumed (p : List Char) (fuel : Nat) (s : IStream) :
    readString fuel (s.withConsumed p) =
      (readString fuel s).bind fun r => .ok (r.1, r.2.withConsumed p) := by
  unfold readString
  rw [(IStream.get_withConsumed _ p).1, (IStream.get_withConsumed _ p).2]
  exact readStringLoop_withConsumed p _ _ _ _

theorem readSymbolLoop_withConsumed (p : List Char) : ∀ (room : Nat) (c : Char) (s : IStream)
    (acc : List Char), readSymbolLoop room c (s.withConsumed p) acc =
      (readSymbolLoop room c s acc).bind fun r => .ok (r.1, r.2.withConsumed p) := by
  intro room
  induction room with
  | zero =>
    intro c s acc
    rw [readSymbolLoop, readSymbolLoop]
    have he : (s.withConsumed p).eofbit = s.eofbit := rfl
    rw [he]
    split <;> rfl
  | succ k ih =>
    intro c s acc
    rw [readSymbolLoop, readSymbolLoop]
    have he : (s.withConsumed p).eofbit = s.eofbit := rfl
    rw [he]
    split
    · simp only [(IStream.get_withConsumed s p).1, (IStream.get_withConsumed s p).2]
      exact ih _ _ _
    · rfl

theorem readSymbolLoop_consumed : ∀ (room : Nat) (c : Char) (s : IStream) (acc name : List Char)
    (s1 : IStream), s.consumed ≠ [] → readSymbolLoop room c s acc = .ok (name, s1) →
    s1.consumed ≠ [] := by
  intro room
  induction room with
  | zero =>
    intro c s acc name s1 hc h
    rw [readSymbolLoop] at h
    split at h
    · cases h
    · simp only [Res.ok.injEq, Prod.mk.injEq] at h
      rw [← h.2]
      exact hc
  | succ k ih =>
    intro c s acc name s1 hc h
    rw [readSymbolLoop] at h
    split at h
    · exact ih _ _ _ _ _ (IStream.get_consumed_ne s hc) h
    · simp only [Res.ok.injEq, Prod.mk.injEq] at h
      rw [← h.2]
      exact hc

theorem readSymbol_withConsumed (p : List Char) (c : Char) (s : IStream) (hc : s.consumed ≠ []) :
    readSymbol c (s.withConsumed p) =
      (readSymbol c s).bind fun r => .ok (r.1, r.2.withConsumed p) := by
  unfold readSymbol
  rw [readSymbolLoop_withConsumed]
  cases hl : readSymbolLoop 512 c s [] with
  | ok r =>
    obtain ⟨name, s1⟩ := r
    have hc1 := readSymbolLoop_consumed 512 c s [] name s1 hc hl
    simp only [Res.bind]
    split
    · rfl
    · split
      · rfl
      · rw [IStream.unget_withConsumed _ p hc1]
  | throw m => rfl
  | fault m => rfl
  | external m => rfl
  | timeout => rfl

theorem readInteger_withConsumed (p : List Char) (s : IStream) (hc : s.consumed ≠ []) :
    readInteger (s.withConsumed p) =
      (readInteger s).bind fun r => .ok (r.1, r.2.withConsumed p) := by
  unfold readInteger
  rw [IStream.unget_withConsumed _ p hc]
  have h1 := (IStream.readInt_withConsumed s.unget p).1
  have h2 := (IStream.readInt_withConsumed s.unget p).2
  generalize (s.unget.withConsumed p).readInt = a at h1 h2
  generalize s.unget.readInt = b at h1 h2
  obtain ⟨a1, a2⟩ := a
  obtain ⟨b1, b2⟩ := b
  simp only at h1 h2
  subst h1 h2
  cases a1 <;> rfl

/-- The reader does not depend on what was extracted before the form: with the text `p`
extracted earlier, the same form is read and the same stream is left. -/
theorem read_withConsumed (p : List Char) : ∀ (fuel : Nat),
    (∀ (s : IStream) (v : Base_Object) (s' : IStream), s.good = true →
      readParse fuel s = .ok (v, s') →
      readParse fuel (s.withConsumed p) = .ok (v, s'.withConsumed p)) ∧
    (∀ (s : IStream) (v : Base_Object) (s' : IStream), s.good = true →
      readList fuel s = .ok (v, s') →
      readList fuel (s.withConsumed p) = .ok (v, s'.withConsumed p)) := by
  intro fuel
  induction fuel with
  | zero =>
    constructor
    · intro s v s' _ h
      rw [readParse] at h
      cases h
    · intro s v s' _ h
      rw [readList] at h
      cases h
  | succ n ih =>
    obtain ⟨ihP, ihL⟩ := ih
    constructor
    · intro s v s' hg h
      rw [readParse] at h ⊢
      rw [commentSkip_withConsumed]
      cases hcs : commentSkip n s with
      | throw m => simp [hcs] at h
      | fault m => simp [hcs] at h
      | external m => simp [hcs] at h
      | timeout => simp [hcs] at h
      | ok s1 =>
        simp only [hcs, Res.bind] at h ⊢
        have he' : (s1.withConsumed p).eofbit = s1.eofbit := rfl
        rw [he']
        cases he : s1.eofbit with
        | true => simp [he] at h
        | false =>
          simp only [he, Bool.false_eq_true, if_false] at h ⊢
          obtain ⟨⟨c1, c2, c3⟩, _⟩ := commentSkip_withSuffix [] n s s1 hg hcs he
          have g2 := (IStream.get_withSuffix s1 [] c1 c2).2.1
          have gc := IStream.get_consumed s1 c1 c2
          simp only [(IStream.get_withConsumed s1 p).1, (IStream.get_withConsumed s1 p).2,
            (IStream.peek_withConsumed s1.get.2 p).1, (IStream.peek_withConsumed s1.get.2 p).2]
          have gpc : s1.get.2.peek.2.consumed ≠ [] := by
            generalize s1.get.2 = u at gc
            obtain ⟨cs, r, e, f⟩ := u
            cases r <;> cases e <;> cases f <;> simp [IStream.peek, IStream.good] <;> exact gc
          cases hparen : (s1.get.1 == '(') with
          | true =>
            simp only [hparen, if_true] at h ⊢
            exact ihL _ _ _ g2 h
          | false =>
            simp only [hparen, Bool.false_eq_true, if_false] at h ⊢
            cases hdig : isDigitChar s1.get.1 with
            | true =>
              simp only [hdig, if_true] at h ⊢
              rw [readInteger_withConsumed p _ gc, h]
              rfl
            | false =>
              simp only [hdig, Bool.false_eq_true, if_false] at h ⊢
              cases hmd : (s1.get.1 == '-' &&
                  (s1.get.2.peek.1.map isDigitChar == some true)) with
              | true =>
                simp only [hmd, if_true] at h ⊢
                rw [readInteger_withConsumed p _ gpc, h]
                rfl
              | false =>
                simp only [hmd, Bool.false_eq_true, if_false] at h ⊢
                have hs3 : (if (s1.get.1 == '-') = true then s1.get.2.peek.2.withConsumed p
                    else s1.get.2.withConsumed p) =
                    (if (s1.get.1 == '-') = true then s1.get.2.peek.2
                      else s1.get.2).withConsumed p := by
                  split <;> rfl
                have hs3c : (if (s1.get.1 == '-') = true then s1.get.2.peek.2
                      else s1.get.2).consumed ≠ [] := by
                  split
                  · exact gpc
                  · exact gc
                rw [hs3]
                cases hq : (s1.get.1 == '"') with
                | true =>
                  simp only [hq, if_true] at h ⊢
                  rw [readString_withConsumed, h]
                  rfl
                | false =>
                  simp only [hq, Bool.false_eq_true, if_false] at h ⊢
                  rw [readSymbol_withConsumed p _ _ hs3c, h]
                  rfl
    · intro s v s' hg h
      rw [readList] at h ⊢
      simp only [IStream.ws_withConsumed, (IStream.get_withConsumed s.ws p).1,
        (IStream.get_withConsumed s.ws p).2]
      have he' : (s.ws.withConsumed p).eofbit = s.ws.eofbit := rfl
      rw [he']
      cases hws : s.ws.eofbit with
      | true => simp [hws] at h
      | false =>
        simp only [hws, Bool.false_eq_true, if_false] at h ⊢
        obtain ⟨_, w2, w3⟩ := IStream.ws_withSuffix s [] hg hws
        have g2 := (IStream.get_withSuffix s.ws [] w2 w3).2.1
        have gc := IStream.get_consumed s.ws w2 w3
        cases hclose : (s.ws.get.1 == ')') with
        | true =>
          simp only [hclose, if_true, Res.ok.injEq, Prod.mk.injEq] at h ⊢
          obtain ⟨rfl, rfl⟩ := h
          exact ⟨rfl, rfl⟩
        | false =>
          simp only [hclose, Bool.false_eq_true, if_false] at h ⊢
          cases hdot : (s.ws.get.1 == '.') with
          | true =>
            simp only [hdot, if_true] at h ⊢
            cases hp : readParse n s.ws.get.2 with
            | throw m => simp [hp] at h
            | fault m => simp [hp] at h
            | external m => simp [hp] at h
            | timeout => simp [hp] at h
            | ok r =>
              obtain ⟨cdr, s3⟩ := r
              simp only [hp] at h
              simp only [ihP _ _ _ g2 hp, IStream.ws_withConsumed,
                (IStream.get_withConsumed s3.ws p).1, (IStream.get_withConsumed s3.ws p).2]
              cases hcl : (s3.ws.get.1 != ')') with
              | true => simp [hcl] at h
              | false =>
                simp only [hcl, Bool.false_eq_true, if_false, Res.ok.injEq, Prod.mk.injEq] at h ⊢
                obtain ⟨rfl, rfl⟩ := h
                exact ⟨rfl, rfl⟩
          | false =>
            simp only [hdot, Bool.false_eq_true, if_false] at h ⊢
            have hu := IStream.unget_withSuffix s.ws.get.2 [] g2 gc
            rw [IStream.unget_withConsumed _ p gc]
            cases hp : readParse n s.ws.get.2.unget with
            | throw m => simp [hp] at h
            | fault m => simp [hp] at h
            | external m => simp [hp] at h
            | timeout => simp [hp] at h
            | ok r =>
              obtain ⟨car, s4⟩ := r
              simp only [hp] at h
              cases hl : readList n s4 with
              | throw m => simp [hl] at h
              | fault m => simp [hl] at h
              | external m => simp [hl] at h
              | timeout => simp [hl] at h
              | ok r2 =>
                obtain ⟨cdr, s5⟩ := r2
                simp only [hl, Res.ok.injEq, Prod.mk.injEq] at h
                obtain ⟨rfl, rfl⟩ := h
                have hg4 : s4.good = true := by
                  by_contra hb
                  exact readList_bad n s4 (by simpa using hb) _ hl
                simp only [ihP _ _ _ hu.2.1 hp, ihL _ _ _ hg4 hl]

theorem takeWhile_dropWhile_self (p : Char → Bool) (xs : List Char) :
    (xs.dropWhile p).takeWhile p = [] ∧ (xs.dropWhile p).dropWhile p = xs.dropWhile p := by
  induction xs with
  | nil => simp
  | cons x xs ih =>
    by_cases hx : p x = true
    · simp only [List.dropWhile_cons, hx, if_true]
      exact ih
    · simp [List.dropWhile_cons, List.takeWhile_cons, hx]

theorem IStream.ws_ws (s : IStream) (hg : s.good = true) (he : s.ws.eofbit = false) :
    s.ws.ws = s.ws := by
  obtain ⟨cs, r, e, f⟩ := s
  simp only [IStream.ws, hg, if_true] at he ⊢
  obtain ⟨t1, t2⟩ := takeWhile_dropWhile_self isspace r
  simp [IStream.good, he, t1, t2]

theorem readParse_ws (fuel : Nat) (s : IStream) (hg : s.good = true)
    (he : s.ws.eofbit = false) : readParse fuel s.ws = readParse fuel s := by
  cases fuel with
  | zero => rw [readParse, readParse]
  | succ n =>
    rw [readParse, readParse]
    unfold commentSkip
    rw [IStream.ws_ws s hg he]

theorem readParse_ws_eof (fuel : Nat) (s : IStream) (hg : s.good = true)
    (he : s.ws.eofbit = true) (r : Base_Object × IStream) : readParse fuel s ≠ .ok r := by
  intro h
  cases fuel with
  | zero => rw [readParse] at h; cases h
  | succ n =>
    rw [readParse] at h
    unfold commentSkip at h
    have hbad := IStream.ws_eof s hg he
    obtain ⟨p1, p2⟩ := IStream.peek_bad _ hbad
    rw [p1] at h
    simp only [Option.getD_none, commentLoop_not_semi _ _ _ (show (eofChar == ';') = false by
      decide), p2, he, if_true] at h
    cases h

theorem readParse_close (fuel : Nat) (cs l : List Char) (r : Base_Object × IStream) :
    readParse fuel ⟨cs, ')' :: l, false, false⟩ ≠ .ok r := by
  intro h
  cases fuel with
  | zero => rw [readParse] at h; cases h
  | succ n =>
    rw [readParse] at h
    unfold commentSkip at h
    have e1 : (IStream.ws ⟨cs, ')' :: l, false, false⟩) = ⟨cs, ')' :: l, false, false⟩ := rfl
    have e2 : (IStream.peek ⟨cs, ')' :: l, false, false⟩) =
        (some ')', ⟨cs, ')' :: l, false, false⟩) := rfl
    rw [e1, e2] at h
    have hcl : ∀ (f : Nat) (s : IStream), commentLoop f ')' s = .ok s :=
      fun f s => commentLoop_not_semi f ')' s (by decide)
    simp only [Option.getD_some, hcl] at h
    have e3 : (IStream.get ⟨cs, ')' :: l, false, false⟩) =
        (')', ⟨')' :: cs, l, false, false⟩) := rfl
    rw [e3] at h
    simp only [Bool.false_eq_true, if_false, show (')' == '(') = false by decide,
      show isDigitChar ')' = false by decide, show (')' == '-') = false by decide,
      show (')' == '"') = false by decide, Bool.false_and] at h
    unfold readSymbol at h
    rw [readSymbolLoop.eq_def] at h
    simp [show isSymbolChar ')' = false by decide] at h

theorem evalTop_quoteForm (k : Nat) (W : World) (x : Base_Object) :
    Env.evalTop (k + 2) W 0 (quoteForm x) = .ok (x, W) := rfl

theorem dropWhile_head_not (p : Char → Bool) (xs : List Char) (c : Char) (l : List Char)
    (h : xs.dropWhile p = c :: l) : p c = false := by
  induction xs with
  | nil => simp at h
  | cons x xs ih =>
    by_cases hx : p x = true
    · simp only [List.dropWhile_cons, hx, if_true] at h
      exact ih h
    · simp only [List.dropWhile_cons, hx, if_false] at h
      cases h
      simpa using hx

theorem readList_ws (fuel : Nat) (s : IStream) (hg : s.good = true)
    (he : s.ws.eofbit = false) : readList fuel s.ws = readList fuel s := by
  cases fuel with
  | zero => rw [readList, readList]
  | succ n =>
    rw [readList, readList]
    simp only [IStream.ws_ws s hg he]

/-- One element of a list: at a character that is neither blank, `)` nor `.`, `readList` reads
a form and then the rest of the list. -/
theorem readList_elem (n : Nat) (cs : List Char) (c : Char) (l : List Char)
    (hsp : isspace c = false) (hc1 : (c == ')') = false) (hc2 : (c == '.') = false)
    (car cdr : Base_Object) (s4 s5 : IStream)
    (h1 : readParse n ⟨cs, c :: l, false, false⟩ = .ok (car, s4))
    (h2 : readList n s4 = .ok (cdr, s5)) :
    readList (n + 1) ⟨cs, c :: l, false, false⟩ = .ok (.cons car cdr, s5) := by
  rw [readList]
  have e1 : (IStream.ws ⟨cs, c :: l, false, false⟩) = ⟨cs, c :: l, false, false⟩ := by
    simp [IStream.ws, IStream.good, List.takeWhile_cons, List.dropWhile_cons, hsp]
  have e2 : (IStream.get ⟨cs, c :: l, false, false⟩) = (c, ⟨c :: cs, l, false, false⟩) := rfl
  have e3 : (IStream.unget ⟨c :: cs, l, false, false⟩) = ⟨cs, c :: l, false, false⟩ := rfl
  simp only [e1, e2, e3, hc1, hc2, h1, h2, Bool.false_eq_true, if_false]

theorem readList_end (n : Nat) (cs : List Char) :
    readList (n + 1) ⟨cs, [')'], false, false⟩ =
      .ok (registerSymbol "null", ⟨')' :: cs, [], false, false⟩) := by
  rw [readList]
  rfl

theorem readParse_quote_symbol (n : Nat) (T : List Char) :
    readParse (n + 1) ⟨['('], "quote ".data ++ T, false, false⟩ =
      .ok (registerSymbol "quote", ⟨"etouq(".data, ' ' :: T, false, false⟩) := by
  rw [readParse]
  unfold commentSkip
  have e1 : (IStream.ws ⟨['('], "quote ".data ++ T, false, false⟩) =
      ⟨['('], "quote ".data ++ T, false, false⟩ := rfl
  have e2 : (IStream.peek ⟨['('], "quote ".data ++ T, false, false⟩) =
      (some 'q', ⟨['('], "quote ".data ++ T, false, false⟩) := rfl
  have hcl : ∀ (f : Nat) (s : IStream), commentLoop f 'q' s = .ok s :=
    fun f s => commentLoop_not_semi f 'q' s (by decide)
  rw [e1, e2]
  simp only [Option.getD_some, hcl]
  rfl

theorem readParse_quote_open (n : Nat) (X : List Char) :
    readParse (n + 1) (IStream.ofList (quoteText X)) =
      readList n ⟨['('], "quote ".data ++ (X ++ [')']), false, false⟩ := by
  rw [readParse]
  unfold commentSkip
  have e0 : IStream.ofList (quoteText X) =
      ⟨[], '(' :: ("quote ".data ++ (X ++ [')'])), false, false⟩ := by
    simp [IStream.ofList, quoteText]
  have e1 : (IStream.ws ⟨[], '(' :: ("quote ".data ++ (X ++ [')'])), false, false⟩) =
      ⟨[], '(' :: ("quote ".data ++ (X ++ [')'])), false, false⟩ := rfl
  have e2 : (IStream.peek ⟨[], '(' :: ("quote ".data ++ (X ++ [')'])), false, false⟩) =
      (some '(', ⟨[], '(' :: ("quote ".data ++ (X ++ [')'])), false, false⟩) := rfl
  have hcl : ∀ (f : Nat) (s : IStream), commentLoop f '(' s = .ok s :=
    fun f s => commentLoop_not_semi f '(' s (by decide)
  rw [e0, e1, e2]
  simp only [Option.getD_some, hcl]
  rfl

/-- A form that is read from the whole of `X` is read in the same way as the last element of a
list, when `X` is followed by the closing parenthesis. -/
theorem readList_last_elem (X : List Char) (fuel : Nat) (x : Base_Object) (s' : IStream)
    (P : List Char)
    (hread : readParse fuel (IStream.ofList X) = .ok (x, s'))
    (hall : s'.rest = [])
    (hflags : ¬ (s'.eofbit = true ∧ s'.failbit = true))
    (hdot : (X.dropWhile isspace).head? ≠ some '.') :
    readList (fuel + 1) ⟨P, ' ' :: (X ++ [')']), false, false⟩ =
      .ok (.cons x (registerSymbol "null"),
        ⟨')' :: (s'.consumed ++ ' ' :: P), [], false, false⟩) := by
  cases hX' : X.dropWhile isspace with
  | nil =>
    exfalso
    refine readParse_ws_eof fuel (IStream.ofList X) rfl ?_ _ hread
    simp [IStream.ws, IStream.ofList, IStream.good, hX']
  | cons c l =>
    have hsp := dropWhile_head_not isspace X c l hX'
    have hU : (IStream.ofList X).ws =
        ⟨(X.takeWhile isspace).reverse ++ [], c :: l, false, false⟩ := by
      simp [IStream.ws, IStream.ofList, IStream.good, hX']
    have hUe : (IStream.ofList X).ws.eofbit = false := by rw [hU]
    have hreadU : readParse fuel (IStream.ofList X).ws = .ok (x, s') := by
      rw [readParse_ws fuel (IStream.ofList X) rfl hUe]; exact hread
    rw [hU] at hreadU
    have hc1 : (c == ')') = false := by
      cases h : (c == ')') with
      | false => rfl
      | true =>
        have hc := eq_of_beq h
        subst hc
        exact absurd hreadU (readParse_close _ _ _ _)
    have hc2 : (c == '.') = false := by
      cases h : (c == '.') with
      | false => rfl
      | true =>
        have hc := eq_of_beq h
        subst hc
        rw [hX'] at hdot
        exact absurd rfl hdot
    have hctx : (IStream.ws ⟨P, ' ' :: (X ++ [')']), false, false⟩) =
        ⟨(X.takeWhile isspace).reverse ++ ' ' :: P, c :: (l ++ [')']), false, false⟩ := by
      obtain ⟨d1, d2⟩ := takeWhile_dropWhile_append isspace X [')'] (by rw [hX']; simp)
      simp [IStream.ws, IStream.good, List.takeWhile_cons, List.dropWhile_cons,
        show isspace ' ' = true by decide, d1, d2, hX']
    rw [← readList_ws (fuel + 1) ⟨P, ' ' :: (X ++ [')']), false, false⟩ rfl (by rw [hctx]), hctx]
    have hpre := (read_withConsumed (' ' :: P) fuel).1
      ⟨(X.takeWhile isspace).reverse ++ [], c :: l, false, false⟩ x s' rfl hreadU
    cases fuel with
    | zero => rw [readParse] at hread; cases hread
    | succ n =>
      have hstep := readParse_step_withSuffix n (read_withSuffix n).2
        (IStream.withConsumed ⟨(X.takeWhile isspace).reverse ++ [], c :: l, false, false⟩ (' ' :: P))
        x (s'.withConsumed (' ' :: P)) rfl hpre
      have hfin : readParse (n + 1)
          ⟨(X.takeWhile isspace).reverse ++ ' ' :: P, c :: (l ++ [')']), false, false⟩ =
          .ok (x, ⟨s'.consumed ++ ' ' :: P, [')'], false, false⟩) := by
        have hS : ∀ t, (IStream.withSuffix (IStream.withConsumed
            ⟨(X.takeWhile isspace).reverse ++ [], c :: l, false, false⟩ (' ' :: P)) t) =
            ⟨(X.takeWhile isspace).reverse ++ ' ' :: P, c :: (l ++ t), false, false⟩ := by
          intro t
          simp [IStream.withConsumed, IStream.withSuffix]
        rcases hstep with ⟨k1, k2⟩ | ⟨k1, k2⟩
        · have h3 := k2 [')']
          rw [hS] at h3
          rw [h3]
          obtain ⟨cs', r', e', f'⟩ := s'
          simp only at hall
          subst hall
          obtain ⟨g1, g2⟩ := (IStream.good_iff _).1 k1
          simp only [IStream.withConsumed] at g1 g2
          subst g1 g2
          rfl
        · have h3 := k2 hall hflags []
          rw [hS] at h3
          rw [h3]
          rfl
      exact readList_elem (n + 1) _ c _ hsp hc1 hc2 _ _ _ _ hfin (readList_end n _)

/-- Reading `(quote X)`. -/
theorem readParse_quoteText (X : List Char) (fuel : Nat) (x : Base_Object) (s' : IStream)
    (hread : readParse fuel (IStream.ofList X) = .ok (x, s'))
    (hall : s'.rest = [])
    (hflags : ¬ (s'.eofbit = true ∧ s'.failbit = true))
    (hdot : (X.dropWhile isspace).head? ≠ some '.') :
    readParse (fuel + 3) (IStream.ofList (quoteText X)) =
      .ok (quoteForm x, ⟨')' :: (s'.consumed ++ " etouq(".data), [], false, false⟩) := by
  rw [readParse_quote_open]
  exact readList_elem (fuel + 1) ['('] 'q' ("uote ".data ++ (X ++ [')'])) (by decide) (by decide)
    (by decide) _ _ _ _ (readParse_quote_symbol fuel _)
    (readList_last_elem X fuel x s' "etouq(".data hread hall hflags hdot)

/-- C1 (amended). Quote law: let the reader accept the text `X` as one form, `readParse`
returning the value `x` with nothing of `X` left to read, where the first character of `X`
after leading white space is not a dot and the read does not end with both `eofbit` and
`failbit` set (as it does after an integer literal outside the `int` range).  Then reading the
text `(quote X)` succeeds with three more levels of nesting, consumes it entirely, and `evalTop`
of the form read, in the initial root environment, returns `x` itself and leaves the environment
unchanged. -/
theorem quote_law (X : List Char) (fuel : Nat) (x : Base_Object) (s' : IStream)
    (hread : readParse fuel (IStream.ofList X) = .ok (x, s'))
    (hall : s'.rest = [])
    (hflags : ¬ (s'.eofbit = true ∧ s'.failbit = true))
    (hdot : (X.dropWhile isspace).head? ≠ some '.') :
    ∃ form s'', readParse (fuel + 3) (IStream.ofList (quoteText X)) = .ok (form, s'') ∧
      s''.rest = [] ∧
      ∀ k, Env.evalTop (k + 2) Env.createEnvironment 0 form = .ok (x, Env.createEnvironment) :=
  ⟨_, _, readParse_quoteText X fuel x s' hread hall hflags hdot, rfl,
    fun k => evalTop_quoteForm k _ x⟩

/-- C1, witness: the text `(a (b . 7) -3 "s")` is read as one form, and evaluating what is read
from `(quote (a (b . 7) -3 "s"))` returns that form. -/
theorem quote_law_witness :
    ∃ form s'', readParse (10 + 3) (IStream.ofList (quoteText "(a (b . 7) -3 \"s\")".data)) =
        .ok (form, s'') ∧ s''.rest = [] ∧
      ∀ k, Env.evalTop (k + 2) Env.createEnvironment 0 form =
        .ok (vectorToList [registerSymbol "a", .cons (registerSymbol "b") (.integer 7),
          .integer (-3), .string "s"], Env.createEnvironment) :=
  quote_law "(a (b . 7) -3 \"s\")".data 10 _
    ⟨"(a (b . 7) -3 \"s\")".data.reverse, [], false, false⟩ (by decide!) (by decide!) (by decide!)
    (by decide!)

/-- C1, counterexample: the text `.a` is accepted by the reader as one form, the symbol `.a`,
and is consumed entirely; but in `(quote .a)` the dot is taken by `readList` as the marker of a
dotted pair, the form read is `(quote . a)`, and `evalTop` raises an error. -/
theorem quote_law_fails_for_dot_symbol :
    (readParse 30 (IStream.ofList ".a".data)).value? = some (registerSymbol ".a") ∧
    ((readParse 30 (IStream.ofList ".a".data)).bind fun x => .ok x.2.rest) = .ok [] ∧
    (readParse 30 (IStream.ofList (quoteText ".a".data))).value? =
      some (.cons (registerSymbol "quote") (registerSymbol "a")) ∧
    ((readParse 30 (IStream.ofList (quoteText ".a".data))).bind fun x =>
      Env.evalTop 30 Env.createEnvironment 0 x.1) = .throw "Evaluated unresolvable symbol" := by
  decide!

/-! ## C2: reading printed text back -/

theorem digitsValue_append (ds : List Char) (d : Char) :
    digitsValue (ds ++ [d]) = digitsValue ds * 10 + (d.toNat - '0'.toNat) := by
  simp [digitsValue, List.foldl_append]

theorem digitChar_spec (k : Nat) (h : k < 10) :
    isDigitChar (digitChar k) = true ∧ (digitChar k).toNat - '0'.toNat = k := by
  interval_cases k <;> decide

theorem printNatAux_spec : ∀ (fuel n : Nat) (acc : List Char), n < fuel →
    ∃ ds, printNatAux fuel n acc = ds ++ acc ∧ ds ≠ [] ∧ ds.all isDigitChar = true ∧
      digitsValue ds = n := by
  intro fuel
  induction fuel with
  | zero => intro n acc h; omega
  | succ f ih =>
    intro n acc h
    obtain ⟨d1, d2⟩ := digitChar_spec (n % 10) (Nat.mod_lt _ (by decide))
    rw [printNatAux]
    by_cases h0 : n / 10 = 0
    · simp only [h0, if_true]
      refine ⟨[digitChar (n % 10)], rfl, by simp, by simp [d1], ?_⟩
      have : digitsValue [digitChar (n % 10)] = (digitChar (n % 10)).toNat - '0'.toNat := by
        simp [digitsValue]
      rw [this, d2]
      omega
    · simp only [h0, if_false]
      obtain ⟨ds, e1, e2, e3, e4⟩ := ih (n / 10) (digitChar (n % 10) :: acc) (by omega)
      refine ⟨ds ++ [digitChar (n % 10)], by rw [e1]; simp, by simp, ?_, ?_⟩
      · simp [List.all_append, e3, d1]
      · rw [digitsValue_append, e4, d2]
        omega

theorem printNat_spec (n : Nat) :
    printNat n ≠ [] ∧ (printNat n).all isDigitChar = true ∧ digitsValue (printNat n) = n := by
  obtain ⟨ds, e1, e2, e3, e4⟩ := printNatAux_spec (n + 1) n [] (by omega)
  unfold printNat
  rw [e1, List.append_nil]
  exact ⟨e2, e3, e4⟩

theorem isDigitChar_cases (c : Char) (h : isDigitChar c = true) :
    c = '0' ∨ c = '1' ∨ c = '2' ∨ c = '3' ∨ c = '4' ∨ c = '5' ∨ c = '6' ∨ c = '7' ∨ c = '8' ∨
      c = '9' := by
  simp only [isDigitChar, Bool.and_eq_true, decide_eq_true_eq] at h
  have hc : c = Char.ofNat c.toNat := (Char.ofNat_toNat c).symm
  have h1 : '0'.toNat = 48 := rfl
  have h2 : '9'.toNat = 57 := rfl
  rw [h1, h2] at h
  obtain ⟨ha, hb⟩ := h
  generalize c.toNat = k at hc ha hb
  subst hc
  interval_cases k <;> decide

/-- What a digit is not. -/
theorem isDigitChar_not (c : Char) (h : isDigitChar c = true) :
    isspace c = false ∧ (c == ';') = false ∧ (c == '(') = false ∧ (c == '-') = false ∧
      (c == '"') = false ∧ (c == ')') = false ∧ (c == '.') = false ∧ (c == '+') = false ∧
      isSymbolChar c = true := by
  rcases isDigitChar_cases c h with h | h | h | h | h | h | h | h | h | h <;> subst h <;> decide

theorem takeWhile_dropWhile_all (p : Char → Bool) (ds u : List Char)
    (hds : ds.all p = true) (hu : ∀ d ∈ u.head?, p d = false) :
    (ds ++ u).takeWhile p = ds ∧ (ds ++ u).dropWhile p = u := by
  induction ds with
  | nil =>
    cases u with
    | nil => simp
    | cons d u =>
      have := hu d (by simp)
      simp [List.takeWhile_cons, List.dropWhile_cons, this]
  | cons x ds ih =>
    simp only [List.all_cons, Bool.and_eq_true] at hds
    obtain ⟨i1, i2⟩ := ih hds.2
    simp [List.takeWhile_cons, List.dropWhile_cons, hds.1, i1, i2]

theorem IStream.ws_nonspace (cs : List Char) (c : Char) (l : List Char) (hsp : isspace c = false) :
    IStream.ws ⟨cs, c :: l, false, false⟩ = ⟨cs, c :: l, false, false⟩ := by
  simp [IStream.ws, IStream.good, List.takeWhile_cons, List.dropWhile_cons, hsp]

theorem readInt_digits (cs ds u : List Char) (hne : ds ≠ []) (hds : ds.all isDigitChar = true)
    (hu : ∀ d ∈ u.head?, isDigitChar d = false) (hr : (digitsValue ds : Int) ≤ INT_MAX) :
    IStream.readInt ⟨cs, ds ++ u, false, false⟩ =
      (some (digitsValue ds : Int), ⟨ds.reverse ++ cs, u, u.isEmpty, false⟩) := by
  obtain ⟨t1, t2⟩ := takeWhile_dropWhile_all isDigitChar ds u hds hu
  cases ds with
  | nil => exact absurd rfl hne
  | cons d0 ds' =>
    have hd0 : isDigitChar d0 = true := by
      simp only [List.all_cons, Bool.and_eq_true] at hds
      exact hds.1
    obtain ⟨n1, _, _, n4, _, _, _, n8, _⟩ := isDigitChar_not d0 hd0
    have hws := IStream.ws_nonspace cs d0 (ds' ++ u) n1
    have hmin : ¬ ((digitsValue (d0 :: ds') : Int) < INT_MIN) := by
      have : (0 : Int) ≤ (digitsValue (d0 :: ds') : Int) := Int.ofNat_nonneg _
      unfold INT_MIN
      omega
    have hmax : ¬ ((digitsValue (d0 :: ds') : Int) > INT_MAX) := by omega
    have hneg : (some d0 == some '-') = false := by
      simpa using (by simpa using n4 : d0 ≠ '-')
    have hpos : (some d0 == some '+') = false := by
      simpa using (by simpa using n8 : d0 ≠ '+')
    unfold IStream.readInt
    simp only [List.cons_append] at t1 t2 ⊢
    rw [hws]
    simp only [IStream.good, Bool.not_false, Bool.and_self, if_true, Bool.false_eq_true,
      if_false, List.head?_cons, hneg, hpos, Bool.or_self, t1, t2, hmin, hmax,
      List.isEmpty_cons, List.append_nil, List.nil_append]

theorem readInt_neg_digits (cs ds u : List Char) (hne : ds ≠ [])
    (hds : ds.all isDigitChar = true) (hu : ∀ d ∈ u.head?, isDigitChar d = false)
    (hr : INT_MIN ≤ -(digitsValue ds : Int)) :
    IStream.readInt ⟨cs, '-' :: (ds ++ u), false, false⟩ =
      (some (-(digitsValue ds : Int)), ⟨ds.reverse ++ '-' :: cs, u, u.isEmpty, false⟩) := by
  obtain ⟨t1, t2⟩ := takeWhile_dropWhile_all isDigitChar ds u hds hu
  have hws := IStream.ws_nonspace cs '-' (ds ++ u) (by decide)
  have hmin : ¬ (-(digitsValue ds : Int) < INT_MIN) := by omega
  have hmax : ¬ (-(digitsValue ds : Int) > INT_MAX) := by
    have : (0 : Int) ≤ (digitsValue ds : Int) := Int.ofNat_nonneg _
    unfold INT_MAX
    omega
  have hemp : ds.isEmpty = false := by
    cases ds with
    | nil => exact absurd rfl hne
    | cons a b => rfl
  unfold IStream.readInt
  rw [hws]
  simp only [IStream.good, Bool.not_false, Bool.and_self, if_true, Bool.false_eq_true,
    if_false, List.head?_cons, List.tail_cons, show (some '-' == some '-') = true from rfl,
    Bool.true_or, t1, t2, hmin, hmax, hemp, List.take_succ_cons, List.take_zero,
    List.append_assoc, List.singleton_append]

theorem commentSkip_at (fuel : Nat) (cs : List Char) (c : Char) (l : List Char)
    (hsp : isspace c = false) (hsemi : (c == ';') = false) :
    commentSkip fuel ⟨cs, c :: l, false, false⟩ = .ok ⟨cs, c :: l, false, false⟩ := by
  unfold commentSkip
  rw [IStream.ws_nonspace cs c l hsp]
  exact commentLoop_not_semi fuel c _ hsemi

/-- One level of `readParse` on a stream that stands at a character that is neither blank nor
the start of a comment. -/
theorem readParse_at (f : Nat) (cs : List Char) (c : Char) (l : List Char)
    (hsp : isspace c = false) (hsemi : (c == ';') = false) :
    readParse (f + 1) ⟨cs, c :: l, false, false⟩ =
      if (c == '(') = true then readList f ⟨c :: cs, l, false, false⟩
      else if isDigitChar c = true then readInteger ⟨c :: cs, l, false, false⟩
      else if (c == '-' &&
          ((IStream.peek ⟨c :: cs, l, false, false⟩).1.map isDigitChar == some true)) = true then
        readInteger (IStream.peek ⟨c :: cs, l, false, false⟩).2
      else if (c == '"') = true then
        readString f (if (c == '-') = true then (IStream.peek ⟨c :: cs, l, false, false⟩).2
          else ⟨c :: cs, l, false, false⟩)
      else readSymbol c (if (c == '-') = true then (IStream.peek ⟨c :: cs, l, false, false⟩).2
          else ⟨c :: cs, l, false, false⟩) := by
  rw [readParse, commentSkip_at f cs c l hsp hsemi]
  rfl

theorem readParse_printInt (f : Nat) (i : Int) (h1 : INT_MIN ≤ i) (h2 : i ≤ INT_MAX)
    (cs u : List Char) (hu : ∀ d ∈ u.head?, isDigitChar d = false) :
    readParse (f + 1) ⟨cs, printInt i ++ u, false, false⟩ =
      .ok (.integer i, ⟨(printInt i).reverse ++ cs, u, u.isEmpty, false⟩) := by
  obtain ⟨p1, p2, p3⟩ := printNat_spec i.natAbs
  obtain ⟨d0, ds', hds⟩ : ∃ d0 ds', printNat i.natAbs = d0 :: ds' := by
    cases h : printNat i.natAbs with
    | nil => exact absurd h p1
    | cons a b => exact ⟨a, b, rfl⟩
  have hd0 : isDigitChar d0 = true := by
    rw [hds] at p2
    simp only [List.all_cons, Bool.and_eq_true] at p2
    exact p2.1
  obtain ⟨n1, n2, n3, n4, n5, _, _, _, _⟩ := isDigitChar_not d0 hd0
  unfold printInt
  by_cases hneg : i < 0
  · simp only [hneg, if_true, List.cons_append]
    rw [readParse_at f cs '-' _ (by decide) (by decide)]
    have hpk : (IStream.peek ⟨'-' :: cs, printNat i.natAbs ++ u, false, false⟩) =
        (some d0, ⟨'-' :: cs, printNat i.natAbs ++ u, false, false⟩) := by
      rw [hds]; rfl
    rw [hpk]
    simp only [show ('-' == '(') = false by decide, show isDigitChar '-' = false by decide,
      Bool.false_eq_true, if_false, Option.map_some', hd0, show ('-' == '-') = true by decide,
      Bool.true_and, show (some true == some true) = true by decide, if_true]
    unfold readInteger
    have hun : (IStream.unget ⟨'-' :: cs, printNat i.natAbs ++ u, false, false⟩) =
        ⟨cs, '-' :: (printNat i.natAbs ++ u), false, false⟩ := rfl
    have hval : -(digitsValue (printNat i.natAbs) : Int) = i := by
      rw [p3]; omega
    rw [hun, readInt_neg_digits cs _ u p1 p2 hu (by rw [hval]; exact h1), hval]
    simp
  · simp only [hneg, if_false]
    rw [hds, List.cons_append, readParse_at f cs d0 _ n1 n2]
    simp only [n3, hd0, Bool.false_eq_true, if_false, if_true]
    unfold readInteger
    have hun : (IStream.unget ⟨d0 :: cs, ds' ++ u, false, false⟩) =
        ⟨cs, (d0 :: ds') ++ u, false, false⟩ := rfl
    have hval : (digitsValue (printNat i.natAbs) : Int) = i := by
      rw [p3]; omega
    rw [hun, ← hds, readInt_digits cs _ u p1 p2 hu (by rw [hval]; exact h2), hval]

theorem readSymbolLoop_stop (room : Nat) (c : Char) (s : IStream) (acc : List Char)
    (h : (isSymbolChar c && !s.eofbit) = false) :
    readSymbolLoop room c s acc = .ok (acc.reverse, s) := by
  rw [readSymbolLoop.eq_def]
  simp [h]

/-- The symbol loop over a run of symbol characters that ends at a character that is not one,
or at the end of the input. -/
theorem readSymbolLoop_name : ∀ (more : List Char) (room : Nat) (c : Char) (cs u acc : List Char),
    isSymbolChar c = true → more.all isSymbolChar = true → more.length < room →
    (∀ d ∈ u.head?, isSymbolChar d = false) →
    readSymbolLoop room c ⟨cs, more ++ u, false, false⟩ acc =
      .ok (acc.reverse ++ c :: more,
        match u with
        | [] => ⟨more.reverse ++ cs, [], true, true⟩
        | d :: u' => ⟨d :: (more.reverse ++ cs), u', false, false⟩) := by
  intro more
  induction more with
  | nil =>
    intro room c cs u acc hc _ hroom hu
    obtain ⟨k, rfl⟩ : ∃ k, room = k + 1 := ⟨room - 1, by simp at hroom; omega⟩
    rw [readSymbolLoop]
    simp only [hc, Bool.not_false, Bool.and_self, if_true, List.nil_append]
    cases u with
    | nil =>
      rw [IStream.get_good_nil]
      rw [readSymbolLoop_stop _ _ _ _ (by simp)]
      simp
    | cons d u' =>
      have hd := hu d (by simp)
      have hget : (IStream.get ⟨cs, d :: u', false, false⟩) = (d, ⟨d :: cs, u', false, false⟩) :=
        rfl
      rw [hget]
      rw [readSymbolLoop_stop _ _ _ _ (by simp [hd])]
      simp
  | cons m more' ih =>
    intro room c cs u acc hc hmore hroom hu
    obtain ⟨k, rfl⟩ : ∃ k, room = k + 1 := ⟨room - 1, by simp at hroom; omega⟩
    simp only [List.all_cons, Bool.and_eq_true] at hmore
    rw [readSymbolLoop]
    simp only [hc, Bool.not_false, Bool.and_self, if_true, List.cons_append]
    have hget : (IStream.get ⟨cs, m :: (more' ++ u), false, false⟩) =
        (m, ⟨m :: cs, more' ++ u, false, false⟩) := rfl
    rw [hget]
    rw [ih k m (m :: cs) u (c :: acc) hmore.1 hmore.2 (by simp at hroom; omega) hu]
    cases u <;> simp

theorem nameOk_cons (c : Char) (more : List Char) (h : nameOk (c :: more) = true) :
    (isSymbolChar c = true ∧ more.all isSymbolChar = true ∧ more.length < 511) ∧
    (isspace c = false ∧ isDigitChar c = false ∧ (c == ';') = false ∧ (c == '"') = false) ∧
    ((c == '-') = true → ∀ m ∈ more.head?, isDigitChar m = false) := by
  simp only [nameOk, plainChar, List.all_cons, List.length_cons, Bool.and_eq_true,
    decide_eq_true_eq, Bool.not_eq_true', bne_iff_ne, ne_eq] at h
  obtain ⟨⟨⟨⟨⟨⟨a1, a2⟩, a3⟩, a4⟩, a5⟩, a6, a7⟩, a8⟩ := h
  refine ⟨⟨a1, a2, by omega⟩, ⟨a4, a5, by simpa using a6, by simpa using a7⟩, ?_⟩
  intro hm m hmem
  cases more with
  | nil => simp at hmem
  | cons x xs =>
    simp only [List.head?_cons, Option.mem_def, Option.some.injEq] at hmem
    subst hmem
    simpa [hm] using a8

theorem isSymbolChar_not (c : Char) (h : isSymbolChar c = true) :
    (c == '(') = false ∧ (c == ')') = false ∧ (c == ' ') = false := by
  simp only [isSymbolChar, Bool.and_eq_true, bne_iff_ne, ne_eq] at h
  obtain ⟨⟨⟨⟨⟨⟨a1, a2⟩, a3⟩, _⟩, _⟩, _⟩, _⟩ := h
  exact ⟨by simpa using a1, by simpa using a2, by simpa using a3⟩

/-- Reading a symbol name back: followed by a character that is not a symbol character, or by
the end of the input unless the name is a lone minus sign, the name is read as the symbol. -/
theorem readParse_name (f : Nat) (name : List Char) (hn : nameOk name = true)
    (cs u : List Char) (hu : ∀ d ∈ u.head?, isSymbolChar d = false)
    (hminus : ¬ (name = ['-'] ∧ u = [])) :
    readParse (f + 1) ⟨cs, name ++ u, false, false⟩ =
      .ok (registerSymbol (String.mk name), ⟨name.reverse ++ cs, u, false, u.isEmpty⟩) := by
  cases name with
  | nil => simp [nameOk] at hn
  | cons c more =>
    obtain ⟨⟨a1, a2, a3⟩, ⟨b1, b2, b3, b4⟩, hm⟩ := nameOk_cons c more hn
    obtain ⟨c1, _, _⟩ := isSymbolChar_not c a1
    rw [List.cons_append, readParse_at f cs c _ b1 b3]
    have hthird : (c == '-' && ((IStream.peek ⟨c :: cs, more ++ u, false, false⟩).1.map
        isDigitChar == some true)) = false ∧
        (if (c == '-') = true then (IStream.peek ⟨c :: cs, more ++ u, false, false⟩).2
          else ⟨c :: cs, more ++ u, false, false⟩) = ⟨c :: cs, more ++ u, false, false⟩ := by
      cases hc : (c == '-') with
      | false => exact ⟨rfl, rfl⟩
      | true =>
        simp only [Bool.true_and, if_true]
        cases more with
        | cons m more' =>
          have hmd := hm hc m (by simp)
          have hpk : (IStream.peek ⟨c :: cs, (m :: more') ++ u, false, false⟩) =
              (some m, ⟨c :: cs, (m :: more') ++ u, false, false⟩) := rfl
          rw [hpk]
          simp [hmd]
        | nil =>
          cases u with
          | nil =>
            have hc' := eq_of_beq hc
            subst hc'
            exact absurd ⟨rfl, rfl⟩ hminus
          | cons d u' =>
            have hd := hu d (by simp)
            have hdd : isDigitChar d = false := by
              cases hx : isDigitChar d with
              | false => rfl
              | true =>
                have := (isDigitChar_not d hx).2.2.2.2.2.2.2.2
                rw [hd] at this
                cases this
            have hpk : (IStream.peek ⟨c :: cs, [] ++ d :: u', false, false⟩) =
                (some d, ⟨c :: cs, [] ++ d :: u', false, false⟩) := rfl
            rw [hpk]
            simp [hdd]
    simp only [c1, b2, b4, hthird.1, hthird.2, Bool.false_eq_true, if_false]
    unfold readSymbol
    rw [readSymbolLoop_name more 512 c (c :: cs) u [] a1 a2 (by omega) hu]
    simp only [List.reverse_nil, List.nil_append, List.length_cons]
    rw [if_neg (by omega), if_neg (by omega)]
    cases u with
    | nil => simp [IStream.unget]
    | cons d u' => simp [IStream.unget]

theorem IStream.ws_space (cs : List Char) (c : Char) (l : List Char) (hsp : isspace c = false) :
    IStream.ws ⟨cs, ' ' :: c :: l, false, false⟩ = ⟨' ' :: cs, c :: l, false, false⟩ := by
  simp [IStream.ws, IStream.good, List.takeWhile_cons, List.dropWhile_cons, hsp,
    show isspace ' ' = true by decide]

theorem readParse_skip_space (fuel : Nat) (cs : List Char) (c : Char) (l : List Char)
    (hsp : isspace c = false) :
    readParse fuel ⟨cs, ' ' :: c :: l, false, false⟩ =
      readParse fuel ⟨' ' :: cs, c :: l, false, false⟩ := by
  have h := readParse_ws fuel ⟨cs, ' ' :: c :: l, false, false⟩ rfl
    (by rw [IStream.ws_space cs c l hsp])
  rw [IStream.ws_space cs c l hsp] at h
  exact h.symm

theorem readList_skip_space (fuel : Nat) (cs : List Char) (c : Char) (l : List Char)
    (hsp : isspace c = false) :
    readList fuel ⟨cs, ' ' :: c :: l, false, false⟩ =
      readList fuel ⟨' ' :: cs, c :: l, false, false⟩ := by
  have h := readList_ws fuel ⟨cs, ' ' :: c :: l, false, false⟩ rfl
    (by rw [IStream.ws_space cs c l hsp])
  rw [IStream.ws_space cs c l hsp] at h
  exact h.symm

theorem readList_close (n : Nat) (cs u : List Char) :
    readList (n + 1) ⟨cs, ')' :: u, false, false⟩ =
      .ok (registerSymbol "null", ⟨')' :: cs, u, false, false⟩) := by
  rw [readList]
  rfl

/-- The dotted tail of a list: after the dot a form is read, and the closing parenthesis must
follow. -/
theorem readList_dot (n : Nat) (cs r : List Char) (v : Base_Object) (cs3 u : List Char)
    (h : readParse n ⟨'.' :: cs, r, false, false⟩ = .ok (v, ⟨cs3, ')' :: u, false, false⟩)) :
    readList (n + 1) ⟨cs, '.' :: r, false, false⟩ = .ok (v, ⟨')' :: cs3, u, false, false⟩) := by
  rw [readList]
  have e1 : (IStream.ws ⟨cs, '.' :: r, false, false⟩) = ⟨cs, '.' :: r, false, false⟩ := rfl
  have e2 : (IStream.get ⟨cs, '.' :: r, false, false⟩) = ('.', ⟨'.' :: cs, r, false, false⟩) :=
    rfl
  simp only [e1, e2, h, Bool.false_eq_true, if_false, show ('.' == ')') = false by decide,
    show ('.' == '.') = true by decide, if_true]
  rfl

theorem readFuel_ge (v : Base_Object) : 2 ≤ readFuel v := by
  induction v with
  | cons a d iha ihd => simp only [readFuel]; omega
  | _ => simp [readFuel]

/-- The first character of the printed text of a value that can stand as an element of a
list. -/
theorem printObj_head (a : Base_Object) (ha : readable a = true) :
    ∃ c l, printObj a = c :: l ∧ isspace c = false ∧ (c == ')') = false ∧
      (startsWithDot a = false → (c == '.') = false) := by
  cases a with
  | integer i =>
    obtain ⟨p1, p2, _⟩ := printNat_spec i.natAbs
    rw [printObj]
    unfold printInt
    by_cases hneg : i < 0
    · simp only [hneg, if_true]
      exact ⟨'-', _, rfl, by decide, by decide, fun _ => by decide⟩
    · simp only [hneg, if_false]
      cases h : printNat i.natAbs with
      | nil => exact absurd h p1
      | cons d0 ds' =>
        rw [h] at p2
        simp only [List.all_cons, Bool.and_eq_true] at p2
        obtain ⟨n1, _, _, _, _, n6, n7, _, _⟩ := isDigitChar_not d0 p2.1
        exact ⟨d0, ds', rfl, n1, n6, fun _ => n7⟩
  | symbol s =>
    simp only [readable, Bool.and_eq_true] at ha
    rw [printObj]
    cases h : s.name.data with
    | nil =>
      rw [h] at ha
      simp [nameOk] at ha
    | cons c more =>
      rw [h] at ha
      obtain ⟨⟨a1, _, _⟩, ⟨b1, _, _, _⟩, _⟩ := nameOk_cons c more ha.2
      obtain ⟨_, c2, _⟩ := isSymbolChar_not c a1
      refine ⟨c, more, rfl, b1, c2, fun hdot => ?_⟩
      simp only [startsWithDot, h, List.head?_cons] at hdot
      cases hc : (c == '.') with
      | false => rfl
      | true =>
        have := eq_of_beq hc
        subst this
        simp at hdot
  | cons x y =>
    rw [printObj]
    exact ⟨'(', _, rfl, by decide, by decide, fun _ => by decide⟩
  | string v => simp [readable] at ha
  | proc p b e => simp [readable] at ha
  | macroObj p b e => simp [readable] at ha
  | predefined b => simp [readable] at ha

/-- The text that follows an element inside a printed list starts with a blank or with the
closing parenthesis. -/
theorem printTail_head (d : Base_Object) (u : List Char) :
    ∃ x l, printTail d ++ ')' :: u = x :: l ∧ (x = ' ' ∨ x = ')') := by
  cases d with
  | cons a y => rw [printTail]; exact ⟨' ', _, rfl, Or.inl rfl⟩
  | integer i => rw [printTail]; exact ⟨' ', _, rfl, Or.inl rfl⟩
  | string v => rw [printTail]; exact ⟨' ', _, rfl, Or.inl rfl⟩
  | proc p b e => rw [printTail]; exact ⟨' ', _, rfl, Or.inl rfl⟩
  | macroObj p b e => rw [printTail]; exact ⟨' ', _, rfl, Or.inl rfl⟩
  | predefined b => rw [printTail]; exact ⟨' ', _, rfl, Or.inl rfl⟩
  | symbol s =>
    rw [printTail]
    by_cases h : (s.name == "null") = true
    · simp only [h, if_true, List.nil_append]
      exact ⟨')', _, rfl, Or.inr rfl⟩
    · simp only [h, if_false]
      exact ⟨' ', _, rfl, Or.inl rfl⟩

/-- Reading an atom back: an integer or a symbol is read from its printed text when a
character that is not a symbol character follows, or the end of the input unless the atom is
the symbol `-`. -/
theorem readParse_print_atom (v : Base_Object) (hv : readable v = true)
    (hnc : v.isCons = false) (f : Nat) (cs u : List Char)
    (hu : ∀ d ∈ u.head?, isSymbolChar d = false)
    (hminus : ¬ (v = registerSymbol "-" ∧ u = [])) :
    ∃ e fl, readParse (f + 1) ⟨cs, printObj v ++ u, false, false⟩ =
        .ok (v, ⟨(printObj v).reverse ++ cs, u, e, fl⟩) ∧
      (u ≠ [] → e = false ∧ fl = false) := by
  cases v with
  | integer i =>
    simp only [readable, Bool.and_eq_true, decide_eq_true_eq] at hv
    have hu' : ∀ d ∈ u.head?, isDigitChar d = false := by
      intro d hd
      have h1 := hu d hd
      cases hx : isDigitChar d with
      | false => rfl
      | true =>
        have := (isDigitChar_not d hx).2.2.2.2.2.2.2.2
        rw [h1] at this
        cases this
    rw [printObj]
    refine ⟨u.isEmpty, false, readParse_printInt f i hv.1 hv.2 cs u hu', fun hne => ?_⟩
    cases u with
    | nil => exact absurd rfl hne
    | cons a b => exact ⟨rfl, rfl⟩
  | symbol s =>
    simp only [readable, Bool.and_eq_true] at hv
    obtain ⟨name, gen⟩ := s
    simp only [Option.isNone_iff_eq_none] at hv
    obtain ⟨hgen, hname⟩ := hv
    subst hgen
    rw [printObj]
    have hm : ¬ (name.data = ['-'] ∧ u = []) := by
      rintro ⟨h1, h2⟩
      apply hminus
      refine ⟨?_, h2⟩
      have : name = String.mk name.data := rfl
      rw [this, h1]
      rfl
    refine ⟨false, u.isEmpty, readParse_name f name.data hname cs u hu hm, fun hne => ?_⟩
    cases u with
    | nil => exact absurd rfl hne
    | cons a b => exact ⟨rfl, rfl⟩
  | cons x y => simp [Base_Object.isCons] at hnc
  | string v => simp [readable] at hv
  | proc p b e => simp [readable] at hv
  | macroObj p b e => simp [readable] at hv
  | predefined b => simp [readable] at hv

/-- The printed dotted tail ` . v)` of an atom `v` is read back as `v`. -/
theorem readList_print_dotted (v : Base_Object) (hv : readable v = true)
    (hnc : v.isCons = false) (g : Nat) (cs u : List Char) :
    readList (g + 2) ⟨cs, " . ".data ++ printObj v ++ ')' :: u, false, false⟩ =
      .ok (v, ⟨')' :: ((" . ".data ++ printObj v).reverse ++ cs), u, false, false⟩) := by
  obtain ⟨c, l, hcl, hsp, _, _⟩ := printObj_head v hv
  obtain ⟨e, fl, h1, h2⟩ := readParse_print_atom v hv hnc g (' ' :: '.' :: ' ' :: cs)
    (')' :: u) (by intro d hd; simp at hd; subst hd; decide) (by simp)
  obtain ⟨rfl, rfl⟩ := h2 (by simp)
  have e0 : " . ".data ++ printObj v ++ ')' :: u =
      ' ' :: '.' :: ' ' :: c :: (l ++ ')' :: u) := by
    rw [hcl]; rfl
  rw [e0, readList_skip_space _ _ _ _ (by decide)]
  have e1 : c :: (l ++ ')' :: u) = printObj v ++ ')' :: u := by rw [hcl]; rfl
  have h3 : readParse (g + 1) ⟨'.' :: ' ' :: cs, ' ' :: c :: (l ++ ')' :: u), false, false⟩ =
      .ok (v, ⟨(printObj v).reverse ++ ' ' :: '.' :: ' ' :: cs, ')' :: u, false, false⟩) := by
    rw [readParse_skip_space _ _ _ _ hsp, e1]
    exact h1
  rw [readList_dot (g + 1) (' ' :: cs) _ v _ u h3]
  simp

/-- Reading printed text back.  A readable value is read from its printed text when that text
stands in a list, followed by a blank or a closing parenthesis (a pair is read whatever
follows), and the printed rest of a list, up to its closing parenthesis, is read by `readList`
as that rest. -/
theorem read_print (v : Base_Object) :
    (readable v = true → ∀ (fuel : Nat) (cs u : List Char), readFuel v ≤ fuel →
      (v.isCons = true ∨ ∃ d u', u = d :: u' ∧ (d = ' ' ∨ d = ')')) →
      readParse fuel ⟨cs, printObj v ++ u, false, false⟩ =
        .ok (v, ⟨(printObj v).reverse ++ cs, u, false, false⟩)) ∧
    (readable v = true → ∀ (fuel : Nat) (cs u : List Char), readFuel v ≤ fuel →
      readList fuel ⟨cs, printTail v ++ ')' :: u, false, false⟩ =
        .ok (v, ⟨')' :: ((printTail v).reverse ++ cs), u, false, false⟩)) := by
  have atomCase : ∀ (v : Base_Object), v.isCons = false → readable v = true →
      ∀ (fuel : Nat) (cs u : List Char), readFuel v ≤ fuel →
      (v.isCons = true ∨ ∃ d u', u = d :: u' ∧ (d = ' ' ∨ d = ')')) →
      readParse fuel ⟨cs, printObj v ++ u, false, false⟩ =
        .ok (v, ⟨(printObj v).reverse ++ cs, u, false, false⟩) := by
    intro v hnc hv fuel cs u hf hd
    rcases hd with hd | ⟨d, u', rfl, hd⟩
    · rw [hnc] at hd; cases hd
    · have h2 := readFuel_ge v
      obtain ⟨f, rfl⟩ : ∃ f, fuel = f + 1 := ⟨fuel - 1, by omega⟩
      obtain ⟨e, fl, h1, h3⟩ := readParse_print_atom v hv hnc f cs (d :: u')
        (by intro x hx; simp at hx; subst hx; rcases hd with rfl | rfl <;> decide) (by simp)
      obtain ⟨rfl, rfl⟩ := h3 (by simp)
      exact h1
  have dotCase : ∀ (v : Base_Object), v.isCons = false → readable v = true →
      printTail v = " . ".data ++ printObj v →
      ∀ (fuel : Nat) (cs u : List Char), readFuel v ≤ fuel →
      readList fuel ⟨cs, printTail v ++ ')' :: u, false, false⟩ =
        .ok (v, ⟨')' :: ((printTail v).reverse ++ cs), u, false, false⟩) := by
    intro v hnc hv hpt fuel cs u hf
    have h2 := readFuel_ge v
    obtain ⟨g, rfl⟩ : ∃ g, fuel = g + 2 := ⟨fuel - 2, by omega⟩
    rw [hpt]
    exact readList_print_dotted v hv hnc g cs u
  induction v with
  | integer i =>
    exact ⟨atomCase (.integer i) rfl,
      fun hv => dotCase (.integer i) rfl hv (by rw [printTail, printObj])⟩
  | symbol s =>
    refine ⟨atomCase (.symbol s) rfl, fun hv fuel cs u hf => ?_⟩
    by_cases hnull : (s.name == "null") = true
    · have h2 := readFuel_ge (.symbol s)
      obtain ⟨n, rfl⟩ : ∃ n, fuel = n + 1 := ⟨fuel - 1, by omega⟩
      have hpt : printTail (.symbol s) = [] := by rw [printTail]; simp [hnull]
      rw [hpt, List.nil_append, readList_close]
      simp only [readable, Bool.and_eq_true, Option.isNone_iff_eq_none] at hv
      obtain ⟨name, gen⟩ := s
      simp only at hv hnull
      obtain ⟨hgen, _⟩ := hv
      subst hgen
      have hn : name = "null" := eq_of_beq hnull
      subst hn
      rfl
    · have hpt : printTail (.symbol s) = " . ".data ++ printObj (.symbol s) := by
        rw [printTail, printObj]; simp [hnull]
      exact dotCase (.symbol s) rfl hv hpt fuel cs u hf
  | cons a d iha ihd =>
    have key : readable (.cons a d) = true → ∀ (g : Nat) (cs u : List Char),
        readFuel a ≤ g → readFuel d ≤ g →
        readList (g + 1) ⟨cs, printObj a ++ (printTail d ++ ')' :: u), false, false⟩ =
          .ok (.cons a d,
            ⟨')' :: ((printTail d).reverse ++ ((printObj a).reverse ++ cs)), u, false, false⟩) := by
      intro hv g cs u hga hgd
      simp only [readable, Bool.and_eq_true, Bool.not_eq_true'] at hv
      obtain ⟨⟨hra, hda⟩, hrd⟩ := hv
      obtain ⟨c, l, hcl, hsp, hc1, hc2⟩ := printObj_head a hra
      obtain ⟨x, l', hx, hxd⟩ := printTail_head d u
      have e1 : printObj a ++ (printTail d ++ ')' :: u) =
          c :: (l ++ (printTail d ++ ')' :: u)) := by rw [hcl]; rfl
      have h1 := iha.1 hra g cs (printTail d ++ ')' :: u) hga (Or.inr ⟨x, l', hx, hxd⟩)
      have h2 := ihd.2 hrd g ((printObj a).reverse ++ cs) u hgd
      rw [e1] at h1 ⊢
      exact readList_elem g cs c _ hsp hc1 (hc2 hda) _ _ _ _ h1 h2
    constructor
    · intro hv fuel cs u hf _
      have h2a := readFuel_ge a
      have h2d := readFuel_ge d
      simp only [readFuel] at hf
      obtain ⟨g, rfl⟩ : ∃ g, fuel = g + 2 := ⟨fuel - 2, by omega⟩
      have e0 : printObj (.cons a d) ++ u =
          '(' :: (printObj a ++ (printTail d ++ ')' :: u)) := by
        rw [printObj]; simp
      rw [e0, readParse_at (g + 1) cs '(' _ (by decide) (by decide)]
      simp only [show ('(' == '(') = true by decide, if_true]
      rw [key hv g ('(' :: cs) u (by omega) (by omega)]
      rw [printObj]
      simp
    · intro hv fuel cs u hf
      simp only [readFuel] at hf
      obtain ⟨g, rfl⟩ : ∃ g, fuel = g + 1 := ⟨fuel - 1, by omega⟩
      have hv' := hv
      simp only [readable, Bool.and_eq_true, Bool.not_eq_true'] at hv'
      obtain ⟨c, l, hcl, hsp, _, _⟩ := printObj_head a hv'.1.1
      have e0 : printTail (.cons a d) ++ ')' :: u =
          ' ' :: c :: (l ++ (printTail d ++ ')' :: u)) := by
        rw [printTail, hcl]; simp
      have e1 : c :: (l ++ (printTail d ++ ')' :: u)) =
          printObj a ++ (printTail d ++ ')' :: u) := by rw [hcl]; rfl
      rw [e0, readList_skip_space _ _ _ _ hsp, e1, key hv g (' ' :: cs) u (by omega) (by omega)]
      rw [printTail]
      simp
  | string v => exact ⟨fun h => by simp [readable] at h, fun h => by simp [readable] at h⟩
  | proc p b e => exact ⟨fun h => by simp [readable] at h, fun h => by simp [readable] at h⟩
  | macroObj p b e => exact ⟨fun h => by simp [readable] at h, fun h => by simp [readable] at h⟩
  | predefined b => exact ⟨fun h => by simp [readable] at h, fun h => by simp [readable] at h⟩

theorem readable_of_wellRead (v : Base_Object) :
    wellRead v = true → printable v = true → readable v = true := by
  induction v with
  | cons a d iha ihd =>
    intro h1 h2
    simp only [wellRead, printable, readable, Bool.and_eq_true] at h1 h2 ⊢
    exact ⟨⟨iha h1.1 h2.1.1, h2.1.2⟩, ihd h1.2 h2.2⟩
  | integer i => intro h1 _; exact h1
  | symbol s => intro h1 _; exact h1
  | string v => intro _ h2; simp [printable] at h2
  | proc p b e => intro h1 _; simp [wellRead] at h1
  | macroObj p b e => intro h1 _; simp [wellRead] at h1
  | predefined b => intro h1 _; simp [wellRead] at h1

theorem readInt_final_range (ds : List Char) (v0 : Int) (C after : List Char) (e : Bool)
    (v : Int) (s' : IStream)
    (h : (if ds.isEmpty = true then ((some 0 : Option Int), (⟨C, after, e, true⟩ : IStream))
      else if v0 > INT_MAX then (some INT_MAX, ⟨C, after, e, true⟩)
      else if v0 < INT_MIN then (some INT_MIN, ⟨C, after, e, true⟩)
      else (some v0, ⟨C, after, e, false⟩)) = (some v, s')) :
    INT_MIN ≤ v ∧ v ≤ INT_MAX := by
  by_cases h1 : ds.isEmpty = true
  · simp only [h1, if_true] at h
    cases h; exact ⟨by decide, by decide⟩
  · simp only [h1, if_false] at h
    by_cases h2 : v0 > INT_MAX
    · simp only [h2, if_true] at h
      cases h; exact ⟨by decide, by decide⟩
    · simp only [h2, if_false] at h
      by_cases h3 : v0 < INT_MIN
      · simp only [h3, if_true] at h
        cases h; exact ⟨by decide, by decide⟩
      · simp only [h3, if_false] at h
        cases h; exact ⟨by omega, by omega⟩

/-- The value stored by `operator>>(int&)` is in the range of `int`. -/
theorem IStream.readInt_range (s : IStream) (v : Int) (s' : IStream)
    (h : s.readInt = (some v, s')) : INT_MIN ≤ v ∧ v ≤ INT_MAX := by
  unfold IStream.readInt at h
  cases hg : s.good with
  | false => simp [hg] at h
  | true =>
    simp only [hg, if_true] at h
    cases hws : s.ws.eofbit with
    | true => simp [hws] at h
    | false =>
      simp only [hws, Bool.false_eq_true, if_false] at h
      exact readInt_final_range _ _ _ _ _ _ _ h

theorem readStringLoop_string : ∀ (fuel : Nat) (c : Char) (s : IStream) (acc : List Char)
    (v : Base_Object) (s' : IStream), readStringLoop fuel c s acc = .ok (v, s') →
    ∃ str, v = .string str := by
  intro fuel
  induction fuel with
  | zero =>
    intro c s acc v s' h
    rw [readStringLoop] at h
    split at h
    · cases h
    · simp only [Res.ok.injEq, Prod.mk.injEq] at h
      exact ⟨_, h.1.symm⟩
  | succ n ih =>
    intro c s acc v s' h
    rw [readStringLoop] at h
    split at h
    · cases hbs : (c == '\\') with
      | true =>
        simp only [hbs, if_true] at h
        split at h
        · cases h
        · exact ih _ _ _ _ _ h
      | false =>
        simp only [hbs, Bool.false_eq_true, if_false] at h
        split at h
        · cases h
        · exact ih _ _ _ _ _ h
    · simp only [Res.ok.injEq, Prod.mk.injEq] at h
      exact ⟨_, h.1.symm⟩

theorem IStream.ws_rest_head (s : IStream) (hg : s.good = true) :
    ∀ x ∈ s.ws.rest.head?, isspace x = false := by
  intro x hx
  simp only [IStream.ws, hg, if_true] at hx
  cases h : s.rest.dropWhile isspace with
  | nil => rw [h] at hx; simp at hx
  | cons c l =>
    rw [h] at hx
    simp only [List.head?_cons, Option.mem_def, Option.some.injEq] at hx
    subst hx
    exact dropWhile_head_not isspace _ _ _ h

theorem IStream.peek_rest (s : IStream) : s.peek.2.rest = s.rest := by
  obtain ⟨cs, r, e, f⟩ := s
  cases r <;> cases e <;> cases f <;> simp [IStream.peek, IStream.good]

theorem IStream.ws_eof_rest (s : IStream) (hg : s.good = true) (he : s.ws.eofbit = true) :
    s.ws.rest = [] := by
  simp only [IStream.ws, hg, if_true] at he ⊢
  simpa using he

theorem commentLoop_nonspace : ∀ (fuel : Nat) (c : Char) (s s1 : IStream), s.good = true →
    (∀ x ∈ s.rest.head?, isspace x = false) → commentLoop fuel c s = .ok s1 →
    ∀ x ∈ s1.rest.head?, isspace x = false := by
  intro fuel
  induction fuel with
  | zero =>
    intro c s s1 _ hh h
    rw [commentLoop] at h
    split at h
    · cases h
    · simp only [Res.ok.injEq] at h
      subst h
      exact hh
  | succ n ih =>
    intro c s s1 hg hh h
    rw [commentLoop] at h
    split at h
    · cases hsk : skipLine n c s with
      | ok r =>
        obtain ⟨c', s2⟩ := r
        simp only [hsk] at h
        have hg2 := (skipLine_withSuffix [] n c s c' s2 hg hsk).1
        cases hws : s2.ws.eofbit with
        | true =>
          have hbad := IStream.ws_eof s2 hg2 hws
          rw [(IStream.peek_bad _ hbad).1] at h
          simp only [Option.getD_none] at h
          rw [commentLoop_not_semi _ _ _ (by decide)] at h
          simp only [Res.ok.injEq] at h
          subst h
          rw [IStream.peek_rest, IStream.ws_eof_rest s2 hg2 hws]
          intro x hx
          simp at hx
        | false =>
          obtain ⟨_, w2, w3⟩ := IStream.ws_withSuffix s2 [] hg2 hws
          obtain ⟨_, p2, _⟩ := IStream.peek_withSuffix s2.ws [] w2 w3
          rw [p2] at h
          exact ih _ _ _ w2 (IStream.ws_rest_head s2 hg2) h
      | throw m => simp [hsk] at h
      | fault m => simp [hsk] at h
      | external m => simp [hsk] at h
      | timeout => simp [hsk] at h
    · simp only [Res.ok.injEq] at h
      subst h
      exact hh

/-- After `commentSkip`, unless the end of the input was reached, the stream is good and
stands at a character that is neither white space nor a semicolon. -/
theorem commentSkip_head (fuel : Nat) (s s1 : IStream) (hg : s.good = true)
    (h : commentSkip fuel s = .ok s1) (he : s1.eofbit = false) :
    s1.good = true ∧ ∃ c l, s1.rest = c :: l ∧ isspace c = false ∧ (c == ';') = false := by
  obtain ⟨⟨c1, c2, c3⟩, _⟩ := commentSkip_withSuffix [] fuel s s1 hg h he
  refine ⟨c1, ?_⟩
  cases hr : s1.rest with
  | nil => exact absurd hr c2
  | cons c l =>
    refine ⟨c, l, rfl, ?_, ?_⟩
    · unfold commentSkip at h
      cases hws : s.ws.eofbit with
      | true =>
        exfalso
        have hbad := IStream.ws_eof s hg hws
        obtain ⟨p1, p2⟩ := IStream.peek_bad _ hbad
        rw [p1] at h
        simp only [Option.getD_none] at h
        rw [commentLoop_not_semi _ _ _ (by decide)] at h
        simp only [Res.ok.injEq] at h
        subst h
        rw [p2, hws] at he
        cases he
      | false =>
        obtain ⟨_, w2, w3⟩ := IStream.ws_withSuffix s [] hg hws
        obtain ⟨_, p2, _⟩ := IStream.peek_withSuffix s.ws [] w2 w3
        rw [p2] at h
        have := commentLoop_nonspace fuel _ _ _ w2 (IStream.ws_rest_head s hg) h c
          (by rw [hr]; simp)
        exact this
    · rw [hr] at c3
      cases hc : (c == ';') with
      | false => rfl
      | true =>
        have := eq_of_beq hc
        subst this
        exact absurd rfl c3

/-- What the symbol loop stores: symbol characters only, at most `room` of them, the first one
being the character it was entered with and the second one the next character extracted. -/
theorem readSymbolLoop_stored : ∀ (room : Nat) (c : Char) (s : IStream) (acc name : List Char)
    (s1 : IStream), readSymbolLoop room c s acc = .ok (name, s1) →
    ∃ stored, name = acc.reverse ++ stored ∧ stored.all isSymbolChar = true ∧
      stored.length ≤ room ∧
      (stored = [] ∨ ∃ more, stored = c :: more ∧ s.eofbit = false ∧
        ∀ m ∈ more.head?, s.get.1 = m ∧ s.get.2.eofbit = false) := by
  intro room
  induction room with
  | zero =>
    intro c s acc name s1 h
    rw [readSymbolLoop] at h
    split at h
    · cases h
    · simp only [Res.ok.injEq, Prod.mk.injEq] at h
      exact ⟨[], by simp [h.1], rfl, Nat.le_refl _, Or.inl rfl⟩
  | succ k ih =>
    intro c s acc name s1 h
    rw [readSymbolLoop] at h
    split at h
    · rename_i hcond
      simp only [Bool.and_eq_true, Bool.not_eq_true'] at hcond
      obtain ⟨stored', e1, e2, e3, e4⟩ := ih _ _ _ _ _ h
      refine ⟨c :: stored', by simp [e1], by simp [hcond.1, e2], by simp; omega,
        Or.inr ⟨stored', rfl, hcond.2, ?_⟩⟩
      intro m hm
      rcases e4 with e4 | ⟨more', e5, e6, _⟩
      · rw [e4] at hm; simp at hm
      · rw [e5] at hm
        simp only [List.head?_cons, Option.mem_def, Option.some.injEq] at hm
        exact ⟨hm, e6⟩
    · simp only [Res.ok.injEq, Prod.mk.injEq] at h
      exact ⟨[], by simp [h.1], rfl, Nat.zero_le _, Or.inl rfl⟩

theorem IStream.get_head (s : IStream) (hg : s.good = true) (he : s.get.2.eofbit = false) :
    s.rest.head? = some s.get.1 := by
  obtain ⟨cs, r, e, f⟩ := s
  cases r with
  | nil => simp [IStream.get, hg] at he
  | cons a l => simp [IStream.get, hg]

/-- The symbol made by the symbol branch of `readParse`. -/
theorem readSymbol_name (c : Char) (s : IStream) (v : Base_Object) (s' : IStream)
    (hg : s.good = true) (h : readSymbol c s = .ok (v, s')) :
    ∃ more, v = registerSymbol (String.mk (c :: more)) ∧ isSymbolChar c = true ∧
      more.all isSymbolChar = true ∧ (c :: more).length < 512 ∧
      ∀ m ∈ more.head?, s.rest.head? = some m := by
  unfold readSymbol at h
  cases hl : readSymbolLoop 512 c s [] with
  | ok r =>
    obtain ⟨name, s1⟩ := r
    simp only [hl] at h
    obtain ⟨stored, e1, e2, e3, e4⟩ := readSymbolLoop_stored 512 c s [] name s1 hl
    simp only [List.reverse_nil, List.nil_append] at e1
    subst e1
    split at h
    · cases h
    · rename_i hne
      split at h
      · cases h
      · rename_i hne2
        simp only [Res.ok.injEq, Prod.mk.injEq] at h
        rcases e4 with e4 | ⟨more, e5, _, e7⟩
        · rw [e4] at hne; exact absurd rfl hne
        · subst e5
          simp only [List.all_cons, Bool.and_eq_true] at e2
          refine ⟨more, h.1.symm, e2.1, e2.2, by omega, ?_⟩
          intro m hm
          obtain ⟨g1, g2⟩ := e7 m hm
          rw [IStream.get_head s hg g2, g1]
  | throw m => simp [hl] at h
  | fault m => simp [hl] at h
  | external m => simp [hl] at h
  | timeout => simp [hl] at h

theorem readInteger_range (s : IStream) (v : Base_Object) (s' : IStream)
    (h : readInteger s = .ok (v, s')) : wellRead v = true := by
  unfold readInteger at h
  cases hri : s.unget.readInt with
  | mk o s1 =>
    cases o with
    | none => simp [hri] at h
    | some i =>
      simp only [hri, Res.ok.injEq, Prod.mk.injEq] at h
      obtain ⟨r1, r2⟩ := IStream.readInt_range _ _ _ hri
      rw [← h.1]
      simp [wellRead, r1, r2]

/-- What the reader returns: every value read from a good stream is an integer in the range of
`int`, a string, an interned symbol with a name as described at `nameOk`, or a pair of such
values. -/
theorem read_wellRead : ∀ (fuel : Nat),
    (∀ (s : IStream) (v : Base_Object) (s' : IStream), s.good = true →
      readParse fuel s = .ok (v, s') → wellRead v = true) ∧
    (∀ (s : IStream) (v : Base_Object) (s' : IStream), s.good = true →
      readList fuel s = .ok (v, s') → wellRead v = true) := by
  intro fuel
  induction fuel with
  | zero =>
    constructor
    · intro s v s' _ h
      rw [readParse] at h
      cases h
    · intro s v s' _ h
      rw [readList] at h
      cases h
  | succ n ih =>
    obtain ⟨ihP, ihL⟩ := ih
    constructor
    · intro s v s' hg h
      rw [readParse] at h
      cases hcs : commentSkip n s with
      | throw m => simp [hcs] at h
      | fault m => simp [hcs] at h
      | external m => simp [hcs] at h
      | timeout => simp [hcs] at h
      | ok s1 =>
        simp only [hcs] at h
        cases he : s1.eofbit with
        | true => simp [he] at h
        | false =>
          simp only [he, Bool.false_eq_true, if_false] at h
          obtain ⟨hg1, c, l, hr, hsp, hsemi⟩ := commentSkip_head n s s1 hg hcs he
          obtain ⟨cs1, r1, e1, f1⟩ := s1
          obtain ⟨g1, g2⟩ := (IStream.good_iff _).1 hg1
          simp only at hr g1 g2
          subst hr g1 g2
          have eg : (IStream.get ⟨cs1, c :: l, false, false⟩) =
              (c, ⟨c :: cs1, l, false, false⟩) := rfl
          simp only [eg] at h
          cases hparen : (c == '(') with
          | true =>
            simp only [hparen, if_true] at h
            exact ihL ⟨c :: cs1, l, false, false⟩ _ _ rfl h
          | false =>
            simp only [hparen, Bool.false_eq_true, if_false] at h
            cases hdig : isDigitChar c with
            | true =>
              simp only [hdig, if_true] at h
              exact readInteger_range _ _ _ h
            | false =>
              simp only [hdig, Bool.false_eq_true, if_false] at h
              cases hmd : (c == '-' && ((IStream.peek ⟨c :: cs1, l, false, false⟩).1.map
                  isDigitChar == some true)) with
              | true =>
                simp only [hmd, if_true] at h
                exact readInteger_range _ _ _ h
              | false =>
                simp only [hmd, Bool.false_eq_true, if_false] at h
                cases hq : (c == '"') with
                | true =>
                  simp only [hq, if_true] at h
                  unfold readString at h
                  obtain ⟨str, hstr⟩ := readStringLoop_string _ _ _ _ _ _ h
                  rw [hstr]
                  rfl
                | false =>
                  simp only [hq, Bool.false_eq_true, if_false] at h
                  have hs3 : ((c == '-') = true → ∀ m ∈ l.head?, isDigitChar m = false) ∧
                      readSymbol c ⟨c :: cs1, l, false, false⟩ = .ok (v, s') := by
                    cases hminus : (c == '-') with
                    | false =>
                      simp only [hminus, Bool.false_eq_true, if_false] at h
                      exact ⟨fun hx => Bool.noConfusion hx, h⟩
                    | true =>
                      simp only [hminus, if_true, Bool.true_and] at h hmd
                      cases l with
                      | nil =>
                        exfalso
                        exact readSymbol_eof c _ rfl _ h
                      | cons m l' =>
                        have hpk : (IStream.peek ⟨c :: cs1, m :: l', false, false⟩) =
                            (some m, ⟨c :: cs1, m :: l', false, false⟩) := rfl
                        rw [hpk] at h hmd
                        refine ⟨fun _ x hx => ?_, h⟩
                        simp only [List.head?_cons, Option.mem_def, Option.some.injEq] at hx
                        subst hx
                        simpa using hmd
                  obtain ⟨more, n1, n2, n3, n4, n5⟩ :=
                    readSymbol_name c ⟨c :: cs1, l, false, false⟩ v s' rfl hs3.2
                  rw [n1]
                  have hname : nameOk (c :: more) = true := by
                    have hmc : (c == '-' && (more.head?.map isDigitChar == some true)) =
                        false := by
                      cases hminus : (c == '-') with
                      | false => rfl
                      | true =>
                        cases more with
                        | nil => rfl
                        | cons m more' =>
                          have h5 := n5 m (by simp)
                          have h6 := hs3.1 hminus m h5
                          simp [h6]
                    simp only [nameOk, plainChar, List.all_cons, n2, n3, Bool.and_self, hsp,
                      hdig, hmc, Bool.not_false, Bool.and_true, Bool.true_and,
                      decide_eq_true_eq, Bool.and_eq_true, bne_iff_ne, ne_eq]
                    refine ⟨n4, ?_, ?_⟩
                    · simpa using hsemi
                    · simpa using hq
                  simp [wellRead, registerSymbol, hname]
    · intro s v s' hg h
      rw [readList] at h
      cases hws : s.ws.eofbit with
      | true => simp [hws] at h
      | false =>
        simp only [hws, Bool.false_eq_true, if_false] at h
        obtain ⟨_, w2, w3⟩ := IStream.ws_withSuffix s [] hg hws
        have g2 := (IStream.get_withSuffix s.ws [] w2 w3).2.1
        have gc := IStream.get_consumed s.ws w2 w3
        cases hclose : (s.ws.get.1 == ')') with
        | true =>
          simp only [hclose, if_true, Res.ok.injEq, Prod.mk.injEq] at h
          rw [← h.1]
          decide
        | false =>
          simp only [hclose, Bool.false_eq_true, if_false] at h
          cases hdot : (s.ws.get.1 == '.') with
          | true =>
            simp only [hdot, if_true] at h
            cases hp : readParse n s.ws.get.2 with
            | throw m => simp [hp] at h
            | fault m => simp [hp] at h
            | external m => simp [hp] at h
            | timeout => simp [hp] at h
            | ok r =>
              obtain ⟨cdr, s3⟩ := r
              simp only [hp] at h
              split at h
              · cases h
              · simp only [Res.ok.injEq, Prod.mk.injEq] at h
                rw [← h.1]
                exact ihP _ _ _ g2 hp
          | false =>
            simp only [hdot, Bool.false_eq_true, if_false] at h
            have hu := IStream.unget_withSuffix s.ws.get.2 [] g2 gc
            cases hp : readParse n s.ws.get.2.unget with
            | throw m => simp [hp] at h
            | fault m => simp [hp] at h
            | external m => simp [hp] at h
            | timeout => simp [hp] at h
            | ok r =>
              obtain ⟨car, s4⟩ := r
              simp only [hp] at h
              cases hl : readList n s4 with
              | throw m => simp [hl] at h
              | fault m => simp [hl] at h
              | external m => simp [hl] at h
              | timeout => simp [hl] at h
              | ok r2 =>
                obtain ⟨cdr, s5⟩ := r2
                simp only [hl, Res.ok.injEq, Prod.mk.injEq] at h
                have hg4 : s4.good = true := by
                  by_contra hb
                  exact readList_bad n s4 (by simpa using hb) _ hl
                rw [← h.1]
                simp only [wellRead, Bool.and_eq_true]
                exact ⟨ihP _ _ _ hu.2.1 hp, ihL _ _ _ hg4 hl⟩

/-- Reading printed text back, at top level. -/
theorem readParse_printObj (v : Base_Object) (hv : readable v = true)
    (hminus : v ≠ registerSymbol "-") (fuel : Nat) (hf : readFuel v ≤ fuel) :
    ∃ s'', readParse fuel (IStream.ofList (printObj v)) = .ok (v, s'') := by
  cases hc : v.isCons with
  | true =>
    have h := (read_print v).1 hv fuel [] [] hf (Or.inl hc)
    rw [List.append_nil] at h
    exact ⟨_, h⟩
  | false =>
    have h2 := readFuel_ge v
    obtain ⟨f, rfl⟩ : ∃ f, fuel = f + 1 := ⟨fuel - 1, by omega⟩
    obtain ⟨e, fl, h, _⟩ := readParse_print_atom v hv hc f [] []
      (by intro d hd; simp at hd) (fun hx => hminus hx.1)
    rw [List.append_nil] at h
    exact ⟨_, h⟩

/-- C2 (amended). Reader/printer round trip: let `v` be a value returned by `readParse` on a
source text.  If `v` contains no `String` and no pair whose car is a symbol with a name that
starts with a dot, and `v` is not the symbol `-` itself, then `readParse` on the text that
`operator<<` prints for `v`, with any bound on the nesting of at least `readFuel v`, succeeds
and returns `v`. -/
theorem read_print_round_trip (text : List Char) (fuel : Nat) (v : Base_Object) (s' : IStream)
    (hread : readParse fuel (IStream.ofList text) = .ok (v, s'))
    (hprint : printable v = true) (hminus : v ≠ registerSymbol "-") :
    ∀ fuel', readFuel v ≤ fuel' →
      ∃ s'', readParse fuel' (IStream.ofList (printObj v)) = .ok (v, s'') :=
  fun fuel' hf => readParse_printObj v
    (readable_of_wellRead v ((read_wellRead fuel).1 (IStream.ofList text) v s' rfl hread) hprint) hminus fuel' hf

/-- C2, witness: the value read from `( a (b . -007) () - ) trailing` is read back from its
printed text `(a (b . -7) null -)`. -/
theorem read_print_round_trip_witness :
    ∃ s'', readParse 20 (IStream.ofList (printObj (vectorToList [registerSymbol "a",
        .cons (registerSymbol "b") (.integer (-7)), vectorToList [], registerSymbol "-"]))) =
      .ok (vectorToList [registerSymbol "a", .cons (registerSymbol "b") (.integer (-7)),
        vectorToList [], registerSymbol "-"], s'') :=
  read_print_round_trip "( a (b . -007) () - ) trailing".data 10 _
    ⟨"( a (b . -007) () - )".data.reverse, " trailing".data, false, false⟩
    (by decide!) (by decide!) (by decide!) 20 (by decide!)

/-- C2, counterexample: the text `- ` is read as the symbol `-`, which is printed as `-`, and
`readParse` on that text raises a parse error, because `peek` at the end of the input sets
`eofbit` and the symbol loop then stores nothing.  The text `((. .a))` is read as the list
`(.a)`, and its printed text `(.a)` is read back as the symbol `a`. -/
theorem round_trip_fails_for_minus_and_dot :
    (readParse 10 (IStream.ofList "- ".data)).value? = some (registerSymbol "-") ∧
    readParse 10 (IStream.ofList (printObj (registerSymbol "-"))) =
      .throw "Parser contains errors" ∧
    (readParse 10 (IStream.ofList "((. .a))".data)).value? =
      some (.cons (registerSymbol ".a") (registerSymbol "null")) ∧
    (readParse 10 (IStream.ofList (printObj (.cons (registerSymbol ".a")
      (registerSymbol "null"))))).value? = some (registerSymbol "a") := by
  decide!

/-! ## C3: the symbol table -/

theorem SymbolTable.consistent_empty : SymbolTable.empty.Consistent := by
  intro k a h
  simp [SymbolTable.empty, SymbolTable.find] at h

theorem SymbolTable.find_registerSymbol_of_find (T : SymbolTable) (n k : String) (a : Nat)
    (h : SymbolTable.find T.sMap k = some a) :
    SymbolTable.find (T.registerSymbol n).2.sMap k = some a := by
  unfold SymbolTable.registerSymbol
  cases hn : SymbolTable.find T.sMap n with
  | some b => simpa using h
  | none =>
    have hne : n ≠ k := by
      intro e
      rw [e, h] at hn
      cases hn
    simp [SymbolTable.find, hne, h]

theorem SymbolTable.find_registerSymbol_self (T : SymbolTable) (n : String) :
    SymbolTable.find (T.registerSymbol n).2.sMap n = some (T.registerSymbol n).1 := by
  unfold SymbolTable.registerSymbol
  cases hn : SymbolTable.find T.sMap n with
  | some b => simpa using hn
  | none => simp [SymbolTable.find]

theorem SymbolTable.consistent_registerSymbol (T : SymbolTable) (n : String)
    (hT : T.Consistent) : (T.registerSymbol n).2.Consistent := by
  unfold SymbolTable.registerSymbol
  cases hn : SymbolTable.find T.sMap n with
  | some b => simpa using hT
  | none =>
    intro k a h
    simp only [SymbolTable.find] at h
    by_cases e : n = k
    · simp only [e, if_true, Option.some.injEq] at h
      subst h
      simp [e]
    · simp only [e, if_false] at h
      have := hT k a h
      have hlt : a < T.objects.length := by
        by_contra hge
        rw [List.getElem?_eq_none (by omega)] at this
        cases this
      simp [List.getElem?_append_left hlt, this]

theorem SymbolTable.consistent_registerAll (names : List String) :
    ∀ T : SymbolTable, T.Consistent → (SymbolTable.registerAll T names).Consistent := by
  induction names with
  | nil => intro T h; exact h
  | cons n ns ih =>
    intro T h
    exact ih _ (SymbolTable.consistent_registerSymbol T n h)

theorem SymbolTable.find_registerAll_of_find (names : List String) (k : String) (a : Nat) :
    ∀ T : SymbolTable, SymbolTable.find T.sMap k = some a →
      SymbolTable.find (SymbolTable.registerAll T names).sMap k = some a := by
  induction names with
  | nil => intro T h; exact h
  | cons n ns ih =>
    intro T h
    exact ih _ (SymbolTable.find_registerSymbol_of_find T n k a h)

theorem SymbolTable.objects_registerSymbol (T : SymbolTable) (m : String) (b : Nat)
    (name : String) (h : T.objects[b]? = some name) :
    (T.registerSymbol m).2.objects[b]? = some name := by
  unfold SymbolTable.registerSymbol
  cases hm : SymbolTable.find T.sMap m with
  | some c => simpa using h
  | none =>
    have hlt : b < T.objects.length := by
      by_contra hge
      rw [List.getElem?_eq_none (by omega)] at h
      cases h
    simp [List.getElem?_append_left hlt, h]

theorem SymbolTable.objects_registerAll (names : List String) (b : Nat) (name : String) :
    ∀ T : SymbolTable, T.objects[b]? = some name →
      (SymbolTable.registerAll T names).objects[b]? = some name := by
  induction names with
  | nil => intro T h; exact h
  | cons m ms ih =>
    intro T h
    exact ih _ (SymbolTable.objects_registerSymbol T m b name h)

theorem SymbolTable.registerSymbol_of_find (T : SymbolTable) (n : String) (a : Nat)
    (h : SymbolTable.find T.sMap n = some a) : T.registerSymbol n = (a, T) := by
  unfold SymbolTable.registerSymbol
  rw [h]

/-- C3. Symbol identity.  Let the first call `registerSymbol(n)`, made after any calls for
other or the same names, return the object `a`.  Then `a` has the name `n` and `sMap` maps `n`
to `a`; and after any further calls `between`: the object `a` is still there with the name `n`,
like every object made before, `sMap` still maps `n` to `a`, and maps no other name to `a`; a
second call `registerSymbol(n)` returns the same object `a` and leaves the table as it is; and
every entry of `sMap` maps a name to an object of that name. -/
theorem registerSymbol_same_object (before between : List String) (n : String) :
    (SymbolTable.firstCall before n).2.objects[(SymbolTable.firstCall before n).1]? = some n ∧
    SymbolTable.find (SymbolTable.firstCall before n).2.sMap n =
      some (SymbolTable.firstCall before n).1 ∧
    (SymbolTable.registerAll (SymbolTable.firstCall before n).2 between).objects[
      (SymbolTable.firstCall before n).1]? = some n ∧
    (∀ (b : Nat) (name : String),
      (SymbolTable.firstCall before n).2.objects[b]? = some name →
      (SymbolTable.registerAll (SymbolTable.firstCall before n).2 between).objects[b]? =
        some name) ∧
    SymbolTable.find (SymbolTable.registerAll (SymbolTable.firstCall before n).2 between).sMap n =
      some (SymbolTable.firstCall before n).1 ∧
    (∀ k : String,
      SymbolTable.find (SymbolTable.registerAll (SymbolTable.firstCall before n).2 between).sMap
        k = some (SymbolTable.firstCall before n).1 → k = n) ∧
    (SymbolTable.registerAll (SymbolTable.firstCall before n).2 between).registerSymbol n =
      ((SymbolTable.firstCall before n).1,
        SymbolTable.registerAll (SymbolTable.firstCall before n).2 between) ∧
    (∀ (k : String) (b : Nat),
      SymbolTable.find (SymbolTable.registerAll (SymbolTable.firstCall before n).2 between).sMap
        k = some b →
      (SymbolTable.registerAll (SymbolTable.firstCall before n).2 between).objects[b]? =
        some k) := by
  have h0 : (SymbolTable.registerAll SymbolTable.empty before).Consistent :=
    SymbolTable.consistent_registerAll before _ SymbolTable.consistent_empty
  have h1 : (SymbolTable.firstCall before n).2.Consistent :=
    SymbolTable.consistent_registerSymbol _ n h0
  have f1 : SymbolTable.find (SymbolTable.firstCall before n).2.sMap n =
      some (SymbolTable.firstCall before n).1 := SymbolTable.find_registerSymbol_self _ n
  have o1 := h1 n _ f1
  have h2 := SymbolTable.consistent_registerAll between _ h1
  have f2 := SymbolTable.find_registerAll_of_find between n _ _ f1
  have o2 := SymbolTable.objects_registerAll between _ n _ o1
  refine ⟨o1, f1, o2, fun b name h => SymbolTable.objects_registerAll between b name _ h, f2,
    fun k hk => ?_, SymbolTable.registerSymbol_of_find _ n _ f2, h2⟩
  have := h2 k _ hk
  rw [o2] at this
  exact (Option.some.inj this).symm

/-! ## C4: the recursive procedure scenario -/

theorem worldAfter_factDef : worldAfter factDefText = factWorld [] [] := by
  decide!

theorem factFrames_length (vs : List Int) : ∀ i, (factFrames i vs).length = vs.length := by
  induction vs with
  | nil => intro i; rfl
  | cons v vs ih => intro i; simp [factFrames, ih]

theorem factFrames_append (xs ys : List Int) :
    ∀ i, factFrames i (xs ++ ys) = factFrames i xs ++ factFrames (i + xs.length) ys := by
  induction xs with
  | nil => intro i; simp [factFrames]
  | cons x xs ih =>
    intro i
    have h := ih (i + 1)
    rw [show i + 1 + xs.length = i + (xs.length + 1) by omega] at h
    show factFrame i x :: factFrames (i + 1) (xs ++ ys) =
      factFrame i x :: factFrames (i + 1) xs ++ factFrames (i + (xs.length + 1)) ys
    rw [h]
    rfl

theorem factFrames_getElem (vs : List Int) (v : Int) :
    ∀ i j, vs[j]? = some v → (factFrames i vs)[j]? = some (factFrame (i + j) v) := by
  induction vs with
  | nil => intro i j h; simp at h
  | cons x xs ih =>
    intro i j h
    cases j with
    | zero =>
      simp only [List.getElem?_cons_zero, Option.some.injEq] at h
      subst h
      simp [factFrames]
    | succ j =>
      simp only [List.getElem?_cons_succ] at h
      simp only [factFrames, List.getElem?_cons_succ]
      rw [ih (i + 1) j h]
      congr 2
      omega

theorem factWorld_root (stack : List Int) (extra : List Env) :
    (factWorld stack extra).envs[0]? = some factRoot := by
  simp [factWorld]

theorem factWorld_frame (stack : List Int) (extra : List Env) (j : Nat) (v : Int)
    (h : stack[j]? = some v) :
    (factWorld stack extra).envs[j + 1]? = some (factFrame j v) := by
  have hj : j < stack.length := by
    by_contra hge
    rw [List.getElem?_eq_none (by omega)] at h
    cases h
  show (factRoot :: (factFrames 0 stack ++ extra))[j + 1]? = _
  rw [List.getElem?_cons_succ, List.getElem?_append_left (by rw [factFrames_length]; exact hj),
    factFrames_getElem stack v 0 j h]
  simp

theorem updateEnv_append_last (xs : List Env) (e : Env) (g : Env → Env) :
    updateEnv (xs ++ [e]) xs.length g = xs ++ [g e] := by
  induction xs with
  | nil => rfl
  | cons x xs ih => simp [updateEnv, ih]

/-- The world after `createSubEnvironment` for the next call. -/
theorem factWorld_sub (stack : List Int) (i : Nat) :
    Env.createSubEnvironment (factWorld stack []) i (some 0) =
      (stack.length + 1, factWorld stack [{ outEnvironment := some i, environmentLex := some 0,
                                             symbolValueMap := [], closed := false }]) := by
  simp [Env.createSubEnvironment, factWorld, factFrames_length]

/-- Binding `n` in the environment made for the next call. -/
theorem factWorld_push (stack : List Int) (v : Int) :
    Env.bind (factWorld stack [{ outEnvironment := some stack.length, environmentLex := some 0,
                                  symbolValueMap := [], closed := false }])
        (stack.length + 1) (.integer v) (some symN) = factWorld (stack ++ [v]) [] := by
  have hlen : (factRoot :: factFrames 0 stack).length = stack.length + 1 := by
    simp [factFrames_length]
  simp only [Env.bind, factWorld]
  rw [← hlen, ← List.cons_append, updateEnv_append_last, factFrames_append]
  simp [factFrames, factFrame, mapSet]

/-- A key bound in the root and different from `n` resolves to the root from every
environment of the call chain. -/
theorem factWorld_resolveDyn (stack : List Int) (extra : List Env) (key : SymPtr)
    (hroot : mapCount factRoot.symbolValueMap key = true) (hn : key ≠ some symN) :
    ∀ j e, j ≤ stack.length →
      Env.resolveEnvDyn (e + j + 1) (factWorld stack extra) j key = .ok (some 0) := by
  intro j
  induction j with
  | zero =>
    intro e _
    simp [Env.resolveEnvDyn, factWorld_root, hroot]
  | succ j ih =>
    intro e hj
    have hlt : j < stack.length := by omega
    have hget : stack[j]? = some stack[j] := List.getElem?_eq_getElem hlt
    have hframe := factWorld_frame stack extra j _ hget
    have hcount : mapCount (factFrame j stack[j]).symbolValueMap key = false := by
      simp only [factFrame, mapCount]
      have : ¬ (some symN = key) := fun h => hn h.symm
      simp [this]
    have hih := ih e (by omega)
    simp only [Env.resolveEnvDyn, hframe, hcount]
    simpa [factFrame] using hih

theorem factWorld_special (stack : List Int) (extra : List Env) (key : SymPtr) :
    Env.isSpecialVariable (factWorld stack extra) key = mapCount factRoot.symbolValueMap key := by
  simp [Env.isSpecialVariable, factWorld_root]

/-- Looking up a built-in name or `fact` from an environment of the call chain. -/
theorem factWorld_find_root (stack : List Int) (extra : List Env) (key : SymPtr)
    (hroot : mapCount factRoot.symbolValueMap key = true) (hn : key ≠ some symN)
    (j f : Nat) (hj : j ≤ stack.length) (hf : j + 1 ≤ f) :
    Env.findSymbolInMap f (factWorld stack extra) j key =
      .ok (mapFind factRoot.symbolValueMap key) := by
  obtain ⟨e, rfl⟩ : ∃ e, f = e + j + 1 := ⟨f - (j + 1), by omega⟩
  simp [Env.findSymbolInMap, Env.findEnvironment, factWorld_special, hroot,
    factWorld_resolveDyn stack extra key hroot hn j e hj, Res.bind, factWorld_root]

/-- Looking up `n` in the environment of the innermost call. -/
theorem factWorld_find_n (pre : List Int) (extra : List Env) (k : Int) (f : Nat) (hf : 1 ≤ f) :
    Env.findSymbolInMap f (factWorld (pre ++ [k]) extra) (pre.length + 1) (some symN) =
      .ok (some (.integer k)) := by
  obtain ⟨e, rfl⟩ : ∃ e, f = e + 1 := ⟨f - 1, by omega⟩
  have hframe : (factWorld (pre ++ [k]) extra).envs[pre.length + 1]? =
      some (factFrame pre.length k) :=
    factWorld_frame _ _ _ _ (by simp)
  have hsp : mapCount factRoot.symbolValueMap (some symN) = false := by decide
  simp only [Env.findSymbolInMap, Env.findEnvironment, factWorld_special, hsp, Env.resolveEnvLex,
    hframe]
  simp [factFrame, mapCount, mapFind, Res.bind, hframe]

theorem fact_eval_n (pre : List Int) (extra : List Env) (k : Int) (f : Nat) (hf : 2 ≤ f)
    (t : Bool) :
    Env.eval f (factWorld (pre ++ [k]) extra) (pre.length + 1) (.symbol symN) t =
      .ok (.integer k, factWorld (pre ++ [k]) extra) := by
  obtain ⟨e, rfl⟩ : ∃ e, f = e + 1 := ⟨f - 1, by omega⟩
  rw [Env.eval_symbol, factWorld_find_n _ _ _ _ (by omega)]
  rfl

theorem fact_eval_root (stack : List Int) (extra : List Env) (name : String) (v : Base_Object)
    (hfind : mapFind factRoot.symbolValueMap (some ⟨name, none⟩) = some v)
    (hroot : mapCount factRoot.symbolValueMap (some ⟨name, none⟩) = true)
    (hn : name ≠ "n") (j f : Nat) (hj : j ≤ stack.length) (hf : j + 2 ≤ f) (t : Bool) :
    Env.eval f (factWorld stack extra) j (registerSymbol name) t =
      .ok (v, factWorld stack extra) := by
  obtain ⟨e, rfl⟩ : ∃ e, f = e + 1 := ⟨f - 1, by omega⟩
  have hne : (some ⟨name, none⟩ : SymPtr) ≠ some symN := by
    intro h
    simp only [symN, Option.some.injEq, Symbol.mk.injEq] at h
    exact hn h.1
  show Env.eval (e + 1) (factWorld stack extra) j (.symbol ⟨name, none⟩) t = _
  rw [Env.eval_symbol, factWorld_find_root stack extra _ hroot hne j e hj (by omega), hfind]
  rfl

/-- `(= n 0)` in the innermost call. -/
theorem fact_eval_cond (pre : List Int) (extra : List Env) (k : Int) (f : Nat)
    (hf : pre.length + 4 ≤ f) (t : Bool) :
    Env.eval f (factWorld (pre ++ [k]) extra) (pre.length + 1) factCond t =
      .ok (registerSymbol (if k = 0 then "t" else "null"), factWorld (pre ++ [k]) extra) := by
  obtain ⟨e, rfl⟩ : ∃ e, f = e + 1 := ⟨f - 1, by omega⟩
  have h1 := fact_eval_root (pre ++ [k]) extra "=" (.predefined .numEq) (by decide) (by decide)
    (by decide) (pre.length + 1) e (by simp) (by omega) false
  have h2 := fact_eval_n pre extra k e (by omega) false
  have h3 := Env.eval_integer_of_le e (by omega) (factWorld (pre ++ [k]) extra)
    (pre.length + 1) 0 false
  show Env.eval _ _ _ (.cons (.symbol ⟨"=", none⟩) (.cons (.symbol symN) (.cons (.integer 0) nil))) t = _
  rw [Env.eval_predef2 _ _ _ _ _ _ _ _ _ _ _ _ (by decide) h1 h2 h3]
  simp [applyBuiltin, allIntegers, intChain]

/-- `(- n 1)` in the innermost call. -/
theorem fact_eval_pred (pre : List Int) (extra : List Env) (k : Int) (f : Nat)
    (hf : pre.length + 4 ≤ f) (t : Bool) :
    Env.eval f (factWorld (pre ++ [k]) extra) (pre.length + 1) factPred t =
      .ok (.integer (wrap32 (k - 1)), factWorld (pre ++ [k]) extra) := by
  obtain ⟨e, rfl⟩ : ∃ e, f = e + 1 := ⟨f - 1, by omega⟩
  have h1 := fact_eval_root (pre ++ [k]) extra "-" (.predefined .sub) (by decide) (by decide)
    (by decide) (pre.length + 1) e (by simp) (by omega) false
  have h2 := fact_eval_n pre extra k e (by omega) false
  have h3 := Env.eval_integer_of_le e (by omega) (factWorld (pre ++ [k]) extra)
    (pre.length + 1) 1 false
  show Env.eval _ _ _ (.cons (.symbol ⟨"-", none⟩) (.cons (.symbol symN) (.cons (.integer 1) nil))) t = _
  rw [Env.eval_predef2 _ _ _ _ _ _ _ _ _ _ _ _ (by decide) h1 h2 h3]
  simp [applyBuiltin, foldInts, Res.bind]

/-- The call `(fact (- n 1))` from the innermost call, not in tail position: the body is
evaluated in a new environment in which `n` is bound to the value of `(- n 1)`. -/
theorem fact_eval_call (pre : List Int) (k : Int) (f : Nat) (hf : pre.length + 5 ≤ f) :
    Env.eval (f + 1) (factWorld (pre ++ [k]) []) (pre.length + 1)
        (.cons (registerSymbol "fact") (.cons factPred nil)) false =
      Env.eval f (factWorld (pre ++ [k] ++ [wrap32 (k - 1)]) [])
        (pre.length + 2) factBody true := by
  have h1 : (interp f).eval (factWorld (pre ++ [k]) []) (pre.length + 1)
      (.symbol ⟨"fact", none⟩) false = .ok (factProc, factWorld (pre ++ [k]) []) :=
    fact_eval_root (pre ++ [k]) [] "fact" factProc (by decide) (by decide)
      (by decide) (pre.length + 1) f (by simp) (by omega) false
  have h2 : (interp f).eval (factWorld (pre ++ [k])
      [{ outEnvironment := some (pre.length + 1), environmentLex := some 0,
         symbolValueMap := [], closed := false }]) (pre.length + 1) factPred false = _ :=
    fact_eval_pred pre _ k f (by omega) false
  have hsub := factWorld_sub (pre ++ [k]) (pre.length + 1)
  have hpush := factWorld_push (pre ++ [k]) (wrap32 (k - 1))
  simp only [List.length_append, List.length_singleton] at hsub hpush
  show Env.eval (f + 1) _ _ (.cons (.symbol ⟨"fact", none⟩) _) false = _
  rw [Env.eval_app _ _ _ _ _ _ (by decide)]
  simp only [Env.applyStep]
  rw [h1]
  simp only [Res.bind, factProc, makeEnvForApply, hsub, isProperList, applyBindLoop, h2, hpush]
  simp [mergeIfTail, registerSymbol, Env.eval]


theorem fact_apply_mul (f : Nat) (r : Rec) (W : World) (self : Nat) (a b : Int) :
    applyBuiltin f r .mul W self [.integer a, .integer b] =
      .ok (.integer (wrap32 (wrap32 (1 * a) * b)), W) := by
  simp [applyBuiltin, foldInts, Res.bind]

/-- The body of `fact` evaluated in the environment of a call with `n = k` yields `k!`, and the
nested calls leave one environment each. -/
theorem fact_body (k : Nat) :
    ∀ (pre : List Int) (f : Nat), (k.factorial : Int) ≤ INT_MAX → pre.length + 5 * k + 8 ≤ f →
      Env.eval f (factWorld (pre ++ [(k : Int)]) []) (pre.length + 1) factBody true =
        .ok (.integer (k.factorial : Int), factWorld (pre ++ [(k : Int)] ++ countdown k) []) := by
  induction k with
  | zero =>
    intro pre f _ hf
    obtain ⟨g, rfl⟩ : ∃ g, f = g + 1 + 1 := ⟨f - 2, by omega⟩
    show Env.eval (g + 1 + 1) _ _ (.cons (registerSymbol "do") (.cons (.cons (registerSymbol "if")
      (.cons factCond (.cons (.integer 1) (.cons factElse nil)))) nil)) true = _
    rw [Env.eval_do1, Env.eval_if, fact_eval_cond pre [] _ g (by omega) false]
    simp only [Res.bind, Nat.cast_zero, if_true]
    rw [Env.eval_integer_of_le g (by omega)]
    simp [countdown, registerSymbol, Base_Object.isnull]
  | succ k ih =>
    intro pre f hmax hf
    obtain ⟨g, rfl⟩ : ∃ g, f = g + 1 + 1 + 1 + 1 := ⟨f - 4, by omega⟩
    have hfact : ((k + 1).factorial : Int) = ((k : Int) + 1) * (k.factorial : Int) := by
      rw [Nat.factorial_succ]; push_cast; ring
    have hkpos : (1 : Int) ≤ (k.factorial : Int) := by
      exact_mod_cast Nat.factorial_pos k
    have hk0 : (0 : Int) ≤ (k : Int) := Int.natCast_nonneg k
    have hmax' : ((k : Int) + 1) * (k.factorial : Int) ≤ INT_MAX := by rw [← hfact]; exact hmax
    have hk1 : (k : Int) + 1 ≤ INT_MAX := by
      have : (k : Int) + 1 ≤ ((k : Int) + 1) * (k.factorial : Int) := by nlinarith
      omega
    have hkf : (k.factorial : Int) ≤ INT_MAX := by
      have : (k.factorial : Int) ≤ ((k : Int) + 1) * (k.factorial : Int) := by nlinarith
      omega
    have hcast : ((k + 1 : Nat) : Int) = (k : Int) + 1 := by push_cast; rfl
    have hne : ¬ ((k : Int) + 1 = 0) := by omega
    have hpred : wrap32 ((k : Int) + 1 - 1) = (k : Int) := by
      rw [wrap32_of_inRange] <;> unfold INT_MIN INT_MAX at * <;> omega
    have hih := ih (pre ++ [(k : Int) + 1]) g hkf (by simp; omega)
    have hcall := fact_eval_call pre ((k : Int) + 1) g (by omega)
    rw [hpred] at hcall
    simp only [List.length_append, List.length_singleton] at hih
    rw [hih] at hcall
    have hmul := Env.eval_predef2 (g + 1) (factWorld (pre ++ [(k : Int) + 1]) []) _ _
      (pre.length + 1) ⟨"*", none⟩ .mul (.symbol symN) _ _ _ true (by decide)
      (fact_eval_root (pre ++ [(k : Int) + 1]) [] "*" (.predefined .mul) (by decide) (by decide)
        (by decide) (pre.length + 1) (g + 1) (by simp) (by omega) false)
      (fact_eval_n pre [] _ (g + 1) (by omega) false) hcall
    rw [hcast]
    show Env.eval (g + 1 + 1 + 1 + 1) _ _ (.cons (registerSymbol "do") (.cons (.cons (registerSymbol "if")
      (.cons factCond (.cons (.integer 1) (.cons factElse nil)))) nil)) true = _
    rw [Env.eval_do1, Env.eval_if, fact_eval_cond pre [] _ (g + 1 + 1) (by omega) false]
    simp only [Res.bind, hne, if_false]
    have hnull : (!(registerSymbol "null").isnull) = false := by decide
    simp only [hnull]
    show Env.eval (g + 1 + 1) _ _ (.cons (.symbol ⟨"*", none⟩) (.cons (.symbol symN)
      (.cons (.cons (registerSymbol "fact") (.cons factPred nil)) nil))) true = _
    rw [hmul, fact_apply_mul, hfact]
    have h1 : wrap32 (1 * ((k : Int) + 1)) = (k : Int) + 1 := by
      rw [wrap32_of_inRange] <;> unfold INT_MIN INT_MAX at * <;> omega
    have h2 : wrap32 (((k : Int) + 1) * (k.factorial : Int)) = ((k : Int) + 1) * (k.factorial : Int) := by
      apply wrap32_of_inRange
      · have : (0 : Int) ≤ ((k : Int) + 1) * (k.factorial : Int) :=
          Int.mul_nonneg (by omega) (by omega)
        unfold INT_MIN; omega
      · exact hmax'
    rw [h1, h2]
    simp [countdown, List.append_assoc]


/-- In the world after the definition, expanding `(fact n)` changes nothing. -/
theorem fact_expand (n : Int) (g : Nat) :
    Env.macroExpand (g + 3) (factWorld [] []) 0
        (.cons (registerSymbol "fact") (.cons (.integer n) nil)) =
      .ok (.cons (registerSymbol "fact") (.cons (.integer n) nil), factWorld [] []) := by
  rfl

/-- C4. Recursive procedure scenario: after `evalTop` of
`(define fact (lambda (n) (if (= n 0) 1 (* n (fact (- n 1))))))` in the initial root environment
(the definition evaluates to the symbol `fact`), for every natural number `n` whose factorial
fits in the machine `int`, `evalTop` of `(fact n)` returns the Integer `n!`, given enough fuel. -/
theorem fact_scenario (n : Nat) (hn : (n.factorial : Int) ≤ INT_MAX) :
    (Env.repl 60 20 Env.createEnvironment (IStream.ofList factDefText.data)).value? =
        some [registerSymbol "fact"] ∧
    ∃ fuel, (Env.evalTop fuel (worldAfter factDefText) 0
        (.cons (registerSymbol "fact") (.cons (.integer n) nil))).value? =
      some (.integer n.factorial) := by
  refine ⟨by decide!, 5 * n + 8 + 1, ?_⟩
  rw [worldAfter_factDef]
  have hexp := fact_expand (n : Int) (5 * n + 6)
  have hexp' : (interp (5 * n + 8 + 1)).macroExpand (factWorld [] []) 0
      (.cons (registerSymbol "fact") (.cons (.integer n) nil)) = _ := hexp
  have hbody := fact_body n [] (5 * n + 8) hn (by simp)
  have h1 : (interp (5 * n + 8)).eval (factWorld [] []) 0
      (.symbol ⟨"fact", none⟩) false = .ok (factProc, factWorld [] []) :=
    fact_eval_root [] [] "fact" factProc (by decide) (by decide)
      (by decide) 0 _ (by simp) (by omega) false
  have h2 : (interp (5 * n + 8)).eval (factWorld []
      [{ outEnvironment := some 0, environmentLex := some 0,
         symbolValueMap := [], closed := false }]) 0 (.integer n) false = _ :=
    Env.eval_integer_of_le _ (by omega) _ _ _ _
  have hsub := factWorld_sub [] 0
  have hpush := factWorld_push [] (n : Int)
  simp only [List.length_nil, List.nil_append, Nat.zero_add] at hsub hpush hbody
  have heval : Env.eval (5 * n + 8 + 1) (factWorld [] []) 0
      (.cons (.symbol ⟨"fact", none⟩) (.cons (.integer n) nil)) false =
      .ok (.integer n.factorial, factWorld ([(n : Int)] ++ countdown n) []) := by
    rw [Env.eval_app _ _ _ _ _ _ (by decide)]
    simp only [Env.applyStep]
    rw [h1]
    simp only [Res.bind, factProc, makeEnvForApply, hsub, isProperList, applyBindLoop, h2, hpush]
    simp only [mergeIfTail, registerSymbol, Bool.false_and, if_false, beq_self_eq_true, if_true,
      Bool.not_true]
    exact hbody
  have heval' : (interp (5 * n + 8 + 1)).eval (factWorld [] []) 0
      (.cons (registerSymbol "fact") (.cons (.integer n) nil)) false = _ := heval
  simp only [Env.evalTop, Rec.evalTop, hexp', Res.bind, heval', Res.value?]

/-- C4, witness: `(fact 5)` returns 120. -/
theorem fact_scenario_witness :
    ((5 : Nat).factorial : Int) ≤ INT_MAX ∧
    ∃ fuel, (Env.evalTop fuel (worldAfter factDefText) 0
        (.cons (registerSymbol "fact") (.cons (.integer 5) nil))).value? =
      some (.integer 120) :=
  ⟨by decide, (fact_scenario 5 (by decide)).2⟩

/-! ## C5: the `let*` scenario -/

/-- C5, as the spec writes it: the form read from `(let* ((x 2) (y (* x 3))) (+ x y))` does not
evaluate to 8.  The `let*` branch takes the binding list as a flat sequence, so `(x 2)` is a
binder and `(y (* x 3))` its value form, whose operator `y` is unbound. -/
theorem let_star_pairs_unresolved :
    ((readParse 30 (IStream.ofList "(let* ((x 2) (y (* x 3))) (+ x y))".data)).bind fun x =>
      Env.evalTop 30 Env.createEnvironment 0 x.1) = .throw "Evaluated unresolvable symbol" := by
  decide!

/-- C5, amended: with the bindings written as the flat sequence `x 2 y (* x 3)`, `evalTop` of the
form read from the text returns the Integer 8 in the initial root environment. -/
theorem let_star_flat_scenario :
    ((readParse 30 (IStream.ofList "(let* (x 2 y (* x 3)) (+ x y))".data)).bind fun x =>
      Env.evalTop 30 Env.createEnvironment 0 x.1).value? = some (.integer 8) := by
  decide!

/-! ## C6: the macro scenario -/

theorem worldAfter_macroDef :
    worldAfter macroDefText = Env.bind Env.createEnvironment 0 macroM (some ⟨"m", none⟩) := by
  decide!

/-- C6. Macro scenario: after `evalTop` of
`(define m (macro (a b) (cons (quote +) (cons a (cons b null)))))` in the initial root environment
(the definition evaluates to the symbol `m`), for all integers `i` and `j` of the machine `int`
whose sum is in range, `macroExpand` of `(m i j)` returns the list `(+ i j)` and `evalTop` of
`(m i j)` returns the Integer `i + j`. -/
theorem macro_scenario (i j : Int) (hi : INT_MIN ≤ i ∧ i ≤ INT_MAX)
    (hsum : INT_MIN ≤ i + j ∧ i + j ≤ INT_MAX) :
    (Env.repl 60 20 Env.createEnvironment (IStream.ofList macroDefText.data)).value? =
        some [registerSymbol "m"] ∧
    (Env.macroExpand 10 (worldAfter macroDefText) 0
        (.cons (registerSymbol "m") (.cons (.integer i) (.cons (.integer j) nil)))).value? =
      some (.cons (registerSymbol "+") (.cons (.integer i) (.cons (.integer j) nil))) ∧
    (Env.evalTop 10 (worldAfter macroDefText) 0
        (.cons (registerSymbol "m") (.cons (.integer i) (.cons (.integer j) nil)))).value? =
      some (.integer (i + j)) := by
  refine ⟨by decide!, ?_, ?_⟩
  · rw [worldAfter_macroDef]
    rfl
  · rw [worldAfter_macroDef]
    have h : (Env.evalTop 10 (Env.bind Env.createEnvironment 0 macroM (some ⟨"m", none⟩)) 0
        (.cons (registerSymbol "m") (.cons (.integer i) (.cons (.integer j) nil)))).value? =
        some (.integer (wrap32 (wrap32 (0 + i) + j))) := rfl
    rw [h, Int.zero_add, wrap32_of_inRange i hi.1 hi.2, wrap32_of_inRange (i + j) hsum.1 hsum.2]

/-- C6, witness: `(m 3 4)` expands to `(+ 3 4)` and evaluates to 7. -/
theorem macro_scenario_witness :
    (Env.macroExpand 10 (worldAfter macroDefText) 0
        (.cons (registerSymbol "m") (.cons (.integer 3) (.cons (.integer 4) nil)))).value? =
      some (.cons (registerSymbol "+") (.cons (.integer 3) (.cons (.integer 4) nil))) ∧
    (Env.evalTop 10 (worldAfter macroDefText) 0
        (.cons (registerSymbol "m") (.cons (.integer 3) (.cons (.integer 4) nil)))).value? =
      some (.integer 7) :=
  (macro_scenario 3 4 (by decide) (by decide)).2

/-! ## C7: free variables of a procedure called in tail position -/

/-- C7, the failing input: with `(g a)` in tail position of the body of `f`, the call `(f 1)`
returns 2, because the body of `g` finds the binding of `a` made for `f`. -/
theorem tail_call_sees_caller_binding :
    (Env.repl 30 5 Env.createEnvironment (IStream.ofList
      "(define g (lambda (b) (+ a b))) (define f (lambda (a) (g a))) (f 1)".data)).value? =
      some [registerSymbol "g", registerSymbol "f", .integer 2] := by
  decide!

/-- With the call `(g a)` not in tail position the same program raises the unresolved-symbol
error. -/
theorem non_tail_call_unresolved :
    Env.repl 30 5 Env.createEnvironment (IStream.ofList
      "(define g (lambda (b) (+ a b))) (define f (lambda (a) (+ 0 (g a)))) (f 1)".data) =
      .throw "Evaluated unresolvable symbol" := by
  decide!

/-! ## C8: closure capture -/

theorem mapCount_of_mapFind (m : List (SymPtr × Base_Object)) (key : SymPtr) (v : Base_Object)
    (h : mapFind m key = some v) : mapCount m key = true := by
  induction m with
  | nil => simp [mapFind] at h
  | cons kv m ih =>
    obtain ⟨k, v0⟩ := kv
    simp only [mapFind] at h
    simp only [mapCount]
    split
    · rfl
    · rename_i hne
      rw [if_neg hne] at h
      exact ih h

theorem resolveEnvDyn_of_reachesRoot (W : World) (key : SymPtr) (root : Env)
    (hroot : W.envs[0]? = some root) (hcount : mapCount root.symbolValueMap key = true) :
    ∀ d F e, reachesRoot W key d F = true →
      Env.resolveEnvDyn (e + d + 1) W F key = .ok (some 0) := by
  intro d
  induction d with
  | zero =>
    intro F e h
    simp only [reachesRoot, beq_iff_eq] at h
    subst h
    simp [Env.resolveEnvDyn, hroot, hcount]
  | succ d ih =>
    intro F e h
    simp only [reachesRoot] at h
    cases hF : W.envs[F]? with
    | none => simp [hF] at h
    | some env =>
      simp only [hF, Bool.and_eq_true, Bool.not_eq_true'] at h
      obtain ⟨h1, h2⟩ := h
      cases ho : env.outEnvironment with
      | none => simp [ho] at h2
      | some o =>
        simp only [ho] at h2
        have := ih o e h2
        simp only [Env.resolveEnvDyn, hF, h1, ho]
        simpa using this

/-- C9. Dynamic resolution of top-level names: a reference to a symbol `s` that the root
environment binds to `v`, evaluated in an environment `F` from which the `outEnvironment` chain
reaches the root without passing an environment that binds `s`, yields the root's current
value `v` (whatever environment the procedure captured), and leaves the world as it is. -/
theorem dynamic_resolution (W : World) (F : Nat) (s : Symbol) (v : Base_Object) (d fuel : Nat)
    (tail : Bool) (hv : rootValue W (some s) = some v)
    (hchain : reachesRoot W (some s) d F = true) (hfuel : d + 2 ≤ fuel) :
    Env.eval fuel W F (.symbol s) tail = .ok (v, W) := by
  obtain ⟨e, rfl⟩ : ∃ e, fuel = e + d + 1 + 1 := ⟨fuel - (d + 2), by omega⟩
  unfold rootValue at hv
  cases hroot : W.envs[0]? with
  | none => simp [hroot] at hv
  | some root =>
    simp only [hroot] at hv
    have hcount := mapCount_of_mapFind _ _ _ hv
    have hres := resolveEnvDyn_of_reachesRoot W (some s) root hroot hcount d F e hchain
    rw [Env.eval_symbol]
    simp [Env.findSymbolInMap, Env.findEnvironment, Env.isSpecialVariable, hroot, hcount, hres,
      Res.bind, hv]

/-- C9, witness: after `+` has been redefined at top level as `*`, a reference to `+` in the
environment made for the earlier call `(add 2 3)` yields the new value, and the closure `add`
created before the redefinition now multiplies. -/
theorem dynamic_resolution_witness :
    (rootValue (worldAfter redefineText) (some ⟨"+", none⟩) = some (.predefined .mul) ∧
      reachesRoot (worldAfter redefineText) (some ⟨"+", none⟩) 1 1 = true) ∧
    Env.eval 3 (worldAfter redefineText) 1 (.symbol ⟨"+", none⟩) true =
      .ok (.predefined .mul, worldAfter redefineText) ∧
    (Env.repl 60 20 Env.createEnvironment (IStream.ofList
      "(define add (lambda (a b) (+ a b))) (add 2 3) (define + *) (add 2 3)".data)).value? =
      some [registerSymbol "add", .integer 5, registerSymbol "+", .integer 6] :=
  ⟨⟨by decide!, by decide!⟩,
   dynamic_resolution _ 1 ⟨"+", none⟩ _ 1 3 true (by decide!) (by decide!) (by decide),
   by decide!⟩

/-! ## C10: arity -/

theorem isProperList_vectorToList (l : List Base_Object) : isProperList (vectorToList l) = true := by
  induction l with
  | nil => rfl
  | cons a l ih => simpa [vectorToList, isProperList] using ih

/-- The binding loop of `makeEnvForApply` on integer arguments never fails, whatever the lengths
of the two lists; what is left of the parameter list is again a list of symbols. -/
theorem applyBindLoop_ints (f out env : Nat) (ps : List Symbol) :
    ∀ (as : List Int) (extra : List Base_Object) (W : World),
      (as.length < ps.length → extra = []) →
      ∃ W1 ps1 args1,
        applyBindLoop (interp (f + 1)) out env W (vectorToList (ps.map .symbol))
          (vectorToList (as.map .integer ++ extra)) = .ok (W1, vectorToList ps1, args1) := by
  induction ps with
  | nil =>
    intro as extra W _
    generalize vectorToList (as.map .integer ++ extra) = args
    cases args <;> exact ⟨W, [], _, rfl⟩
  | cons p ps ih =>
    intro as extra W h
    cases as with
    | nil =>
      have he : extra = [] := h (by simp)
      subst he
      exact ⟨W, (p :: ps).map .symbol, _, rfl⟩
    | cons a as =>
      obtain ⟨W1, ps1, args1, h1⟩ := ih as extra (Env.bind W env (.integer a) (some p))
        (fun hlt => h (by simpa using hlt))
      refine ⟨W1, ps1, args1, ?_⟩
      have hev : (interp (f + 1)).eval W out (.integer a) false = .ok (.integer a, W) := rfl
      simp only [List.map_cons, vectorToList, List.cons_append, applyBindLoop, hev, Res.bind]
      exact h1

/-- C10, amended. There is no arity check: a `Proc` with `k` parameters and an integer literal
`c` as body, applied to `n` integer literals followed by any further argument forms (these only
if all parameters are used up, so that they are surplus), returns `c`.  The first `min n k`
parameters are bound, the surplus arguments are not evaluated, and no error is raised. -/
theorem apply_without_arity_check (ps : List Symbol) (as : List Int) (extra : List Base_Object)
    (c : Int) (h : as.length < ps.length → extra = []) :
    (Env.eval 4 Env.createEnvironment 0
        (.cons (constLambda ps c) (vectorToList (as.map .integer ++ extra))) false).value? =
      some (.integer c) := by
  have hlam : (interp 3).eval Env.createEnvironment 0 (constLambda ps c) false =
      .ok (.proc (vectorToList (ps.map .symbol)) (.cons (registerSymbol "do")
        (.cons (.integer c) nil)) 0, Env.createEnvironment) := rfl
  obtain ⟨W1, ps1, args1, hloop⟩ := applyBindLoop_ints 2 0 1 ps as extra
    (Env.createSubEnvironment Env.createEnvironment 0 (some 0)).2 h
  have hbody : ∀ W : World, (interp 3).eval W 1 (.cons (.symbol ⟨"do", none⟩)
      (.cons (.integer c) (.symbol ⟨"null", none⟩))) true = .ok (.integer c, W) := fun W => rfl
  have hsub : (Env.createSubEnvironment Env.createEnvironment 0 (some 0)).1 = 1 := rfl
  rw [Env.eval_cons 3]
  have hpsf : Env.procSpecialForm 3 (interp 3) Env.createEnvironment 0
      (.cons (constLambda ps c) (vectorToList (as.map .integer ++ extra))) false = .ok none := rfl
  simp only [hpsf, Res.bind, Env.applyStep, hlam, makeEnvForApply,
    isProperList_vectorToList, hsub, hloop]
  cases ps1 with
  | nil => simp [vectorToList, registerSymbol, mergeIfTail, hbody, Res.value?]
  | cons q qs => simp [vectorToList, registerSymbol, mergeIfTail, hbody, Res.value?]

/-- C10, witness: one parameter and two arguments, the second of which could not even be
evaluated. -/
theorem apply_without_arity_check_witness :
    (Env.eval 4 Env.createEnvironment 0
        (.cons (constLambda [⟨"a", none⟩] 1)
          (vectorToList ([(1 : Int)].map .integer ++ [registerSymbol "unbound"]))) false).value? =
      some (.integer 1) :=
  apply_without_arity_check [⟨"a", none⟩] [1] [registerSymbol "unbound"] 1 (by decide)

/-- C10, as stated, fails: procedures of one and of two parameters applied to two and to one
argument return the value of their body. -/
theorem arity_mismatch_returns :
    (Env.repl 30 5 Env.createEnvironment (IStream.ofList
      "((lambda (a) 1) 1 2) ((lambda (a b) 1) 1)".data)).value? =
      some [.integer 1, .integer 1] := by
  decide!

/-! ## What every evaluation step keeps -/

theorem Res.bind_eq_ok {α β : Type} (x : Res α) (f : α → Res β) (y : β) :
    x.bind f = .ok y ↔ ∃ a, x = .ok a ∧ f a = .ok y := by
  cases x <;> simp [Res.bind]

theorem mergeIfTail_keeps {Q : World → World → Prop} (hQ : WorldRel Q) (W : World) (o e : Nat)
    (t : Bool) : Q W (mergeIfTail W o e t).2 := by
  unfold mergeIfTail
  split
  · exact hQ.merge _ _ _
  · exact hQ.refl _

theorem evalListElements_keeps {Q : World → World → Prop} (hQ : WorldRel Q) (r : Rec)
    (hr : r.Keeps Q) (env : Nat) :
    ∀ (o : Base_Object) (W : World) (v : Base_Object) (W1 : World),
    evalListElements r env W o = .ok (v, W1) → Q W W1 := by
  intro o
  induction o with
  | cons car cdr _ ih =>
    intro W v W1 h
    simp only [evalListElements, Res.bind_eq_ok] at h
    obtain ⟨y, hy, x, hx, h⟩ := h
    simp only [Res.ok.injEq, Prod.mk.injEq] at h
    rw [← h.2]
    exact hQ.trans _ _ _ (ih _ _ _ hy) (hr.1 _ _ _ _ _ _ hx)
  | _ =>
    intro W v W1 h
    simp only [evalListElements, Res.ok.injEq, Prod.mk.injEq] at h
    rw [h.2]
    exact hQ.refl _

theorem mapExpand_keeps {Q : World → World → Prop} (hQ : WorldRel Q) (r : Rec)
    (hr : r.Keeps Q) (self : Nat) :
    ∀ (o : Base_Object) (W : World) (v : Base_Object) (W1 : World),
    mapExpand r self W o = .ok (v, W1) → Q W W1 := by
  intro o
  induction o with
  | cons car cdr _ ih =>
    intro W v W1 h
    simp only [mapExpand, Res.bind_eq_ok] at h
    obtain ⟨y, hy, x, hx, h⟩ := h
    simp only [Res.ok.injEq, Prod.mk.injEq] at h
    rw [← h.2]
    exact hQ.trans _ _ _ (ih _ _ _ hy) (hr.2 _ _ _ _ _ hx)
  | _ =>
    intro W v W1 h
    simp only [mapExpand, Res.ok.injEq, Prod.mk.injEq] at h
    rw [h.2]
    exact hQ.refl _

theorem evalArgs_keeps {Q : World → World → Prop} (hQ : WorldRel Q) (r : Rec)
    (hr : r.Keeps Q) (self : Nat) :
    ∀ (o : Base_Object) (W : World) (v : List Base_Object) (W1 : World),
    evalArgs r self W o = .ok (v, W1) → Q W W1 := by
  intro o
  induction o with
  | cons car cdr _ ih =>
    intro W v W1 h
    simp only [evalArgs, Res.bind_eq_ok] at h
    obtain ⟨x, hx, y, hy, h⟩ := h
    simp only [Res.ok.injEq, Prod.mk.injEq] at h
    rw [← h.2]
    exact hQ.trans _ _ _ (hr.1 _ _ _ _ _ _ hx) (ih _ _ _ hy)
  | _ =>
    intro W v W1 h
    simp only [evalArgs, Res.ok.injEq, Prod.mk.injEq] at h
    rw [h.2]
    exact hQ.refl _

theorem macroBindLoop_keeps {Q : World → World → Prop} (hQ : WorldRel Q) (env : Nat) :
    ∀ (prms args : Base_Object) (W : World) (y : World × Base_Object × Base_Object),
    macroBindLoop env W prms args = .ok y → Q W y.1 := by
  intro prms
  induction prms with
  | cons p prms _ ih =>
    intro args W y h
    cases args with
    | cons a args =>
      cases p with
      | symbol s =>
        simp only [macroBindLoop] at h
        exact hQ.trans _ _ _ (hQ.bind _ _ _ _) (ih _ _ _ h)
      | _ => simp [macroBindLoop] at h
    | _ =>
      simp only [macroBindLoop, Res.ok.injEq] at h
      rw [← h]
      exact hQ.refl _
  | _ =>
    intro args W y h
    simp only [macroBindLoop, Res.ok.injEq] at h
    rw [← h]
    exact hQ.refl _

theorem applyBindLoop_keeps {Q : World → World → Prop} (hQ : WorldRel Q) (r : Rec)
    (hr : r.Keeps Q) (out env : Nat) :
    ∀ (prms args : Base_Object) (W : World) (y : World × Base_Object × Base_Object),
    applyBindLoop r out env W prms args = .ok y → Q W y.1 := by
  intro prms
  induction prms with
  | cons p prms _ ih =>
    intro args W y h
    cases args with
    | cons a args =>
      cases p with
      | symbol s =>
        simp only [applyBindLoop, Res.bind_eq_ok] at h
        obtain ⟨x, hx, h⟩ := h
        exact hQ.trans _ _ _ (hr.1 _ _ _ _ _ _ hx)
          (hQ.trans _ _ _ (hQ.bind _ _ _ _) (ih _ _ _ h))
      | _ => simp [applyBindLoop] at h
    | _ =>
      simp only [applyBindLoop, Res.ok.injEq] at h
      rw [← h]
      exact hQ.refl _
  | _ =>
    intro args W y h
    simp only [applyBindLoop, Res.ok.injEq] at h
    rw [← h]
    exact hQ.refl _

theorem makeEnvForMacro_keeps {Q : World → World → Prop} (hQ : WorldRel Q) (W : World)
    (out procEnv : Nat) (prms args : Base_Object) (t : Bool) (y : Nat × World)
    (h : makeEnvForMacro W out procEnv prms args t = .ok y) : Q W y.2 := by
  unfold makeEnvForMacro at h
  simp only at h
  split at h
  · cases h
  · simp only [Res.bind_eq_ok] at h
    obtain ⟨x, hx, h⟩ := h
    have h1 := hQ.trans _ _ _ (hQ.sub W out (some procEnv)) (macroBindLoop_keeps hQ _ _ _ _ _ hx)
    split at h
    · split at h
      · simp only [Res.ok.injEq] at h
        rw [← h]
        exact hQ.trans _ _ _ h1 (mergeIfTail_keeps hQ _ _ _ _)
      · simp only [Res.ok.injEq] at h
        rw [← h]
        exact hQ.trans _ _ _ h1 (hQ.trans _ _ _ (hQ.bind _ _ _ _) (mergeIfTail_keeps hQ _ _ _ _))
    · simp only [Res.ok.injEq] at h
      rw [← h]
      exact hQ.trans _ _ _ h1 (mergeIfTail_keeps hQ _ _ _ _)

theorem makeEnvForApply_keeps {Q : World → World → Prop} (hQ : WorldRel Q) (r : Rec)
    (hr : r.Keeps Q) (W : World) (out procEnv : Nat) (prms args : Base_Object) (t : Bool)
    (y : Nat × World) (h : makeEnvForApply r W out procEnv prms args t = .ok y) : Q W y.2 := by
  unfold makeEnvForApply at h
  simp only at h
  split at h
  · cases h
  · simp only [Res.bind_eq_ok] at h
    obtain ⟨x, hx, h⟩ := h
    have h1 := hQ.trans _ _ _ (hQ.sub W out (some procEnv))
      (applyBindLoop_keeps hQ r hr _ _ _ _ _ _ hx)
    split at h
    · split at h
      · simp only [Res.ok.injEq] at h
        rw [← h]
        exact hQ.trans _ _ _ h1 (mergeIfTail_keeps hQ _ _ _ _)
      · simp only [Res.bind_eq_ok] at h
        obtain ⟨rest, hrest, h⟩ := h
        simp only [Res.ok.injEq] at h
        rw [← h]
        exact hQ.trans _ _ _ h1 (hQ.trans _ _ _ (evalListElements_keeps hQ r hr _ _ _ _ _ hrest)
          (hQ.trans _ _ _ (hQ.bind _ _ _ _) (mergeIfTail_keeps hQ _ _ _ _)))
    · simp only [Res.ok.injEq] at h
      rw [← h]
      exact hQ.trans _ _ _ h1 (mergeIfTail_keeps hQ _ _ _ _)

theorem doLoop_keeps {Q : World → World → Prop} (hQ : WorldRel Q) (r : Rec)
    (hr : r.Keeps Q) (self : Nat) (t : Bool) :
    ∀ (cdr car : Base_Object) (W : World) (v : Base_Object) (W1 : World),
    doLoop r self t W car cdr = .ok (v, W1) → Q W W1 := by
  intro cdr
  induction cdr with
  | cons car1 cdr1 _ ih =>
    intro car W v W1 h
    simp only [doLoop, Res.bind_eq_ok] at h
    obtain ⟨x, hx, h⟩ := h
    exact hQ.trans _ _ _ (hr.1 _ _ _ _ _ _ hx) (ih _ _ _ _ h)
  | _ =>
    intro car W v W1 h
    simp only [doLoop] at h
    exact hr.1 _ _ _ _ _ _ h

theorem letLoop_keeps {Q : World → World → Prop} (hQ : WorldRel Q) (r : Rec)
    (hr : r.Keeps Q) (self env : Nat) :
    ∀ (n : Nat) (b : Base_Object), listLength b ≤ n → ∀ (W W1 : World),
    letLoop r self env W b = .ok W1 → Q W W1 := by
  intro n
  induction n with
  | zero =>
    intro b hb W W1 h
    cases b with
    | cons x y => simp [listLength] at hb
    | symbol s =>
      simp only [letLoop] at h
      split at h
      · simp only [Res.ok.injEq] at h
        rw [← h]
        exact hQ.refl _
      · cases h
    | _ => simp [letLoop] at h
  | succ n ih =>
    intro b hb W W1 h
    cases b with
    | cons x y =>
      cases y with
      | cons form rest =>
        cases x with
        | symbol s =>
          simp only [letLoop, Res.bind_eq_ok] at h
          obtain ⟨a, ha, h⟩ := h
          have hl : listLength rest ≤ n := by
            simp only [listLength] at hb
            omega
          exact hQ.trans _ _ _ (hr.1 _ _ _ _ _ _ ha)
            (hQ.trans _ _ _ (hQ.bind _ _ _ _) (ih rest hl _ _ h))
        | _ => simp [letLoop] at h
      | _ => simp [letLoop] at h
    | symbol s =>
      simp only [letLoop] at h
      split at h
      · simp only [Res.ok.injEq] at h
        rw [← h]
        exact hQ.refl _
      · cases h
    | _ => simp [letLoop] at h

theorem letStarLoop_keeps {Q : World → World → Prop} (hQ : WorldRel Q) (r : Rec)
    (hr : r.Keeps Q) (env : Nat) :
    ∀ (n : Nat) (b : Base_Object), listLength b ≤ n → ∀ (W W1 : World),
    letStarLoop r env W b = .ok W1 → Q W W1 := by
  intro n
  induction n with
  | zero =>
    intro b hb W W1 h
    cases b with
    | cons x y => simp [listLength] at hb
    | symbol s =>
      simp only [letStarLoop] at h
      split at h
      · simp only [Res.ok.injEq] at h
        rw [← h]
        exact hQ.refl _
      · cases h
    | _ => simp [letStarLoop] at h
  | succ n ih =>
    intro b hb W W1 h
    cases b with
    | cons x y =>
      cases y with
      | cons form rest =>
        simp only [letStarLoop, Res.bind_eq_ok] at h
        obtain ⟨a, ha, h⟩ := h
        have hl : listLength rest ≤ n := by
          simp only [listLength] at hb
          omega
        exact hQ.trans _ _ _ (hr.1 _ _ _ _ _ _ ha)
          (hQ.trans _ _ _ (hQ.bind _ _ _ _) (ih rest hl _ _ h))
      | _ => simp [letStarLoop] at h
    | symbol s =>
      simp only [letStarLoop] at h
      split at h
      · simp only [Res.ok.injEq] at h
        rw [← h]
        exact hQ.refl _
      · cases h
    | _ => simp [letStarLoop] at h

theorem Env.procSpecialForm_keeps {Q : World → World → Prop} (hQ : WorldRel Q) (fuel : Nat)
    (r : Rec) (hr : r.Keeps Q) (W : World) (self : Nat) (o : Base_Object) (t : Bool)
    (v : Base_Object) (W1 : World)
    (h : Env.procSpecialForm fuel r W self o t = .ok (some (v, W1))) : Q W W1 := by
  unfold Env.procSpecialForm at h
  split at h
  · rename_i op cdr
    simp only at h
    by_cases hif : (op.name == "if") = true
    · rw [if_pos hif] at h
      split at h
      · split at h
        · simp only [Res.bind_eq_ok] at h
          obtain ⟨c, hc, h⟩ := h
          have h1 := hr.1 _ _ _ _ _ _ hc
          split at h
          · simp only [Res.bind_eq_ok, Res.ok.injEq, Option.some.injEq] at h
            obtain ⟨x, hx, h⟩ := h
            subst h
            exact hQ.trans _ _ _ h1 (hr.1 _ _ _ _ _ _ hx)
          · split at h
            · split at h
              · simp only [Res.bind_eq_ok, Res.ok.injEq, Option.some.injEq] at h
                obtain ⟨x, hx, h⟩ := h
                subst h
                exact hQ.trans _ _ _ h1 (hr.1 _ _ _ _ _ _ hx)
              · cases h
            · simp only [Res.ok.injEq, Option.some.injEq, Prod.mk.injEq] at h
              rw [← h.2]
              exact h1
        · cases h
      · cases h
    rw [if_neg hif] at h
    by_cases hq : (op.name == "quote") = true
    · rw [if_pos hq] at h
      split at h
      · split at h
        · simp only [Res.ok.injEq, Option.some.injEq, Prod.mk.injEq] at h
          rw [← h.2]
          exact hQ.refl _
        · cases h
      · cases h
    rw [if_neg hq] at h
    by_cases hdo : (op.name == "do") = true
    · rw [if_pos hdo] at h
      split at h
      · simp only [Res.ok.injEq, Option.some.injEq, Prod.mk.injEq] at h
        rw [← h.2]
        exact hQ.refl _
      · split at h
        · simp only [Res.bind_eq_ok, Res.ok.injEq, Option.some.injEq] at h
          obtain ⟨x, hx, h⟩ := h
          subst h
          exact doLoop_keeps hQ r hr _ _ _ _ _ _ _ hx
        · cases h
    rw [if_neg hdo] at h
    by_cases hdef : (op.name == "define") = true
    · rw [if_pos hdef] at h
      split at h
      · split at h
        · simp only [Res.bind_eq_ok, Res.ok.injEq, Option.some.injEq, Prod.mk.injEq] at h
          obtain ⟨x, hx, h⟩ := h
          rw [← h.2]
          exact hQ.trans _ _ _ (hr.1 _ _ _ _ _ _ hx) (hQ.bind _ _ _ _)
        · cases h
        · cases h
      · cases h
    rw [if_neg hdef] at h
    by_cases hset : (op.name == "set!") = true
    · rw [if_pos hset] at h
      split at h
      · split at h
        · simp only [Res.bind_eq_ok, Res.ok.injEq, Option.some.injEq, Prod.mk.injEq] at h
          obtain ⟨found, _, x, hx, h⟩ := h
          rw [← h.2]
          exact hQ.trans _ _ _ (hr.1 _ _ _ _ _ _ hx) (hQ.bind _ _ _ _)
        · cases h
        · cases h
      · cases h
    rw [if_neg hset] at h
    by_cases hlet : (op.name == "let") = true
    · rw [if_pos hlet] at h
      split at h
      · cases h
      · split at h
        · cases h
        · split at h
          · cases h
          · split at h
            · cases h
            · simp only [Res.bind_eq_ok, Res.ok.injEq, Option.some.injEq] at h
              obtain ⟨Wl, hl, body, _, x, hx, h⟩ := h
              subst h
              exact hQ.trans _ _ _ (hQ.sub W self none)
                (hQ.trans _ _ _ (letLoop_keeps hQ r hr _ _ _ _ (Nat.le_refl _) _ _ hl)
                  (hQ.trans _ _ _ (mergeIfTail_keeps hQ _ _ _ _) (hr.1 _ _ _ _ _ _ hx)))
    rw [if_neg hlet] at h
    by_cases hls : (op.name == "let*") = true
    · rw [if_pos hls] at h
      split at h
      · cases h
      · split at h
        · cases h
        · split at h
          · cases h
          · split at h
            · cases h
            · simp only [Res.bind_eq_ok, Res.ok.injEq, Option.some.injEq] at h
              obtain ⟨Wl, hl, body, _, x, hx, h⟩ := h
              subst h
              have h0 : Q W (if (t && !Env.isClosed W self) = true then (self, W)
                  else Env.createSubEnvironment W self none).2 := by
                split
                · exact hQ.refl _
                · exact hQ.sub _ _ _
              exact hQ.trans _ _ _ h0
                (hQ.trans _ _ _ (letStarLoop_keeps hQ r hr _ _ _ (Nat.le_refl _) _ _ hl)
                  (hr.1 _ _ _ _ _ _ hx))
    rw [if_neg hls] at h
    by_cases hlam : (op.name == "lambda") = true
    · rw [if_pos hlam] at h
      split at h
      · split at h
        · simp only [Res.bind_eq_ok, Res.ok.injEq, Option.some.injEq, Prod.mk.injEq] at h
          obtain ⟨body, _, h⟩ := h
          rw [← h.2]
          exact hQ.setClosed _ _
        · cases h
      · cases h
    rw [if_neg hlam] at h
    by_cases hmac : (op.name == "macro") = true
    · rw [if_pos hmac] at h
      split at h
      · split at h
        · simp only [Res.bind_eq_ok, Res.ok.injEq, Option.some.injEq, Prod.mk.injEq] at h
          obtain ⟨body, _, h⟩ := h
          rw [← h.2]
          exact hQ.setClosed _ _
        · cases h
      · cases h
    rw [if_neg hmac] at h
    cases h
  · cases h

theorem Rec.evalTop_keeps_of {Q : World → World → Prop} (hQ : WorldRel Q) (r : Rec)
    (hr : r.Keeps Q) (W : World) (self : Nat) (o v : Base_Object) (W1 : World)
    (h : r.evalTop W self o = .ok (v, W1)) : Q W W1 := by
  simp only [Rec.evalTop, Res.bind_eq_ok] at h
  obtain ⟨x, hx, h⟩ := h
  exact hQ.trans _ _ _ (hr.2 _ _ _ _ _ hx) (hr.1 _ _ _ _ _ _ h)

theorem applyBuiltin_keeps {Q : World → World → Prop} (hQ : WorldRel Q) (fuel : Nat) (r : Rec)
    (hr : r.Keeps Q) (b : Builtin) (W : World) (self : Nat) (args : List Base_Object)
    (v : Base_Object) (W1 : World) (h : applyBuiltin fuel r b W self args = .ok (v, W1)) :
    Q W W1 := by
  have hrefl : ∀ (x : Base_Object), (Res.ok (x, W) : Res (Base_Object × World)) = .ok (v, W1) →
      Q W W1 := by
    intro x hx
    simp only [Res.ok.injEq, Prod.mk.injEq] at hx
    rw [← hx.2]
    exact hQ.refl _
  have hbind : ∀ (m : Res Int), (m.bind fun z => (Res.ok (.integer z, W) :
      Res (Base_Object × World))) = .ok (v, W1) → Q W W1 := by
    intro m hm
    simp only [Res.bind_eq_ok] at hm
    obtain ⟨a, _, hm⟩ := hm
    exact hrefl _ hm
  cases b
  case eqP =>
    simp only [applyBuiltin] at h
    split at h
    · cases h
    · simp only [Res.ok.injEq, Prod.mk.injEq] at h
      rw [← h.2]
      exact hQ.addr _ _
  case add => exact hbind _ h
  case mul => exact hbind _ h
  case sub =>
    simp only [applyBuiltin] at h
    split at h
    · exact hrefl _ h
    · exact hbind _ h
    · cases h
  case div =>
    simp only [applyBuiltin] at h
    split at h
    · exact hbind _ h
    · cases h
  case mod =>
    simp only [applyBuiltin] at h
    split at h
    · split at h
      · cases h
      · split at h
        · cases h
        · exact hrefl _ h
    · cases h
  case gensym =>
    simp only [applyBuiltin] at h
    split at h
    · simp only [Res.ok.injEq, Prod.mk.injEq] at h
      rw [← h.2]
      exact hQ.sym _ _
    · simp only [Res.ok.injEq, Prod.mk.injEq] at h
      rw [← h.2]
      exact hQ.sym _ _
    · cases h
  case boundP =>
    simp only [applyBuiltin] at h
    split at h
    · simp only [Res.bind_eq_ok] at h
      obtain ⟨a, _, h⟩ := h
      exact hrefl _ h
    · cases h
  case eval =>
    simp only [applyBuiltin] at h
    split at h
    · exact Rec.evalTop_keeps_of hQ r hr _ _ _ _ _ h
    · cases h
  case macroexpandAll =>
    simp only [applyBuiltin] at h
    split at h
    · exact hr.2 _ _ _ _ _ h
    · cases h
  all_goals
    simp only [applyBuiltin] at h
    first
      | exact hrefl _ h
      | (split at h <;> first
          | exact hrefl _ h
          | (exact Res.noConfusion h)
          | (split at h <;> first
              | exact hrefl _ h
              | (exact Res.noConfusion h)))

theorem Env.applyStep_keeps {Q : World → World → Prop} (hQ : WorldRel Q) (fuel : Nat) (r : Rec)
    (hr : r.Keeps Q) (W : World) (self : Nat) (car cdr : Base_Object) (t : Bool)
    (v : Base_Object) (W1 : World)
    (h : Env.applyStep fuel r W self car cdr t = .ok (v, W1)) : Q W W1 := by
  unfold Env.applyStep at h
  rw [Res.bind_eq_ok] at h
  obtain ⟨op, hop, h⟩ := h
  have h0 := hr.1 _ _ _ _ _ _ (show r.eval W self car false = .ok (op.1, op.2) from hop)
  split at h
  · rw [Res.bind_eq_ok] at h
    obtain ⟨e, he, h⟩ := h
    exact hQ.trans _ _ _ h0 (hQ.trans _ _ _ (makeEnvForApply_keeps hQ r hr _ _ _ _ _ _ _ he)
      (hr.1 _ _ _ _ _ _ h))
  · split at h
    · cases h
    · rw [Res.bind_eq_ok] at h
      obtain ⟨a, ha, h⟩ := h
      exact hQ.trans _ _ _ h0 (hQ.trans _ _ _
        (evalArgs_keeps hQ r hr _ _ _ _ _ (show evalArgs r self op.2 cdr = .ok (a.1, a.2) from ha))
        (applyBuiltin_keeps hQ fuel r hr _ _ _ _ _ _ h))
  · cases h

theorem Env.evalStep_keeps {Q : World → World → Prop} (hQ : WorldRel Q) (fuel : Nat) (r : Rec)
    (hr : r.Keeps Q) (W : World) (self : Nat) (o : Base_Object) (t : Bool)
    (v : Base_Object) (W1 : World)
    (h : Env.evalStep fuel r W self o t = .ok (v, W1)) : Q W W1 := by
  have hrefl : ∀ (x : Base_Object), (Res.ok (x, W) : Res (Base_Object × World)) = .ok (v, W1) →
      Q W W1 := by
    intro x hx
    simp only [Res.ok.injEq, Prod.mk.injEq] at hx
    rw [← hx.2]
    exact hQ.refl _
  unfold Env.evalStep at h
  split at h
  · rw [Res.bind_eq_ok] at h
    obtain ⟨rr, _, h⟩ := h
    split at h
    · exact hrefl _ h
    · cases h
  · exact hrefl _ h
  · exact hrefl _ h
  · rw [Res.bind_eq_ok] at h
    obtain ⟨psfr, hp, h⟩ := h
    split at h
    · rename_i res
      cases h
      exact Env.procSpecialForm_keeps hQ fuel r hr _ _ _ _ _ _ hp
    · exact Env.applyStep_keeps hQ fuel r hr _ _ _ _ _ _ _ h
  · exact hrefl _ h

theorem Env.macroExpandStep_keeps {Q : World → World → Prop} (hQ : WorldRel Q) (fuel : Nat)
    (r : Rec) (hr : r.Keeps Q) (W : World) (self : Nat) (o : Base_Object)
    (v : Base_Object) (W1 : World)
    (h : Env.macroExpandStep fuel r W self o = .ok (v, W1)) : Q W W1 := by
  have hrefl : ∀ (x : Base_Object), (Res.ok (x, W) : Res (Base_Object × World)) = .ok (v, W1) →
      Q W W1 := by
    intro x hx
    simp only [Res.ok.injEq, Prod.mk.injEq] at hx
    rw [← hx.2]
    exact hQ.refl _
  unfold Env.macroExpandStep at h
  split at h
  · split at h
    · exact hrefl _ h
    · rw [Res.bind_eq_ok] at h
      obtain ⟨op, _, h⟩ := h
      split at h
      · rw [Res.bind_eq_ok] at h
        obtain ⟨e, he, h⟩ := h
        rw [Res.bind_eq_ok] at h
        obtain ⟨x, hx, h⟩ := h
        exact hQ.trans _ _ _ (makeEnvForMacro_keeps hQ _ _ _ _ _ _ _ he)
          (hQ.trans _ _ _ (hr.1 _ _ _ _ _ _ (show r.eval e.2 e.1 _ false = .ok (x.1, x.2) from hx))
            (hr.2 _ _ _ _ _ h))
      · exact mapExpand_keeps hQ r hr _ _ _ _ _ h
  · exact mapExpand_keeps hQ r hr _ _ _ _ _ h
  · exact hrefl _ h

theorem interp_keeps {Q : World → World → Prop} (hQ : WorldRel Q) :
    ∀ fuel : Nat, (interp fuel).Keeps Q := by
  intro fuel
  induction fuel with
  | zero =>
    constructor
    · intro W self o t v W1 h
      cases h
    · intro W self o v W1 h
      cases h
  | succ n ih =>
    constructor
    · intro W self o t v W1 h
      exact Env.evalStep_keeps hQ n (interp n) ih _ _ _ _ _ _ h
    · intro W self o v W1 h
      exact Env.macroExpandStep_keeps hQ n (interp n) ih _ _ _ _ _ h

theorem Env.eval_keeps {Q : World → World → Prop} (hQ : WorldRel Q) (fuel : Nat) (W : World)
    (self : Nat) (o : Base_Object) (t : Bool) (v : Base_Object) (W1 : World)
    (h : Env.eval fuel W self o t = .ok (v, W1)) : Q W W1 :=
  (interp_keeps hQ fuel).1 _ _ _ _ _ _ h

theorem Env.macroExpand_keeps {Q : World → World → Prop} (hQ : WorldRel Q) (fuel : Nat)
    (W : World) (self : Nat) (o : Base_Object) (v : Base_Object) (W1 : World)
    (h : Env.macroExpand fuel W self o = .ok (v, W1)) : Q W W1 :=
  (interp_keeps hQ fuel).2 _ _ _ _ _ h

theorem Env.evalTop_keeps {Q : World → World → Prop} (hQ : WorldRel Q) (fuel : Nat)
    (W : World) (self : Nat) (o : Base_Object) (v : Base_Object) (W1 : World)
    (h : Env.evalTop fuel W self o = .ok (v, W1)) : Q W W1 :=
  Rec.evalTop_keeps_of hQ _ (interp_keeps hQ fuel) _ _ _ _ _ h

theorem updateEnv_length (g : Env → Env) : ∀ (es : List Env) (i : Nat),
    (updateEnv es i g).length = es.length := by
  intro es
  induction es with
  | nil => intro i; rfl
  | cons e es ih =>
    intro i
    cases i with
    | zero => rfl
    | succ i => simp [updateEnv, ih]

theorem updateEnv_get_self (g : Env → Env) : ∀ (es : List Env) (i : Nat),
    (updateEnv es i g)[i]? = (es[i]?).map g := by
  intro es
  induction es with
  | nil => intro i; rfl
  | cons e es ih =>
    intro i
    cases i with
    | zero => simp [updateEnv]
    | succ i => simp [updateEnv, ih]

theorem updateEnv_get_ne (g : Env → Env) : ∀ (es : List Env) (i j : Nat), j ≠ i →
    (updateEnv es i g)[j]? = es[j]? := by
  intro es
  induction es with
  | nil => intro i j _; rfl
  | cons e es ih =>
    intro i j hj
    cases i with
    | zero =>
      cases j with
      | zero => exact absurd rfl hj
      | succ j => rfl
    | succ i =>
      cases j with
      | zero => simp [updateEnv]
      | succ j =>
        simp only [updateEnv, List.getElem?_cons_succ]
        exact ih i j (fun h => hj (by rw [h]))

theorem Env.bind_length (W : World) (i : Nat) (o : Base_Object) (s : SymPtr) :
    (Env.bind W i o s).envs.length = W.envs.length := updateEnv_length _ _ _

theorem Env.merge_length (W : World) (i j : Nat) :
    (Env.merge W i j).envs.length = W.envs.length := by
  unfold Env.merge
  split
  · rfl
  · exact updateEnv_length _ _ _

theorem Env.setClosed_length (W : World) (i : Nat) :
    (Env.setClosed W i).envs.length = W.envs.length := updateEnv_length _ _ _

/-- No evaluation step removes an environment. -/
theorem lengthRel : WorldRel (fun W W1 => W.envs.length ≤ W1.envs.length) where
  refl := fun _ => Nat.le_refl _
  trans := fun _ _ _ h1 h2 => Nat.le_trans h1 h2
  bind := fun W i o s => Nat.le_of_eq (Env.bind_length W i o s).symm
  merge := fun W i j => Nat.le_of_eq (Env.merge_length W i j).symm
  setClosed := fun W i => Nat.le_of_eq (Env.setClosed_length W i).symm
  sub := fun W i l => by simp [Env.createSubEnvironment]
  sym := fun _ _ => Nat.le_refl _
  addr := fun _ _ => Nat.le_refl _

theorem Env.eval_length (fuel : Nat) (W : World) (self : Nat) (o : Base_Object) (t : Bool)
    (v : Base_Object) (W1 : World) (h : Env.eval fuel W self o t = .ok (v, W1)) :
    W.envs.length ≤ W1.envs.length :=
  Env.eval_keeps lengthRel fuel W self o t v W1 h

theorem Env.bind_get_self (W : World) (i : Nat) (o : Base_Object) (s : SymPtr) :
    ((Env.bind W i o s).envs[i]?).map (fun e => mapFind e.symbolValueMap s) =
      (W.envs[i]?).map (fun _ => some o) := by
  show ((updateEnv W.envs i _)[i]?).map _ = _
  rw [updateEnv_get_self]
  cases W.envs[i]? with
  | none => rfl
  | some e => simp [mapFind_mapSet_self]

theorem Env.bind_get_ne (W : World) (i j : Nat) (o : Base_Object) (s : SymPtr) (h : j ≠ i) :
    (Env.bind W i o s).envs[j]? = W.envs[j]? :=
  updateEnv_get_ne _ _ _ _ h

theorem Env.bind_get_other (W : World) (i : Nat) (o : Base_Object) (s k : SymPtr) (h : k ≠ s) :
    ((Env.bind W i o s).envs[i]?).map (fun e => mapFind e.symbolValueMap k) =
      (W.envs[i]?).map (fun e => mapFind e.symbolValueMap k) := by
  show ((updateEnv W.envs i _)[i]?).map _ = _
  rw [updateEnv_get_self]
  cases W.envs[i]? with
  | none => rfl
  | some e =>
    simp only [Option.map_some']
    rw [mapFind_mapSet_ne _ _ _ _ (fun hh => h hh.symm)]

theorem rootValue_bind_root (W : World) (o : Base_Object) (s : SymPtr) (h : 0 < W.envs.length) :
    rootValue (Env.bind W 0 o s) s = some o := by
  have h1 := Env.bind_get_self W 0 o s
  have h2 : ∃ e, W.envs[0]? = some e := ⟨W.envs[0], List.getElem?_eq_getElem h⟩
  obtain ⟨e, he⟩ := h2
  rw [he] at h1
  unfold rootValue
  cases hb : (Env.bind W 0 o s).envs[0]? with
  | none => rw [hb] at h1; cases h1
  | some e1 =>
    rw [hb] at h1
    simpa using h1

theorem Env.resolveEnvDyn_lt : ∀ (fuel : Nat) (W : World) (self : Nat) (s : SymPtr) (G : Nat),
    Env.resolveEnvDyn fuel W self s = .ok (some G) → G < W.envs.length := by
  intro fuel
  induction fuel with
  | zero => intro W self s G h; cases h
  | succ n ih =>
    intro W self s G h
    rw [Env.resolveEnvDyn] at h
    cases he : W.envs[self]? with
    | none => rw [he] at h; cases h
    | some e =>
      rw [he] at h
      simp only at h
      by_cases hc : mapCount e.symbolValueMap s = true
      · rw [if_pos hc] at h
        cases h
        by_contra hlt
        rw [List.getElem?_eq_none (Nat.le_of_not_lt hlt)] at he
        cases he
      · rw [if_neg hc] at h
        cases ho : e.outEnvironment with
        | none => rw [ho] at h; cases h
        | some o => rw [ho] at h; exact ih _ _ _ _ h

theorem Env.resolveEnvLex_lt : ∀ (fuel : Nat) (W : World) (self : Nat) (s : SymPtr) (G : Nat),
    Env.resolveEnvLex fuel W self s = .ok (some G) → G < W.envs.length := by
  intro fuel
  induction fuel with
  | zero => intro W self s G h; cases h
  | succ n ih =>
    intro W self s G h
    rw [Env.resolveEnvLex] at h
    cases he : W.envs[self]? with
    | none => rw [he] at h; cases h
    | some e =>
      rw [he] at h
      simp only at h
      by_cases hc : mapCount e.symbolValueMap s = true
      · rw [if_pos hc] at h
        cases h
        by_contra hlt
        rw [List.getElem?_eq_none (Nat.le_of_not_lt hlt)] at he
        cases he
      · rw [if_neg hc] at h
        cases hl : e.environmentLex with
        | some l => rw [hl] at h; exact ih _ _ _ _ h
        | none =>
          rw [hl] at h
          cases ho : e.outEnvironment with
          | none => rw [ho] at h; cases h
          | some o => rw [ho] at h; exact ih _ _ _ _ h

theorem Env.findEnvironment_lt (fuel : Nat) (W : World) (self : Nat) (s : SymPtr) (G : Nat)
    (h : Env.findEnvironment fuel W self s = .ok (some G)) : G < W.envs.length := by
  unfold Env.findEnvironment at h
  split at h
  · exact Env.resolveEnvDyn_lt _ _ _ _ _ h
  · exact Env.resolveEnvLex_lt _ _ _ _ _ h

theorem Env.resolveEnvDyn_nonempty (fuel : Nat) (W : World) (self : Nat) (s : SymPtr)
    (x : Option Nat) (h : Env.resolveEnvDyn fuel W self s = .ok x) : 0 < W.envs.length := by
  cases fuel with
  | zero => cases h
  | succ n =>
    rw [Env.resolveEnvDyn] at h
    cases he : W.envs[self]? with
    | none => rw [he] at h; cases h
    | some e =>
      by_contra hlt
      rw [List.getElem?_eq_none (by omega)] at he
      cases he

theorem Env.resolveEnvLex_nonempty (fuel : Nat) (W : World) (self : Nat) (s : SymPtr)
    (x : Option Nat) (h : Env.resolveEnvLex fuel W self s = .ok x) : 0 < W.envs.length := by
  cases fuel with
  | zero => cases h
  | succ n =>
    rw [Env.resolveEnvLex] at h
    cases he : W.envs[self]? with
    | none => rw [he] at h; cases h
    | some e =>
      by_contra hlt
      rw [List.getElem?_eq_none (by omega)] at he
      cases he

theorem Env.findEnvironment_nonempty (fuel : Nat) (W : World) (self : Nat) (s : SymPtr)
    (x : Option Nat) (h : Env.findEnvironment fuel W self s = .ok x) : 0 < W.envs.length := by
  unfold Env.findEnvironment at h
  split at h
  · exact Env.resolveEnvDyn_nonempty _ _ _ _ _ h
  · exact Env.resolveEnvLex_nonempty _ _ _ _ _ h

/-! ## An environment that nothing refers to is neither read nor written -/

theorem ResRel.bind_rel {α β γ δ : Type} {R : α → β → Prop} {S : γ → δ → Prop}
    {x : Res α} {y : Res β} {f : α → Res γ} {g : β → Res δ}
    (h : ResRel R x y) (hf : ∀ a b, R a b → ResRel S (f a) (g b)) :
    ResRel S (x.bind f) (y.bind g) := by
  cases x <;> cases y <;> first | exact hf _ _ h | exact h | exact False.elim h

theorem ResRel.throw {α β : Type} (R : α → β → Prop) (m : String) :
    ResRel R (.throw m) (.throw m) := rfl

theorem ResRel.fault {α β : Type} (R : α → β → Prop) (m : String) :
    ResRel R (.fault m) (.fault m) := rfl

theorem ResRel.external {α β : Type} (R : α → β → Prop) (m : String) :
    ResRel R (.external m) (.external m) := rfl

theorem noRefObj_cons (k : Nat) (a d : Base_Object) :
    noRefObj k (.cons a d) = true ↔ noRefObj k a = true ∧ noRefObj k d = true := by
  simp [noRefObj]

theorem noRefObj_symbol (k : Nat) (s : Symbol) : noRefObj k (.symbol s) = true := rfl

theorem noRefObj_listNth (k : Nat) : ∀ (i : Nat) (o x : Base_Object), noRefObj k o = true →
    listNth o i = some x → noRefObj k x = true := by
  intro i
  induction i with
  | zero =>
    intro o x ho hx
    cases o <;> simp only [listNth] at hx <;> try cases hx
    exact ((noRefObj_cons _ _ _).1 ho).1
  | succ i ih =>
    intro o x ho hx
    cases o <;> simp only [listNth] at hx <;> try cases hx
    exact ih _ _ ((noRefObj_cons _ _ _).1 ho).2 hx

theorem noRefObj_listNthCdr (k : Nat) : ∀ (i : Nat) (o x : Base_Object), noRefObj k o = true →
    listNthCdr o i = some x → noRefObj k x = true := by
  intro i
  induction i with
  | zero =>
    intro o x ho hx
    simp only [listNthCdr] at hx
    cases hx
    exact ho
  | succ i ih =>
    intro o x ho hx
    cases o <;> simp only [listNthCdr] at hx <;> try cases hx
    exact ih _ _ ((noRefObj_cons _ _ _).1 ho).2 hx

theorem noRefObj_vectorToList (k : Nat) (l : List Base_Object)
    (h : ∀ a ∈ l, noRefObj k a = true) : noRefObj k (vectorToList l) = true := by
  induction l with
  | nil => rfl
  | cons a l ih =>
    exact (noRefObj_cons _ _ _).2 ⟨h a (List.mem_cons_self _ _),
      ih fun b hb => h b (List.mem_cons_of_mem _ hb)⟩

theorem noRef_mapFind (k : Nat) (m : List (SymPtr × Base_Object)) (s : SymPtr)
    (v : Base_Object) (hm : (m.all fun kv => noRefObj k kv.2) = true)
    (h : mapFind m s = some v) : noRefObj k v = true := by
  induction m with
  | nil => cases h
  | cons kv m ih =>
    obtain ⟨k0, v0⟩ := kv
    simp only [List.all_cons, Bool.and_eq_true] at hm
    simp only [mapFind] at h
    by_cases hk : k0 = s
    · rw [if_pos hk] at h
      cases h
      exact hm.1
    · rw [if_neg hk] at h
      exact ih hm.2 h

theorem noRef_mapSet (k : Nat) (m : List (SymPtr × Base_Object)) (s : SymPtr)
    (v : Base_Object) (hm : (m.all fun kv => noRefObj k kv.2) = true)
    (hv : noRefObj k v = true) : ((mapSet m s v).all fun kv => noRefObj k kv.2) = true := by
  induction m with
  | nil => simp [mapSet, hv]
  | cons kv m ih =>
    obtain ⟨k0, v0⟩ := kv
    simp only [List.all_cons, Bool.and_eq_true] at hm
    simp only [mapSet]
    by_cases hk : k0 = s
    · rw [if_pos hk]
      simp only [List.all_cons, Bool.and_eq_true]
      exact ⟨hv, hm.2⟩
    · rw [if_neg hk]
      simp only [List.all_cons, Bool.and_eq_true]
      exact ⟨hm.1, ih hm.2⟩

theorem noRef_foldl_mapSet (k : Nat) : ∀ (src m : List (SymPtr × Base_Object)),
    (src.all fun kv => noRefObj k kv.2) = true → (m.all fun kv => noRefObj k kv.2) = true →
    ((src.foldl (fun m kv => mapSet m kv.1 kv.2) m).all fun kv => noRefObj k kv.2) = true := by
  intro src
  induction src with
  | nil => intro m _ hm; exact hm
  | cons kv src ih =>
    intro m hs hm
    simp only [List.all_cons, Bool.and_eq_true] at hs
    exact ih _ hs.2 (noRef_mapSet k m kv.1 kv.2 hm hs.1)

theorem Sim.lt {k : Nat} {eA eB : Env} {W W1 : World} (h : Sim k eA eB W W1) :
    k < W.envs.length := by
  by_contra hlt
  have := h.kA
  rw [List.getElem?_eq_none (Nat.le_of_not_lt hlt)] at this
  cases this

theorem Sim.update {k : Nat} {eA eB : Env} {W W1 : World} (h : Sim k eA eB W W1) (i : Nat)
    (g : Env → Env) (hi : i ≠ k) (hg : ∀ e, noRefEnv k e = true → noRefEnv k (g e) = true) :
    Sim k eA eB { W with envs := updateEnv W.envs i g }
      { W1 with envs := updateEnv W1.envs i g } where
  kA := by
    show (updateEnv W.envs i g)[k]? = _
    rw [updateEnv_get_ne _ _ _ _ (fun hh => hi hh.symm)]
    exact h.kA
  kB := by
    show (updateEnv W1.envs i g)[k]? = _
    rw [updateEnv_get_ne _ _ _ _ (fun hh => hi hh.symm)]
    exact h.kB
  len := by
    show (updateEnv W.envs i g).length = (updateEnv W1.envs i g).length
    rw [updateEnv_length, updateEnv_length]
    exact h.len
  sym := h.sym
  addr := h.addr
  off := by
    intro j hj
    show (updateEnv W.envs i g)[j]? = (updateEnv W1.envs i g)[j]?
    by_cases hji : j = i
    · rw [hji, updateEnv_get_self, updateEnv_get_self, h.off i hi]
    · rw [updateEnv_get_ne _ _ _ _ hji, updateEnv_get_ne _ _ _ _ hji]
      exact h.off j hj
  noRef := by
    intro j e hj he
    change (updateEnv W.envs i g)[j]? = some e at he
    by_cases hji : j = i
    · rw [hji, updateEnv_get_self] at he
      cases hw : W.envs[i]? with
      | none => rw [hw] at he; cases he
      | some e0 =>
        rw [hw] at he
        cases he
        exact hg _ (h.noRef i e0 hi hw)
    · rw [updateEnv_get_ne _ _ _ _ hji] at he
      exact h.noRef j e hj he
  root := h.root

theorem Sim.bind_env {k : Nat} {eA eB : Env} {W W1 : World} (h : Sim k eA eB W W1) (i : Nat)
    (o : Base_Object) (s : SymPtr) (hi : i ≠ k) (ho : noRefObj k o = true) :
    Sim k eA eB (Env.bind W i o s) (Env.bind W1 i o s) := by
  refine Sim.update h i _ hi ?_
  intro e he
  simp only [noRefEnv, Bool.and_eq_true] at he ⊢
  exact ⟨he.1, noRef_mapSet k _ _ _ he.2 ho⟩

theorem Sim.setClosed {k : Nat} {eA eB : Env} {W W1 : World} (h : Sim k eA eB W W1) (i : Nat)
    (hi : i ≠ k) : Sim k eA eB (Env.setClosed W i) (Env.setClosed W1 i) := by
  refine Sim.update h i _ hi ?_
  intro e he
  exact he

theorem Sim.merge {k : Nat} {eA eB : Env} {W W1 : World} (h : Sim k eA eB W W1) (i j : Nat)
    (hi : i ≠ k) (hj : j ≠ k) : Sim k eA eB (Env.merge W i j) (Env.merge W1 i j) := by
  unfold Env.merge
  rw [← h.off j hj]
  cases he : W.envs[j]? with
  | none => exact h
  | some e =>
    have hn := h.noRef j e hj he
    refine Sim.update h i _ hi ?_
    intro me hme
    simp only [noRefEnv, Bool.and_eq_true] at hn hme ⊢
    refine ⟨⟨hme.1.1, ?_⟩, noRef_foldl_mapSet k _ _ hn.2 hme.2⟩
    cases hl : e.environmentLex with
    | none => simpa using hme.1.2
    | some l =>
      have := hn.1.2
      rw [hl] at this
      simpa using this

theorem Sim.sub {k : Nat} {eA eB : Env} {W W1 : World} (h : Sim k eA eB W W1) (self : Nat)
    (l : Option Nat) (hs : self ≠ k) (hl : l ≠ some k) :
    Sim k eA eB (Env.createSubEnvironment W self l).2 (Env.createSubEnvironment W1 self l).2 ∧
    (Env.createSubEnvironment W1 self l).1 = (Env.createSubEnvironment W self l).1 ∧
    (Env.createSubEnvironment W self l).1 ≠ k := by
  have hlt := h.lt
  have hlt1 : k < W1.envs.length := h.len ▸ hlt
  refine ⟨?_, h.len.symm, Nat.ne_of_gt hlt⟩
  constructor
  · show (W.envs ++ _)[k]? = _
    rw [List.getElem?_append_left hlt]
    exact h.kA
  · show (W1.envs ++ _)[k]? = _
    rw [List.getElem?_append_left hlt1]
    exact h.kB
  · show (W.envs ++ _).length = (W1.envs ++ _).length
    simp [h.len]
  · exact h.sym
  · exact h.addr
  · intro j hj
    show (W.envs ++ _)[j]? = (W1.envs ++ _)[j]?
    by_cases hjl : j < W.envs.length
    · rw [List.getElem?_append_left hjl, List.getElem?_append_left (h.len ▸ hjl)]
      exact h.off j hj
    · rw [List.getElem?_append_right (Nat.le_of_not_lt hjl),
        List.getElem?_append_right (h.len ▸ Nat.le_of_not_lt hjl), h.len]
  · intro j e hj he
    change (W.envs ++ _)[j]? = some e at he
    by_cases hjl : j < W.envs.length
    · rw [List.getElem?_append_left hjl] at he
      exact h.noRef j e hj he
    · rw [List.getElem?_append_right (Nat.le_of_not_lt hjl)] at he
      cases hd : j - W.envs.length with
      | zero =>
        rw [hd] at he
        simp only [List.getElem?_cons_zero, Option.some.injEq] at he
        rw [← he]
        simp only [noRefEnv, List.all_nil, Bool.and_true, Bool.and_eq_true, bne_iff_ne, ne_eq,
          Option.some.injEq]
        exact ⟨hs, hl⟩
      | succ d =>
        rw [hd] at he
        simp at he
  · exact h.root

theorem Sim.totalSym {k : Nat} {eA eB : Env} {W W1 : World} (h : Sim k eA eB W W1) (n : Nat) :
    Sim k eA eB { W with totalSym := n } { W1 with totalSym := n } where
  kA := h.kA
  kB := h.kB
  len := h.len
  sym := rfl
  addr := h.addr
  off := h.off
  noRef := h.noRef
  root := h.root

theorem Sim.addressEq {k : Nat} {eA eB : Env} {W W1 : World} (h : Sim k eA eB W W1)
    (l : List Bool) :
    Sim k eA eB { W with addressEq := l } { W1 with addressEq := l } where
  kA := h.kA
  kB := h.kB
  len := h.len
  sym := h.sym
  addr := rfl
  off := h.off
  noRef := h.noRef
  root := h.root

theorem Sim.isClosed {k : Nat} {eA eB : Env} {W W1 : World} (h : Sim k eA eB W W1) (i : Nat)
    (hi : i ≠ k) : Env.isClosed W1 i = Env.isClosed W i := by
  unfold Env.isClosed
  rw [h.off i hi]

theorem Agree.isSpecialVariable {k : Nat} {W W1 : World} (h : Agree k W W1)
    (s : SymPtr) : Env.isSpecialVariable W1 s = Env.isSpecialVariable W s := by
  unfold Env.isSpecialVariable
  rw [h.off 0 (fun hh => h.root hh.symm)]

theorem Agree.resolveEnvDyn {k : Nat} {W W1 : World} (h : Agree k W W1)
    (s : SymPtr) : ∀ (fuel self : Nat), self ≠ k →
    Env.resolveEnvDyn fuel W1 self s = Env.resolveEnvDyn fuel W self s ∧
    ∀ G, Env.resolveEnvDyn fuel W self s = .ok (some G) → G ≠ k := by
  intro fuel
  induction fuel with
  | zero =>
    intro self _
    exact ⟨rfl, fun G hG => by cases hG⟩
  | succ n ih =>
    intro self hs
    rw [Env.resolveEnvDyn, Env.resolveEnvDyn, ← h.off self hs]
    cases he : W.envs[self]? with
    | none => exact ⟨rfl, fun G hG => by cases hG⟩
    | some e =>
      simp only
      have hn := h.noRef self e hs he
      simp only [noRefEnv, Bool.and_eq_true, bne_iff_ne, ne_eq] at hn
      by_cases hc : mapCount e.symbolValueMap s = true
      · simp only [if_pos hc]
        refine ⟨trivial, fun G hG => ?_⟩
        cases hG
        exact hs
      · simp only [if_neg hc]
        cases ho : e.outEnvironment with
        | none => exact ⟨rfl, fun G hG => by cases hG⟩
        | some o =>
          have : o ≠ k := fun hh => hn.1.1 (by rw [ho, hh])
          exact ih o this

theorem Agree.resolveEnvLex {k : Nat} {W W1 : World} (h : Agree k W W1)
    (s : SymPtr) : ∀ (fuel self : Nat), self ≠ k →
    Env.resolveEnvLex fuel W1 self s = Env.resolveEnvLex fuel W self s ∧
    ∀ G, Env.resolveEnvLex fuel W self s = .ok (some G) → G ≠ k := by
  intro fuel
  induction fuel with
  | zero =>
    intro self _
    exact ⟨rfl, fun G hG => by cases hG⟩
  | succ n ih =>
    intro self hs
    rw [Env.resolveEnvLex, Env.resolveEnvLex, ← h.off self hs]
    cases he : W.envs[self]? with
    | none => exact ⟨rfl, fun G hG => by cases hG⟩
    | some e =>
      simp only
      have hn := h.noRef self e hs he
      simp only [noRefEnv, Bool.and_eq_true, bne_iff_ne, ne_eq] at hn
      by_cases hc : mapCount e.symbolValueMap s = true
      · simp only [if_pos hc]
        refine ⟨trivial, fun G hG => ?_⟩
        cases hG
        exact hs
      · simp only [if_neg hc]
        cases hl : e.environmentLex with
        | some l =>
          have : l ≠ k := fun hh => hn.1.2 (by rw [hl, hh])
          exact ih l this
        | none =>
          cases ho : e.outEnvironment with
          | none => exact ⟨rfl, fun G hG => by cases hG⟩
          | some o =>
            have : o ≠ k := fun hh => hn.1.1 (by rw [ho, hh])
            exact ih o this

theorem Agree.findEnvironment_eq {k : Nat} {W W1 : World} (h : Agree k W W1)
    (s : SymPtr) (fuel self : Nat) (hs : self ≠ k) :
    Env.findEnvironment fuel W1 self s = Env.findEnvironment fuel W self s ∧
    ∀ G, Env.findEnvironment fuel W self s = .ok (some G) → G ≠ k := by
  unfold Env.findEnvironment
  rw [h.isSpecialVariable]
  split
  · exact h.resolveEnvDyn s fuel self hs
  · exact h.resolveEnvLex s fuel self hs

theorem Agree.findSymbolInMap_eq {k : Nat} {W W1 : World} (h : Agree k W W1)
    (s : SymPtr) (fuel self : Nat) (hs : self ≠ k) :
    Env.findSymbolInMap fuel W1 self s = Env.findSymbolInMap fuel W self s ∧
    ∀ v, Env.findSymbolInMap fuel W self s = .ok (some v) → noRefObj k v = true := by
  unfold Env.findSymbolInMap
  obtain ⟨h1, h2⟩ := h.findEnvironment_eq s fuel self hs
  rw [h1]
  cases hf : Env.findEnvironment fuel W self s with
  | ok found =>
    cases found with
    | none => exact ⟨rfl, fun v hv => by cases hv⟩
    | some G =>
      have hG := h2 G hf
      simp only [Res.bind_ok]
      rw [← h.off G hG]
      refine ⟨rfl, fun v hv => ?_⟩
      cases he : W.envs[G]? with
      | none => rw [he] at hv; cases hv
      | some e =>
        rw [he] at hv
        simp only [Res.ok.injEq] at hv
        have hn := h.noRef G e hG he
        simp only [noRefEnv, Bool.and_eq_true] at hn
        exact noRef_mapFind k _ _ _ hn.2 hv
  | throw m => exact ⟨rfl, fun v hv => by cases hv⟩
  | fault m => exact ⟨rfl, fun v hv => by cases hv⟩
  | external m => exact ⟨rfl, fun v hv => by cases hv⟩
  | timeout => exact ⟨rfl, fun v hv => by cases hv⟩

theorem Sim.agree {k : Nat} {eA eB : Env} {W W1 : World} (h : Sim k eA eB W W1) :
    Agree k W W1 := ⟨h.off, h.noRef, h.root⟩

theorem Sim.findEnvironment_same {k : Nat} {eA eB : Env} {W W1 : World} (h : Sim k eA eB W W1)
    (s : SymPtr) (fuel self : Nat) (hs : self ≠ k) :
    Env.findEnvironment fuel W1 self s = Env.findEnvironment fuel W self s ∧
    ∀ G, Env.findEnvironment fuel W self s = .ok (some G) → G ≠ k :=
  h.agree.findEnvironment_eq s fuel self hs

theorem Sim.findSymbolInMap_same {k : Nat} {eA eB : Env} {W W1 : World} (h : Sim k eA eB W W1)
    (s : SymPtr) (fuel self : Nat) (hs : self ≠ k) :
    Env.findSymbolInMap fuel W1 self s = Env.findSymbolInMap fuel W self s ∧
    ∀ v, Env.findSymbolInMap fuel W self s = .ok (some v) → noRefObj k v = true :=
  h.agree.findSymbolInMap_eq s fuel self hs

theorem evalListElements_indep {k : Nat} {eA eB : Env} (r : Rec) (hr : r.Indep k eA eB)
    (env : Nat) (henv : env ≠ k) :
    ∀ (o : Base_Object) (W W1 : World), Sim k eA eB W W1 → noRefObj k o = true →
    ResRel (ValRel k eA eB) (evalListElements r env W o) (evalListElements r env W1 o) := by
  intro o
  induction o with
  | cons car cdr _ ih =>
    intro W W1 h ho
    simp only [evalListElements]
    obtain ⟨h1, h2⟩ := (noRefObj_cons _ _ _).1 ho
    refine ResRel.bind_rel (ih _ _ h h2) ?_
    intro a b hab
    refine ResRel.bind_rel (hr.1 _ _ _ _ _ hab.2.2 henv h1) ?_
    intro c d hcd
    exact ⟨by rw [hab.1, hcd.1], (noRefObj_cons _ _ _).2 ⟨hcd.2.1, hab.2.1⟩, hcd.2.2⟩
  | _ =>
    intro W W1 h ho
    exact ⟨rfl, ho, h⟩

theorem mapExpand_indep {k : Nat} {eA eB : Env} (r : Rec) (hr : r.Indep k eA eB)
    (self : Nat) (hself : self ≠ k) :
    ∀ (o : Base_Object) (W W1 : World), Sim k eA eB W W1 → noRefObj k o = true →
    ResRel (ValRel k eA eB) (mapExpand r self W o) (mapExpand r self W1 o) := by
  intro o
  induction o with
  | cons car cdr _ ih =>
    intro W W1 h ho
    simp only [mapExpand]
    obtain ⟨h1, h2⟩ := (noRefObj_cons _ _ _).1 ho
    refine ResRel.bind_rel (ih _ _ h h2) ?_
    intro a b hab
    refine ResRel.bind_rel (hr.2 _ _ _ _ hab.2.2 hself h1) ?_
    intro c d hcd
    exact ⟨by rw [hab.1, hcd.1], (noRefObj_cons _ _ _).2 ⟨hcd.2.1, hab.2.1⟩, hcd.2.2⟩
  | _ =>
    intro W W1 h ho
    exact ⟨rfl, ho, h⟩

theorem evalArgs_indep {k : Nat} {eA eB : Env} (r : Rec) (hr : r.Indep k eA eB)
    (self : Nat) (hself : self ≠ k) :
    ∀ (o : Base_Object) (W W1 : World), Sim k eA eB W W1 → noRefObj k o = true →
    ResRel (ArgsRel k eA eB) (evalArgs r self W o) (evalArgs r self W1 o) := by
  intro o
  induction o with
  | cons car cdr _ ih =>
    intro W W1 h ho
    simp only [evalArgs]
    obtain ⟨h1, h2⟩ := (noRefObj_cons _ _ _).1 ho
    refine ResRel.bind_rel (hr.1 _ _ _ _ _ h hself h1) ?_
    intro a b hab
    refine ResRel.bind_rel (ih _ _ hab.2.2 h2) ?_
    intro c d hcd
    refine ⟨by rw [hab.1, hcd.1], ?_, hcd.2.2⟩
    intro x hx
    rcases List.mem_cons.1 hx with hx | hx
    · rw [hx]
      exact hab.2.1
    · exact hcd.2.1 x hx
  | _ =>
    intro W W1 h ho
    exact ⟨rfl, ⟨fun x hx => absurd hx (List.not_mem_nil _), h⟩⟩

theorem macroBindLoop_indep {k : Nat} {eA eB : Env} (env : Nat) (henv : env ≠ k) :
    ∀ (prms args : Base_Object) (W W1 : World), Sim k eA eB W W1 → noRefObj k prms = true →
    noRefObj k args = true →
    ResRel (LoopRel k eA eB) (macroBindLoop env W prms args) (macroBindLoop env W1 prms args) := by
  intro prms
  induction prms with
  | cons p prms _ ih =>
    intro args W W1 h hp ha
    cases args with
    | cons a args =>
      obtain ⟨hp1, hp2⟩ := (noRefObj_cons _ _ _).1 hp
      obtain ⟨ha1, ha2⟩ := (noRefObj_cons _ _ _).1 ha
      cases p with
      | symbol s =>
        simp only [macroBindLoop]
        exact ih _ _ _ (h.bind_env _ _ _ henv ha1) hp2 ha2
      | _ =>
        simp only [macroBindLoop]
        exact ResRel.fault _ _
    | _ =>
      simp only [macroBindLoop]
      exact ⟨h, rfl, hp, ha⟩
  | _ =>
    intro args W W1 h hp ha
    simp only [macroBindLoop]
    exact ⟨h, rfl, hp, ha⟩

theorem applyBindLoop_indep {k : Nat} {eA eB : Env} (r : Rec) (hr : r.Indep k eA eB)
    (out env : Nat) (hout : out ≠ k) (henv : env ≠ k) :
    ∀ (prms args : Base_Object) (W W1 : World), Sim k eA eB W W1 → noRefObj k prms = true →
    noRefObj k args = true →
    ResRel (LoopRel k eA eB) (applyBindLoop r out env W prms args)
      (applyBindLoop r out env W1 prms args) := by
  intro prms
  induction prms with
  | cons p prms _ ih =>
    intro args W W1 h hp ha
    cases args with
    | cons a args =>
      obtain ⟨hp1, hp2⟩ := (noRefObj_cons _ _ _).1 hp
      obtain ⟨ha1, ha2⟩ := (noRefObj_cons _ _ _).1 ha
      cases p with
      | symbol s =>
        simp only [applyBindLoop]
        refine ResRel.bind_rel (hr.1 _ _ _ _ _ h hout ha1) ?_
        intro x y hxy
        rw [← hxy.1]
        exact ih _ _ _ (hxy.2.2.bind_env _ _ _ henv hxy.2.1) hp2 ha2
      | _ =>
        simp only [applyBindLoop]
        exact ResRel.fault _ _
    | _ =>
      simp only [applyBindLoop]
      exact ⟨h, rfl, hp, ha⟩
  | _ =>
    intro args W W1 h hp ha
    simp only [applyBindLoop]
    exact ⟨h, rfl, hp, ha⟩

theorem mergeIfTail_indep {k : Nat} {eA eB : Env} {W W1 : World} (h : Sim k eA eB W W1)
    (out env : Nat) (t : Bool) (hout : out ≠ k) (henv : env ≠ k) :
    FrameRel k eA eB (mergeIfTail W out env t) (mergeIfTail W1 out env t) := by
  unfold mergeIfTail
  rw [h.isClosed out hout]
  split
  · exact ⟨rfl, hout, h.merge _ _ hout henv⟩
  · exact ⟨rfl, henv, h⟩

theorem makeEnvForMacro_indep {k : Nat} {eA eB : Env} {W W1 : World} (h : Sim k eA eB W W1)
    (out procEnv : Nat) (prms args : Base_Object) (t : Bool) (hout : out ≠ k)
    (hproc : procEnv ≠ k) (hp : noRefObj k prms = true) (ha : noRefObj k args = true) :
    ResRel (FrameRel k eA eB) (makeEnvForMacro W out procEnv prms args t)
      (makeEnvForMacro W1 out procEnv prms args t) := by
  unfold makeEnvForMacro
  obtain ⟨hs, hi, hne⟩ := h.sub out (some procEnv) hout (fun hh => hproc (Option.some.inj hh))
  simp only [hi]
  split
  · exact ResRel.throw _ _
  · refine ResRel.bind_rel (macroBindLoop_indep _ hne _ _ _ _ hs hp ha) ?_
    intro x y hxy
    rw [← hxy.2.1]
    split
    · split
      · exact mergeIfTail_indep hxy.1 _ _ _ hout hne
      · exact mergeIfTail_indep (hxy.1.bind_env _ _ _ hne hxy.2.2.2) _ _ _ hout hne
    · exact mergeIfTail_indep hxy.1 _ _ _ hout hne

theorem makeEnvForApply_indep {k : Nat} {eA eB : Env} (r : Rec) (hr : r.Indep k eA eB)
    {W W1 : World} (h : Sim k eA eB W W1)
    (out procEnv : Nat) (prms args : Base_Object) (t : Bool) (hout : out ≠ k)
    (hproc : procEnv ≠ k) (hp : noRefObj k prms = true) (ha : noRefObj k args = true) :
    ResRel (FrameRel k eA eB) (makeEnvForApply r W out procEnv prms args t)
      (makeEnvForApply r W1 out procEnv prms args t) := by
  unfold makeEnvForApply
  obtain ⟨hs, hi, hne⟩ := h.sub out (some procEnv) hout (fun hh => hproc (Option.some.inj hh))
  simp only [hi]
  split
  · exact ResRel.throw _ _
  · refine ResRel.bind_rel (applyBindLoop_indep r hr _ _ hout hne _ _ _ _ hs hp ha) ?_
    intro x y hxy
    rw [← hxy.2.1]
    split
    · split
      · exact mergeIfTail_indep hxy.1 _ _ _ hout hne
      · refine ResRel.bind_rel (evalListElements_indep r hr _ hout _ _ _ hxy.1 hxy.2.2.2) ?_
        intro c d hcd
        rw [← hcd.1]
        exact mergeIfTail_indep (hcd.2.2.bind_env _ _ _ hne hcd.2.1) _ _ _ hout hne
    · exact mergeIfTail_indep hxy.1 _ _ _ hout hne

theorem doLoop_indep {k : Nat} {eA eB : Env} (r : Rec) (hr : r.Indep k eA eB)
    (self : Nat) (t : Bool) (hself : self ≠ k) :
    ∀ (cdr car : Base_Object) (W W1 : World), Sim k eA eB W W1 → noRefObj k car = true →
    noRefObj k cdr = true →
    ResRel (ValRel k eA eB) (doLoop r self t W car cdr) (doLoop r self t W1 car cdr) := by
  intro cdr
  induction cdr with
  | cons car1 cdr1 _ ih =>
    intro car W W1 h hcar hcdr
    simp only [doLoop]
    obtain ⟨h1, h2⟩ := (noRefObj_cons _ _ _).1 hcdr
    refine ResRel.bind_rel (hr.1 _ _ _ _ _ h hself hcar) ?_
    intro a b hab
    exact ih _ _ _ hab.2.2 h1 h2
  | _ =>
    intro car W W1 h hcar hcdr
    simp only [doLoop]
    exact hr.1 _ _ _ _ _ h hself hcar

theorem letLoop_indep {k : Nat} {eA eB : Env} (r : Rec) (hr : r.Indep k eA eB)
    (self env : Nat) (hself : self ≠ k) (henv : env ≠ k) :
    ∀ (n : Nat) (b : Base_Object), listLength b ≤ n → ∀ (W W1 : World), Sim k eA eB W W1 →
    noRefObj k b = true →
    ResRel (Sim k eA eB) (letLoop r self env W b) (letLoop r self env W1 b) := by
  intro n
  induction n with
  | zero =>
    intro b hb W W1 h hn
    cases b with
    | cons x y => simp [listLength] at hb
    | symbol s =>
      simp only [letLoop]
      split
      · exact h
      · exact ResRel.fault _ _
    | _ =>
      simp only [letLoop]
      exact ResRel.fault _ _
  | succ n ih =>
    intro b hb W W1 h hn
    cases b with
    | cons x y =>
      cases y with
      | cons form rest =>
        obtain ⟨_, hn2⟩ := (noRefObj_cons _ _ _).1 hn
        obtain ⟨hform, hrest⟩ := (noRefObj_cons _ _ _).1 hn2
        cases x with
        | symbol s =>
          simp only [letLoop]
          refine ResRel.bind_rel (hr.1 _ _ _ _ _ h hself hform) ?_
          intro a c hac
          have hl : listLength rest ≤ n := by
            simp only [listLength] at hb
            omega
          rw [← hac.1]
          exact ih rest hl _ _ (hac.2.2.bind_env _ _ _ henv hac.2.1) hrest
        | _ =>
          simp only [letLoop]
          exact ResRel.fault _ _
      | _ =>
        simp only [letLoop]
        exact ResRel.fault _ _
    | symbol s =>
      simp only [letLoop]
      split
      · exact h
      · exact ResRel.fault _ _
    | _ =>
      simp only [letLoop]
      exact ResRel.fault _ _

theorem letStarLoop_indep {k : Nat} {eA eB : Env} (r : Rec) (hr : r.Indep k eA eB)
    (env : Nat) (henv : env ≠ k) :
    ∀ (n : Nat) (b : Base_Object), listLength b ≤ n → ∀ (W W1 : World), Sim k eA eB W W1 →
    noRefObj k b = true →
    ResRel (Sim k eA eB) (letStarLoop r env W b) (letStarLoop r env W1 b) := by
  intro n
  induction n with
  | zero =>
    intro b hb W W1 h hn
    cases b with
    | cons x y => simp [listLength] at hb
    | symbol s =>
      simp only [letStarLoop]
      split
      · exact h
      · exact ResRel.fault _ _
    | _ =>
      simp only [letStarLoop]
      exact ResRel.fault _ _
  | succ n ih =>
    intro b hb W W1 h hn
    cases b with
    | cons x y =>
      cases y with
      | cons form rest =>
        obtain ⟨_, hn2⟩ := (noRefObj_cons _ _ _).1 hn
        obtain ⟨hform, hrest⟩ := (noRefObj_cons _ _ _).1 hn2
        simp only [letStarLoop]
        refine ResRel.bind_rel (hr.1 _ _ _ _ _ h henv hform) ?_
        intro a c hac
        have hl : listLength rest ≤ n := by
          simp only [listLength] at hb
          omega
        rw [← hac.1]
        exact ih rest hl _ _ (hac.2.2.bind_env _ _ _ henv hac.2.1) hrest
      | _ =>
        simp only [letStarLoop]
        exact ResRel.fault _ _
    | symbol s =>
      simp only [letStarLoop]
      split
      · exact h
      · exact ResRel.fault _ _
    | _ =>
      simp only [letStarLoop]
      exact ResRel.fault _ _

theorem ResRel.bind_same {α γ δ : Type} {S : γ → δ → Prop} (x : Res α) {f : α → Res γ}
    {g : α → Res δ} (hf : ∀ a, x = .ok a → ResRel S (f a) (g a)) :
    ResRel S (x.bind f) (x.bind g) := by
  cases x with
  | ok a => exact hf a rfl
  | throw m => rfl
  | fault m => rfl
  | external m => rfl
  | timeout => trivial

theorem ResRel.some {k : Nat} {eA eB : Env} {x y : Res (Base_Object × World)}
    (h : ResRel (ValRel k eA eB) x y) :
    ResRel (OptRel k eA eB) (x.bind fun a => .ok (some a)) (y.bind fun a => .ok (some a)) :=
  ResRel.bind_rel h fun _ _ hab => hab

theorem doBody_noRef (k : Nat) (o body : Base_Object) (ho : noRefObj k o = true)
    (h : doBody o = .ok body) : noRefObj k body = true := by
  unfold doBody at h
  cases hc : listNthCdr o 2 with
  | none => rw [hc] at h; cases h
  | some b =>
    rw [hc] at h
    cases h
    exact (noRefObj_cons _ _ _).2 ⟨rfl, noRefObj_listNthCdr k 2 o b ho hc⟩

theorem Env.procSpecialForm_indep {k : Nat} {eA eB : Env} (fuel : Nat) (r : Rec)
    (hr : r.Indep k eA eB) (W W1 : World) (self : Nat) (o : Base_Object) (t : Bool)
    (h : Sim k eA eB W W1) (hself : self ≠ k) (ho : noRefObj k o = true) :
    ResRel (OptRel k eA eB) (Env.procSpecialForm fuel r W self o t)
      (Env.procSpecialForm fuel r W1 self o t) := by
  unfold Env.procSpecialForm
  split
  · rename_i op cdr
    simp only
    by_cases hif : (op.name == "if") = true
    · simp only [if_pos hif]
      split
      · split
        · rename_i cond thenForm hc ht
          have hcn := noRefObj_listNth k _ _ _ ho hc
          have htn := noRefObj_listNth k _ _ _ ho ht
          refine ResRel.bind_rel (hr.1 _ _ _ _ _ h hself hcn) ?_
          intro a b hab
          rw [← hab.1]
          split
          · exact ResRel.some (hr.1 _ _ _ _ _ hab.2.2 hself htn)
          · split
            · split
              · rename_i elseForm he
                exact ResRel.some (hr.1 _ _ _ _ _ hab.2.2 hself
                  (noRefObj_listNth k _ _ _ ho he))
              · exact ResRel.fault _ _
            · exact ⟨rfl, rfl, hab.2.2⟩
        · exact ResRel.fault _ _
      · trivial
    simp only [if_neg hif]
    by_cases hq : (op.name == "quote") = true
    · simp only [if_pos hq]
      split
      · split
        · rename_i x hx
          exact ⟨rfl, noRefObj_listNth k _ _ _ ho hx, h⟩
        · exact ResRel.fault _ _
      · trivial
    simp only [if_neg hq]
    by_cases hdo : (op.name == "do") = true
    · simp only [if_pos hdo]
      split
      · exact ⟨rfl, rfl, h⟩
      · split
        · rename_i car1 cdr1
          have hcdr := ((noRefObj_cons _ _ _).1 ho).2
          obtain ⟨h1, h2⟩ := (noRefObj_cons _ _ _).1 hcdr
          exact ResRel.some (doLoop_indep r hr _ _ hself _ _ _ _ h h1 h2)
        · exact ResRel.fault _ _
    simp only [if_neg hdo]
    by_cases hdef : (op.name == "define") = true
    · simp only [if_pos hdef]
      split
      · split
        · rename_i symbol form hs hf
          refine ResRel.bind_rel (hr.1 _ _ _ _ _ h hself (noRefObj_listNth k _ _ _ ho hf)) ?_
          intro a b hab
          rw [← hab.1]
          exact ⟨rfl, rfl, hab.2.2.bind_env _ _ _ (fun hh => h.root hh.symm) hab.2.1⟩
        · exact ResRel.throw _ _
        · exact ResRel.fault _ _
      · trivial
    simp only [if_neg hdef]
    by_cases hset : (op.name == "set!") = true
    · simp only [if_pos hset]
      split
      · split
        · rename_i symbol form hs hf
          obtain ⟨h1, h2⟩ := h.findEnvironment_same (some symbol) fuel self hself
          rw [h1]
          refine ResRel.bind_same _ ?_
          intro found hfound
          refine ResRel.bind_rel (hr.1 _ _ _ _ _ h hself (noRefObj_listNth k _ _ _ ho hf)) ?_
          intro a b hab
          rw [← hab.1]
          have hG : found.getD 0 ≠ k := by
            cases found with
            | none => exact fun hh => h.root hh.symm
            | some G => exact h2 G hfound
          exact ⟨rfl, hab.2.1, hab.2.2.bind_env _ _ _ hG hab.2.1⟩
        · exact ResRel.throw _ _
        · exact ResRel.fault _ _
      · trivial
    simp only [if_neg hset]
    by_cases hlet : (op.name == "let") = true
    · simp only [if_pos hlet]
      split
      · exact ResRel.throw _ _
      · split
        · exact ResRel.fault _ _
        · rename_i bindings hb
          split
          · exact ResRel.throw _ _
          · split
            · exact ResRel.throw _ _
            · obtain ⟨hs, hi, hne⟩ := h.sub self none hself (fun hh => by cases hh)
              simp only [hi]
              refine ResRel.bind_rel (letLoop_indep r hr _ _ hself hne _ _ (Nat.le_refl _) _ _ hs
                (noRefObj_listNth k _ _ _ ho hb)) ?_
              intro Wa Wb hab
              have hm := mergeIfTail_indep hab self (Env.createSubEnvironment W self none).1 t
                hself hne
              refine ResRel.bind_same _ ?_
              intro body hbody
              rw [← hm.1]
              exact ResRel.some (hr.1 _ _ _ _ _ hm.2.2 hm.2.1 (doBody_noRef k _ _ ho hbody))
    simp only [if_neg hlet]
    by_cases hls : (op.name == "let*") = true
    · simp only [if_pos hls]
      split
      · exact ResRel.throw _ _
      · split
        · exact ResRel.fault _ _
        · rename_i bindings hb
          split
          · exact ResRel.throw _ _
          · split
            · exact ResRel.throw _ _
            · have htarget : FrameRel k eA eB
                  (if (t && !Env.isClosed W self) = true then (self, W)
                    else Env.createSubEnvironment W self none)
                  (if (t && !Env.isClosed W1 self) = true then (self, W1)
                    else Env.createSubEnvironment W1 self none) := by
                rw [h.isClosed self hself]
                split
                · exact ⟨rfl, hself, h⟩
                · obtain ⟨hs, hi, hne⟩ := h.sub self none hself (fun hh => by cases hh)
                  exact ⟨hi.symm, hne, hs⟩
              rw [← htarget.1]
              refine ResRel.bind_rel (letStarLoop_indep r hr _ htarget.2.1 _ _ (Nat.le_refl _) _ _
                htarget.2.2 (noRefObj_listNth k _ _ _ ho hb)) ?_
              intro Wa Wb hab
              refine ResRel.bind_same _ ?_
              intro body hbody
              exact ResRel.some (hr.1 _ _ _ _ _ hab htarget.2.1 (doBody_noRef k _ _ ho hbody))
    simp only [if_neg hls]
    by_cases hlam : (op.name == "lambda") = true
    · simp only [if_pos hlam]
      split
      · split
        · rename_i pl hpl
          refine ResRel.bind_same _ ?_
          intro body hbody
          refine ⟨rfl, ?_, h.setClosed _ hself⟩
          simp only [noRefObj, Bool.and_eq_true, bne_iff_ne, ne_eq]
          exact ⟨⟨hself, noRefObj_listNth k _ _ _ ho hpl⟩, doBody_noRef k _ _ ho hbody⟩
        · exact ResRel.fault _ _
      · trivial
    simp only [if_neg hlam]
    by_cases hmac : (op.name == "macro") = true
    · simp only [if_pos hmac]
      split
      · split
        · rename_i pl hpl
          refine ResRel.bind_same _ ?_
          intro body hbody
          refine ⟨rfl, ?_, h.setClosed _ hself⟩
          simp only [noRefObj, Bool.and_eq_true, bne_iff_ne, ne_eq]
          exact ⟨⟨hself, noRefObj_listNth k _ _ _ ho hpl⟩, doBody_noRef k _ _ ho hbody⟩
        · exact ResRel.fault _ _
      · trivial
    simp only [if_neg hmac]
    trivial
  · trivial

theorem noRefObj_boolToLobj (k : Nat) (b : Bool) : noRefObj k (boolToLobj b) = true := by
  cases b <;> rfl

theorem Rec.evalTop_indep {k : Nat} {eA eB : Env} (r : Rec) (hr : r.Indep k eA eB)
    (W W1 : World) (self : Nat) (o : Base_Object) (h : Sim k eA eB W W1) (hself : self ≠ k)
    (ho : noRefObj k o = true) :
    ResRel (ValRel k eA eB) (r.evalTop W self o) (r.evalTop W1 self o) := by
  unfold Rec.evalTop
  refine ResRel.bind_rel (hr.2 _ _ _ _ h hself ho) ?_
  intro a b hab
  rw [← hab.1]
  exact hr.1 _ _ _ _ _ hab.2.2 hself hab.2.1

theorem applyBuiltin_indep {k : Nat} {eA eB : Env} (fuel : Nat) (r : Rec)
    (hr : r.Indep k eA eB) (b : Builtin) (W W1 : World) (self : Nat) (args : List Base_Object)
    (h : Sim k eA eB W W1) (hself : self ≠ k) (hargs : ∀ x ∈ args, noRefObj k x = true) :
    ResRel (ValRel k eA eB) (applyBuiltin fuel r b W self args)
      (applyBuiltin fuel r b W1 self args) := by
  have hok : ∀ v, noRefObj k v = true →
      ResRel (ValRel k eA eB) (.ok (v, W)) (.ok (v, W1)) := fun v hv => ⟨rfl, hv, h⟩
  have hint : ∀ (m : Res Int), ResRel (ValRel k eA eB)
      (m.bind fun v => .ok (.integer v, W)) (m.bind fun v => .ok (.integer v, W1)) :=
    fun m => ResRel.bind_same m fun v _ => hok _ rfl
  cases b
  case eqP =>
    simp only [applyBuiltin]
    rw [← h.addr]
    split
    · exact ResRel.throw _ _
    · exact ⟨rfl, rfl, h.addressEq _⟩
  case mod =>
    simp only [applyBuiltin]
    split
    · split
      · exact ResRel.throw _ _
      · split
        · exact ResRel.fault _ _
        · exact hok _ rfl
    · exact ResRel.throw _ _
  case add => exact hint _
  case mul => exact hint _
  case sub =>
    simp only [applyBuiltin]
    split
    · exact hok _ rfl
    · exact hint _
    · exact ResRel.throw _ _
  case div =>
    simp only [applyBuiltin]
    split
    · exact hint _
    · exact ResRel.throw _ _
  case car =>
    simp only [applyBuiltin]
    split
    · rename_i car cdr
      exact hok _ ((noRefObj_cons _ _ _).1 (hargs _ (List.mem_singleton.2 rfl))).1
    · exact ResRel.throw _ _
  case cdr =>
    simp only [applyBuiltin]
    split
    · rename_i car cdr
      exact hok _ ((noRefObj_cons _ _ _).1 (hargs _ (List.mem_singleton.2 rfl))).2
    · exact ResRel.throw _ _
  case cons =>
    simp only [applyBuiltin]
    split
    · rename_i a d
      exact hok _ ((noRefObj_cons _ _ _).2 ⟨hargs a (by simp), hargs d (by simp)⟩)
    · exact ResRel.throw _ _
  case gensym =>
    simp only [applyBuiltin]
    rw [← h.sym]
    split
    · exact ⟨rfl, rfl, h.totalSym _⟩
    · exact ⟨rfl, rfl, h.totalSym _⟩
    · exact ResRel.throw _ _
  case boundP =>
    simp only [applyBuiltin]
    split
    · rename_i s
      rw [(h.findSymbolInMap_same (some s) fuel self hself).1]
      exact ResRel.bind_same _ fun o _ => hok _ (noRefObj_boolToLobj k _)
    · exact ResRel.throw _ _
  case eval =>
    simp only [applyBuiltin]
    split
    · rename_i a
      exact Rec.evalTop_indep r hr _ _ _ _ h hself (hargs a (by simp))
    · exact ResRel.throw _ _
  case macroexpandAll =>
    simp only [applyBuiltin]
    split
    · rename_i a
      exact hr.2 _ _ _ _ h hself (hargs a (by simp))
    · exact ResRel.throw _ _
  all_goals
    simp only [applyBuiltin]
    first
      | exact hok _ rfl
      | (split <;> first
          | exact hok _ rfl
          | exact hok _ (noRefObj_boolToLobj k _)
          | exact ResRel.throw _ _
          | exact ResRel.external _ _
          | (split <;> first
              | exact hok _ rfl
              | exact ResRel.throw _ _))

theorem Env.applyStep_indep {k : Nat} {eA eB : Env} (fuel : Nat) (r : Rec)
    (hr : r.Indep k eA eB) (W W1 : World) (self : Nat) (car cdr : Base_Object) (t : Bool)
    (h : Sim k eA eB W W1) (hself : self ≠ k) (hcar : noRefObj k car = true)
    (hcdr : noRefObj k cdr = true) :
    ResRel (ValRel k eA eB) (Env.applyStep fuel r W self car cdr t)
      (Env.applyStep fuel r W1 self car cdr t) := by
  unfold Env.applyStep
  refine ResRel.bind_rel (hr.1 _ _ _ _ _ h hself hcar) ?_
  intro op op1 hop
  rw [← hop.1]
  have hv := hop.2.1
  split
  · rename_i pl body env hproc
    rw [hproc] at hv
    simp only [noRefObj, Bool.and_eq_true, bne_iff_ne, ne_eq] at hv
    refine ResRel.bind_rel (makeEnvForApply_indep r hr hop.2.2 _ _ _ _ _ hself hv.1.1 hv.1.2 hcdr) ?_
    intro e e1 he
    rw [← he.1]
    exact hr.1 _ _ _ _ _ he.2.2 he.2.1 hv.2
  · split
    · exact ResRel.throw _ _
    · refine ResRel.bind_rel (evalArgs_indep r hr _ hself _ _ _ hop.2.2 hcdr) ?_
      intro a a1 ha
      rw [← ha.1]
      exact applyBuiltin_indep fuel r hr _ _ _ _ _ ha.2.2 hself ha.2.1
  · exact ResRel.throw _ _

theorem Env.evalStep_indep {k : Nat} {eA eB : Env} (fuel : Nat) (r : Rec)
    (hr : r.Indep k eA eB) (W W1 : World) (self : Nat) (o : Base_Object) (t : Bool)
    (h : Sim k eA eB W W1) (hself : self ≠ k) (ho : noRefObj k o = true) :
    ResRel (ValRel k eA eB) (Env.evalStep fuel r W self o t)
      (Env.evalStep fuel r W1 self o t) := by
  unfold Env.evalStep
  split
  · rename_i s
    obtain ⟨h1, h2⟩ := h.findSymbolInMap_same (some s) fuel self hself
    rw [h1]
    refine ResRel.bind_same _ ?_
    intro rr hrr
    split
    · rename_i v
      exact ⟨rfl, h2 v hrr, h⟩
    · exact ResRel.throw _ _
  · exact ⟨rfl, ho, h⟩
  · exact ⟨rfl, ho, h⟩
  · rename_i car cdr
    obtain ⟨hcar, hcdr⟩ := (noRefObj_cons _ _ _).1 ho
    refine ResRel.bind_rel (Env.procSpecialForm_indep fuel r hr _ _ _ _ _ h hself ho) ?_
    intro a b hab
    cases a with
    | none =>
      cases b with
      | none => exact Env.applyStep_indep fuel r hr _ _ _ _ _ _ h hself hcar hcdr
      | some y => exact False.elim hab
    | some x =>
      cases b with
      | none => exact False.elim hab
      | some y => exact hab
  · exact ⟨rfl, ho, h⟩

theorem Env.macroExpandStep_indep {k : Nat} {eA eB : Env} (fuel : Nat) (r : Rec)
    (hr : r.Indep k eA eB) (W W1 : World) (self : Nat) (o : Base_Object)
    (h : Sim k eA eB W W1) (hself : self ≠ k) (ho : noRefObj k o = true) :
    ResRel (ValRel k eA eB) (Env.macroExpandStep fuel r W self o)
      (Env.macroExpandStep fuel r W1 self o) := by
  unfold Env.macroExpandStep
  split
  · rename_i opSymbol cdr
    obtain ⟨_, hcdr⟩ := (noRefObj_cons _ _ _).1 ho
    split
    · exact ⟨rfl, ho, h⟩
    · obtain ⟨h1, h2⟩ := h.findSymbolInMap_same (some opSymbol) fuel self hself
      rw [h1]
      refine ResRel.bind_same _ ?_
      intro op hop
      split
      · rename_i pl body env
        have hv := h2 _ hop
        simp only [noRefObj, Bool.and_eq_true, bne_iff_ne, ne_eq] at hv
        refine ResRel.bind_rel (makeEnvForMacro_indep h _ _ _ _ _ hself hv.1.1 hv.1.2 hcdr) ?_
        intro e e1 he
        rw [← he.1]
        refine ResRel.bind_rel (hr.1 _ _ _ _ _ he.2.2 he.2.1 hv.2) ?_
        intro x y hxy
        rw [← hxy.1]
        exact hr.2 _ _ _ _ hxy.2.2 hself hxy.2.1
      · exact mapExpand_indep r hr _ hself _ _ _ h ho
  · exact mapExpand_indep r hr _ hself _ _ _ h ho
  · exact ⟨rfl, ho, h⟩

theorem interp_indep (k : Nat) (eA eB : Env) : ∀ fuel : Nat, (interp fuel).Indep k eA eB := by
  intro fuel
  induction fuel with
  | zero =>
    constructor
    · intro W W1 self o t _ _ _
      trivial
    · intro W W1 self o _ _ _
      trivial
  | succ n ih =>
    constructor
    · intro W W1 self o t h hself ho
      exact Env.evalStep_indep n (interp n) ih _ _ _ _ _ h hself ho
    · intro W W1 self o h hself ho
      exact Env.macroExpandStep_indep n (interp n) ih _ _ _ _ h hself ho

theorem Env.eval_indep {k : Nat} {eA eB : Env} (fuel : Nat) (W W1 : World) (self : Nat)
    (o : Base_Object) (t : Bool) (h : Sim k eA eB W W1) (hself : self ≠ k)
    (ho : noRefObj k o = true) :
    ResRel (ValRel k eA eB) (Env.eval fuel W self o t) (Env.eval fuel W1 self o t) :=
  (interp_indep k eA eB fuel).1 _ _ _ _ _ h hself ho

/-! ## Binding lists, bodies and bound symbols -/

theorem isProperList_flatBindings (bs : List (Symbol × Base_Object)) :
    isProperList (flatBindings bs) = true := by
  induction bs with
  | nil => rfl
  | cons b bs ih => exact ih

theorem listLength_flatBindings (bs : List (Symbol × Base_Object)) :
    listLength (flatBindings bs) = 2 * bs.length := by
  induction bs with
  | nil => rfl
  | cons b bs ih =>
    show 1 + (1 + listLength (flatBindings bs)) = _
    rw [ih, List.length_cons]
    omega

theorem doLoop_evalBody (f : Nat) (env : Nat) : ∀ (es : List Base_Object)
    (e : Base_Object) (W : World),
    doLoop (interp f) env true W e (vectorToList es) = evalBody f env W (e :: es) := by
  intro es
  induction es with
  | nil => intro e W; rfl
  | cons e1 es ih =>
    intro e W
    show ((interp f).eval W env e false).bind (fun x => doLoop (interp f) env true x.2 e1
      (vectorToList es)) = (Env.eval f W env e false).bind fun x => evalBody f env x.2 (e1 :: es)
    congr 1
    funext x
    exact ih e1 x.2

theorem Env.eval_do (f : Nat) (W : World) (env : Nat) (es : List Base_Object) :
    Env.eval (f + 1) W env (.cons (registerSymbol "do") (vectorToList es)) true =
      evalBody f env W es := by
  cases es with
  | nil => rfl
  | cons e es =>
    have h : Env.procSpecialForm f (interp f) W env
        (.cons (registerSymbol "do") (vectorToList (e :: es))) true =
        (doLoop (interp f) env true W e (vectorToList es)).bind fun x => .ok (some x) := by
      unfold Env.procSpecialForm
      simp only [registerSymbol, vectorToList, listLength]
      rw [if_neg (by decide), if_neg (by decide), if_pos (by decide), if_neg (by simp)]
    rw [Env.eval_cons, h, doLoop_evalBody f env]
    cases evalBody f env W (e :: es) <;> rfl

theorem mapCount_mapSet_self (m : List (SymPtr × Base_Object)) (k : SymPtr) (w : Base_Object) :
    mapCount (mapSet m k w) k = true := by
  induction m with
  | nil => simp [mapSet, mapCount]
  | cons kv m ih =>
    obtain ⟨k0, v0⟩ := kv
    by_cases h : k0 = k
    · simp [mapSet, mapCount, h]
    · simp [mapSet, mapCount, h, ih]

theorem Env.findSymbolInMap_own (k : Nat) (W : World) (env : Nat) (e : Env) (s : SymPtr)
    (x : Base_Object) (he : W.envs[env]? = some e) (hx : mapFind e.symbolValueMap s = some x)
    (hc : mapCount e.symbolValueMap s = true) :
    Env.findSymbolInMap (k + 1) W env s = .ok (some x) := by
  have h1 : Env.findEnvironment (k + 1) W env s = .ok (some env) := by
    unfold Env.findEnvironment
    split
    · rw [Env.resolveEnvDyn, he]
      simp only [hc, if_true]
    · rw [Env.resolveEnvLex, he]
      simp only [hc, if_true]
  unfold Env.findSymbolInMap
  rw [h1, Res.bind_ok]
  simp only [he, hx]

theorem Env.eval_bound_symbol (k : Nat) (W : World) (env : Nat) (s : Symbol) (x : Base_Object)
    (t : Bool) (henv : env < W.envs.length) :
    Env.eval (k + 2) (Env.bind W env x (some s)) env (.symbol s) t =
      .ok (x, Env.bind W env x (some s)) := by
  have he : (Env.bind W env x (some s)).envs[env]? =
      some { W.envs[env] with
        symbolValueMap := mapSet (W.envs[env]).symbolValueMap (some s) x } := by
    show (updateEnv W.envs env _)[env]? = _
    rw [updateEnv_get_self, List.getElem?_eq_getElem henv]
    rfl
  rw [Env.eval_symbol, Env.findSymbolInMap_own k _ env _ (some s) x he
    (mapFind_mapSet_self _ _ _) (mapCount_mapSet_self _ _ _)]
  rfl

/-! ## Environments refer to environments that exist -/

theorem inRangeObj_mono (n m : Nat) (h : n ≤ m) : ∀ o : Base_Object,
    inRangeObj n o = true → inRangeObj m o = true := by
  intro o
  induction o with
  | cons a d iha ihd =>
    intro ho
    simp only [inRangeObj, Bool.and_eq_true] at ho ⊢
    exact ⟨iha ho.1, ihd ho.2⟩
  | proc pl body env ihp ihb =>
    intro ho
    simp only [inRangeObj, Bool.and_eq_true, decide_eq_true_eq] at ho ⊢
    exact ⟨⟨Nat.lt_of_lt_of_le ho.1.1 h, ihp ho.1.2⟩, ihb ho.2⟩
  | macroObj pl body env ihp ihb =>
    intro ho
    simp only [inRangeObj, Bool.and_eq_true, decide_eq_true_eq] at ho ⊢
    exact ⟨⟨Nat.lt_of_lt_of_le ho.1.1 h, ihp ho.1.2⟩, ihb ho.2⟩
  | _ => intro _; rfl

theorem inRangeLink_mono (n m : Nat) (h : n ≤ m) (l : Option Nat)
    (hl : inRangeLink n l = true) : inRangeLink m l = true := by
  cases l with
  | none => rfl
  | some i =>
    simp only [inRangeLink, decide_eq_true_eq] at hl ⊢
    exact Nat.lt_of_lt_of_le hl h

theorem inRangeMap_mono (n m : Nat) (h : n ≤ m) (mp : List (SymPtr × Base_Object))
    (hm : (mp.all fun kv => inRangeObj n kv.2) = true) :
    (mp.all fun kv => inRangeObj m kv.2) = true := by
  rw [List.all_eq_true] at hm ⊢
  exact fun kv hkv => inRangeObj_mono n m h _ (hm kv hkv)

theorem inRangeEnv_mono (n m : Nat) (h : n ≤ m) (e : Env) (he : inRangeEnv n e = true) :
    inRangeEnv m e = true := by
  simp only [inRangeEnv, Bool.and_eq_true] at he ⊢
  exact ⟨⟨inRangeLink_mono n m h _ he.1.1, inRangeLink_mono n m h _ he.1.2⟩,
    inRangeMap_mono n m h _ he.2⟩

theorem World.wf_get (W : World) (h : W.wf = true) (j : Nat) (e : Env)
    (he : W.envs[j]? = some e) : inRangeEnv W.envs.length e = true := by
  unfold World.wf at h
  rw [List.all_eq_true] at h
  exact h e (List.getElem?_mem he)

theorem World.wf_of (W : World)
    (h : ∀ (j : Nat) (e : Env), W.envs[j]? = some e → inRangeEnv W.envs.length e = true) :
    W.wf = true := by
  unfold World.wf
  rw [List.all_eq_true]
  intro e he
  obtain ⟨j, hj⟩ := List.mem_iff_getElem?.1 he
  exact h j e hj

theorem World.wf_update (W : World) (h : W.wf = true) (i : Nat) (g : Env → Env)
    (hg : ∀ e, inRangeEnv W.envs.length e = true → inRangeEnv W.envs.length (g e) = true) :
    (World.mk (updateEnv W.envs i g) W.totalSym W.addressEq).wf = true := by
  apply World.wf_of
  intro j e he
  change (updateEnv W.envs i g)[j]? = some e at he
  show inRangeEnv (updateEnv W.envs i g).length e = true
  rw [updateEnv_length]
  by_cases hji : j = i
  · rw [hji, updateEnv_get_self] at he
    cases hw : W.envs[i]? with
    | none => rw [hw] at he; cases he
    | some e0 =>
      rw [hw] at he
      cases he
      exact hg _ (W.wf_get h i e0 hw)
  · rw [updateEnv_get_ne _ _ _ _ hji] at he
    exact W.wf_get h j e he

theorem inRange_mapSet (n : Nat) (m : List (SymPtr × Base_Object)) (s : SymPtr)
    (v : Base_Object) (hm : (m.all fun kv => inRangeObj n kv.2) = true)
    (hv : inRangeObj n v = true) : ((mapSet m s v).all fun kv => inRangeObj n kv.2) = true := by
  induction m with
  | nil => simp [mapSet, hv]
  | cons kv m ih =>
    obtain ⟨k0, v0⟩ := kv
    simp only [List.all_cons, Bool.and_eq_true] at hm
    simp only [mapSet]
    by_cases hk : k0 = s
    · rw [if_pos hk]
      simp only [List.all_cons, Bool.and_eq_true]
      exact ⟨hv, hm.2⟩
    · rw [if_neg hk]
      simp only [List.all_cons, Bool.and_eq_true]
      exact ⟨hm.1, ih hm.2⟩

theorem inRange_foldl_mapSet (n : Nat) : ∀ (src m : List (SymPtr × Base_Object)),
    (src.all fun kv => inRangeObj n kv.2) = true → (m.all fun kv => inRangeObj n kv.2) = true →
    ((src.foldl (fun m kv => mapSet m kv.1 kv.2) m).all fun kv => inRangeObj n kv.2) = true := by
  intro src
  induction src with
  | nil => intro m _ hm; exact hm
  | cons kv src ih =>
    intro m hs hm
    simp only [List.all_cons, Bool.and_eq_true] at hs
    exact ih _ hs.2 (inRange_mapSet n m kv.1 kv.2 hm hs.1)

theorem inRange_mapFind (n : Nat) (m : List (SymPtr × Base_Object)) (s : SymPtr)
    (v : Base_Object) (hm : (m.all fun kv => inRangeObj n kv.2) = true)
    (h : mapFind m s = some v) : inRangeObj n v = true := by
  induction m with
  | nil => cases h
  | cons kv m ih =>
    obtain ⟨k0, v0⟩ := kv
    simp only [List.all_cons, Bool.and_eq_true] at hm
    simp only [mapFind] at h
    by_cases hk : k0 = s
    · rw [if_pos hk] at h
      cases h
      exact hm.1
    · rw [if_neg hk] at h
      exact ih hm.2 h

theorem World.wf_bind (W : World) (h : W.wf = true) (i : Nat) (o : Base_Object) (s : SymPtr)
    (ho : inRangeObj W.envs.length o = true) : (Env.bind W i o s).wf = true := by
  refine World.wf_update W h i _ ?_
  intro e he
  simp only [inRangeEnv, Bool.and_eq_true] at he ⊢
  exact ⟨he.1, inRange_mapSet _ _ _ _ he.2 ho⟩

theorem World.wf_setClosed (W : World) (h : W.wf = true) (i : Nat) :
    (Env.setClosed W i).wf = true :=
  World.wf_update W h i _ fun _ he => he

theorem World.wf_merge (W : World) (h : W.wf = true) (i j : Nat) :
    (Env.merge W i j).wf = true := by
  unfold Env.merge
  cases he : W.envs[j]? with
  | none => exact h
  | some e =>
    have hn := W.wf_get h j e he
    refine World.wf_update W h i _ ?_
    intro me hme
    simp only [inRangeEnv, Bool.and_eq_true] at hn hme ⊢
    refine ⟨⟨hme.1.1, ?_⟩, inRange_foldl_mapSet _ _ _ hn.2 hme.2⟩
    cases hl : e.environmentLex with
    | none => simpa using hme.1.2
    | some l =>
      have := hn.1.2
      rw [hl] at this
      simpa using this

theorem World.wf_sub (W : World) (h : W.wf = true) (self : Nat) (l : Option Nat)
    (hs : self < W.envs.length) (hl : inRangeLink W.envs.length l = true) :
    (Env.createSubEnvironment W self l).2.wf = true := by
  apply World.wf_of
  intro j e he
  change (W.envs ++ _)[j]? = some e at he
  have hlen : (Env.createSubEnvironment W self l).2.envs.length = W.envs.length + 1 := by
    simp [Env.createSubEnvironment]
  rw [hlen]
  by_cases hjl : j < W.envs.length
  · rw [List.getElem?_append_left hjl] at he
    exact inRangeEnv_mono _ _ (Nat.le_succ _) _ (W.wf_get h j e he)
  · rw [List.getElem?_append_right (Nat.le_of_not_lt hjl)] at he
    cases hd : j - W.envs.length with
    | zero =>
      rw [hd] at he
      simp only [List.getElem?_cons_zero, Option.some.injEq] at he
      rw [← he]
      simp only [inRangeEnv, List.all_nil, Bool.and_true, Bool.and_eq_true, inRangeLink,
        decide_eq_true_eq]
      exact ⟨Nat.lt_succ_of_lt hs, inRangeLink_mono _ _ (Nat.le_succ _) _ hl⟩
    | succ d =>
      rw [hd] at he
      simp at he

theorem inRangeObj_cons (n : Nat) (a d : Base_Object) :
    inRangeObj n (.cons a d) = true ↔ inRangeObj n a = true ∧ inRangeObj n d = true := by
  simp [inRangeObj]

theorem inRangeObj_listNth (n : Nat) : ∀ (i : Nat) (o x : Base_Object),
    inRangeObj n o = true → listNth o i = some x → inRangeObj n x = true := by
  intro i
  induction i with
  | zero =>
    intro o x ho hx
    cases o <;> simp only [listNth] at hx <;> try cases hx
    exact ((inRangeObj_cons _ _ _).1 ho).1
  | succ i ih =>
    intro o x ho hx
    cases o <;> simp only [listNth] at hx <;> try cases hx
    exact ih _ _ ((inRangeObj_cons _ _ _).1 ho).2 hx

theorem inRangeObj_listNthCdr (n : Nat) : ∀ (i : Nat) (o x : Base_Object),
    inRangeObj n o = true → listNthCdr o i = some x → inRangeObj n x = true := by
  intro i
  induction i with
  | zero =>
    intro o x ho hx
    simp only [listNthCdr] at hx
    cases hx
    exact ho
  | succ i ih =>
    intro o x ho hx
    cases o <;> simp only [listNthCdr] at hx <;> try cases hx
    exact ih _ _ ((inRangeObj_cons _ _ _).1 ho).2 hx

theorem doBody_inRange (n : Nat) (o body : Base_Object) (ho : inRangeObj n o = true)
    (h : doBody o = .ok body) : inRangeObj n body = true := by
  unfold doBody at h
  cases hc : listNthCdr o 2 with
  | none => rw [hc] at h; cases h
  | some b =>
    rw [hc] at h
    cases h
    exact (inRangeObj_cons _ _ _).2 ⟨rfl, inRangeObj_listNthCdr n 2 o b ho hc⟩

theorem inRangeObj_boolToLobj (n : Nat) (b : Bool) : inRangeObj n (boolToLobj b) = true := by
  cases b <;> rfl

theorem Env.findSymbolInMap_inRange (fuel : Nat) (W : World) (self : Nat) (s : SymPtr)
    (v : Base_Object) (h : W.wf = true)
    (hv : Env.findSymbolInMap fuel W self s = .ok (some v)) :
    inRangeObj W.envs.length v = true := by
  unfold Env.findSymbolInMap at hv
  rw [Res.bind_eq_ok] at hv
  obtain ⟨found, _, hv⟩ := hv
  cases found with
  | none => cases hv
  | some G =>
    simp only at hv
    cases he : W.envs[G]? with
    | none => rw [he] at hv; cases hv
    | some e =>
      rw [he] at hv
      simp only [Res.ok.injEq] at hv
      have hn := W.wf_get h G e he
      simp only [inRangeEnv, Bool.and_eq_true] at hn
      exact inRange_mapFind _ _ _ _ hn.2 hv

theorem WfOut.same (W : World) (v : Base_Object) (h : W.wf = true)
    (hv : inRangeObj W.envs.length v = true) : WfOut W v W :=
  ⟨h, hv, Nat.le_refl _⟩

theorem WfOut.after {W W1 W2 : World} {v : Base_Object} (h1 : W.envs.length ≤ W1.envs.length)
    (h2 : WfOut W1 v W2) : WfOut W v W2 :=
  ⟨h2.1, h2.2.1, Nat.le_trans h1 h2.2.2⟩

theorem evalListElements_wf (r : Rec) (hr : r.Wf) (env : Nat) :
    ∀ (o : Base_Object) (W : World) (v : Base_Object) (W1 : World), W.wf = true →
    env < W.envs.length → inRangeObj W.envs.length o = true →
    evalListElements r env W o = .ok (v, W1) → WfOut W v W1 := by
  intro o
  induction o with
  | cons car cdr _ ih =>
    intro W v W1 hW henv ho h
    simp only [evalListElements, Res.bind_eq_ok] at h
    obtain ⟨y, hy, x, hx, h⟩ := h
    simp only [Res.ok.injEq, Prod.mk.injEq] at h
    obtain ⟨h1, h2⟩ := (inRangeObj_cons _ _ _).1 ho
    have hy1 := ih W y.1 y.2 hW henv h2 hy
    have hx1 := hr.1 _ _ _ _ _ _ hy1.1 (Nat.lt_of_lt_of_le henv hy1.2.2)
      (inRangeObj_mono _ _ hy1.2.2 _ h1) hx
    rw [← h.1, ← h.2]
    exact ⟨hx1.1, (inRangeObj_cons _ _ _).2 ⟨hx1.2.1, inRangeObj_mono _ _ hx1.2.2 _ hy1.2.1⟩,
      Nat.le_trans hy1.2.2 hx1.2.2⟩
  | _ =>
    intro W v W1 hW henv ho h
    simp only [evalListElements, Res.ok.injEq, Prod.mk.injEq] at h
    rw [← h.1, ← h.2]
    exact WfOut.same _ _ hW ho

theorem mapExpand_wf (r : Rec) (hr : r.Wf) (self : Nat) :
    ∀ (o : Base_Object) (W : World) (v : Base_Object) (W1 : World), W.wf = true →
    self < W.envs.length → inRangeObj W.envs.length o = true →
    mapExpand r self W o = .ok (v, W1) → WfOut W v W1 := by
  intro o
  induction o with
  | cons car cdr _ ih =>
    intro W v W1 hW henv ho h
    simp only [mapExpand, Res.bind_eq_ok] at h
    obtain ⟨y, hy, x, hx, h⟩ := h
    simp only [Res.ok.injEq, Prod.mk.injEq] at h
    obtain ⟨h1, h2⟩ := (inRangeObj_cons _ _ _).1 ho
    have hy1 := ih W y.1 y.2 hW henv h2 hy
    have hx1 := hr.2 _ _ _ _ _ hy1.1 (Nat.lt_of_lt_of_le henv hy1.2.2)
      (inRangeObj_mono _ _ hy1.2.2 _ h1) hx
    rw [← h.1, ← h.2]
    exact ⟨hx1.1, (inRangeObj_cons _ _ _).2 ⟨hx1.2.1, inRangeObj_mono _ _ hx1.2.2 _ hy1.2.1⟩,
      Nat.le_trans hy1.2.2 hx1.2.2⟩
  | _ =>
    intro W v W1 hW henv ho h
    simp only [mapExpand, Res.ok.injEq, Prod.mk.injEq] at h
    rw [← h.1, ← h.2]
    exact WfOut.same _ _ hW ho

theorem evalArgs_wf (r : Rec) (hr : r.Wf) (self : Nat) :
    ∀ (o : Base_Object) (W : World) (v : List Base_Object) (W1 : World), W.wf = true →
    self < W.envs.length → inRangeObj W.envs.length o = true →
    evalArgs r self W o = .ok (v, W1) →
    W1.wf = true ∧ (∀ x ∈ v, inRangeObj W1.envs.length x = true) ∧
      W.envs.length ≤ W1.envs.length := by
  intro o
  induction o with
  | cons car cdr _ ih =>
    intro W v W1 hW henv ho h
    simp only [evalArgs, Res.bind_eq_ok] at h
    obtain ⟨x, hx, y, hy, h⟩ := h
    simp only [Res.ok.injEq, Prod.mk.injEq] at h
    obtain ⟨h1, h2⟩ := (inRangeObj_cons _ _ _).1 ho
    have hx1 := hr.1 _ _ _ _ _ _ hW henv h1 hx
    have hy1 := ih x.2 y.1 y.2 hx1.1 (Nat.lt_of_lt_of_le henv hx1.2.2)
      (inRangeObj_mono _ _ hx1.2.2 _ h2) hy
    rw [← h.1, ← h.2]
    refine ⟨hy1.1, ?_, Nat.le_trans hx1.2.2 hy1.2.2⟩
    intro z hz
    rcases List.mem_cons.1 hz with hz | hz
    · rw [hz]
      exact inRangeObj_mono _ _ hy1.2.2 _ hx1.2.1
    · exact hy1.2.1 z hz
  | _ =>
    intro W v W1 hW henv ho h
    simp only [evalArgs, Res.ok.injEq, Prod.mk.injEq] at h
    rw [← h.1, ← h.2]
    exact ⟨hW, fun x hx => absurd hx (List.not_mem_nil _), Nat.le_refl _⟩

theorem macroBindLoop_wf (env : Nat) :
    ∀ (prms args : Base_Object) (W : World) (y : World × Base_Object × Base_Object),
    W.wf = true → inRangeObj W.envs.length prms = true →
    inRangeObj W.envs.length args = true →
    macroBindLoop env W prms args = .ok y → WfLoop W y := by
  intro prms
  induction prms with
  | cons p prms _ ih =>
    intro args W y hW hp ha h
    cases args with
    | cons a args =>
      obtain ⟨hp1, hp2⟩ := (inRangeObj_cons _ _ _).1 hp
      obtain ⟨ha1, ha2⟩ := (inRangeObj_cons _ _ _).1 ha
      cases p with
      | symbol s =>
        simp only [macroBindLoop] at h
        have hb := World.wf_bind W hW env a (some s) ha1
        have hl := Env.bind_length W env a (some s)
        have := ih args (Env.bind W env a (some s)) y hb (by rw [hl]; exact hp2)
          (by rw [hl]; exact ha2) h
        exact ⟨this.1, this.2.1, this.2.2.1, by rw [← hl]; exact this.2.2.2⟩
      | _ => simp [macroBindLoop] at h
    | _ =>
      simp only [macroBindLoop, Res.ok.injEq] at h
      rw [← h]
      exact ⟨hW, hp, ha, Nat.le_refl _⟩
  | _ =>
    intro args W y hW hp ha h
    simp only [macroBindLoop, Res.ok.injEq] at h
    rw [← h]
    exact ⟨hW, hp, ha, Nat.le_refl _⟩

theorem applyBindLoop_wf (r : Rec) (hr : r.Wf) (out env : Nat) :
    ∀ (prms args : Base_Object) (W : World) (y : World × Base_Object × Base_Object),
    W.wf = true → out < W.envs.length → inRangeObj W.envs.length prms = true →
    inRangeObj W.envs.length args = true →
    applyBindLoop r out env W prms args = .ok y → WfLoop W y := by
  intro prms
  induction prms with
  | cons p prms _ ih =>
    intro args W y hW hout hp ha h
    cases args with
    | cons a args =>
      obtain ⟨hp1, hp2⟩ := (inRangeObj_cons _ _ _).1 hp
      obtain ⟨ha1, ha2⟩ := (inRangeObj_cons _ _ _).1 ha
      cases p with
      | symbol s =>
        simp only [applyBindLoop, Res.bind_eq_ok] at h
        obtain ⟨x, hx, h⟩ := h
        have hx1 := hr.1 _ _ _ _ _ _ hW hout ha1 hx
        have hb := World.wf_bind x.2 hx1.1 env x.1 (some s) hx1.2.1
        have hl := Env.bind_length x.2 env x.1 (some s)
        have := ih args (Env.bind x.2 env x.1 (some s)) y hb
          (by rw [hl]; exact Nat.lt_of_lt_of_le hout hx1.2.2)
          (by rw [hl]; exact inRangeObj_mono _ _ hx1.2.2 _ hp2)
          (by rw [hl]; exact inRangeObj_mono _ _ hx1.2.2 _ ha2) h
        exact ⟨this.1, this.2.1, this.2.2.1,
          Nat.le_trans hx1.2.2 (by rw [← hl]; exact this.2.2.2)⟩
      | _ => simp [applyBindLoop] at h
    | _ =>
      simp only [applyBindLoop, Res.ok.injEq] at h
      rw [← h]
      exact ⟨hW, hp, ha, Nat.le_refl _⟩
  | _ =>
    intro args W y hW hout hp ha h
    simp only [applyBindLoop, Res.ok.injEq] at h
    rw [← h]
    exact ⟨hW, hp, ha, Nat.le_refl _⟩

theorem mergeIfTail_wf (W : World) (out env : Nat) (t : Bool) (hW : W.wf = true)
    (hout : out < W.envs.length) (henv : env < W.envs.length) :
    (mergeIfTail W out env t).2.wf = true ∧
    (mergeIfTail W out env t).1 < (mergeIfTail W out env t).2.envs.length ∧
    (mergeIfTail W out env t).2.envs.length = W.envs.length := by
  unfold mergeIfTail
  split
  · exact ⟨World.wf_merge W hW _ _, by rw [Env.merge_length]; exact hout,
      Env.merge_length _ _ _⟩
  · exact ⟨hW, henv, rfl⟩

theorem createSub_length (W : World) (self : Nat) (l : Option Nat) :
    (Env.createSubEnvironment W self l).2.envs.length = W.envs.length + 1 := by
  simp [Env.createSubEnvironment]

theorem makeEnvForMacro_wf (W : World) (out procEnv : Nat) (prms args : Base_Object)
    (t : Bool) (y : Nat × World) (hW : W.wf = true) (hout : out < W.envs.length)
    (hproc : procEnv < W.envs.length) (hp : inRangeObj W.envs.length prms = true)
    (ha : inRangeObj W.envs.length args = true)
    (h : makeEnvForMacro W out procEnv prms args t = .ok y) : WfFrame W y := by
  unfold makeEnvForMacro at h
  have hs := World.wf_sub W hW out (some procEnv) hout (by simpa [inRangeLink] using hproc)
  have hl := createSub_length W out (some procEnv)
  have h1 : (Env.createSubEnvironment W out (some procEnv)).1 = W.envs.length := rfl
  simp only [h1] at h
  split at h
  · cases h
  · rw [Res.bind_eq_ok] at h
    obtain ⟨x, hx, h⟩ := h
    have hx1 := macroBindLoop_wf _ _ _ _ _ hs
      (by rw [hl]; exact inRangeObj_mono _ _ (Nat.le_succ _) _ hp)
      (by rw [hl]; exact inRangeObj_mono _ _ (Nat.le_succ _) _ ha) hx
    have hlen : W.envs.length < x.1.envs.length := by
      have := hx1.2.2.2
      rw [hl] at this
      exact this
    have hout1 : out < x.1.envs.length := Nat.lt_trans hout hlen
    have fin : ∀ W2 : World, W2.wf = true → W2.envs.length = x.1.envs.length →
        WfFrame W (mergeIfTail W2 out W.envs.length t) := by
      intro W2 hW2 hl2
      have hm := mergeIfTail_wf W2 out W.envs.length t hW2 (by rw [hl2]; exact hout1)
        (by rw [hl2]; exact hlen)
      exact ⟨hm.1, hm.2.1, by rw [hm.2.2, hl2]; exact Nat.le_of_lt hlen⟩
    split at h
    · split at h
      · cases h
        exact fin _ hx1.1 rfl
      · cases h
        exact fin _ (World.wf_bind _ hx1.1 _ _ _ hx1.2.2.1) (Env.bind_length _ _ _ _)
    · cases h
      exact fin _ hx1.1 rfl

theorem makeEnvForApply_wf (r : Rec) (hr : r.Wf) (W : World) (out procEnv : Nat)
    (prms args : Base_Object)
    (t : Bool) (y : Nat × World) (hW : W.wf = true) (hout : out < W.envs.length)
    (hproc : procEnv < W.envs.length) (hp : inRangeObj W.envs.length prms = true)
    (ha : inRangeObj W.envs.length args = true)
    (h : makeEnvForApply r W out procEnv prms args t = .ok y) : WfFrame W y := by
  unfold makeEnvForApply at h
  have hs := World.wf_sub W hW out (some procEnv) hout (by simpa [inRangeLink] using hproc)
  have hl := createSub_length W out (some procEnv)
  have h1 : (Env.createSubEnvironment W out (some procEnv)).1 = W.envs.length := rfl
  simp only [h1] at h
  split at h
  · cases h
  · rw [Res.bind_eq_ok] at h
    obtain ⟨x, hx, h⟩ := h
    have hx1 := applyBindLoop_wf r hr _ _ _ _ _ _ hs (by rw [hl]; exact Nat.lt_succ_of_lt hout)
      (by rw [hl]; exact inRangeObj_mono _ _ (Nat.le_succ _) _ hp)
      (by rw [hl]; exact inRangeObj_mono _ _ (Nat.le_succ _) _ ha) hx
    have hlen : W.envs.length < x.1.envs.length := by
      have := hx1.2.2.2
      rw [hl] at this
      exact this
    have hout1 : out < x.1.envs.length := Nat.lt_trans hout hlen
    have fin : ∀ W2 : World, W2.wf = true → x.1.envs.length ≤ W2.envs.length →
        WfFrame W (mergeIfTail W2 out W.envs.length t) := by
      intro W2 hW2 hl2
      have hm := mergeIfTail_wf W2 out W.envs.length t hW2 (Nat.lt_of_lt_of_le hout1 hl2)
        (Nat.lt_of_lt_of_le hlen hl2)
      exact ⟨hm.1, hm.2.1, by rw [hm.2.2]; exact Nat.le_trans (Nat.le_of_lt hlen) hl2⟩
    split at h
    · split at h
      · cases h
        exact fin _ hx1.1 (Nat.le_refl _)
      · rw [Res.bind_eq_ok] at h
        obtain ⟨rest, hrest, h⟩ := h
        cases h
        have hr1 := evalListElements_wf r hr _ _ _ _ _ hx1.1 hout1 hx1.2.2.1 hrest
        exact fin _ (World.wf_bind _ hr1.1 _ _ _ hr1.2.1)
          (by rw [Env.bind_length]; exact hr1.2.2)
    · cases h
      exact fin _ hx1.1 (Nat.le_refl _)

theorem doLoop_wf (r : Rec) (hr : r.Wf) (self : Nat) (t : Bool) :
    ∀ (cdr car : Base_Object) (W : World) (v : Base_Object) (W1 : World), W.wf = true →
    self < W.envs.length → inRangeObj W.envs.length car = true →
    inRangeObj W.envs.length cdr = true →
    doLoop r self t W car cdr = .ok (v, W1) → WfOut W v W1 := by
  intro cdr
  induction cdr with
  | cons car1 cdr1 _ ih =>
    intro car W v W1 hW hself hcar hcdr h
    simp only [doLoop, Res.bind_eq_ok] at h
    obtain ⟨x, hx, h⟩ := h
    obtain ⟨h1, h2⟩ := (inRangeObj_cons _ _ _).1 hcdr
    have hx1 := hr.1 _ _ _ _ _ _ hW hself hcar hx
    exact WfOut.after hx1.2.2 (ih _ _ _ _ hx1.1 (Nat.lt_of_lt_of_le hself hx1.2.2)
      (inRangeObj_mono _ _ hx1.2.2 _ h1) (inRangeObj_mono _ _ hx1.2.2 _ h2) h)
  | _ =>
    intro car W v W1 hW hself hcar hcdr h
    simp only [doLoop] at h
    exact hr.1 _ _ _ _ _ _ hW hself hcar h

theorem letLoop_wf (r : Rec) (hr : r.Wf) (self env : Nat) :
    ∀ (n : Nat) (b : Base_Object), listLength b ≤ n → ∀ (W W1 : World), W.wf = true →
    self < W.envs.length → inRangeObj W.envs.length b = true →
    letLoop r self env W b = .ok W1 → W1.wf = true ∧ W.envs.length ≤ W1.envs.length := by
  intro n
  induction n with
  | zero =>
    intro b hb W W1 hW hself hn h
    cases b with
    | cons x y => simp [listLength] at hb
    | symbol s =>
      simp only [letLoop] at h
      split at h
      · cases h
        exact ⟨hW, Nat.le_refl _⟩
      · cases h
    | _ => simp [letLoop] at h
  | succ n ih =>
    intro b hb W W1 hW hself hn h
    cases b with
    | cons x y =>
      cases y with
      | cons form rest =>
        obtain ⟨_, hn2⟩ := (inRangeObj_cons _ _ _).1 hn
        obtain ⟨hform, hrest⟩ := (inRangeObj_cons _ _ _).1 hn2
        cases x with
        | symbol s =>
          simp only [letLoop, Res.bind_eq_ok] at h
          obtain ⟨a, ha, h⟩ := h
          have hl : listLength rest ≤ n := by
            simp only [listLength] at hb
            omega
          have ha1 := hr.1 _ _ _ _ _ _ hW hself hform ha
          have hbl := Env.bind_length a.2 env a.1 (some s)
          have := ih rest hl _ _ (World.wf_bind _ ha1.1 env _ (some s) ha1.2.1)
            (by rw [hbl]; exact Nat.lt_of_lt_of_le hself ha1.2.2)
            (by rw [hbl]; exact inRangeObj_mono _ _ ha1.2.2 _ hrest) h
          exact ⟨this.1, Nat.le_trans ha1.2.2 (by rw [← hbl]; exact this.2)⟩
        | _ => simp [letLoop] at h
      | _ => simp [letLoop] at h
    | symbol s =>
      simp only [letLoop] at h
      split at h
      · cases h
        exact ⟨hW, Nat.le_refl _⟩
      · cases h
    | _ => simp [letLoop] at h

theorem letStarLoop_wf (r : Rec) (hr : r.Wf) (env : Nat) :
    ∀ (n : Nat) (b : Base_Object), listLength b ≤ n → ∀ (W W1 : World), W.wf = true →
    env < W.envs.length → inRangeObj W.envs.length b = true →
    letStarLoop r env W b = .ok W1 → W1.wf = true ∧ W.envs.length ≤ W1.envs.length := by
  intro n
  induction n with
  | zero =>
    intro b hb W W1 hW hself hn h
    cases b with
    | cons x y => simp [listLength] at hb
    | symbol s =>
      simp only [letStarLoop] at h
      split at h
      · cases h
        exact ⟨hW, Nat.le_refl _⟩
      · cases h
    | _ => simp [letStarLoop] at h
  | succ n ih =>
    intro b hb W W1 hW hself hn h
    cases b with
    | cons x y =>
      cases y with
      | cons form rest =>
        obtain ⟨_, hn2⟩ := (inRangeObj_cons _ _ _).1 hn
        obtain ⟨hform, hrest⟩ := (inRangeObj_cons _ _ _).1 hn2
        simp only [letStarLoop, Res.bind_eq_ok] at h
        obtain ⟨a, ha, h⟩ := h
        have hl : listLength rest ≤ n := by
          simp only [listLength] at hb
          omega
        have ha1 := hr.1 _ _ _ _ _ _ hW hself hform ha
        have hbl : ∀ sp : SymPtr, (Env.bind a.2 env a.1 sp).envs.length = a.2.envs.length :=
          fun sp => Env.bind_length a.2 env a.1 sp
        have := ih rest hl _ _ (World.wf_bind _ ha1.1 env _ _ ha1.2.1)
          (by rw [hbl]; exact Nat.lt_of_lt_of_le hself ha1.2.2)
          (by rw [hbl]; exact inRangeObj_mono _ _ ha1.2.2 _ hrest) h
        exact ⟨this.1, Nat.le_trans ha1.2.2 (by rw [← hbl]; exact this.2)⟩
      | _ => simp [letStarLoop] at h
    | symbol s =>
      simp only [letStarLoop] at h
      split at h
      · cases h
        exact ⟨hW, Nat.le_refl _⟩
      · cases h
    | _ => simp [letStarLoop] at h

theorem Env.procSpecialForm_wf (fuel : Nat) (r : Rec) (hr : r.Wf) (W : World) (self : Nat)
    (o : Base_Object) (t : Bool) (v : Base_Object) (W1 : World) (hW : W.wf = true)
    (hself : self < W.envs.length) (ho : inRangeObj W.envs.length o = true)
    (h : Env.procSpecialForm fuel r W self o t = .ok (some (v, W1))) : WfOut W v W1 := by
  unfold Env.procSpecialForm at h
  split at h
  · rename_i op cdr
    simp only at h
    by_cases hif : (op.name == "if") = true
    · rw [if_pos hif] at h
      split at h
      · split at h
        · rename_i cond thenForm hc ht
          simp only [Res.bind_eq_ok] at h
          obtain ⟨c, hcv, h⟩ := h
          have h1 := hr.1 _ _ _ _ _ _ hW hself (inRangeObj_listNth _ _ _ _ ho hc) hcv
          have hs1 := Nat.lt_of_lt_of_le hself h1.2.2
          split at h
          · simp only [Res.bind_eq_ok, Res.ok.injEq, Option.some.injEq] at h
            obtain ⟨x, hx, h⟩ := h
            subst h
            exact WfOut.after h1.2.2 (hr.1 _ _ _ _ _ _ h1.1 hs1
              (inRangeObj_mono _ _ h1.2.2 _ (inRangeObj_listNth _ _ _ _ ho ht)) hx)
          · split at h
            · split at h
              · rename_i elseForm he
                simp only [Res.bind_eq_ok, Res.ok.injEq, Option.some.injEq] at h
                obtain ⟨x, hx, h⟩ := h
                subst h
                exact WfOut.after h1.2.2 (hr.1 _ _ _ _ _ _ h1.1 hs1
                  (inRangeObj_mono _ _ h1.2.2 _ (inRangeObj_listNth _ _ _ _ ho he)) hx)
              · cases h
            · simp only [Res.ok.injEq, Option.some.injEq, Prod.mk.injEq] at h
              rw [← h.1, ← h.2]
              exact ⟨h1.1, rfl, h1.2.2⟩
        · cases h
      · cases h
    rw [if_neg hif] at h
    by_cases hq : (op.name == "quote") = true
    · rw [if_pos hq] at h
      split at h
      · split at h
        · rename_i x hx
          simp only [Res.ok.injEq, Option.some.injEq, Prod.mk.injEq] at h
          rw [← h.1, ← h.2]
          exact WfOut.same _ _ hW (inRangeObj_listNth _ _ _ _ ho hx)
        · cases h
      · cases h
    rw [if_neg hq] at h
    by_cases hdo : (op.name == "do") = true
    · rw [if_pos hdo] at h
      split at h
      · simp only [Res.ok.injEq, Option.some.injEq, Prod.mk.injEq] at h
        rw [← h.1, ← h.2]
        exact WfOut.same _ _ hW rfl
      · split at h
        · rename_i car1 cdr1
          simp only [Res.bind_eq_ok, Res.ok.injEq, Option.some.injEq] at h
          obtain ⟨x, hx, h⟩ := h
          subst h
          have hcdr := ((inRangeObj_cons _ _ _).1 ho).2
          obtain ⟨h1, h2⟩ := (inRangeObj_cons _ _ _).1 hcdr
          exact doLoop_wf r hr _ _ _ _ _ _ _ hW hself h1 h2 hx
        · cases h
    rw [if_neg hdo] at h
    by_cases hdef : (op.name == "define") = true
    · rw [if_pos hdef] at h
      split at h
      · split at h
        · rename_i symbol form hs hf
          simp only [Res.bind_eq_ok, Res.ok.injEq, Option.some.injEq, Prod.mk.injEq] at h
          obtain ⟨x, hx, h⟩ := h
          have h1 := hr.1 _ _ _ _ _ _ hW hself (inRangeObj_listNth _ _ _ _ ho hf) hx
          rw [← h.1, ← h.2]
          exact ⟨World.wf_bind _ h1.1 _ _ _ h1.2.1, rfl, by rw [Env.bind_length]; exact h1.2.2⟩
        · cases h
        · cases h
      · cases h
    rw [if_neg hdef] at h
    by_cases hset : (op.name == "set!") = true
    · rw [if_pos hset] at h
      split at h
      · split at h
        · rename_i symbol form hs hf
          simp only [Res.bind_eq_ok, Res.ok.injEq, Option.some.injEq, Prod.mk.injEq] at h
          obtain ⟨found, _, x, hx, h⟩ := h
          have h1 := hr.1 _ _ _ _ _ _ hW hself (inRangeObj_listNth _ _ _ _ ho hf) hx
          rw [← h.1, ← h.2]
          exact ⟨World.wf_bind _ h1.1 _ _ _ h1.2.1,
            by rw [Env.bind_length]; exact h1.2.1, by rw [Env.bind_length]; exact h1.2.2⟩
        · cases h
        · cases h
      · cases h
    rw [if_neg hset] at h
    by_cases hlet : (op.name == "let") = true
    · rw [if_pos hlet] at h
      split at h
      · cases h
      · split at h
        · cases h
        · rename_i bindings hb
          split at h
          · cases h
          · split at h
            · cases h
            · simp only [Res.bind_eq_ok, Res.ok.injEq, Option.some.injEq] at h
              obtain ⟨Wl, hl, body, hbody, x, hx, h⟩ := h
              subst h
              have hs := World.wf_sub W hW self none hself rfl
              have hsl := createSub_length W self none
              have hbr : inRangeObj (Env.createSubEnvironment W self none).2.envs.length
                  bindings = true := by
                rw [hsl]
                exact inRangeObj_mono _ _ (Nat.le_succ _) _ (inRangeObj_listNth _ _ _ _ ho hb)
              have h1 := letLoop_wf r hr _ _ _ _ (Nat.le_refl _) _ _ hs
                (by rw [hsl]; exact Nat.lt_succ_of_lt hself) hbr hl
              have hlen : W.envs.length < Wl.envs.length := by
                have := h1.2
                rw [hsl] at this
                exact this
              have hm := mergeIfTail_wf Wl self (Env.createSubEnvironment W self none).1 t h1.1
                (Nat.lt_trans hself hlen) hlen
              have hbd : inRangeObj
                  (mergeIfTail Wl self (Env.createSubEnvironment W self none).1 t).2.envs.length
                  body = true := by
                rw [hm.2.2]
                exact inRangeObj_mono _ _ (Nat.le_of_lt hlen) _ (doBody_inRange _ _ _ ho hbody)
              have hx1 := hr.1 _ _ _ _ _ _ hm.1 hm.2.1 hbd hx
              exact ⟨hx1.1, hx1.2.1, Nat.le_trans (Nat.le_of_lt hlen)
                (by rw [← hm.2.2]; exact hx1.2.2)⟩
    rw [if_neg hlet] at h
    by_cases hls : (op.name == "let*") = true
    · rw [if_pos hls] at h
      split at h
      · cases h
      · split at h
        · cases h
        · rename_i bindings hb
          split at h
          · cases h
          · split at h
            · cases h
            · simp only [Res.bind_eq_ok, Res.ok.injEq, Option.some.injEq] at h
              obtain ⟨Wl, hl, body, hbody, x, hx, h⟩ := h
              subst h
              have htarget : (if (t && !Env.isClosed W self) = true then (self, W)
                  else Env.createSubEnvironment W self none).2.wf = true ∧
                  (if (t && !Env.isClosed W self) = true then (self, W)
                    else Env.createSubEnvironment W self none).1 <
                  (if (t && !Env.isClosed W self) = true then (self, W)
                    else Env.createSubEnvironment W self none).2.envs.length ∧
                  W.envs.length ≤ (if (t && !Env.isClosed W self) = true then (self, W)
                    else Env.createSubEnvironment W self none).2.envs.length := by
                split
                · exact ⟨hW, hself, Nat.le_refl _⟩
                · refine ⟨World.wf_sub W hW self none hself rfl, ?_, ?_⟩
                  · rw [createSub_length]
                    exact Nat.lt_succ_self _
                  · rw [createSub_length]
                    exact Nat.le_succ _
              have h1 := letStarLoop_wf r hr _ _ _ (Nat.le_refl _) _ _ htarget.1 htarget.2.1
                (inRangeObj_mono _ _ htarget.2.2 _ (inRangeObj_listNth _ _ _ _ ho hb)) hl
              have hx1 := hr.1 _ _ _ _ _ _ h1.1 (Nat.lt_of_lt_of_le htarget.2.1 h1.2)
                (inRangeObj_mono _ _ (Nat.le_trans htarget.2.2 h1.2) _
                  (doBody_inRange _ _ _ ho hbody)) hx
              exact ⟨hx1.1, hx1.2.1, Nat.le_trans htarget.2.2 (Nat.le_trans h1.2 hx1.2.2)⟩
    rw [if_neg hls] at h
    by_cases hlam : (op.name == "lambda") = true
    · rw [if_pos hlam] at h
      split at h
      · split at h
        · rename_i pl hpl
          simp only [Res.bind_eq_ok, Res.ok.injEq, Option.some.injEq, Prod.mk.injEq] at h
          obtain ⟨body, hbody, h⟩ := h
          rw [← h.1, ← h.2]
          refine ⟨World.wf_setClosed W hW self, ?_, by rw [Env.setClosed_length]⟩
          rw [Env.setClosed_length]
          simp only [inRangeObj, Bool.and_eq_true, decide_eq_true_eq]
          exact ⟨⟨hself, inRangeObj_listNth _ _ _ _ ho hpl⟩, doBody_inRange _ _ _ ho hbody⟩
        · cases h
      · cases h
    rw [if_neg hlam] at h
    by_cases hmac : (op.name == "macro") = true
    · rw [if_pos hmac] at h
      split at h
      · split at h
        · rename_i pl hpl
          simp only [Res.bind_eq_ok, Res.ok.injEq, Option.some.injEq, Prod.mk.injEq] at h
          obtain ⟨body, hbody, h⟩ := h
          rw [← h.1, ← h.2]
          refine ⟨World.wf_setClosed W hW self, ?_, by rw [Env.setClosed_length]⟩
          rw [Env.setClosed_length]
          simp only [inRangeObj, Bool.and_eq_true, decide_eq_true_eq]
          exact ⟨⟨hself, inRangeObj_listNth _ _ _ _ ho hpl⟩, doBody_inRange _ _ _ ho hbody⟩
        · cases h
      · cases h
    rw [if_neg hmac] at h
    cases h
  · cases h

theorem Rec.evalTop_wf_of (r : Rec) (hr : r.Wf) (W : World) (self : Nat) (o v : Base_Object)
    (W1 : World) (hW : W.wf = true) (hself : self < W.envs.length)
    (ho : inRangeObj W.envs.length o = true) (h : r.evalTop W self o = .ok (v, W1)) :
    WfOut W v W1 := by
  simp only [Rec.evalTop, Res.bind_eq_ok] at h
  obtain ⟨x, hx, h⟩ := h
  have h1 := hr.2 _ _ _ _ _ hW hself ho hx
  exact WfOut.after h1.2.2 (hr.1 _ _ _ _ _ _ h1.1 (Nat.lt_of_lt_of_le hself h1.2.2) h1.2.1 h)

theorem applyBuiltin_wf (fuel : Nat) (r : Rec) (hr : r.Wf) (b : Builtin) (W : World)
    (self : Nat) (args : List Base_Object) (v : Base_Object) (W1 : World) (hW : W.wf = true)
    (hself : self < W.envs.length) (hargs : ∀ x ∈ args, inRangeObj W.envs.length x = true)
    (h : applyBuiltin fuel r b W self args = .ok (v, W1)) : WfOut W v W1 := by
  have hok : ∀ (x : Base_Object),
      (Res.ok (x, W) : Res (Base_Object × World)) = .ok (v, W1) →
      inRangeObj W.envs.length x = true → WfOut W v W1 := by
    intro x hxe hx
    simp only [Res.ok.injEq, Prod.mk.injEq] at hxe
    rw [← hxe.1, ← hxe.2]
    exact WfOut.same _ _ hW hx
  have hint : ∀ (m : Res Int), (m.bind fun z => (Res.ok (.integer z, W) :
      Res (Base_Object × World))) = .ok (v, W1) → WfOut W v W1 := by
    intro m hm
    simp only [Res.bind_eq_ok] at hm
    obtain ⟨a, _, hm⟩ := hm
    exact hok _ hm rfl
  cases b
  case eqP =>
    simp only [applyBuiltin] at h
    split at h
    · cases h
    · simp only [Res.ok.injEq, Prod.mk.injEq] at h
      rw [← h.1, ← h.2]
      exact ⟨hW, rfl, Nat.le_refl _⟩
  case mod =>
    simp only [applyBuiltin] at h
    split at h
    · split at h
      · cases h
      · split at h
        · cases h
        · exact hok _ h rfl
    · cases h
  case add => exact hint _ h
  case mul => exact hint _ h
  case sub =>
    simp only [applyBuiltin] at h
    split at h
    · exact hok _ h rfl
    · exact hint _ h
    · cases h
  case div =>
    simp only [applyBuiltin] at h
    split at h
    · exact hint _ h
    · cases h
  case car =>
    simp only [applyBuiltin] at h
    split at h
    · exact hok _ h ((inRangeObj_cons _ _ _).1 (hargs _ (List.mem_singleton.2 rfl))).1
    · cases h
  case cdr =>
    simp only [applyBuiltin] at h
    split at h
    · exact hok _ h ((inRangeObj_cons _ _ _).1 (hargs _ (List.mem_singleton.2 rfl))).2
    · cases h
  case cons =>
    simp only [applyBuiltin] at h
    split at h
    · rename_i a d
      exact hok _ h ((inRangeObj_cons _ _ _).2 ⟨hargs a (by simp), hargs d (by simp)⟩)
    · cases h
  case gensym =>
    simp only [applyBuiltin] at h
    split at h
    · simp only [Res.ok.injEq, Prod.mk.injEq] at h
      rw [← h.1, ← h.2]
      exact ⟨hW, rfl, Nat.le_refl _⟩
    · simp only [Res.ok.injEq, Prod.mk.injEq] at h
      rw [← h.1, ← h.2]
      exact ⟨hW, rfl, Nat.le_refl _⟩
    · cases h
  case boundP =>
    simp only [applyBuiltin] at h
    split at h
    · simp only [Res.bind_eq_ok] at h
      obtain ⟨a, _, h⟩ := h
      exact hok _ h (inRangeObj_boolToLobj _ _)
    · cases h
  case eval =>
    simp only [applyBuiltin] at h
    split at h
    · rename_i a
      exact Rec.evalTop_wf_of r hr _ _ _ _ _ hW hself (hargs a (by simp)) h
    · cases h
  case macroexpandAll =>
    simp only [applyBuiltin] at h
    split at h
    · rename_i a
      exact hr.2 _ _ _ _ _ hW hself (hargs a (by simp)) h
    · cases h
  all_goals
    simp only [applyBuiltin] at h
    first
      | exact hok _ h rfl
      | (split at h <;> first
          | exact hok _ h rfl
          | exact hok _ h (inRangeObj_boolToLobj _ _)
          | (exact Res.noConfusion h)
          | (split at h <;> first
              | exact hok _ h rfl
              | (exact Res.noConfusion h)))

theorem Env.applyStep_wf (fuel : Nat) (r : Rec) (hr : r.Wf) (W : World) (self : Nat)
    (car cdr : Base_Object) (t : Bool) (v : Base_Object) (W1 : World) (hW : W.wf = true)
    (hself : self < W.envs.length) (hcar : inRangeObj W.envs.length car = true)
    (hcdr : inRangeObj W.envs.length cdr = true)
    (h : Env.applyStep fuel r W self car cdr t = .ok (v, W1)) : WfOut W v W1 := by
  unfold Env.applyStep at h
  rw [Res.bind_eq_ok] at h
  obtain ⟨op, hop, h⟩ := h
  have h0 := hr.1 _ _ _ _ _ _ hW hself hcar hop
  have hs0 := Nat.lt_of_lt_of_le hself h0.2.2
  have hv := h0.2.1
  split at h
  · rename_i pl body env hproc
    rw [hproc] at hv
    simp only [inRangeObj, Bool.and_eq_true, decide_eq_true_eq] at hv
    rw [Res.bind_eq_ok] at h
    obtain ⟨e, he, h⟩ := h
    have he1 := makeEnvForApply_wf r hr _ _ _ _ _ _ _ h0.1 hs0 hv.1.1 hv.1.2
      (inRangeObj_mono _ _ h0.2.2 _ hcdr) he
    have hx := hr.1 _ _ _ _ _ _ he1.1 he1.2.1 (inRangeObj_mono _ _ he1.2.2 _ hv.2) h
    exact ⟨hx.1, hx.2.1, Nat.le_trans h0.2.2 (Nat.le_trans he1.2.2 hx.2.2)⟩
  · split at h
    · cases h
    · rw [Res.bind_eq_ok] at h
      obtain ⟨a, ha, h⟩ := h
      have ha1 := evalArgs_wf r hr _ _ _ _ _ h0.1 hs0 (inRangeObj_mono _ _ h0.2.2 _ hcdr) ha
      have hx := applyBuiltin_wf fuel r hr _ _ _ _ _ _ ha1.1 (Nat.lt_of_lt_of_le hs0 ha1.2.2)
        ha1.2.1 h
      exact ⟨hx.1, hx.2.1, Nat.le_trans h0.2.2 (Nat.le_trans ha1.2.2 hx.2.2)⟩
  · cases h

theorem Env.evalStep_wf (fuel : Nat) (r : Rec) (hr : r.Wf) (W : World) (self : Nat)
    (o : Base_Object) (t : Bool) (v : Base_Object) (W1 : World) (hW : W.wf = true)
    (hself : self < W.envs.length) (ho : inRangeObj W.envs.length o = true)
    (h : Env.evalStep fuel r W self o t = .ok (v, W1)) : WfOut W v W1 := by
  have hok : ∀ (x : Base_Object),
      (Res.ok (x, W) : Res (Base_Object × World)) = .ok (v, W1) →
      inRangeObj W.envs.length x = true → WfOut W v W1 := by
    intro x hxe hx
    simp only [Res.ok.injEq, Prod.mk.injEq] at hxe
    rw [← hxe.1, ← hxe.2]
    exact WfOut.same _ _ hW hx
  unfold Env.evalStep at h
  split at h
  · rw [Res.bind_eq_ok] at h
    obtain ⟨rr, hrr, h⟩ := h
    split at h
    · rename_i x
      exact hok _ h (Env.findSymbolInMap_inRange _ _ _ _ _ hW hrr)
    · cases h
  · exact hok _ h ho
  · exact hok _ h ho
  · rename_i car cdr
    obtain ⟨hcar, hcdr⟩ := (inRangeObj_cons _ _ _).1 ho
    rw [Res.bind_eq_ok] at h
    obtain ⟨psfr, hp, h⟩ := h
    split at h
    · rename_i res
      cases h
      exact Env.procSpecialForm_wf fuel r hr _ _ _ _ _ _ hW hself ho hp
    · exact Env.applyStep_wf fuel r hr _ _ _ _ _ _ _ hW hself hcar hcdr h
  · exact hok _ h ho

theorem Env.macroExpandStep_wf (fuel : Nat) (r : Rec) (hr : r.Wf) (W : World) (self : Nat)
    (o : Base_Object) (v : Base_Object) (W1 : World) (hW : W.wf = true)
    (hself : self < W.envs.length) (ho : inRangeObj W.envs.length o = true)
    (h : Env.macroExpandStep fuel r W self o = .ok (v, W1)) : WfOut W v W1 := by
  have hok : ∀ (x : Base_Object),
      (Res.ok (x, W) : Res (Base_Object × World)) = .ok (v, W1) →
      inRangeObj W.envs.length x = true → WfOut W v W1 := by
    intro x hxe hx
    simp only [Res.ok.injEq, Prod.mk.injEq] at hxe
    rw [← hxe.1, ← hxe.2]
    exact WfOut.same _ _ hW hx
  unfold Env.macroExpandStep at h
  split at h
  · rename_i opSymbol cdr
    obtain ⟨_, hcdr⟩ := (inRangeObj_cons _ _ _).1 ho
    split at h
    · exact hok _ h ho
    · rw [Res.bind_eq_ok] at h
      obtain ⟨op, hop, h⟩ := h
      split at h
      · rename_i pl body env
        have hv := Env.findSymbolInMap_inRange _ _ _ _ _ hW hop
        simp only [inRangeObj, Bool.and_eq_true, decide_eq_true_eq] at hv
        rw [Res.bind_eq_ok] at h
        obtain ⟨e, he, h⟩ := h
        rw [Res.bind_eq_ok] at h
        obtain ⟨x, hx, h⟩ := h
        have he1 := makeEnvForMacro_wf _ _ _ _ _ _ _ hW hself hv.1.1 hv.1.2 hcdr he
        have hx1 := hr.1 _ _ _ _ _ _ he1.1 he1.2.1 (inRangeObj_mono _ _ he1.2.2 _ hv.2) hx
        have hlen := Nat.le_trans he1.2.2 hx1.2.2
        have hy := hr.2 _ _ _ _ _ hx1.1 (Nat.lt_of_lt_of_le hself hlen) hx1.2.1 h
        exact ⟨hy.1, hy.2.1, Nat.le_trans hlen hy.2.2⟩
      · exact mapExpand_wf r hr _ _ _ _ _ hW hself ho h
  · exact mapExpand_wf r hr _ _ _ _ _ hW hself ho h
  · exact hok _ h ho

theorem interp_wf : ∀ fuel : Nat, (interp fuel).Wf := by
  intro fuel
  induction fuel with
  | zero =>
    constructor
    · intro W self o t v W1 _ _ _ h
      cases h
    · intro W self o v W1 _ _ _ h
      cases h
  | succ n ih =>
    constructor
    · intro W self o t v W1 hW hself ho h
      exact Env.evalStep_wf n (interp n) ih _ _ _ _ _ _ hW hself ho h
    · intro W self o v W1 hW hself ho h
      exact Env.macroExpandStep_wf n (interp n) ih _ _ _ _ _ hW hself ho h

theorem Env.evalTop_wf (fuel : Nat) (W : World) (self : Nat) (o v : Base_Object) (W1 : World)
    (hW : W.wf = true) (hself : self < W.envs.length) (ho : inRangeObj W.envs.length o = true)
    (h : Env.evalTop fuel W self o = .ok (v, W1)) : WfOut W v W1 :=
  Rec.evalTop_wf_of _ (interp_wf fuel) _ _ _ _ _ hW hself ho h

theorem inRange_noRef (n : Nat) : ∀ o : Base_Object, inRangeObj n o = true →
    noRefObj n o = true := by
  intro o
  induction o with
  | cons a d iha ihd =>
    intro ho
    simp only [inRangeObj, noRefObj, Bool.and_eq_true] at ho ⊢
    exact ⟨iha ho.1, ihd ho.2⟩
  | proc pl body env ihp ihb =>
    intro ho
    simp only [inRangeObj, noRefObj, Bool.and_eq_true, decide_eq_true_eq, bne_iff_ne] at ho ⊢
    exact ⟨⟨Nat.ne_of_lt ho.1.1, ihp ho.1.2⟩, ihb ho.2⟩
  | macroObj pl body env ihp ihb =>
    intro ho
    simp only [inRangeObj, noRefObj, Bool.and_eq_true, decide_eq_true_eq, bne_iff_ne] at ho ⊢
    exact ⟨⟨Nat.ne_of_lt ho.1.1, ihp ho.1.2⟩, ihb ho.2⟩
  | _ => intro _; rfl

theorem World.fresh_of_wf (W : World) (h : W.wf = true) : W.fresh = true := by
  unfold World.fresh
  unfold World.wf at h
  rw [List.all_eq_true] at h ⊢
  intro e he
  have := h e he
  simp only [inRangeEnv, Bool.and_eq_true] at this
  simp only [noRefEnv, Bool.and_eq_true, bne_iff_ne, ne_eq]
  refine ⟨⟨?_, ?_⟩, ?_⟩
  · intro hh
    have h1 := this.1.1
    rw [hh] at h1
    simp [inRangeLink] at h1
  · intro hh
    have h1 := this.1.2
    rw [hh] at h1
    simp [inRangeLink] at h1
  · have h2 := this.2
    rw [List.all_eq_true] at h2 ⊢
    exact fun kv hkv => inRange_noRef _ _ (h2 kv hkv)

theorem Env.createEnvironment_wf : Env.createEnvironment.wf = true := by decide!

theorem inRange_of_wellRead (n : Nat) : ∀ o : Base_Object, wellRead o = true →
    inRangeObj n o = true := by
  intro o
  induction o with
  | cons a d iha ihd =>
    intro ho
    simp only [wellRead, Bool.and_eq_true] at ho
    exact (inRangeObj_cons _ _ _).2 ⟨iha ho.1, ihd ho.2⟩
  | proc pl body env _ _ => intro ho; simp [wellRead] at ho
  | macroObj pl body env _ _ => intro ho; simp [wellRead] at ho
  | _ => intro _; rfl

theorem readParse_inRange (fuel : Nat) (s : IStream) (v : Base_Object) (s1 : IStream)
    (n : Nat) (h : readParse fuel s = .ok (v, s1)) : inRangeObj n v = true := by
  cases hg : s.good with
  | false => exact absurd h (readParse_bad fuel s hg _)
  | true => exact inRange_of_wellRead n v ((read_wellRead fuel).1 s v s1 hg h)

/-- Every world that `Env::repl` reaches from a well-formed world with a root is well formed:
its environments refer to environments that exist. -/
theorem Env.repl_wf (fuel : Nat) : ∀ (turns : Nat) (W : World) (is : IStream)
    (vs : List Base_Object) (W1 : World), W.wf = true → 0 < W.envs.length →
    Env.repl fuel turns W is = .ok (vs, W1) →
    W1.wf = true ∧ W.envs.length ≤ W1.envs.length := by
  intro turns
  induction turns with
  | zero => intro W is vs W1 _ _ h; cases h
  | succ n ih =>
    intro W is vs W1 hW h0 h
    rw [Env.repl] at h
    cases hr : readParse fuel is with
    | ok x =>
      rw [hr] at h
      simp only [Res.bind_eq_ok] at h
      obtain ⟨y, hy, h⟩ := h
      have hy1 := Env.evalTop_wf fuel W 0 x.1 y.1 y.2 hW h0
        (readParse_inRange fuel is x.1 x.2 _ hr) hy
      split at h
      · simp only [Res.ok.injEq, Prod.mk.injEq] at h
        rw [← h.2]
        exact ⟨hy1.1, hy1.2.2⟩
      · simp only [Res.bind_eq_ok, Res.ok.injEq, Prod.mk.injEq] at h
        obtain ⟨z, hz, h⟩ := h
        rw [← h.2]
        have := ih y.2 x.2 z.1 z.2 hy1.1 (Nat.lt_of_lt_of_le h0 hy1.2.2) hz
        exact ⟨this.1, Nat.le_trans hy1.2.2 this.2⟩
    | throw m =>
      rw [hr] at h
      simp only [Res.ok.injEq, Prod.mk.injEq] at h
      rw [← h.2]
      exact ⟨hW, Nat.le_refl _⟩
    | fault m => rw [hr] at h; cases h
    | external m => rw [hr] at h; cases h
    | timeout => rw [hr] at h; cases h

/-- After any run of the read-eval loop from the initial environment the root exists and
nothing refers to an environment that is still to be made. -/
theorem Env.repl_fresh (fuel turns : Nat) (is : IStream) (vs : List Base_Object)
    (W1 : World) (h : Env.repl fuel turns Env.createEnvironment is = .ok (vs, W1)) :
    0 < W1.envs.length ∧ W1.fresh = true := by
  have := Env.repl_wf fuel turns _ is vs W1 Env.createEnvironment_wf (by decide) h
  exact ⟨Nat.lt_of_lt_of_le (by decide) this.2, World.fresh_of_wf W1 this.1⟩

/-! ## C11: the distinguished symbols -/

/-- C11, amended: in the root environment built by `Env::Env()` each of the three symbols
`t`, `null` and `exit` is bound in the root frame to itself, and `evalTop` of the symbol returns
that same symbol and leaves the world as it was. -/
theorem distinguished_symbols (name : String) (h : name ∈ selfBound) (k : Nat) :
    rootValue Env.createEnvironment (some ⟨name, none⟩) = some (registerSymbol name) ∧
    Env.evalTop (k + 2) Env.createEnvironment 0 (registerSymbol name) =
      .ok (registerSymbol name, Env.createEnvironment) := by
  simp only [selfBound, List.mem_cons, List.mem_singleton, List.mem_nil_iff, or_false] at h
  rcases h with rfl | rfl | rfl
  · exact ⟨by decide!, rfl⟩
  · exact ⟨by decide!, rfl⟩
  · exact ⟨by decide!, rfl⟩

/-- C11, amended, at the symbol `exit`. -/
theorem distinguished_symbols_witness :
    rootValue Env.createEnvironment (some ⟨"exit", none⟩) = some (registerSymbol "exit") ∧
    Env.evalTop (0 + 2) Env.createEnvironment 0 (registerSymbol "exit") =
      .ok (registerSymbol "exit", Env.createEnvironment) :=
  distinguished_symbols "exit" (by decide) 0

/-- C11, as the spec writes it, fails for `f`: `Env::Env()` makes no binding for the symbol `f`
(it is only returned by `boolToLobj`), so the root frame has no value for it and evaluating
`f`, as a symbol or as the text `f` read by the reader, throws
"Evaluated unresolvable symbol". -/
theorem f_is_not_bound :
    rootValue Env.createEnvironment (some ⟨"f", none⟩) = none ∧
    Env.evalTop 30 Env.createEnvironment 0 (registerSymbol "f") =
      .throw "Evaluated unresolvable symbol" ∧
    ((readParse 30 (IStream.ofList "f".data)).bind fun x =>
      Env.evalTop 30 Env.createEnvironment 0 x.1) = .throw "Evaluated unresolvable symbol" := by
  decide!

/-! ## C12: special forms of the wrong shape -/

theorem Env.procSpecialForm_shape (f : Nat) (r : Rec) (W : World) (self : Nat) (op : Symbol)
    (cdr : Base_Object) (t : Bool)
    (h : shapeViolated op.name (listLength (.cons (.symbol op) cdr)) = true) :
    Env.procSpecialForm f r W self (.cons (.symbol op) cdr) t = .ok none := by
  simp only [shapeViolated, Bool.or_eq_true, Bool.and_eq_true, beq_iff_eq, Bool.not_eq_true',
    bne_iff_ne, ne_eq, decide_eq_true_eq, Bool.or_eq_false_iff] at h
  rcases h with ((⟨hn, hl⟩ | ⟨hn, hl⟩) | ⟨hn | hn, hl⟩) | ⟨hn | hn, hl⟩
  all_goals simp [Env.procSpecialForm, hn, hl]

/-- C12, amended: a `Cons` whose head is one of `if`, `quote`, `define`, `set!`, `lambda`,
`macro` with a number of arguments outside the shape of the form is not handled by
`procSpecialForm`; `eval` treats it as an ordinary application of the value of the head symbol.
Where the head symbol cannot be resolved, as in the initial environment, that application
throws "Evaluated unresolvable symbol". -/
theorem shape_violation_is_application (f : Nat) (W : World) (self : Nat) (op : Symbol)
    (cdr : Base_Object) (tail : Bool)
    (hshape : shapeViolated op.name (listLength (.cons (.symbol op) cdr)) = true) :
    Env.eval (f + 2) W self (.cons (.symbol op) cdr) tail =
      Env.applyStep (f + 1) (interp (f + 1)) W self (.symbol op) cdr tail ∧
    (Env.findSymbolInMap f W self (some op) = .ok none →
      Env.eval (f + 2) W self (.cons (.symbol op) cdr) tail =
        .throw "Evaluated unresolvable symbol") := by
  have h1 : Env.eval (f + 2) W self (.cons (.symbol op) cdr) tail =
      Env.applyStep (f + 1) (interp (f + 1)) W self (.symbol op) cdr tail := by
    rw [Env.eval_cons, Env.procSpecialForm_shape _ _ _ _ _ _ _ hshape]
    rfl
  refine ⟨h1, fun hu => ?_⟩
  rw [h1]
  have h2 : (interp (f + 1)).eval W self (.symbol op) false =
      .throw "Evaluated unresolvable symbol" := by
    show Env.eval (f + 1) W self (.symbol op) false = _
    rw [Env.eval_symbol, hu]
    rfl
  simp only [Env.applyStep, h2]
  rfl

/-- C12, amended, at `(if 1)` in the initial root environment. -/
theorem shape_violation_is_application_witness :
    Env.eval (1 + 2) Env.createEnvironment 0
      (.cons (.symbol ⟨"if", none⟩) (.cons (.integer 1) nil)) false =
      .throw "Evaluated unresolvable symbol" :=
  (shape_violation_is_application 1 Env.createEnvironment 0 ⟨"if", none⟩
    (.cons (.integer 1) nil) false (by decide)).2 (by decide!)

/-- C12, as the spec writes it, fails once the user has bound the head symbol: after
`(define if +)` the form `(if 1)` is an application of `+` and returns `1`; after
`(define quote +)` the form `(quote 1 2)` returns `3`; after `(define lambda +)` the form
`(lambda)` returns `0`.  No error is raised. -/
theorem shape_violation_returns_value :
    (Env.repl 30 5 Env.createEnvironment
      (IStream.ofList "(define if +) (if 1)".data)).value? =
      some [registerSymbol "if", .integer 1] ∧
    (Env.repl 30 5 Env.createEnvironment
      (IStream.ofList "(define quote +) (quote 1 2)".data)).value? =
      some [registerSymbol "quote", .integer 3] ∧
    (Env.repl 30 5 Env.createEnvironment
      (IStream.ofList "(define lambda +) (lambda)".data)).value? =
      some [registerSymbol "lambda", .integer 0] := by
  decide!

/-! ## C13: `if` -/

theorem Env.eval_if2 (f : Nat) (W : World) (self : Nat) (c a : Base_Object) (t : Bool) :
    Env.eval (f + 1) W self (.cons (registerSymbol "if") (.cons c (.cons a nil))) t =
      (Env.eval f W self c false).bind fun cv =>
        if !cv.1.isnull then Env.eval f cv.2 self a t
        else .ok (registerSymbol "null", cv.2) := by
  have h : Env.procSpecialForm f (interp f) W self
      (.cons (registerSymbol "if") (.cons c (.cons a nil))) t =
      ((interp f).eval W self c false).bind fun cv =>
        if !cv.1.isnull then ((interp f).eval cv.2 self a t).bind fun x => .ok (some x)
        else .ok (some (registerSymbol "null", cv.2)) := rfl
  rw [Env.eval_cons, h, Res.bind_assoc]
  congr 1
  funext cv
  split
  · show (Res.bind (Res.bind (Env.eval f cv.2 self a t) _) _) = _
    cases Env.eval f cv.2 self a t <;> rfl
  · rfl

/-- C13: `if`.  Evaluating `(if c a b)` evaluates `c` once, not in tail position; when its
value is not the symbol `null` the result is the evaluation of `a` in the world that `c` left,
and `b` is not evaluated; when it is `null` the result is the evaluation of `b`, and `a` is not
evaluated.  For `(if c a)` the second case returns the symbol `null` and the world that `c`
left.  An outcome of `c` that is not a value is the outcome of the whole form. -/
theorem if_semantics (f : Nat) (W : World) (self : Nat) (c a b : Base_Object) (tail : Bool) :
    Env.eval (f + 1) W self (.cons (registerSymbol "if") (.cons c (.cons a (.cons b nil)))) tail =
      ((Env.eval f W self c false).bind fun cv =>
        if cv.1.isnull = true then Env.eval f cv.2 self b tail
        else Env.eval f cv.2 self a tail) ∧
    Env.eval (f + 1) W self (.cons (registerSymbol "if") (.cons c (.cons a nil))) tail =
      ((Env.eval f W self c false).bind fun cv =>
        if cv.1.isnull = true then .ok (registerSymbol "null", cv.2)
        else Env.eval f cv.2 self a tail) := by
  constructor
  · rw [Env.eval_if]
    congr 1
    funext cv
    cases cv.1.isnull <;> rfl
  · rw [Env.eval_if2]
    congr 1
    funext cv
    cases cv.1.isnull <;> rfl

/-! ## C14: `let` -/

theorem ResRel.bind_eq {α β γ : Type} {R : α → β → Prop} {x : Res α} {y : Res β}
    {f : α → Res γ} {g : β → Res γ} (h : ResRel R x y) (hf : ∀ a b, R a b → f a = g b) :
    x.bind f = y.bind g := by
  cases x <;> cases y <;> first | exact hf _ _ h | exact False.elim h | skip
  all_goals first | (cases h; rfl)

theorem updateEnv_updateEnv (g1 g2 : Env → Env) : ∀ (es : List Env) (i : Nat),
    updateEnv (updateEnv es i g1) i g2 = updateEnv es i (fun e => g2 (g1 e)) := by
  intro es
  induction es with
  | nil => intro i; rfl
  | cons e es ih =>
    intro i
    cases i with
    | zero => rfl
    | succ i => simp [updateEnv, ih]

theorem updateEnv_congr (g1 g2 : Env → Env) : ∀ (es : List Env) (i : Nat),
    (∀ e, es[i]? = some e → g1 e = g2 e) → updateEnv es i g1 = updateEnv es i g2 := by
  intro es
  induction es with
  | nil => intro i _; rfl
  | cons e es ih =>
    intro i h
    cases i with
    | zero =>
      simp only [updateEnv]
      rw [h e (by simp)]
    | succ i =>
      simp only [updateEnv]
      rw [ih i (fun e1 he1 => h e1 (by simpa using he1))]

theorem updateEnv_id : ∀ (es : List Env) (i : Nat) (g : Env → Env),
    (∀ e, es[i]? = some e → g e = e) → updateEnv es i g = es := by
  intro es
  induction es with
  | nil => intro i g _; rfl
  | cons e es ih =>
    intro i g h
    cases i with
    | zero =>
      simp only [updateEnv]
      rw [h e (by simp)]
    | succ i =>
      simp only [updateEnv]
      rw [ih i g (fun e1 he1 => h e1 (by simpa using he1))]

theorem bindAll_eq (env : Nat) : ∀ (ps : List (Symbol × Base_Object)) (W : World),
    bindAll W env ps = World.mk (updateEnv W.envs env
      (fun e => { e with symbolValueMap := bindPairs e.symbolValueMap ps })) W.totalSym
      W.addressEq := by
  intro ps
  induction ps with
  | nil =>
    intro W
    have h := updateEnv_id W.envs env
      (fun e => { e with symbolValueMap := bindPairs e.symbolValueMap [] }) (fun e _ => rfl)
    show W = World.mk (updateEnv W.envs env _) W.totalSym W.addressEq
    rw [h]
  | cons p ps ih =>
    intro W
    show bindAll (Env.bind W env p.2 (some p.1)) env ps = _
    rw [ih]
    show World.mk (updateEnv (updateEnv W.envs env _) env _) _ _ = _
    rw [updateEnv_updateEnv]
    rfl

theorem Sim.eq {k : Nat} {eA eB : Env} {W W1 : World} (h : Sim k eA eB W W1) :
    W = World.mk (updateEnv W1.envs k (fun _ => eA)) W1.totalSym W1.addressEq := by
  have henvs : W.envs = updateEnv W1.envs k (fun _ => eA) := by
    apply List.ext_getElem?
    intro j
    by_cases hj : j = k
    · rw [hj, updateEnv_get_self, h.kA, h.kB]
      rfl
    · rw [updateEnv_get_ne _ _ _ _ hj]
      exact h.off j hj
  cases W with
  | mk envs totalSym addressEq =>
    simp only at henvs
    have hs : totalSym = W1.totalSym := h.sym
    have ha : addressEq = W1.addressEq := h.addr
    rw [henvs, hs, ha]

theorem Sim.bindAt {k : Nat} {F : Nat} {m : List (SymPtr × Base_Object)} {eB : Env}
    {W W1 : World} (h : Sim k (childEnv F m) eB W W1) (o : Base_Object) (s : Symbol) :
    Sim k (childEnv F (mapSet m (some s) o)) eB (Env.bind W k o (some s)) W1 where
  kA := by
    show (updateEnv W.envs k _)[k]? = _
    rw [updateEnv_get_self, h.kA]
    rfl
  kB := h.kB
  len := by
    rw [Env.bind_length]
    exact h.len
  sym := h.sym
  addr := h.addr
  off := by
    intro j hj
    rw [Env.bind_get_ne _ _ _ _ _ hj]
    exact h.off j hj
  noRef := by
    intro j e hj he
    rw [Env.bind_get_ne _ _ _ _ _ hj] at he
    exact h.noRef j e hj he
  root := h.root

theorem bindPairs_append (m : List (SymPtr × Base_Object)) (ps : List (Symbol × Base_Object))
    (s : Symbol) (o : Base_Object) :
    bindPairs m (ps ++ [(s, o)]) = mapSet (bindPairs m ps) (some s) o := by
  unfold bindPairs
  rw [List.foldl_append]
  rfl

theorem letLoop_deferred (f : Nat) (F k : Nat) (hF : F ≠ k) :
    ∀ (bs done : List (Symbol × Base_Object)) (Wc Ws : World),
    Sim k (childEnv F (bindPairs [] done)) (childEnv F []) Wc Ws →
    (∀ b ∈ bs, noRefObj k b.2 = true) →
    letLoop (interp f) F k Wc (flatBindings bs) =
      (evalValues f F Ws (bs.map Prod.snd)).bind fun x =>
        .ok (bindAll x.2 k (done ++ (bs.map Prod.fst).zip x.1)) := by
  intro bs
  induction bs with
  | nil =>
    intro done Wc Ws h _
    show Res.ok Wc = Res.ok (bindAll Ws k (done ++ []))
    rw [List.append_nil, bindAll_eq, h.eq]
    congr 2
    apply updateEnv_congr
    intro e he
    rw [h.kB] at he
    cases he
    rfl
  | cons b bs ih =>
    intro done Wc Ws h hbs
    obtain ⟨s, v⟩ := b
    show ((interp f).eval Wc F v false).bind (fun x =>
      letLoop (interp f) F k (Env.bind x.2 k x.1 (some s)) (flatBindings bs)) = _
    show _ = ((Env.eval f Ws F v false).bind fun x =>
      (evalValues f F x.2 (bs.map Prod.snd)).bind fun y => Res.ok (x.1 :: y.1, y.2)).bind _
    rw [Res.bind_assoc]
    refine ResRel.bind_eq (Env.eval_indep f Wc Ws F v false h hF
      (hbs (s, v) (List.mem_cons_self _ _))) ?_
    intro a c hac
    have h1 := hac.2.2.bindAt a.1 s
    rw [← bindPairs_append] at h1
    rw [ih (done ++ [(s, a.1)]) _ _ h1 (fun b hb => hbs b (List.mem_cons_of_mem _ hb)),
      Res.bind_assoc]
    congr 1
    funext y
    simp only [Res.bind_ok, List.map_cons, List.zip_cons_cons, List.append_assoc,
      List.singleton_append, hac.1]

theorem World.fresh_get (W : World) (h : W.fresh = true) (j : Nat) (e : Env)
    (he : W.envs[j]? = some e) : noRefEnv W.envs.length e = true := by
  unfold World.fresh at h
  rw [List.all_eq_true] at h
  exact h e (List.getElem?_mem he)

theorem Sim.of_fresh (W : World) (F : Nat) (l : Option Nat) (hF : F < W.envs.length)
    (h : W.fresh = true) :
    Sim W.envs.length (Env.mk (some F) l [] false) (Env.mk (some F) l [] false)
      (Env.createSubEnvironment W F l).2 (Env.createSubEnvironment W F l).2 where
  kA := by
    show (W.envs ++ _)[W.envs.length]? = _
    rw [List.getElem?_append_right (Nat.le_refl _)]
    simp
  kB := by
    show (W.envs ++ _)[W.envs.length]? = _
    rw [List.getElem?_append_right (Nat.le_refl _)]
    simp
  len := rfl
  sym := rfl
  addr := rfl
  off := fun _ _ => rfl
  noRef := by
    intro j e hj he
    change (W.envs ++ _)[j]? = some e at he
    by_cases hjl : j < W.envs.length
    · rw [List.getElem?_append_left hjl] at he
      exact W.fresh_get h j e he
    · rw [List.getElem?_append_right (Nat.le_of_not_lt hjl)] at he
      have : j - W.envs.length ≠ 0 := by omega
      cases hd : j - W.envs.length with
      | zero => exact absurd hd this
      | succ d =>
        rw [hd] at he
        simp at he
  root := by omega

theorem Env.eval_let (g : Nat) (W : World) (F : Nat) (bs : List (Symbol × Base_Object))
    (body : List Base_Object) (tail : Bool) :
    Env.eval (g + 2) W F (letForm bs body) tail =
      (letLoop (interp (g + 1)) F W.envs.length (Env.createSubEnvironment W F none).2
          (flatBindings bs)).bind fun W1 =>
        evalBody g (mergeIfTail W1 F W.envs.length tail).1
          (mergeIfTail W1 F W.envs.length tail).2 body := by
  have h : Env.procSpecialForm (g + 1) (interp (g + 1)) W F (letForm bs body) tail =
      (letLoop (interp (g + 1)) F W.envs.length (Env.createSubEnvironment W F none).2
          (flatBindings bs)).bind fun W1 =>
        ((interp (g + 1)).eval (mergeIfTail W1 F W.envs.length tail).2
          (mergeIfTail W1 F W.envs.length tail).1
          (.cons (registerSymbol "do") (vectorToList body)) true).bind fun x => .ok (some x) := by
    unfold Env.procSpecialForm letForm
    simp only [registerSymbol, listLength, listNth]
    rw [if_neg (by decide), if_neg (by decide), if_neg (by decide), if_neg (by decide),
      if_neg (by decide), if_pos (by decide), if_neg (by omega)]
    simp only [isProperList_flatBindings, listLength_flatBindings, Bool.not_true]
    rw [if_neg (by simp), if_neg (by simp)]
    simp only [doBody, listNthCdr, Res.bind_ok]
    rfl
  unfold letForm at h ⊢
  rw [Env.eval_cons, h, Res.bind_assoc]
  congr 1
  funext W1
  show Res.bind (Res.bind (Env.eval (g + 1) _ _ _ true) _) _ = _
  rw [Env.eval_do]
  cases evalBody g _ _ body <;> rfl

theorem Env.eval_let_deferred (g : Nat) (W : World) (F : Nat)
    (bs : List (Symbol × Base_Object)) (body : List Base_Object) (tail : Bool)
    (hF : F < W.envs.length) (hW : W.fresh = true)
    (hbs : (bs.all fun b => noRefObj W.envs.length b.2) = true) :
    Env.eval (g + 2) W F (letForm bs body) tail = letParallel (g + 1) g W F bs body tail := by
  rw [Env.eval_let, letLoop_deferred (g + 1) F W.envs.length (Nat.ne_of_lt hF) bs [] _ _
    (Sim.of_fresh W F none hF hW)
    (fun b hb => by
      rw [List.all_eq_true] at hbs
      exact hbs b hb), Res.bind_assoc]
  rfl

theorem evalValues_indep {k : Nat} {eA eB : Env} (f : Nat) (out : Nat) (hout : out ≠ k) :
    ∀ (vs : List Base_Object) (W W1 : World), Sim k eA eB W W1 →
    (∀ v ∈ vs, noRefObj k v = true) →
    ResRel (ArgsRel k eA eB) (evalValues f out W vs) (evalValues f out W1 vs) := by
  intro vs
  induction vs with
  | nil =>
    intro W W1 h _
    exact ⟨rfl, ⟨fun x hx => absurd hx (List.not_mem_nil _), h⟩⟩
  | cons v vs ih =>
    intro W W1 h hvs
    simp only [evalValues]
    refine ResRel.bind_rel (Env.eval_indep f W W1 out v false h hout
      (hvs v (List.mem_cons_self _ _))) ?_
    intro a b hab
    refine ResRel.bind_rel (ih _ _ hab.2.2 (fun x hx => hvs x (List.mem_cons_of_mem _ hx))) ?_
    intro c d hcd
    refine ⟨by rw [hab.1, hcd.1], ?_, hcd.2.2⟩
    intro x hx
    rcases List.mem_cons.1 hx with hx | hx
    · rw [hx]
      exact hab.2.1
    · exact hcd.2.1 x hx

theorem mem_keys_mapSet (m : List (SymPtr × Base_Object)) (k x : SymPtr) (v : Base_Object)
    (h : x ∈ (mapSet m k v).map Prod.fst) : x ∈ m.map Prod.fst ∨ x = k := by
  induction m with
  | nil =>
    simp only [mapSet, List.map_cons, List.map_nil, List.mem_singleton] at h
    exact Or.inr h
  | cons kv m ih =>
    obtain ⟨k0, v0⟩ := kv
    simp only [mapSet] at h
    by_cases hk : k0 = k
    · rw [if_pos hk] at h
      exact Or.inl h
    · rw [if_neg hk] at h
      simp only [List.map_cons, List.mem_cons] at h ⊢
      rcases h with h | h
      · exact Or.inl (Or.inl h)
      · rcases ih h with h1 | h1
        · exact Or.inl (Or.inr h1)
        · exact Or.inr h1

theorem nodup_keys_mapSet (m : List (SymPtr × Base_Object)) (k : SymPtr) (v : Base_Object)
    (h : (m.map Prod.fst).Nodup) : ((mapSet m k v).map Prod.fst).Nodup := by
  induction m with
  | nil => simp [mapSet]
  | cons kv m ih =>
    obtain ⟨k0, v0⟩ := kv
    simp only [List.map_cons, List.nodup_cons] at h
    simp only [mapSet]
    by_cases hk : k0 = k
    · rw [if_pos hk]
      simp only [List.map_cons, List.nodup_cons]
      exact h
    · rw [if_neg hk]
      simp only [List.map_cons, List.nodup_cons]
      refine ⟨fun hmem => ?_, ih h.2⟩
      rcases mem_keys_mapSet m k k0 v hmem with h1 | h1
      · exact h.1 h1
      · exact hk h1

theorem nodup_keys_bindPairs : ∀ (ps : List (Symbol × Base_Object))
    (m : List (SymPtr × Base_Object)), (m.map Prod.fst).Nodup →
    ((bindPairs m ps).map Prod.fst).Nodup := by
  intro ps
  induction ps with
  | nil => intro m h; exact h
  | cons p ps ih =>
    intro m h
    exact ih _ (nodup_keys_mapSet m _ _ h)

theorem mapFind_foldl_other (s : SymPtr) : ∀ (src m : List (SymPtr × Base_Object)),
    s ∉ src.map Prod.fst →
    mapFind (src.foldl (fun m kv => mapSet m kv.1 kv.2) m) s = mapFind m s := by
  intro src
  induction src with
  | nil => intro m _; rfl
  | cons kv src ih =>
    intro m h
    simp only [List.map_cons, List.mem_cons, not_or] at h
    simp only [List.foldl_cons]
    rw [ih _ h.2, mapFind_mapSet_ne _ _ _ _ (fun hh => h.1 hh.symm)]

theorem mapFind_foldl_mapSet (s : SymPtr) (v : Base_Object) :
    ∀ (src m : List (SymPtr × Base_Object)), (src.map Prod.fst).Nodup →
    mapFind src s = some v →
    mapFind (src.foldl (fun m kv => mapSet m kv.1 kv.2) m) s = some v := by
  intro src
  induction src with
  | nil => intro m _ h; cases h
  | cons kv src ih =>
    intro m hn h
    obtain ⟨k0, v0⟩ := kv
    simp only [List.map_cons, List.nodup_cons] at hn
    simp only [mapFind] at h
    simp only [List.foldl_cons]
    by_cases hk : k0 = s
    · rw [if_pos hk] at h
      cases h
      rw [mapFind_foldl_other s src _ (hk ▸ hn.1), hk, mapFind_mapSet_self]
    · rw [if_neg hk] at h
      exact ih _ hn.2 h

theorem Agree.of_fresh_world (W : World) (F : Nat) (l : Option Nat) (hF : F < W.envs.length)
    (h : W.fresh = true) : Agree W.envs.length (Env.createSubEnvironment W F l).2 W where
  off := by
    intro j hj
    show (W.envs ++ _)[j]? = _
    by_cases hjl : j < W.envs.length
    · rw [List.getElem?_append_left hjl]
    · rw [List.getElem?_append_right (Nat.le_of_not_lt hjl),
        List.getElem?_eq_none (Nat.le_of_not_lt hjl)]
      have : j - W.envs.length ≠ 0 := by omega
      cases hd : j - W.envs.length with
      | zero => exact absurd hd this
      | succ d => simp
  noRef := (Sim.of_fresh W F l hF h).noRef
  root := by omega

theorem Env.eval_let_odd (g : Nat) (W : World) (F : Nat) (bindings rest : Base_Object)
    (tail : Bool) (hp : isProperList bindings = true) (hodd : listLength bindings % 2 = 1) :
    Env.eval (g + 1) W F (.cons (registerSymbol "let") (.cons bindings rest)) tail =
      .throw "Odd number of let bindings" := by
  have h : Env.procSpecialForm g (interp g) W F
      (.cons (registerSymbol "let") (.cons bindings rest)) tail =
      .throw "Odd number of let bindings" := by
    unfold Env.procSpecialForm
    simp only [registerSymbol, listLength, listNth]
    rw [if_neg (by decide), if_neg (by decide), if_neg (by decide), if_neg (by decide),
      if_neg (by decide), if_pos (by decide), if_neg (by omega)]
    simp only [hp, hodd, Bool.not_true]
    rw [if_neg (by simp), if_pos (by simp)]
  rw [Env.eval_cons, h]
  rfl

theorem letBody_sees_bindings (f : Nat) (W : World) (F : Nat)
    (bs : List (Symbol × Base_Object)) (tail : Bool)
    (hF : F < W.envs.length) (hW : W.fresh = true)
    (hbs : (bs.all fun b => noRefObj W.envs.length b.2) = true)
    (xs : List Base_Object) (W1 : World)
    (hx : evalValues f F (Env.createSubEnvironment W F none).2 (bs.map Prod.snd) =
      .ok (xs, W1))
    (s : Symbol) (v : Base_Object)
    (hv : mapFind (bindPairs [] ((bs.map Prod.fst).zip xs)) (some s) = some v) (n : Nat) :
    Env.findSymbolInMap (n + 1)
      (mergeIfTail (bindAll W1 W.envs.length ((bs.map Prod.fst).zip xs)) F W.envs.length tail).2
      (mergeIfTail (bindAll W1 W.envs.length ((bs.map Prod.fst).zip xs)) F W.envs.length tail).1
      (some s) = .ok (some v) := by
  have hsim := evalValues_indep f F (Nat.ne_of_lt hF) (bs.map Prod.snd) _ _
    (Sim.of_fresh W F none hF hW) (fun v hv => by
      rw [List.all_eq_true] at hbs
      obtain ⟨b, hb, hbv⟩ := List.mem_map.1 hv
      rw [← hbv]
      exact hbs b hb)
  rw [hx] at hsim
  have hk : W1.envs[W.envs.length]? = some (Env.mk (some F) none [] false) := hsim.2.2.kA
  have hk2 : (bindAll W1 W.envs.length ((bs.map Prod.fst).zip xs)).envs[W.envs.length]? =
      some (childEnv F (bindPairs [] ((bs.map Prod.fst).zip xs))) := by
    rw [bindAll_eq]
    show (updateEnv W1.envs _ _)[W.envs.length]? = _
    rw [updateEnv_get_self, hk]
    rfl
  unfold mergeIfTail
  split
  · rename_i hm
    simp only [Bool.and_eq_true, Bool.not_eq_true'] at hm
    have hcl := hm.2
    unfold Env.isClosed at hcl
    cases hFe : (bindAll W1 W.envs.length ((bs.map Prod.fst).zip xs)).envs[F]? with
    | none => rw [hFe] at hcl; cases hcl
    | some eF =>
      have hget : (Env.merge (bindAll W1 W.envs.length ((bs.map Prod.fst).zip xs)) F
          W.envs.length).envs[F]? = some
          { outEnvironment := eF.outEnvironment
            environmentLex := eF.environmentLex
            symbolValueMap := (bindPairs [] ((bs.map Prod.fst).zip xs)).foldl
              (fun m kv => mapSet m kv.1 kv.2) eF.symbolValueMap
            closed := eF.closed } := by
        unfold Env.merge
        rw [hk2]
        show (updateEnv _ F _)[F]? = _
        rw [updateEnv_get_self, hFe]
        rfl
      have hfind := mapFind_foldl_mapSet (some s) v _ eF.symbolValueMap
        (nodup_keys_bindPairs _ [] List.nodup_nil) hv
      exact Env.findSymbolInMap_own n _ F _ (some s) v hget hfind
        (mapCount_of_mapFind _ _ _ hfind)
  · exact Env.findSymbolInMap_own n _ _ _ (some s) v hk2 hv (mapCount_of_mapFind _ _ _ hv)

/-- C14: `let` binds in parallel.  In a world in which nothing yet refers to the environment
about to be made (so it is in every world that the read-eval loop reaches, `Env.repl_fresh`),
for a frame `F` that exists and value forms that hold no procedure of that environment:
evaluating `(let (s1 v1 ... sn vn) body...)` in `F` is the same as evaluating
every `vi` in `F` while the child has no binding at all, then binding all the `si` in the
child, then evaluating the body and returning the value of its last form; in the frame where
the body is evaluated every `si` resolves to the value bound to it.  So `(let (x 1 y x) y)`
raises the unresolved-symbol error when `x` cannot be resolved from `F`, and a proper binding
list of odd length raises an error. -/
theorem let_parallel (g : Nat) (W : World) (F : Nat) (bs : List (Symbol × Base_Object))
    (body : List Base_Object) (tail : Bool)
    (hF : F < W.envs.length) (hW : W.fresh = true)
    (hbs : (bs.all fun b => noRefObj W.envs.length b.2) = true) :
    Env.eval (g + 2) W F (letForm bs body) tail = letParallel (g + 1) g W F bs body tail ∧
    (∀ (xs : List Base_Object) (W1 : World),
      evalValues (g + 1) F (Env.createSubEnvironment W F none).2 (bs.map Prod.snd) =
        .ok (xs, W1) →
      ∀ (s : Symbol) (v : Base_Object),
      mapFind (bindPairs [] ((bs.map Prod.fst).zip xs)) (some s) = some v → ∀ n : Nat,
      Env.findSymbolInMap (n + 1)
        (mergeIfTail (bindAll W1 W.envs.length ((bs.map Prod.fst).zip xs)) F W.envs.length
          tail).2
        (mergeIfTail (bindAll W1 W.envs.length ((bs.map Prod.fst).zip xs)) F W.envs.length
          tail).1 (some s) = .ok (some v)) ∧
    (∀ x y : Symbol, Env.findSymbolInMap g W F (some x) = .ok none →
      Env.eval (g + 2) W F (letForm [(x, .integer 1), (y, .symbol x)] [.symbol y]) tail =
        .throw "Evaluated unresolvable symbol") ∧
    (∀ bindings rest : Base_Object, isProperList bindings = true →
      listLength bindings % 2 = 1 →
      Env.eval (g + 1) W F (.cons (registerSymbol "let") (.cons bindings rest)) tail =
        .throw "Odd number of let bindings") := by
  refine ⟨Env.eval_let_deferred g W F bs body tail hF hW hbs, ?_, ?_, ?_⟩
  · intro xs W1 hx s v hv n
    exact letBody_sees_bindings (g + 1) W F bs tail hF hW hbs xs W1 hx s v hv n
  · intro x y hx
    rw [Env.eval_let_deferred g W F [(x, .integer 1), (y, .symbol x)] [.symbol y] tail hF hW
      rfl]
    have h1 := ((Agree.of_fresh_world W F none hF hW).findSymbolInMap_eq (some x) g F
      (Nat.ne_of_lt hF)).1
    have h2 : Env.eval (g + 1) (Env.createSubEnvironment W F none).2 F (.symbol x) false =
        .throw "Evaluated unresolvable symbol" := by
      rw [Env.eval_symbol, ← h1, hx]
      rfl
    unfold letParallel
    show Res.bind (Res.bind (Env.eval (g + 1) _ F (.integer 1) false) _) _ = _
    rw [Env.eval_integer]
    show Res.bind (Res.bind (Res.bind (Env.eval (g + 1) _ F (.symbol x) false) _) _) _ = _
    rw [h2]
    rfl
  · intro bindings rest hp hodd
    exact Env.eval_let_odd g W F bindings rest tail hp hodd

/-- C14, instances in the initial root environment: `(let (x 1 y 2) (+ x y))` evaluated by the
code is the parallel evaluation and gives `3`; `(let (x 1 y x) y)` raises the unresolved-symbol
error; `(let (x 1 y) y)` raises the error for an odd number of bindings. -/
theorem let_parallel_witness :
    Env.eval 5 Env.createEnvironment 0
        (letForm [(symX, .integer 1), (symY, .integer 2)]
          [.cons (registerSymbol "+") (.cons (.symbol symX) (.cons (.symbol symY) nil))])
        false =
      letParallel 4 3 Env.createEnvironment 0 [(symX, .integer 1), (symY, .integer 2)]
        [.cons (registerSymbol "+") (.cons (.symbol symX) (.cons (.symbol symY) nil))] false ∧
    (Env.evalTop 30 Env.createEnvironment 0
        (letForm [(symX, .integer 1), (symY, .integer 2)]
          [.cons (registerSymbol "+") (.cons (.symbol symX) (.cons (.symbol symY) nil))])).value? =
      some (.integer 3) ∧
    Env.eval 5 Env.createEnvironment 0
        (letForm [(symX, .integer 1), (symY, .symbol symX)] [.symbol symY]) false =
      .throw "Evaluated unresolvable symbol" ∧
    Env.eval 4 Env.createEnvironment 0
        (.cons (registerSymbol "let")
          (.cons (.cons (.symbol symX) (.cons (.integer 1) (.cons (.symbol symY) nil)))
            (.cons (.symbol symY) nil))) false =
      .throw "Odd number of let bindings" :=
  have h := let_parallel 3 Env.createEnvironment 0 [(symX, .integer 1), (symY, .integer 2)]
    [.cons (registerSymbol "+") (.cons (.symbol symX) (.cons (.symbol symY) nil))] false
    (by decide) (by decide!) (by decide!)
  ⟨h.1, by decide!, h.2.2.1 symX symY (by decide!),
    h.2.2.2 (.cons (.symbol symX) (.cons (.integer 1) (.cons (.symbol symY) nil)))
      (.cons (.symbol symY) nil) (by decide) (by decide)⟩

/-! ## C15: `let*` -/

theorem letStarLoop_flat (f : Nat) (env : Nat) : ∀ (bs : List (Symbol × Base_Object))
    (W : World), letStarLoop (interp f) env W (flatBindings bs) = letStarSeq f env W bs := by
  intro bs
  induction bs with
  | nil => intro W; rfl
  | cons b bs ih =>
    intro W
    show ((interp f).eval W env b.2 false).bind (fun x => letStarLoop (interp f) env
      (Env.bind x.2 env x.1 (some b.1)) (flatBindings bs)) = _
    show _ = (Env.eval f W env b.2 false).bind fun x =>
      letStarSeq f env (Env.bind x.2 env x.1 (some b.1)) bs
    congr 1
    funext x
    exact ih _

theorem Env.eval_letStar (g : Nat) (W : World) (F : Nat) (bs : List (Symbol × Base_Object))
    (body : List Base_Object) (tail : Bool) :
    Env.eval (g + 2) W F (letStarForm bs body) tail =
      (letStarSeq (g + 1)
          (letStarFrame W F tail).1
          (letStarFrame W F tail).2 bs).bind fun W1 =>
        evalBody g (letStarFrame W F tail).1 W1 body := by
  have h : Env.procSpecialForm (g + 1) (interp (g + 1)) W F (letStarForm bs body) tail =
      (letStarLoop (interp (g + 1))
          (letStarFrame W F tail).1
          (letStarFrame W F tail).2 (flatBindings bs)).bind fun W1 =>
        ((interp (g + 1)).eval W1 (letStarFrame W F tail).1
          (.cons (registerSymbol "do") (vectorToList body)) true).bind fun x => .ok (some x) := by
    unfold Env.procSpecialForm letStarForm letStarFrame
    simp only [registerSymbol, listLength, listNth]
    rw [if_neg (by decide), if_neg (by decide), if_neg (by decide), if_neg (by decide),
      if_neg (by decide), if_neg (by decide), if_pos (by decide), if_neg (by omega)]
    simp only [isProperList_flatBindings, listLength_flatBindings, Bool.not_true]
    rw [if_neg (by simp), if_neg (by simp)]
    simp only [doBody, listNthCdr, Res.bind_ok]
    rfl
  unfold letStarForm at h ⊢
  rw [Env.eval_cons, h, letStarLoop_flat, Res.bind_assoc]
  congr 1
  funext W1
  show Res.bind (Res.bind (Env.eval (g + 1) W1 _ _ true) _) _ = _
  rw [Env.eval_do]
  cases evalBody g _ W1 body <;> rfl

theorem letStarFrame_lt (W : World) (F : Nat) (tail : Bool) :
    (letStarFrame W F tail).1 < (letStarFrame W F tail).2.envs.length := by
  unfold letStarFrame
  split
  · rename_i h
    simp only [Bool.and_eq_true, Bool.not_eq_true'] at h
    by_contra hlt
    have h2 := h.2
    unfold Env.isClosed at h2
    rw [List.getElem?_eq_none (Nat.le_of_not_lt hlt)] at h2
    cases h2
  · simp [Env.createSubEnvironment]

/-- C15: `let*` binds sequentially.  Evaluating `(let* (s1 v1 ... sn vn) body...)` in the frame
`F` is: take the frame of the `let*` (a new child of `F`, or `F` itself for a form in tail
position in a frame that is not closed), which exists; for each pair in order evaluate `vi` in
that frame and then bind `si` there; then evaluate the body forms in that frame and return the
value of the last one.  After each step the frame binds `si` to the value just computed, so the
later value forms are evaluated in a frame where the symbol `si` evaluates to it. -/
theorem let_star_sequential (g : Nat) (W : World) (F : Nat) (bs : List (Symbol × Base_Object))
    (body : List Base_Object) (tail : Bool) :
    Env.eval (g + 2) W F (letStarForm bs body) tail =
      ((letStarSeq (g + 1) (letStarFrame W F tail).1 (letStarFrame W F tail).2 bs).bind fun W1 =>
        evalBody g (letStarFrame W F tail).1 W1 body) ∧
    (letStarFrame W F tail).1 < (letStarFrame W F tail).2.envs.length ∧
    (∀ (env : Nat) (s : Symbol) (v : Base_Object) (rest : List (Symbol × Base_Object))
      (W0 : World) (x : Base_Object) (W1 : World), env < W0.envs.length →
      Env.eval (g + 1) W0 env v false = .ok (x, W1) →
      letStarSeq (g + 1) env W0 ((s, v) :: rest) =
        letStarSeq (g + 1) env (Env.bind W1 env x (some s)) rest ∧
      env < (Env.bind W1 env x (some s)).envs.length ∧
      ∀ (k : Nat) (t : Bool), Env.eval (k + 2) (Env.bind W1 env x (some s)) env (.symbol s) t =
        .ok (x, Env.bind W1 env x (some s))) := by
  refine ⟨Env.eval_letStar g W F bs body tail, letStarFrame_lt W F tail, ?_⟩
  intro env s v rest W0 x W1 henv hv
  have hlen : env < W1.envs.length := Nat.lt_of_lt_of_le henv (Env.eval_length _ _ _ _ _ _ _ hv)
  refine ⟨?_, ?_, ?_⟩
  · show (Env.eval (g + 1) W0 env v false).bind _ = _
    rw [hv]
    rfl
  · rw [Env.bind_length]
    exact hlen
  · intro k t
    exact Env.eval_bound_symbol k W1 env s x t hlen

/-- C15, the example: `(let* (x 2 y (* x 3)) (+ x y))` at top level.  The form is the sequence
of two bindings in a new child of the root followed by the body, the second value form `(* x 3)`
is evaluated where `x` is bound to `2`, and `evalTop` returns `8`. -/
theorem let_star_sequential_witness :
    (Env.evalTop 30 Env.createEnvironment 0
      (letStarForm [(symX, .integer 2),
          (symY, .cons (registerSymbol "*") (.cons (.symbol symX) (.cons (.integer 3) nil)))]
        [.cons (registerSymbol "+") (.cons (.symbol symX) (.cons (.symbol symY) nil))])).value? =
      some (.integer 8) ∧
    letStarSeq 4 1 (Env.createSubEnvironment Env.createEnvironment 0 none).2
        [(symX, .integer 2),
          (symY, .cons (registerSymbol "*") (.cons (.symbol symX) (.cons (.integer 3) nil)))] =
      letStarSeq 4 1
        (Env.bind (Env.createSubEnvironment Env.createEnvironment 0 none).2 1 (.integer 2)
          (some symX))
        [(symY, .cons (registerSymbol "*") (.cons (.symbol symX) (.cons (.integer 3) nil)))] ∧
    Env.eval 2 (Env.bind (Env.createSubEnvironment Env.createEnvironment 0 none).2 1 (.integer 2)
        (some symX)) 1 (.symbol symX) false =
      .ok (.integer 2, Env.bind (Env.createSubEnvironment Env.createEnvironment 0 none).2 1
        (.integer 2) (some symX)) :=
  have h := (let_star_sequential 3 Env.createEnvironment 0
    [(symX, .integer 2),
      (symY, .cons (registerSymbol "*") (.cons (.symbol symX) (.cons (.integer 3) nil)))]
    [.cons (registerSymbol "+") (.cons (.symbol symX) (.cons (.symbol symY) nil))]
    false).2.2 1 symX (.integer 2)
    [(symY, .cons (registerSymbol "*") (.cons (.symbol symX) (.cons (.integer 3) nil)))]
    (Env.createSubEnvironment Env.createEnvironment 0 none).2 (.integer 2)
    (Env.createSubEnvironment Env.createEnvironment 0 none).2 (by decide) rfl
  ⟨by decide!, h.1, h.2.2 0 false⟩

/-! ## C16 and C17: `define` and `set!` -/

theorem Env.eval_define (f : Nat) (W : World) (self : Nat) (s : Symbol) (e : Base_Object)
    (t : Bool) :
    Env.eval (f + 1) W self (defineOf s e) t =
      (Env.eval f W self e t).bind fun x => .ok (.symbol s, Env.bind x.2 0 x.1 (some s)) := by
  have h : Env.procSpecialForm f (interp f) W self (defineOf s e) t =
      ((interp f).eval W self e t).bind fun x =>
        .ok (some (.symbol s, Env.bind x.2 0 x.1 (some s))) := rfl
  unfold defineOf at h ⊢
  rw [Env.eval_cons, h]
  show (Res.bind (Res.bind (Env.eval f W self e t) _) _) = _
  cases Env.eval f W self e t <;> rfl

theorem Env.eval_set (f : Nat) (W : World) (self : Nat) (s : Symbol) (e : Base_Object)
    (t : Bool) :
    Env.eval (f + 1) W self (setOf s e) t =
      (Env.findEnvironment f W self (some s)).bind fun found =>
        (Env.eval f W self e t).bind fun x =>
          .ok (x.1, Env.bind x.2 (found.getD 0) x.1 (some s)) := by
  have h : Env.procSpecialForm f (interp f) W self (setOf s e) t =
      (Env.findEnvironment f W self (some s)).bind fun found =>
        ((interp f).eval W self e t).bind fun x =>
          .ok (some (x.1, Env.bind x.2 (found.getD 0) x.1 (some s))) := rfl
  unfold setOf at h ⊢
  rw [Env.eval_cons, h]
  cases Env.findEnvironment f W self (some s) <;> try rfl
  show (Res.bind (Res.bind (Env.eval f W self e t) _) _) = _
  cases Env.eval f W self e t <;> rfl

/-- C16: `define` targets the root frame.  In a world with a root, for every frame `F`, symbol
`s` and form `e` whose evaluation in `F` gives the value `v` and the world `W1`, evaluating
`(define s e)` in `F` returns the symbol `s`; the world afterwards is `W1` with `s` bound to `v`
in the root frame, so the root binds `s` to `v`, every other key of the root and every other
frame is as the evaluation of `e` left it.  Nothing is assumed about what `F` or any frame
between `F` and the root binds. -/
theorem define_targets_root (f : Nat) (W : World) (F : Nat) (s : Symbol) (e : Base_Object)
    (tail : Bool) (v : Base_Object) (W1 : World) (hF : F < W.envs.length)
    (he : Env.eval f W F e tail = .ok (v, W1)) :
    Env.eval (f + 1) W F (defineOf s e) tail = .ok (.symbol s, Env.bind W1 0 v (some s)) ∧
    rootValue (Env.bind W1 0 v (some s)) (some s) = some v ∧
    (∀ key, key ≠ some s →
      rootValue (Env.bind W1 0 v (some s)) key = rootValue W1 key) ∧
    (∀ j, j ≠ 0 → (Env.bind W1 0 v (some s)).envs[j]? = W1.envs[j]?) := by
  have hlen : 0 < W1.envs.length :=
    Nat.lt_of_lt_of_le (Nat.lt_of_le_of_lt (Nat.zero_le F) hF) (Env.eval_length _ _ _ _ _ _ _ he)
  refine ⟨?_, rootValue_bind_root _ _ _ hlen, ?_, ?_⟩
  · rw [Env.eval_define, he]
    rfl
  · intro key hkey
    have h1 := Env.bind_get_other W1 0 v (some s) key hkey
    unfold rootValue
    cases hb : (Env.bind W1 0 v (some s)).envs[0]? <;> cases hw : W1.envs[0]? <;>
      rw [hb, hw] at h1 <;> simp_all
  · intro j hj
    exact Env.bind_get_ne _ _ _ _ _ hj

/-- C16, an instance: in the `let` frame that binds `x` to `1`, `(define x 5)` returns `x` and
binds `x` to `5` in the root, while the frame keeps its own binding. -/
theorem define_targets_root_witness :
    Env.eval 2 letFrameWorld 1 (defineOf symX (.integer 5)) false =
      .ok (.symbol symX, Env.bind letFrameWorld 0 (.integer 5) (some symX)) ∧
    rootValue (Env.bind letFrameWorld 0 (.integer 5) (some symX)) (some symX) =
      some (.integer 5) ∧
    (Env.bind letFrameWorld 0 (.integer 5) (some symX)).envs[1]? = letFrameWorld.envs[1]? :=
  have h := define_targets_root 1 letFrameWorld 1 symX (.integer 5) false (.integer 5)
    letFrameWorld (by decide) rfl
  ⟨h.1, h.2.1, h.2.2.2 1 (by decide)⟩

/-- C17: `set!`.  Let name resolution of `s` from the frame `F`, made before `e` is evaluated,
give `found` (a frame `G`, or nothing), and let `e` evaluate in `F` to `v`, leaving the world
`W1`.  Then `(set! s e)` evaluated in `F` returns `v`, and the world afterwards is `W1` with `s`
bound to `v` in `G`, or in the root frame when nothing was found: that frame binds `s` to `v`,
its other keys are unchanged, and every other frame is as the evaluation of `e` left it. -/
theorem set_semantics (f : Nat) (W : World) (F : Nat) (s : Symbol) (e : Base_Object)
    (tail : Bool) (found : Option Nat) (v : Base_Object) (W1 : World)
    (hfind : Env.findEnvironment f W F (some s) = .ok found)
    (he : Env.eval f W F e tail = .ok (v, W1)) :
    Env.eval (f + 1) W F (setOf s e) tail =
      .ok (v, Env.bind W1 (found.getD 0) v (some s)) ∧
    ((Env.bind W1 (found.getD 0) v (some s)).envs[found.getD 0]?).map
      (fun G => mapFind G.symbolValueMap (some s)) = some (some v) ∧
    (∀ key, key ≠ some s →
      ((Env.bind W1 (found.getD 0) v (some s)).envs[found.getD 0]?).map
        (fun G => mapFind G.symbolValueMap key) =
      (W1.envs[found.getD 0]?).map (fun G => mapFind G.symbolValueMap key)) ∧
    (∀ j, j ≠ found.getD 0 →
      (Env.bind W1 (found.getD 0) v (some s)).envs[j]? = W1.envs[j]?) ∧
    (found = none → rootValue (Env.bind W1 0 v (some s)) (some s) = some v) := by
  have hmono := Env.eval_length _ _ _ _ _ _ _ he
  have hroot : 0 < W1.envs.length :=
    Nat.lt_of_lt_of_le (Env.findEnvironment_nonempty _ _ _ _ _ hfind) hmono
  have hG : found.getD 0 < W1.envs.length := by
    cases found with
    | none => exact hroot
    | some G => exact Nat.lt_of_lt_of_le (Env.findEnvironment_lt _ _ _ _ _ hfind) hmono
  refine ⟨?_, ?_, ?_, ?_, ?_⟩
  · rw [Env.eval_set, hfind, Res.bind_ok, he]
    rfl
  · rw [Env.bind_get_self, List.getElem?_eq_getElem hG]
    rfl
  · intro key hkey
    exact Env.bind_get_other _ _ _ _ _ hkey
  · intro j hj
    exact Env.bind_get_ne _ _ _ _ _ hj
  · intro _
    exact rootValue_bind_root _ _ _ hroot

/-- C17, an instance: in the `let` frame that binds `x` to `1`, `(set! x 7)` returns `7` and
rebinds `x` in that frame, leaving the root as it was. -/
theorem set_semantics_witness :
    Env.eval 3 letFrameWorld 1 (setOf symX (.integer 7)) false =
      .ok (.integer 7, Env.bind letFrameWorld 1 (.integer 7) (some symX)) ∧
    ((Env.bind letFrameWorld 1 (.integer 7) (some symX)).envs[1]?).map
      (fun G => mapFind G.symbolValueMap (some symX)) = some (some (.integer 7)) ∧
    (Env.bind letFrameWorld 1 (.integer 7) (some symX)).envs[0]? = letFrameWorld.envs[0]? :=
  have h := set_semantics 2 letFrameWorld 1 symX (.integer 7) false (some 1) (.integer 7)
    letFrameWorld (by decide!) rfl
  ⟨h.1, h.2.1, h.2.2.2.1 0 (by decide)⟩

/-! ## C18: rest parameters -/

theorem evalListElements_values (f : Nat) (out : Nat) : ∀ (as : List Base_Object) (W : World),
    evalListElements (interp f) out W (vectorToList as) =
      (evalValuesBack f out W as).bind fun y => .ok (vectorToList y.1, y.2) := by
  intro as
  induction as with
  | nil => intro W; rfl
  | cons a as ih =>
    intro W
    show (evalListElements (interp f) out W (vectorToList as)).bind (fun y =>
      ((interp f).eval y.2 out a false).bind fun x =>
        Res.ok (Base_Object.cons x.1 y.1, x.2)) = _
    show _ = ((evalValuesBack f out W as).bind fun y =>
      (Env.eval f y.2 out a false).bind fun x => .ok (x.1 :: y.1, x.2)).bind _
    rw [ih, Res.bind_assoc, Res.bind_assoc]
    congr 1
    funext y
    rw [Res.bind_ok, Res.bind_assoc]
    rfl

theorem applyBindLoop_params (f : Nat) (out env : Nat) (r : Symbol) :
    ∀ (ps : List Symbol) (args : List Base_Object) (W : World), ps.length ≤ args.length →
    applyBindLoop (interp f) out env W (paramList ps r) (vectorToList args) =
      (bindParams f out env W (ps.zip (args.take ps.length))).bind fun W1 =>
        .ok (W1, .symbol r, vectorToList (args.drop ps.length)) := by
  intro ps
  induction ps with
  | nil =>
    intro args W _
    cases args <;> rfl
  | cons p ps ih =>
    intro args W hlen
    cases args with
    | nil => simp at hlen
    | cons a args =>
      show ((interp f).eval W out a false).bind (fun x =>
        applyBindLoop (interp f) out env (Env.bind x.2 env x.1 (some p)) (paramList ps r)
          (vectorToList args)) = _
      show _ = ((Env.eval f W out a false).bind fun x =>
        bindParams f out env (Env.bind x.2 env x.1 (some p))
          (ps.zip (args.take ps.length))).bind _
      rw [Res.bind_assoc]
      congr 1
      funext x
      exact ih args _ (by simpa using hlen)

/-- C18: rest parameters.  For a parameter list `p1 ... pk . r` whose tail symbol `r` is not
`null` and a proper list of `n ≥ k` argument forms, `makeEnvForApply` makes a child of the
caller's frame in which each `pi` is bound to the value of the `i`-th argument form evaluated
in the caller's frame, and `r` to the proper list of the values of the arguments `k+1..n` in
their order, each evaluated once in the caller's frame; with `n = k` the symbol `r` is bound to
`null`.  The arguments `1..k` are evaluated first, from the first to the last; of the arguments
`k+1..n` the last is evaluated first and the first last (C++ leaves their order open, and this
is the order of the compiled program).  The body of a `Proc` with this parameter list is
evaluated in the frame so made. -/
theorem rest_parameters (f : Nat) (W : World) (out procEnv : Nat) (ps : List Symbol)
    (r : Symbol) (args : List Base_Object) (tail : Bool)
    (hr : r.name ≠ "null") (hlen : ps.length ≤ args.length) :
    makeEnvForApply (interp f) W out procEnv (paramList ps r) (vectorToList args) tail =
      restCallFrame f W out procEnv ps r args tail ∧
    (args.length = ps.length →
      restCallFrame f W out procEnv ps r args tail =
        (bindParams f out W.envs.length (Env.createSubEnvironment W out (some procEnv)).2
          (ps.zip args)).bind fun W1 =>
          .ok (mergeIfTail (Env.bind W1 W.envs.length nil (some r)) out W.envs.length tail)) ∧
    (∀ (fe body : Base_Object) (W0 : World) (F : Nat),
      Env.eval f W0 F fe false = .ok (.proc (paramList ps r) body procEnv, W) →
      Env.applyStep (f + 1) (interp f) W0 F fe (vectorToList args) tail =
        (restCallFrame f W F procEnv ps r args tail).bind fun e =>
          Env.eval f e.2 e.1 body true) := by
  have hmain : ∀ out, makeEnvForApply (interp f) W out procEnv (paramList ps r)
      (vectorToList args) tail = restCallFrame f W out procEnv ps r args tail := by
    intro out
    unfold makeEnvForApply restCallFrame
    simp only [isProperList_vectorToList, Bool.not_true, Bool.false_eq_true, if_false]
    have hsub : (Env.createSubEnvironment W out (some procEnv)).1 = W.envs.length := rfl
    rw [hsub, applyBindLoop_params f out _ r ps args _ hlen, Res.bind_assoc]
    congr 1
    funext W1
    simp only [Res.bind_ok]
    have hn : (r.name == "null") = false := by simpa using hr
    simp only [hn, Bool.false_eq_true, if_false]
    rw [evalListElements_values, Res.bind_assoc]
    rfl
  refine ⟨hmain out, ?_, ?_⟩
  · intro heq
    unfold restCallFrame
    rw [← heq, List.take_of_length_le (Nat.le_refl _), List.drop_of_length_le (Nat.le_refl _)]
    rfl
  · intro fe body W0 F hfe
    unfold Env.applyStep
    show (Res.bind (Env.eval f W0 F fe false) _) = _
    rw [hfe, Res.bind_ok]
    simp only
    rw [hmain F]
    rfl

/-- C18, instances: for the parameter list `(x . y)` and the argument forms `1 2 3` the frame of
the call binds `x` to `1` and `y` to the list `(2 3)`; read and evaluated at top level,
`((lambda (x . y) y) 1 2 3)` returns `(2 3)` and `((lambda (x . y) y) 1)` returns `null`; after
`(define n 0)` the call `((lambda r r) (set! n 1) n)` returns `(1 0)`, the second argument
being evaluated before the first. -/
theorem rest_parameters_witness :
    makeEnvForApply (interp 2) Env.createEnvironment 0 0 (paramList [symX] symY)
        (vectorToList [.integer 1, .integer 2, .integer 3]) false =
      restCallFrame 2 Env.createEnvironment 0 0 [symX] symY
        [.integer 1, .integer 2, .integer 3] false ∧
    restCallFrame 2 Env.createEnvironment 0 0 [symX] symY
        [.integer 1, .integer 2, .integer 3] false =
      .ok (1, Env.bind (Env.bind (Env.createSubEnvironment Env.createEnvironment 0 (some 0)).2 1
        (.integer 1) (some symX)) 1 (vectorToList [.integer 2, .integer 3]) (some symY)) ∧
    ((readParse 30 (IStream.ofList "((lambda (x . y) y) 1 2 3)".data)).bind fun x =>
      Env.evalTop 30 Env.createEnvironment 0 x.1).value? =
      some (vectorToList [.integer 2, .integer 3]) ∧
    ((readParse 30 (IStream.ofList "((lambda (x . y) y) 1)".data)).bind fun x =>
      Env.evalTop 30 Env.createEnvironment 0 x.1).value? = some nil ∧
    (Env.repl 30 5 Env.createEnvironment (IStream.ofList
      "(define n 0) ((lambda r r) (set! n 1) n)".data)).value? =
      some [registerSymbol "n", vectorToList [.integer 1, .integer 0]] :=
  ⟨(rest_parameters 2 Env.createEnvironment 0 0 [symX] symY
      [.integer 1, .integer 2, .integer 3] false (by decide) (by decide)).1,
    by decide!, by decide!, by decide!, by decide!⟩

/-! ## C19: addition -/

theorem foldInts_add (msg : String) : ∀ (vs : List Int) (acc : Int),
    runningSumsInRange acc vs = true →
    foldInts msg (fun x y => x + y) acc (vs.map .integer) = .ok (acc + vs.sum) := by
  intro vs
  induction vs with
  | nil => intro acc _; simp [foldInts]
  | cons v vs ih =>
    intro acc h
    simp only [runningSumsInRange, Bool.and_eq_true, decide_eq_true_eq] at h
    obtain ⟨⟨h1, h2⟩, h3⟩ := h
    simp only [List.map_cons, foldInts, wrap32_of_inRange _ h1 h2, ih _ h3, List.sum_cons]
    congr 1
    omega

theorem foldInts_throw (msg : String) (op : Int → Int → Int) : ∀ (args : List Base_Object)
    (acc : Int), (∃ a ∈ args, a.isInteger = false) → foldInts msg op acc args = .throw msg := by
  intro args
  induction args with
  | nil => intro acc h; simp at h
  | cons a args ih =>
    intro acc h
    cases a with
    | integer v =>
      simp only [foldInts]
      apply ih
      obtain ⟨x, hx, hxi⟩ := h
      simp only [List.mem_cons] at hx
      rcases hx with rfl | hx
      · simp [Base_Object.isInteger] at hxi
      · exact ⟨x, hx, hxi⟩
    | _ => rfl

theorem foldInts_ok (msg : String) (op : Int → Int → Int) : ∀ (args : List Base_Object)
    (acc : Int), (∀ a ∈ args, a.isInteger = true) → ∃ v, foldInts msg op acc args = .ok v := by
  intro args
  induction args with
  | nil => intro acc _; exact ⟨acc, rfl⟩
  | cons a args ih =>
    intro acc h
    cases a with
    | integer v =>
      simp only [foldInts]
      exact ih _ (fun x hx => h x (List.mem_cons_of_mem _ hx))
    | _ =>
      have := h _ (List.mem_cons_self _ _)
      simp [Base_Object.isInteger] at this

/-- C19: addition.  The root binds `+` to the built-in procedure.  Applied to Integers whose
partial sums stay within the range of `int` it returns the Integer that is their sum (`0` for
no argument) and leaves the world unchanged; applied to arguments one of which is not an
Integer it throws "Invalid arguments of function '+'"; applied to Integers only it returns an
Integer, so it raises an error exactly when some argument is not an Integer. -/
theorem add_semantics (f : Nat) (r : Rec) (W : World) (self : Nat) :
    rootValue Env.createEnvironment (some ⟨"+", none⟩) = some (.predefined .add) ∧
    (∀ vs : List Int, runningSumsInRange 0 vs = true →
      applyBuiltin f r .add W self (vs.map .integer) = .ok (.integer vs.sum, W)) ∧
    (∀ args : List Base_Object, (∃ a ∈ args, a.isInteger = false) →
      applyBuiltin f r .add W self args = .throw "Invalid arguments of function '+'") ∧
    (∀ args : List Base_Object, (∀ a ∈ args, a.isInteger = true) →
      ∃ v, applyBuiltin f r .add W self args = .ok (.integer v, W)) := by
  refine ⟨by decide!, fun vs h => ?_, fun args h => ?_, fun args h => ?_⟩
  · simp only [applyBuiltin, foldInts_add _ vs 0 h, Res.bind, zero_add]
  · simp only [applyBuiltin, foldInts_throw _ _ args 0 h, Res.bind]
  · obtain ⟨v, hv⟩ := foldInts_ok "Invalid arguments of function '+'" (fun x y => x + y) args 0 h
    exact ⟨v, by simp only [applyBuiltin, hv, Res.bind]⟩

/-- C19, instances: the sum of `1 2 3` is `6`; read and evaluated at top level `(+ 1 2 3)`
returns `6`, `(+)` returns `0` and `(+ 1 (quote a))` throws. -/
theorem add_semantics_witness :
    applyBuiltin 0 (interp 0) .add Env.createEnvironment 0 [.integer 1, .integer 2, .integer 3] =
      .ok (.integer 6, Env.createEnvironment) ∧
    ((readParse 30 (IStream.ofList "(+ 1 2 3)".data)).bind fun x =>
      Env.evalTop 30 Env.createEnvironment 0 x.1) = .ok (.integer 6, Env.createEnvironment) ∧
    ((readParse 30 (IStream.ofList "(+)".data)).bind fun x =>
      Env.evalTop 30 Env.createEnvironment 0 x.1) = .ok (.integer 0, Env.createEnvironment) ∧
    ((readParse 30 (IStream.ofList "(+ 1 (quote a))".data)).bind fun x =>
      Env.evalTop 30 Env.createEnvironment 0 x.1) =
      .throw "Invalid arguments of function '+'" :=
  ⟨(add_semantics 0 (interp 0) Env.createEnvironment 0).2.1 [1, 2, 3] (by decide),
    by decide!, by decide!, by decide!⟩

/-! ## C20: division and remainder -/

theorem quotient_overflow (acc d : Int) (h : acc.tdiv d ≤ INT_MAX) :
    ¬ (acc = INT_MIN ∧ d = -1) := by
  rintro ⟨rfl, rfl⟩
  revert h
  decide

theorem divInts_zero : ∀ (ds : List Int) (acc : Int), quotientsInRange acc ds = true →
    (0 : Int) ∈ ds → divInts acc (ds.map .integer) = .throw "dividing by zero" := by
  intro ds
  induction ds with
  | nil => intro acc _ h; simp at h
  | cons d ds ih =>
    intro acc hq h
    by_cases hd : d = 0
    · subst hd
      simp [divInts]
    · simp only [quotientsInRange, Bool.or_eq_true, beq_iff_eq, hd, false_or, Bool.and_eq_true,
        decide_eq_true_eq] at hq
      obtain ⟨⟨h1, h2⟩, h3⟩ := hq
      simp only [List.map_cons, divInts, hd, if_false, quotient_overflow acc d h2,
        wrap32_of_inRange _ h1 h2]
      apply ih _ h3
      simp only [List.mem_cons] at h
      rcases h with h | h
      · exact absurd h.symm hd
      · exact h

theorem divInts_fold : ∀ (ds : List Int) (acc : Int), quotientsInRange acc ds = true →
    (0 : Int) ∉ ds → divInts acc (ds.map .integer) = .ok (ds.foldl Int.tdiv acc) := by
  intro ds
  induction ds with
  | nil => intro acc _ _; simp [divInts]
  | cons d ds ih =>
    intro acc hq h
    simp only [List.mem_cons, not_or] at h
    have hd : d ≠ 0 := fun e => h.1 e.symm
    simp only [quotientsInRange, Bool.or_eq_true, beq_iff_eq, hd, false_or, Bool.and_eq_true,
      decide_eq_true_eq] at hq
    obtain ⟨⟨h1, h2⟩, h3⟩ := hq
    simp only [List.map_cons, divInts, hd, if_false, quotient_overflow acc d h2,
      wrap32_of_inRange _ h1 h2, List.foldl_cons]
    exact ih _ h3 h.2

theorem tmod_inRange (a d : Int) (h1 : INT_MIN ≤ a) (h2 : a ≤ INT_MAX) :
    INT_MIN ≤ a.tmod d ∧ a.tmod d ≤ INT_MAX := by
  unfold INT_MIN at *
  unfold INT_MAX at *
  cases a with
  | ofNat m =>
    have hm : (Int.ofNat m : Int) = (m : Int) := rfl
    rw [hm] at h1 h2 ⊢
    cases d with
    | ofNat n =>
      have e : (m : Int).tmod (Int.ofNat n) = ((m % n : Nat) : Int) := rfl
      have := Nat.mod_le m n
      rw [e]
      omega
    | negSucc n =>
      have e : (m : Int).tmod (Int.negSucc n) = ((m % (n + 1) : Nat) : Int) := rfl
      have := Nat.mod_le m (n + 1)
      rw [e]
      omega
  | negSucc m =>
    have hm : (Int.negSucc m : Int) = -((m : Int) + 1) := rfl
    rw [hm] at h1 h2
    cases d with
    | ofNat n =>
      have e : (Int.negSucc m).tmod (Int.ofNat n) = -(((m + 1) % n : Nat) : Int) := rfl
      have := Nat.mod_le (m + 1) n
      rw [e]
      omega
    | negSucc n =>
      have e : (Int.negSucc m).tmod (Int.negSucc n) = -(((m + 1) % (n + 1) : Nat) : Int) := rfl
      have := Nat.mod_le (m + 1) (n + 1)
      rw [e]
      omega

/-- Division and remainder away from the overflow.  The root binds `/` and `mod` to the
built-in procedures.  For Integers `a d1 ... dn` whose successive quotients stay within the
range of `int` (this leaves out only the quotient of `INT_MIN` and `-1`), `/` throws
"dividing by zero" when some `di` is zero and otherwise returns the left fold of truncating
division, `a` itself for `n = 0`.  For an Integer `a` in the range of `int` and an Integer `d`,
other than `INT_MIN` and `-1`, `mod` throws "dividing by zero" when `d` is zero and otherwise
returns the remainder of truncating division. -/
theorem div_mod_in_range (f : Nat) (r : Rec) (W : World) (self : Nat) :
    (rootValue Env.createEnvironment (some ⟨"/", none⟩) = some (.predefined .div) ∧
      rootValue Env.createEnvironment (some ⟨"mod", none⟩) = some (.predefined .mod)) ∧
    (∀ (a : Int) (ds : List Int), quotientsInRange a ds = true →
      ((0 : Int) ∈ ds →
        applyBuiltin f r .div W self (.integer a :: ds.map .integer) =
          .throw "dividing by zero") ∧
      ((0 : Int) ∉ ds →
        applyBuiltin f r .div W self (.integer a :: ds.map .integer) =
          .ok (.integer (ds.foldl Int.tdiv a), W))) ∧
    (∀ (a d : Int), INT_MIN ≤ a → a ≤ INT_MAX → ¬ (a = INT_MIN ∧ d = -1) →
      (d = 0 → applyBuiltin f r .mod W self [.integer a, .integer d] =
        .throw "dividing by zero") ∧
      (d ≠ 0 → applyBuiltin f r .mod W self [.integer a, .integer d] =
        .ok (.integer (a.tmod d), W))) := by
  refine ⟨⟨by decide!, by decide!⟩, fun a ds hq => ⟨fun h0 => ?_, fun h0 => ?_⟩,
    fun a d h1 h2 hov => ⟨fun hd => ?_, fun hd => ?_⟩⟩
  · simp only [applyBuiltin, divInts_zero ds a hq h0, Res.bind]
  · simp only [applyBuiltin, divInts_fold ds a hq h0, Res.bind]
  · simp only [applyBuiltin, hd, if_true]
  · obtain ⟨m1, m2⟩ := tmod_inRange a d h1 h2
    simp only [applyBuiltin, hd, hov, if_false, wrap32_of_inRange _ m1 m2]

/-- Instances: `(/ -7 2 0)` throws, `(/ -17 2 3)` is `-2`, `(/ 5)` is `5`, `(mod 7 0)`
throws and `(mod -7 2)` is `-1`. -/
theorem div_mod_instances :
    (applyBuiltin 0 (interp 0) .div Env.createEnvironment 0
        (.integer (-7) :: [2, 0].map .integer) = .throw "dividing by zero" ∧
      applyBuiltin 0 (interp 0) .div Env.createEnvironment 0
        (.integer (-17) :: [2, 3].map .integer) =
        .ok (.integer ([2, 3].foldl Int.tdiv (-17)), Env.createEnvironment)) ∧
    (applyBuiltin 0 (interp 0) .mod Env.createEnvironment 0 [.integer 7, .integer 0] =
        .throw "dividing by zero" ∧
      applyBuiltin 0 (interp 0) .mod Env.createEnvironment 0 [.integer (-7), .integer 2] =
        .ok (.integer ((-7 : Int).tmod 2), Env.createEnvironment)) ∧
    ((readParse 30 (IStream.ofList "(/ -17 2 3)".data)).bind fun x =>
      Env.evalTop 30 Env.createEnvironment 0 x.1) = .ok (.integer (-2), Env.createEnvironment) ∧
    ((readParse 30 (IStream.ofList "(/ 5)".data)).bind fun x =>
      Env.evalTop 30 Env.createEnvironment 0 x.1) = .ok (.integer 5, Env.createEnvironment) ∧
    ((readParse 30 (IStream.ofList "(mod -7 2)".data)).bind fun x =>
      Env.evalTop 30 Env.createEnvironment 0 x.1) = .ok (.integer (-1), Env.createEnvironment) :=
  ⟨⟨((div_mod_in_range 0 (interp 0) Env.createEnvironment 0).2.1 (-7) [2, 0] (by decide)).1
      (by decide),
    ((div_mod_in_range 0 (interp 0) Env.createEnvironment 0).2.1 (-17) [2, 3] (by decide)).2
      (by decide)⟩,
   ⟨((div_mod_in_range 0 (interp 0) Env.createEnvironment 0).2.2 7 0 (by decide) (by decide)
      (by decide)).1 rfl,
    ((div_mod_in_range 0 (interp 0) Env.createEnvironment 0).2.2 (-7) 2 (by decide) (by decide)
      (by decide)).2 (by decide)⟩,
   by decide!, by decide!, by decide!⟩

/-- C20, the failing input: `(/ -2147483648 -1)`.  No divisor is zero, yet the call neither
returns the quotient nor raises an error: the text is read as the Integers `INT_MIN` and `-1`,
the quotient 2147483648 is not an `int`, the division `value /= divisor` has no defined
behaviour and stops the compiled program.  The same holds when the overflow comes later in the
fold, as in `(/ -2147483648 1 -1)`, and for `(mod -2147483648 -1)`. -/
theorem division_overflow_stops_program (f : Nat) (r : Rec) (W : World) (self : Nat) :
    applyBuiltin f r .div W self [.integer INT_MIN, .integer (-1)] =
      .fault "integer overflow in division" ∧
    applyBuiltin f r .div W self [.integer INT_MIN, .integer 1, .integer (-1)] =
      .fault "integer overflow in division" ∧
    applyBuiltin f r .mod W self [.integer INT_MIN, .integer (-1)] =
      .fault "integer overflow in division" ∧
    (readParse 30 (IStream.ofList "(/ -2147483648 -1)".data)).value? =
      some (.cons (registerSymbol "/") (.cons (.integer INT_MIN) (.cons (.integer (-1)) nil))) ∧
    ((readParse 30 (IStream.ofList "(/ -2147483648 -1)".data)).bind fun x =>
      Env.evalTop 30 Env.createEnvironment 0 x.1) = .fault "integer overflow in division" ∧
    ((readParse 30 (IStream.ofList "(mod -2147483648 -1)".data)).bind fun x =>
      Env.evalTop 30 Env.createEnvironment 0 x.1) = .fault "integer overflow in division" := by
  refine ⟨rfl, rfl, rfl, by decide!, by decide!, by decide!⟩

/-! ## C21: the failures of the reader -/

theorem readStringLoop_unterminated : ∀ (n : Nat) (body : List Char) (cs acc : List Char),
    unterminated body = true → body.length + 1 ≤ n →
    readStringLoop n (IStream.get ⟨cs, body, false, false⟩).1
      (IStream.get ⟨cs, body, false, false⟩).2 acc = .throw "Parser contains errors" := by
  intro n
  induction n using Nat.strong_induction_on with
  | _ n ih =>
    intro body cs acc hu hn
    cases n with
    | zero => omega
    | succ m =>
      cases body with
      | nil =>
        have e : (IStream.get ⟨cs, [], false, false⟩) = (eofChar, ⟨cs, [], true, true⟩) := rfl
        rw [e, readStringLoop]
        simp only [show (eofChar != '"') = true by decide, if_true,
          show (eofChar == '\\') = false by decide, Bool.false_eq_true, if_false]
      | cons c r =>
        have e : (IStream.get ⟨cs, c :: r, false, false⟩) = (c, ⟨c :: cs, r, false, false⟩) :=
          rfl
        rw [e, readStringLoop]
        unfold unterminated at hu
        by_cases hb : (c == '\\') = true
        · have hq : (c != '"') = true := by
            have : c = '\\' := by simpa using hb
            rw [this]
            decide
          simp only [hq, hb, if_true]
          rw [if_pos hb] at hu
          cases r with
          | nil =>
            have e2 : (IStream.get ⟨c :: cs, [], false, false⟩) =
                (eofChar, ⟨c :: cs, [], true, true⟩) := rfl
            rw [e2]
            simp only [if_true]
          | cons d r2 =>
            have e2 : (IStream.get ⟨c :: cs, d :: r2, false, false⟩) =
                (d, ⟨d :: c :: cs, r2, false, false⟩) := rfl
            rw [e2]
            simp only [Bool.false_eq_true, if_false]
            exact ih m (Nat.lt_succ_self m) r2 _ _ hu (by simp only [List.length_cons] at hn; omega)
        · rw [if_neg hb] at hu
          by_cases hq : (c == '"') = true
          · rw [if_pos hq] at hu
            cases hu
          · rw [if_neg hq] at hu
            have hq1 : (c != '"') = true := by simpa [bne] using hq
            simp only [hq1, hb, if_true, Bool.false_eq_true, if_false]
            exact ih m (Nat.lt_succ_self m) r _ _ hu (by simp only [List.length_cons] at hn; omega)

theorem readParse_unterminated (n : Nat) (body cs : List Char) (hu : unterminated body = true)
    (hn : body.length + 1 ≤ n) :
    readParse (n + 1) ⟨cs, '"' :: body, false, false⟩ = .throw "Parser contains errors" := by
  rw [readParse_at _ _ _ _ (by decide) (by decide)]
  simp only [show ('"' == '(') = false by decide, show isDigitChar '"' = false by decide,
    show ('"' == '-') = false by decide, Bool.false_and, Bool.false_eq_true, if_false,
    show ('"' == '"') = true by decide, if_true]
  exact readStringLoop_unterminated n body _ [] hu hn

theorem readParse_end_throws (n : Nat) (s : IStream) (hg : s.good = true)
    (he : s.ws.eofbit = true) : readParse (n + 1) s = .throw "Parser contains errors" := by
  rw [readParse]
  unfold commentSkip
  have hbad := IStream.ws_eof s hg he
  obtain ⟨p1, p2⟩ := IStream.peek_bad _ hbad
  rw [p1]
  simp only [Option.getD_none, commentLoop_not_semi _ _ _ (show (eofChar == ';') = false by
    decide), p2, he, if_true]

theorem readParse_close_throws (n : Nat) (cs l : List Char) :
    readParse (n + 1) ⟨cs, ')' :: l, false, false⟩ = .throw "Parser contains errors" := by
  rw [readParse_at _ _ _ _ (by decide) (by decide)]
  simp only [show (')' == '(') = false by decide, show isDigitChar ')' = false by decide,
    show (')' == '-') = false by decide, Bool.false_and, Bool.false_eq_true, if_false,
    show (')' == '"') = false by decide]
  rfl

theorem readList_end_throws (n : Nat) (s : IStream) (he : s.ws.eofbit = true) :
    readList (n + 1) s = .throw "Parser contains errors" := by
  rw [readList]
  simp only [he, if_true]

theorem readList_dot_throws (n : Nat) (cs l : List Char) (cdr : Base_Object) (s3 : IStream)
    (h : readParse n ⟨'.' :: cs, l, false, false⟩ = .ok (cdr, s3))
    (hc : (s3.ws.get.1 != ')') = true) :
    readList (n + 1) ⟨cs, '.' :: l, false, false⟩ = .throw "Parser contains errors" := by
  rw [readList]
  have e1 : (IStream.ws ⟨cs, '.' :: l, false, false⟩) = ⟨cs, '.' :: l, false, false⟩ :=
    IStream.ws_nonspace cs '.' l (by decide)
  have e2 : (IStream.get ⟨cs, '.' :: l, false, false⟩) = ('.', ⟨'.' :: cs, l, false, false⟩) :=
    rfl
  simp only [e1, e2, Bool.false_eq_true, if_false, show ('.' == ')') = false by decide,
    show ('.' == '.') = true by decide, if_true, h, hc]

/-- The failures that the reader does signal.  A string literal that the end of the input
leaves open, a `)` or the end of the input where a form must start, the end of the input where
a list element or `)` must start, and a token other than `)` after a dotted cdr each make
`readParse` throw, given steps enough for the length of the text, and `Env::read` then returns
the null handle. -/
theorem reader_failures_signalled (n : Nat) (cs : List Char) :
    (∀ body : List Char, unterminated body = true → body.length + 1 ≤ n →
      readParse (n + 1) ⟨cs, '"' :: body, false, false⟩ = .throw "Parser contains errors" ∧
      Env.read (n + 1) ⟨cs, '"' :: body, false, false⟩ = .ok none) ∧
    (∀ l : List Char,
      readParse (n + 1) ⟨cs, ')' :: l, false, false⟩ = .throw "Parser contains errors" ∧
      Env.read (n + 1) ⟨cs, ')' :: l, false, false⟩ = .ok none) ∧
    (∀ s : IStream, s.good = true → s.ws.eofbit = true →
      readParse (n + 1) s = .throw "Parser contains errors" ∧
      Env.read (n + 1) s = .ok none ∧
      readList (n + 1) s = .throw "Parser contains errors") ∧
    (∀ (l : List Char) (cdr : Base_Object) (s3 : IStream),
      readParse n ⟨'.' :: cs, l, false, false⟩ = .ok (cdr, s3) → (s3.ws.get.1 != ')') = true →
      readList (n + 1) ⟨cs, '.' :: l, false, false⟩ = .throw "Parser contains errors") := by
  refine ⟨fun body hu hn => ?_, fun l => ?_, fun s hg he => ?_, fun l cdr s3 h hc => ?_⟩
  · have h := readParse_unterminated n body cs hu hn
    exact ⟨h, by unfold Env.read; rw [h]⟩
  · have h := readParse_close_throws n cs l
    exact ⟨h, by unfold Env.read; rw [h]⟩
  · have h := readParse_end_throws n s hg he
    exact ⟨h, by unfold Env.read; rw [h], readList_end_throws n s he⟩
  · exact readList_dot_throws n cs l cdr s3 h hc

/-- Instances: a string literal `abc` left open, a string literal left open after an escaped
double quote, the texts `)`, `(`, `(a ` and `(a . b c)` and the empty text make `Env::read`
return the null handle. -/
theorem reader_failures_instances :
    Env.read 20 (IStream.ofList ['"', 'a', 'b', 'c']) = .ok none ∧
    Env.read 20 (IStream.ofList ['"', 'a', '\\', '"']) = .ok none ∧
    Env.read 20 (IStream.ofList ")".data) = .ok none ∧
    Env.read 20 (IStream.ofList []) = .ok none ∧
    Env.read 20 (IStream.ofList "(".data) = .ok none ∧
    Env.read 20 (IStream.ofList "(a ".data) = .ok none ∧
    Env.read 20 (IStream.ofList "(a . b c)".data) = .ok none := by
  decide!

theorem readSymbolLoop_failed : ∀ (room : Nat) (s : IStream) (acc : List Char), s.good = false →
    s.eofbit = false → readSymbolLoop room eofChar s acc = .fault "symbolName overflow" := by
  intro room
  induction room with
  | zero =>
    intro s acc _ he
    rw [readSymbolLoop.eq_def]
    simp [he, show isSymbolChar eofChar = true by decide]
  | succ k ih =>
    intro s acc hg he
    rw [readSymbolLoop.eq_def]
    simp only [he, show isSymbolChar eofChar = true by decide, Bool.not_false, Bool.and_self,
      if_true]
    obtain ⟨h1, h2, h3⟩ := IStream.get_bad s hg
    rw [h1]
    exact ih _ _ h2 (h3.trans he)

/-- On a stream whose `failbit` is set while `eofbit` is clear, `readParse` runs the symbol loop
past the end of `symbolName`. -/
theorem readParse_failed (n : Nat) (s : IStream) (hg : s.good = false) (he : s.eofbit = false) :
    readParse (n + 1) s = .fault "symbolName overflow" := by
  obtain ⟨s1, h1, h2, h3⟩ := commentSkip_bad n s hg
  rw [readParse]
  simp only [h1]
  have he1 : s1.eofbit = false := h3.trans he
  obtain ⟨g1, g2, g3⟩ := IStream.get_bad s1 h2
  obtain ⟨p1, p2⟩ := IStream.peek_bad _ g2
  have hpg : s1.get.2.peek.2.good = false := by
    generalize s1.get.2 = u at g2
    obtain ⟨cs, r, e, f⟩ := u
    cases e <;> cases f <;> simp [IStream.peek, IStream.good] at g2 ⊢
  simp only [he1, Bool.false_eq_true, if_false, g1, p1,
    show (eofChar == '(') = false by decide, show isDigitChar eofChar = false by decide,
    show (eofChar == '-') = false by decide, show (eofChar == '"') = false by decide,
    Bool.false_and]
  unfold readSymbol
  rw [readSymbolLoop_failed 512 _ [] g2 (g3.trans he1)]

theorem readParse_open_a (n : Nat) :
    readParse (n + 4) (IStream.ofList "(a".data) = .fault "symbolName overflow" := by
  have e0 : IStream.ofList "(a".data = ⟨[], '(' :: ['a'], false, false⟩ := rfl
  rw [e0, readParse_at _ _ _ _ (by decide) (by decide), if_pos (by decide)]
  rw [readList]
  have e1 : (IStream.ws ⟨['('], ['a'], false, false⟩) = ⟨['('], ['a'], false, false⟩ := rfl
  have e2 : (IStream.get ⟨['('], ['a'], false, false⟩) = ('a', ⟨['a', '('], [], false, false⟩) :=
    rfl
  have e3 : (IStream.unget ⟨['a', '('], [], false, false⟩) = ⟨['('], ['a'], false, false⟩ := rfl
  simp only [e1, e2, e3, Bool.false_eq_true, if_false, show ('a' == ')') = false by decide,
    show ('a' == '.') = false by decide]
  rw [readParse_at _ _ _ _ (by decide) (by decide), if_neg (by decide), if_neg (by decide),
    if_neg (by decide), if_neg (by decide)]
  have e4 : readSymbol 'a' (if ('a' == '-') = true then
      (IStream.peek ⟨['a', '('], [], false, false⟩).2 else ⟨['a', '('], [], false, false⟩) =
      .ok (registerSymbol "a", ⟨['a', '('], [], false, true⟩) := by decide!
  rw [e4]
  simp only []
  rw [readList]
  have e5 : (IStream.ws ⟨['a', '('], [], false, true⟩) = ⟨['a', '('], [], false, true⟩ := rfl
  have e6 : (IStream.get ⟨['a', '('], [], false, true⟩) =
      (eofChar, ⟨['a', '('], [], false, true⟩) := rfl
  have e7 : (IStream.unget ⟨['a', '('], [], false, true⟩) = ⟨['a', '('], [], false, true⟩ := rfl
  simp only [e5, e6, e7, Bool.false_eq_true, if_false, show (eofChar == ')') = false by decide,
    show (eofChar == '.') = false by decide]
  rw [readParse_failed n ⟨['a', '('], [], false, true⟩ rfl rfl]

/-- C21, the failing input: the text `(a`, a list that the end of the input leaves unclosed
right after a symbol.  After the symbol has been read up to the end of the input, `unget` clears
`eofbit` while `failbit` stays set; `readList` therefore does not see the end, and the next
`readParse` stores the character that the failed `get` returns into `symbolName` again and
again, past the end of the array.  With any number of steps allowed from 4 on, `readParse` and
`Env::read` end in this fault, and with no number of steps does `Env::read` return the null
handle of a parse error. -/
theorem unclosed_list_after_symbol_overflows :
    (∀ n : Nat, readParse (n + 4) (IStream.ofList "(a".data) = .fault "symbolName overflow") ∧
    (∀ n : Nat, Env.read (n + 4) (IStream.ofList "(a".data) = .fault "symbolName overflow") ∧
    (∀ fuel : Nat, Env.read fuel (IStream.ofList "(a".data) ≠ .ok none) := by
  have h2 : ∀ n : Nat, Env.read (n + 4) (IStream.ofList "(a".data) =
      .fault "symbolName overflow" := by
    intro n
    unfold Env.read
    rw [readParse_open_a]
  refine ⟨readParse_open_a, h2, ?_⟩
  intro fuel
  rcases Nat.lt_or_ge fuel 4 with h | h
  · interval_cases fuel <;> decide!
  · obtain ⟨n, rfl⟩ : ∃ n, fuel = n + 4 := ⟨fuel - 4, by omega⟩
    rw [h2]
    intro hh
    cases hh

/-! ## C22: `quote` and the expander -/

theorem Env.macroExpand_succ (f : Nat) (W : World) (F : Nat) (o : Base_Object) :
    Env.macroExpand (f + 1) W F o = Env.macroExpandStep f (interp f) W F o := rfl

theorem Env.macroExpand_quote (f : Nat) (W : World) (F : Nat) (x : Base_Object)
    (hq : headIsQuote x = true) : Env.macroExpand (f + 1) W F x = .ok (x, W) := by
  rw [Env.macroExpand_succ]
  cases x with
  | cons car cdr =>
    cases car with
    | symbol s =>
      have hs : (s.name == "quote") = true := hq
      simp only [Env.macroExpandStep, hs, if_true]
    | _ => cases hq
  | _ => cases hq

theorem Env.macroExpand_plain (f : Nat) (W : World) (F : Nat) (o : Base_Object)
    (hp : plainHead f W F o = true) :
    Env.macroExpand (f + 1) W F o = mapExpand (interp f) F W o := by
  rw [Env.macroExpand_succ]
  cases o with
  | cons car cdr =>
    cases car with
    | symbol s =>
      simp only [plainHead, Bool.and_eq_true, bne_iff_ne, ne_eq] at hp
      have hs : (s.name == "quote") = false := by simpa using hp.1
      simp only [Env.macroExpandStep, hs, Bool.false_eq_true, if_false]
      cases hl : Env.findSymbolInMap f W F (some s) with
      | ok r =>
        cases r with
        | none => rfl
        | some v =>
          cases v with
          | macroObj pl body env =>
            have := hp.2
            rw [hl] at this
            simp [Base_Object.isMacro] at this
          | _ => rfl
      | _ =>
        have := hp.2
        rw [hl] at this
        cases this
    | _ => rfl
  | _ => cases hp

theorem mapExpand_quoted (n : Nat) (F : Nat) (x : Base_Object) (hq : headIsQuote x = true) :
    ∀ (form out : Base_Object) (W W1 : World) (i : Nat),
    mapExpand (interp n) F W form = .ok (out, W1) → listNth form i = some x →
    listNth out i = some x := by
  intro form
  induction form with
  | cons car cdr _ ih =>
    intro out W W1 i h hi
    rw [mapExpand] at h
    obtain ⟨b, hb, h⟩ := (Res.bind_eq_ok _ _ _).1 h
    obtain ⟨a, ha, h⟩ := (Res.bind_eq_ok _ _ _).1 h
    cases h
    cases i with
    | zero =>
      have hcx : car = x := Option.some.inj hi
      subst hcx
      cases n with
      | zero => cases ha
      | succ m =>
        have := Env.macroExpand_quote m b.2 F car hq
        change (interp (m + 1)).macroExpand b.2 F car = _ at this
        rw [this] at ha
        cases ha
        rfl
    | succ j =>
      exact ih b.1 W b.2 j hb hi
  | _ =>
    intro out W W1 i _ hi
    cases i <;> cases hi

/-- C22: `quote` is an expansion boundary.  For every frame `F` of every world, whatever is bound
there, and every `Cons` `x` whose head is the symbol `quote`: `macroExpand` returns `x` itself
and leaves the world as it is, so nothing inside `x` is expanded; `macroexpand-all` applied to
the value `x` returns `x`; and when `x` is the `i`-th element of a list that is expanded element
by element (its head is not a macro), the `i`-th element of the expansion is `x`. -/
theorem quote_is_expansion_boundary (f : Nat) (W : World) (F : Nat) (x : Base_Object)
    (hq : headIsQuote x = true) :
    Env.macroExpand (f + 1) W F x = .ok (x, W) ∧
    (∀ g : Nat, applyBuiltin g (interp (f + 1)) .macroexpandAll W F [x] = .ok (x, W)) ∧
    (∀ (form out : Base_Object) (W1 : World) (i : Nat), plainHead f W F form = true →
      listNth form i = some x → Env.macroExpand (f + 1) W F form = .ok (out, W1) →
      listNth out i = some x) := by
  refine ⟨Env.macroExpand_quote f W F x hq, fun g => Env.macroExpand_quote f W F x hq, ?_⟩
  intro form out W1 i hp hi h
  rw [Env.macroExpand_plain f W F form hp] at h
  exact mapExpand_quoted f F x hq form out W W1 i h hi

/-- C22, instances in the world where `m` is bound to the macro of the scenario: `macroExpand`
leaves `(quote (m 3 4))` as it is; `(f (quote (m 3 4)) (m 3 4))` expands to
`(f (quote (m 3 4)) (+ 3 4))`; and read and evaluated at top level,
`(macroexpand-all (quote (quote (m 3 4))))` returns `(quote (m 3 4))`. -/
theorem quote_is_expansion_boundary_witness :
    Env.macroExpand 10 (worldAfter macroDefText) 0 (quoteForm formM34) =
      .ok (quoteForm formM34, worldAfter macroDefText) ∧
    (Env.macroExpand 10 (worldAfter macroDefText) 0
      (.cons (registerSymbol "f") (.cons (quoteForm formM34)
        (.cons formM34 nil)))).value? =
      some (.cons (registerSymbol "f") (.cons (quoteForm formM34)
        (.cons formPlus34 nil))) ∧
    ((readParse 30 (IStream.ofList "(macroexpand-all (quote (quote (m 3 4))))".data)).bind fun x =>
      Env.evalTop 30 (worldAfter macroDefText) 0 x.1).value? =
      some (quoteForm formM34) :=
  ⟨(quote_is_expansion_boundary 9 (worldAfter macroDefText) 0
      (quoteForm formM34) rfl).1, by decide!, by decide!⟩

/-! ## C23: the order of lexical resolution -/

theorem resolveEnvLex_of_first (W : World) (s : SymPtr) : ∀ (fuel F G : Nat),
    firstBinding W s (searchPath W fuel F) = some G →
    Env.resolveEnvLex fuel W F s = .ok (some G) := by
  intro fuel
  induction fuel with
  | zero => intro F G h; cases h
  | succ n ih =>
    intro F G h
    unfold firstBinding at h
    rw [searchPath, List.find?_cons] at h
    rw [Env.resolveEnvLex]
    cases hF : W.envs[F]? with
    | none =>
      simp only [bindsIn, hF] at h
      cases h
    | some e =>
      simp only [bindsIn, hF] at h
      simp only
      cases hc : mapCount e.symbolValueMap s with
      | true =>
        rw [hc] at h
        simp only [if_true]
        exact congrArg Res.ok h
      | false =>
        rw [hc] at h
        simp only [Bool.false_eq_true, if_false]
        cases hl : e.environmentLex with
        | some l =>
          simp only [nextFrame, hl] at h
          exact ih l G h
        | none =>
          simp only [nextFrame, hl] at h
          cases ho : e.outEnvironment with
          | some o =>
            simp only [ho] at h
            exact ih o G h
          | none =>
            simp only [ho] at h
            cases h

theorem first_of_resolveEnvLex (W : World) (s : SymPtr) : ∀ (fuel F : Nat) (r : Option Nat),
    Env.resolveEnvLex fuel W F s = .ok r →
    r = firstBinding W s (searchPath W fuel F) := by
  intro fuel
  induction fuel with
  | zero => intro F r h; cases h
  | succ n ih =>
    intro F r h
    unfold firstBinding
    rw [searchPath, List.find?_cons]
    rw [Env.resolveEnvLex] at h
    cases hF : W.envs[F]? with
    | none =>
      rw [hF] at h
      cases h
    | some e =>
      rw [hF] at h
      simp only at h
      simp only [bindsIn, hF]
      cases hc : mapCount e.symbolValueMap s with
      | true =>
        rw [hc] at h
        simp only [if_true] at h
        cases h
        rfl
      | false =>
        rw [hc] at h
        simp only [Bool.false_eq_true, if_false] at h
        cases hl : e.environmentLex with
        | some l =>
          simp only [hl] at h
          simp only [nextFrame, hl]
          exact ih l r h
        | none =>
          simp only [hl] at h
          cases ho : e.outEnvironment with
          | some o =>
            simp only [ho] at h
            simp only [nextFrame, hl, ho]
            exact ih o r h
          | none =>
            simp only [ho] at h
            cases h
            simp only [nextFrame, hl, ho, List.find?_nil]

/-- C23, the counterexample: in the world inside the call `(g)` of `(let (x 1) (+ (g) 0))`, the
symbol `x` is not bound in the root, the frame of the call (frame 2) has a lexical link, `x` is
bound in neither frame 2 nor its lex chain (the root) and is bound in frame 1 on its outer
chain, so the stated order gives frame 1; `findEnvironment` gives no frame, and the evaluation
of the program raises the unresolved-symbol error. -/
theorem outer_chain_skipped_after_lex_link :
    Env.isSpecialVariable callInLetWorld (some symX) = false ∧
    chainFrom Env.environmentLex callInLetWorld 5 2 = [0] ∧
    chainFrom Env.outEnvironment callInLetWorld 5 2 = [1, 0] ∧
    firstBinding callInLetWorld (some symX) (statedOrder callInLetWorld 5 2) = some 1 ∧
    Env.findEnvironment 5 callInLetWorld 2 (some symX) = .ok none ∧
    Env.repl 30 5 Env.createEnvironment (IStream.ofList
      "(define g (lambda () x)) (let (x 1) (+ (g) 0))".data) =
      .throw "Evaluated unresolvable symbol" := by
  decide!

/-- C23: the order of lexical resolution.  For a symbol `s` that the root does not bind, the
search from a frame `F` visits `F` and then, from each frame that does not bind `s`, the frame
of its lexical link when it has one and the frame of its outer link only when it has none.
`findEnvironment` returns the first frame on this path that binds `s`: when one of the first
`fuel` frames of the path binds `s` it returns it, and whatever it returns is the first such
frame (none when the path ends without a binding).  In particular, from a frame that does not
bind `s` and has a lexical link the result is the result of the search from that link, the
outer link of the frame playing no part. -/
theorem lexical_resolution_path (W : World) (F : Nat) (s : SymPtr) (fuel : Nat)
    (hs : Env.isSpecialVariable W s = false) :
    (∀ G : Nat, firstBinding W s (searchPath W fuel F) = some G →
      Env.findEnvironment fuel W F s = .ok (some G)) ∧
    (∀ r : Option Nat, Env.findEnvironment fuel W F s = .ok r →
      r = firstBinding W s (searchPath W fuel F)) ∧
    (∀ (e : Env) (L : Nat), W.envs[F]? = some e → mapCount e.symbolValueMap s = false →
      e.environmentLex = some L →
      Env.findEnvironment (fuel + 1) W F s = Env.findEnvironment fuel W L s) := by
  have hfe : ∀ n G, Env.findEnvironment n W G s = Env.resolveEnvLex n W G s := by
    intro n G
    unfold Env.findEnvironment
    rw [hs]
    rfl
  refine ⟨fun G h => ?_, fun r h => ?_, fun e L he hc hl => ?_⟩
  · rw [hfe]
    exact resolveEnvLex_of_first W s fuel F G h
  · rw [hfe] at h
    exact first_of_resolveEnvLex W s fuel F r h
  · rw [hfe, hfe, Env.resolveEnvLex]
    simp only [he, hc, hl, Bool.false_eq_true, if_false]

/-- C23, instances in the world inside the call `(g)` of `(let (x 1) (+ (g) 0))`: from the
frame of the call the path for `x` is frame 2 and then the root, on which nothing binds `x`, so
no frame is found; from the frame of the `let` the path starts with a frame that binds `x`. -/
theorem lexical_resolution_path_witness :
    searchPath callInLetWorld 5 2 = [2, 0] ∧
    Env.findEnvironment 5 callInLetWorld 2 (some symX) = .ok none ∧
    none = firstBinding callInLetWorld (some symX) (searchPath callInLetWorld 5 2) ∧
    Env.findEnvironment 5 callInLetWorld 1 (some symX) = .ok (some 1) :=
  ⟨by decide!, by decide!,
    (lexical_resolution_path callInLetWorld 2 (some symX) 5 (by decide!)).2.1 none (by decide!),
    (lexical_resolution_path callInLetWorld 1 (some symX) 5 (by decide!)).1 1 (by decide!)⟩

/-! ## C24: the expander on lists -/

theorem mapExpand_listWithTail (f : Nat) (F : Nat) (t : Base_Object) (ht : t.isCons = false) :
    ∀ (es : List Base_Object) (W : World),
    mapExpand (interp f) F W (listWithTail es t) =
      (expandEach f F W es).bind fun y => .ok (listWithTail y.1 t, y.2) := by
  intro es
  induction es with
  | nil =>
    intro W
    show mapExpand (interp f) F W t = .ok (t, W)
    cases t with
    | cons a d => cases ht
    | _ => rfl
  | cons e es ih =>
    intro W
    show (mapExpand (interp f) F W (listWithTail es t)).bind (fun y =>
      ((interp f).macroExpand y.2 F e).bind fun x =>
        Res.ok (Base_Object.cons x.1 y.1, x.2)) = _
    show _ = ((expandEach f F W es).bind fun y =>
      (Env.macroExpand f y.2 F e).bind fun x => .ok (x.1 :: y.1, x.2)).bind _
    rw [ih, Res.bind_assoc, Res.bind_assoc]
    congr 1
    funext y
    rw [Res.bind_ok, Res.bind_assoc]
    rfl

theorem listWithTail_of_cons : ∀ (car cdr : Base_Object),
    ∃ (es : List Base_Object) (t : Base_Object),
      Base_Object.cons car cdr = listWithTail (car :: es) t ∧ t.isCons = false := by
  intro car cdr
  induction cdr generalizing car with
  | cons a d _ ihd =>
    obtain ⟨es, t, h, ht⟩ := ihd a
    exact ⟨a :: es, t, by rw [h]; rfl, ht⟩
  | integer v => exact ⟨[], _, rfl, rfl⟩
  | string v => exact ⟨[], _, rfl, rfl⟩
  | symbol v => exact ⟨[], _, rfl, rfl⟩
  | proc a b c => exact ⟨[], _, rfl, rfl⟩
  | macroObj a b c => exact ⟨[], _, rfl, rfl⟩
  | predefined b => exact ⟨[], _, rfl, rfl⟩

/-- C24, the counterexample: with `m` bound to the macro of the scenario, and `f` not bound, the
head of `(f m 3 4)` is neither `quote` nor a macro; `macroExpand` returns `(f m 3 4)` as it is,
although its cdr `(m 3 4)` expanded as a form is `(+ 3 4)`, so that the `Cons` of the two
expansions would be `(f + 3 4)`. -/
theorem cdr_is_not_expanded_as_a_form :
    plainHead 9 (worldAfter macroDefText) 0 formFM34 = true ∧
    Env.macroExpand 10 (worldAfter macroDefText) 0 formFM34 =
      .ok (formFM34, worldAfter macroDefText) ∧
    (Env.macroExpand 10 (worldAfter macroDefText) 0 formM34).value? = some formPlus34 ∧
    (expandCarCdr 10 (worldAfter macroDefText) 0 formFM34).value? =
      some (.cons (registerSymbol "f") formPlus34) ∧
    (Env.macroExpand 10 (worldAfter macroDefText) 0 formFM34).value? ≠
      (expandCarCdr 10 (worldAfter macroDefText) 0 formFM34).value? := by
  decide!

/-- C24: what the expander does with a list.  Every `Cons` is a list of elements `e :: es` that
ends in an object `t` which is not a `Cons`.  When its head is neither the symbol `quote` nor a
symbol bound to a `Macro`, `macroExpand` expands each element as a form, once, and returns the
list of the expansions, in the order of the elements, with the same end `t`; no cdr is expanded
as a form.  The elements are expanded from the last to the first: C++ leaves the order open,
and this is the order of the compiled program. -/
theorem expander_maps_elements (f : Nat) (W : World) (F : Nat) (car cdr : Base_Object)
    (hp : plainHead f W F (.cons car cdr) = true) :
    ∃ (es : List Base_Object) (t : Base_Object),
      Base_Object.cons car cdr = listWithTail (car :: es) t ∧ t.isCons = false ∧
      Env.macroExpand (f + 1) W F (.cons car cdr) =
        (expandEach f F W (car :: es)).bind fun y => .ok (listWithTail y.1 t, y.2) := by
  obtain ⟨es, t, h, ht⟩ := listWithTail_of_cons car cdr
  refine ⟨es, t, h, ht, ?_⟩
  rw [Env.macroExpand_plain f W F _ hp, h]
  exact mapExpand_listWithTail f F t ht (car :: es) W

/-- C24, instances: `(f m 3 4)` in the world where `m` is bound to the macro of the scenario is
the list of `f`, `m`, `3`, `4` ending in `null`, and its expansion is the list of the four
expansions, each of them the element itself; with `m` defined as `(macro () (gensym))` the
expansion of `(f (m) (m))` is `(f #g1 #g0)`, the last element being expanded first. -/
theorem expander_maps_elements_witness :
    plainHead 9 (worldAfter macroDefText) 0 formFM34 = true ∧
    (∃ (es : List Base_Object) (t : Base_Object),
      formFM34 = listWithTail (registerSymbol "f" :: es) t ∧ t.isCons = false ∧
      Env.macroExpand 10 (worldAfter macroDefText) 0 formFM34 =
        (expandEach 9 0 (worldAfter macroDefText) (registerSymbol "f" :: es)).bind fun y =>
          .ok (listWithTail y.1 t, y.2)) ∧
    expandEach 9 0 (worldAfter macroDefText)
        [registerSymbol "f", registerSymbol "m", .integer 3, .integer 4] =
      .ok ([registerSymbol "f", registerSymbol "m", .integer 3, .integer 4],
        worldAfter macroDefText) ∧
    (Env.repl 30 5 Env.createEnvironment (IStream.ofList
      "(define m (macro () (gensym))) (macroexpand-all (quote (f (m) (m))))".data)).value? =
      some [registerSymbol "m", vectorToList [registerSymbol "f",
        .symbol ⟨"#g1", some 1⟩, .symbol ⟨"#g0", some 0⟩]] :=
  ⟨by decide!, expander_maps_elements 9 (worldAfter macroDefText) 0 (registerSymbol "f") formM34
    (by decide!), by decide!, by decide!⟩

/-! ## C25: calls in tail position -/

theorem Sim.bindKey {k : Nat} {eA eB : Env} {W W1 : World} (h : Sim k eA eB W W1)
    (o : Base_Object) (s : Symbol) :
    Sim k { eA with symbolValueMap := mapSet eA.symbolValueMap (some s) o } eB
      (Env.bind W k o (some s)) W1 where
  kA := by
    show (updateEnv W.envs k _)[k]? = _
    rw [updateEnv_get_self, h.kA]
    rfl
  kB := h.kB
  len := by
    rw [Env.bind_length]
    exact h.len
  sym := h.sym
  addr := h.addr
  off := by
    intro j hj
    rw [Env.bind_get_ne _ _ _ _ _ hj]
    exact h.off j hj
  noRef := by
    intro j e hj he
    rw [Env.bind_get_ne _ _ _ _ _ hj] at he
    exact h.noRef j e hj he
  root := h.root

theorem bindParams_deferred (f : Nat) (F pe k : Nat) (hF : F ≠ k) :
    ∀ (pas done : List (Symbol × Base_Object)) (Wc Ws : World),
    Sim k (callFrame F pe (bindPairs [] done)) (callFrame F pe []) Wc Ws →
    (∀ b ∈ pas, noRefObj k b.2 = true) →
    bindParams f F k Wc pas =
      (evalValues f F Ws (pas.map Prod.snd)).bind fun x =>
        .ok (bindAll x.2 k (done ++ (pas.map Prod.fst).zip x.1)) := by
  intro pas
  induction pas with
  | nil =>
    intro done Wc Ws h _
    show Res.ok Wc = Res.ok (bindAll Ws k (done ++ []))
    rw [List.append_nil, bindAll_eq, h.eq]
    congr 2
    apply updateEnv_congr
    intro e he
    rw [h.kB] at he
    cases he
    rfl
  | cons b bs ih =>
    intro done Wc Ws h hbs
    obtain ⟨s, v⟩ := b
    show (Env.eval f Wc F v false).bind (fun x =>
      bindParams f F k (Env.bind x.2 k x.1 (some s)) bs) = _
    show _ = ((Env.eval f Ws F v false).bind fun x =>
      (evalValues f F x.2 (bs.map Prod.snd)).bind fun y => Res.ok (x.1 :: y.1, y.2)).bind _
    rw [Res.bind_assoc]
    refine ResRel.bind_eq (Env.eval_indep f Wc Ws F v false h hF
      (hbs (s, v) (List.mem_cons_self _ _))) ?_
    intro a c hac
    have h1 := hac.2.2.bindKey a.1 s
    have h2 : Sim k (callFrame F pe (bindPairs [] (done ++ [(s, a.1)]))) (callFrame F pe [])
        (Env.bind a.2 k a.1 (some s)) c.2 := by
      rw [bindPairs_append]
      exact h1
    rw [ih (done ++ [(s, a.1)]) _ _ h2 (fun b hb => hbs b (List.mem_cons_of_mem _ hb)),
      Res.bind_assoc]
    congr 1
    funext y
    simp only [Res.bind_ok, List.map_cons, List.zip_cons_cons, List.append_assoc,
      List.singleton_append, hac.1]

theorem applyBindLoop_plain (f : Nat) (out env : Nat) :
    ∀ (ps : List Symbol) (args : List Base_Object) (W : World),
    applyBindLoop (interp f) out env W (plainParams ps) (vectorToList args) =
      (bindParams f out env W (ps.zip args)).bind fun W1 =>
        .ok (W1, plainParams (ps.drop args.length), vectorToList (args.drop ps.length)) := by
  intro ps
  induction ps with
  | nil =>
    intro args W
    cases args <;> rfl
  | cons p ps ih =>
    intro args W
    cases args with
    | nil => rfl
    | cons a args =>
      show ((interp f).eval W out a false).bind (fun x =>
        applyBindLoop (interp f) out env (Env.bind x.2 env x.1 (some p)) (plainParams ps)
          (vectorToList args)) = _
      show _ = ((Env.eval f W out a false).bind fun x =>
        bindParams f out env (Env.bind x.2 env x.1 (some p)) (ps.zip args)).bind _
      rw [Res.bind_assoc]
      congr 1
      funext x
      exact ih args _

theorem makeEnvForApply_plain (f : Nat) (W : World) (F pe : Nat) (ps : List Symbol)
    (args : List Base_Object) (tail : Bool) :
    makeEnvForApply (interp f) W F pe (plainParams ps) (vectorToList args) tail =
      (bindParams f F W.envs.length (Env.createSubEnvironment W F (some pe)).2
        (ps.zip args)).bind fun W1 => .ok (mergeIfTail W1 F W.envs.length tail) := by
  unfold makeEnvForApply
  simp only [isProperList_vectorToList, Bool.not_true, Bool.false_eq_true, if_false]
  have hsub : (Env.createSubEnvironment W F (some pe)).1 = W.envs.length := rfl
  rw [hsub, applyBindLoop_plain, Res.bind_assoc]
  congr 1
  funext W1
  simp only [Res.bind_ok]
  cases ps.drop args.length with
  | nil => rfl
  | cons q qs => rfl

theorem makeEnvForApply_tail (f : Nat) (W : World) (F pe : Nat) (ps : List Symbol)
    (args : List Base_Object) (hF : F < W.envs.length) (hW : W.fresh = true)
    (hargs : (args.all fun a => noRefObj W.envs.length a) = true) :
    makeEnvForApply (interp f) W F pe (plainParams ps) (vectorToList args) true =
      tailCallFrame f W F pe ps args := by
  rw [makeEnvForApply_plain, bindParams_deferred f F pe W.envs.length (Nat.ne_of_lt hF)
    (ps.zip args) [] _ _ (Sim.of_fresh W F (some pe) hF hW)
    (fun b hb => by
      rw [List.all_eq_true] at hargs
      exact hargs b.2 (List.of_mem_zip hb).2), Res.bind_assoc]
  rfl

theorem evalValues_length (f : Nat) (out : Nat) : ∀ (vs : List Base_Object) (W : World)
    (xs : List Base_Object) (W1 : World), evalValues f out W vs = .ok (xs, W1) →
    W.envs.length ≤ W1.envs.length := by
  intro vs
  induction vs with
  | nil =>
    intro W xs W1 h
    cases h
    exact Nat.le_refl _
  | cons v vs ih =>
    intro W xs W1 h
    simp only [evalValues] at h
    obtain ⟨a, ha, h⟩ := (Res.bind_eq_ok _ _ _).1 h
    obtain ⟨b, hb, h⟩ := (Res.bind_eq_ok _ _ _).1 h
    cases h
    exact Nat.le_trans (Env.eval_length f W out v false a.1 a.2 ha) (ih a.2 b.1 b.2 hb)

theorem not_mem_keys_of_mapFind (m : List (SymPtr × Base_Object)) (s : SymPtr)
    (h : mapFind m s = none) : s ∉ m.map Prod.fst := by
  induction m with
  | nil => simp
  | cons kv m ih =>
    obtain ⟨k0, v0⟩ := kv
    simp only [mapFind] at h
    by_cases hk : k0 = s
    · rw [if_pos hk] at h
      cases h
    · rw [if_neg hk] at h
      simp only [List.map_cons, List.mem_cons, not_or]
      exact ⟨fun hh => hk hh.symm, ih h⟩

/-- What the frames `F` and `k` are after the call's bindings `m` have been made in the child
`k` and the merge has been decided. -/
theorem mergeIfTail_cases (Wb : World) (F k pe : Nat) (eF : Env)
    (m : List (SymPtr × Base_Object))
    (hF : Wb.envs[F]? = some eF) (hk : Wb.envs[k]? = some (callFrame F pe m)) :
    (eF.closed = false →
      (mergeIfTail Wb F k true).1 = F ∧
      (mergeIfTail Wb F k true).2.envs[F]? = some (mergedFrame eF pe m) ∧
      ∀ j, j ≠ F → (mergeIfTail Wb F k true).2.envs[j]? = Wb.envs[j]?) ∧
    (eF.closed = true → mergeIfTail Wb F k true = (k, Wb)) := by
  have hcl : Env.isClosed Wb F = eF.closed := by
    unfold Env.isClosed
    rw [hF]
  constructor
  · intro hc
    have hm : mergeIfTail Wb F k true = (F, Env.merge Wb F k) := by
      unfold mergeIfTail
      rw [hcl, hc]
      rfl
    rw [hm]
    refine ⟨rfl, ?_, ?_⟩
    · unfold Env.merge
      rw [hk]
      show (updateEnv _ F _)[F]? = _
      rw [updateEnv_get_self, hF]
      simp only [Option.map_some', callFrame, Option.isSome_some, if_true, mergedFrame]
    · intro j hj
      unfold Env.merge
      rw [hk]
      exact updateEnv_get_ne _ _ _ _ hj
  · intro hc
    unfold mergeIfTail
    rw [hcl, hc]
    rfl

theorem closedAt_updateEnv (W : World) (i : Nat) (g : Env → Env) (n : Nat) (l : List Bool)
    (hg : ∀ e, e.closed = true → (g e).closed = true) (j : Nat)
    (h : W.closedAt j = true) : (World.mk (updateEnv W.envs i g) n l).closedAt j = true := by
  unfold World.closedAt at h ⊢
  by_cases hj : j = i
  · subst hj
    show (match (updateEnv W.envs j g)[j]? with
      | some e => e.closed
      | none => false) = true
    rw [updateEnv_get_self]
    cases he : W.envs[j]? with
    | none => rw [he] at h; cases h
    | some e =>
      rw [he] at h
      exact hg e h
  · show (match (updateEnv W.envs i g)[j]? with
      | some e => e.closed
      | none => false) = true
    rw [updateEnv_get_ne _ _ _ _ hj]
    exact h

/-- A frame that is marked closed stays so. -/
theorem closedRel : WorldRel (fun W W1 => ∀ j, W.closedAt j = true → W1.closedAt j = true) where
  refl := fun _ _ h => h
  trans := fun _ _ _ h1 h2 j h => h2 j (h1 j h)
  bind := by
    intro W i o s j h
    refine closedAt_updateEnv W i _ W.totalSym W.addressEq ?_ j h
    intro e he
    exact he
  merge := by
    intro W i k j h
    unfold Env.merge
    split
    · exact h
    · refine closedAt_updateEnv W i _ W.totalSym W.addressEq ?_ j h
      intro e he
      exact he
  setClosed := by
    intro W i j h
    refine closedAt_updateEnv W i _ W.totalSym W.addressEq ?_ j h
    intro e _
    rfl
  sub := by
    intro W i l j h
    unfold World.closedAt at h ⊢
    cases he : W.envs[j]? with
    | none => rw [he] at h; cases h
    | some e =>
      rw [he] at h
      have hj : j < W.envs.length := by
        rcases Nat.lt_or_ge j W.envs.length with hlt | hge
        · exact hlt
        · rw [List.getElem?_eq_none hge] at he
          cases he
      show (match (W.envs ++ _)[j]? with
        | some e => e.closed
        | none => false) = true
      rw [List.getElem?_append_left hj, he]
      exact h
  sym := fun _ _ _ h => h
  addr := fun _ _ _ h => h

theorem Env.eval_lambda (g : Nat) (W : World) (F : Nat) (pl body : Base_Object) (t : Bool) :
    Env.eval (g + 1) W F (.cons (registerSymbol "lambda") (.cons pl body)) t =
      .ok (.proc pl (.cons (registerSymbol "do") body) F, Env.setClosed W F) := by
  have h : Env.procSpecialForm g (interp g) W F
      (.cons (registerSymbol "lambda") (.cons pl body)) t =
      .ok (some (.proc pl (.cons (registerSymbol "do") body) F, Env.setClosed W F)) := by
    unfold Env.procSpecialForm
    simp only [registerSymbol, listLength, listNth]
    rw [if_neg (by decide), if_neg (by decide), if_neg (by decide), if_neg (by decide),
      if_neg (by decide), if_neg (by decide), if_neg (by decide), if_pos (by decide),
      if_pos (by omega)]
    simp only [doBody, listNthCdr, Res.bind_ok]
    rfl
  rw [Env.eval_cons, h]
  rfl

theorem Env.eval_macroForm (g : Nat) (W : World) (F : Nat) (pl body : Base_Object) (t : Bool) :
    Env.eval (g + 1) W F (.cons (registerSymbol "macro") (.cons pl body)) t =
      .ok (.macroObj pl (.cons (registerSymbol "do") body) F, Env.setClosed W F) := by
  have h : Env.procSpecialForm g (interp g) W F
      (.cons (registerSymbol "macro") (.cons pl body)) t =
      .ok (some (.macroObj pl (.cons (registerSymbol "do") body) F, Env.setClosed W F)) := by
    unfold Env.procSpecialForm
    simp only [registerSymbol, listLength, listNth]
    rw [if_neg (by decide), if_neg (by decide), if_neg (by decide), if_neg (by decide),
      if_neg (by decide), if_neg (by decide), if_neg (by decide), if_neg (by decide),
      if_pos (by decide), if_pos (by omega)]
    simp only [doBody, listNthCdr, Res.bind_ok]
    rfl
  rw [Env.eval_cons, h]
  rfl

theorem closedAt_setClosed (W : World) (F : Nat) (hF : F < W.envs.length) :
    (Env.setClosed W F).closedAt F = true := by
  unfold World.closedAt Env.setClosed
  show (match (updateEnv W.envs F _)[F]? with
    | some e => e.closed
    | none => false) = true
  rw [updateEnv_get_self, List.getElem?_eq_getElem hF]
  rfl

theorem tailCallFrame_cases (f : Nat) (W : World) (F pe : Nat) (ps : List Symbol)
    (args : List Base_Object) (hF : F < W.envs.length) (hW : W.fresh = true)
    (hargs : (args.all fun a => noRefObj W.envs.length a) = true)
    (xs : List Base_Object) (W1 : World)
    (hx : evalValues f F (Env.createSubEnvironment W F (some pe)).2
      ((ps.zip args).map Prod.snd) = .ok (xs, W1)) :
    ∃ eF : Env, W1.envs[F]? = some eF ∧
      W1.envs[W.envs.length]? = some (callFrame F pe []) ∧
      (eF.closed = false → ∃ Wm : World,
        tailCallFrame f W F pe ps args = .ok (F, Wm) ∧
        Wm.envs[F]? = some (mergedFrame eF pe
          (bindPairs [] (((ps.zip args).map Prod.fst).zip xs))) ∧
        (∀ j, j ≠ F → j ≠ W.envs.length → Wm.envs[j]? = W1.envs[j]?)) ∧
      (eF.closed = true → ∃ Wc : World,
        tailCallFrame f W F pe ps args = .ok (W.envs.length, Wc) ∧
        Wc.envs[W.envs.length]? = some (callFrame F pe
          (bindPairs [] (((ps.zip args).map Prod.fst).zip xs))) ∧
        (∀ j, j ≠ W.envs.length → Wc.envs[j]? = W1.envs[j]?)) := by
  have hFk : F ≠ W.envs.length := Nat.ne_of_lt hF
  have hsim := evalValues_indep f F hFk ((ps.zip args).map Prod.snd) _ _
    (Sim.of_fresh W F (some pe) hF hW) (fun v hv => by
      rw [List.all_eq_true] at hargs
      obtain ⟨b, hb, hbv⟩ := List.mem_map.1 hv
      rw [← hbv]
      exact hargs b.2 (List.of_mem_zip hb).2)
  rw [hx] at hsim
  have hk : W1.envs[W.envs.length]? = some (callFrame F pe []) := hsim.2.2.kA
  have hlen := evalValues_length f F _ _ _ _ hx
  have hF1 : F < W1.envs.length := by
    have : (Env.createSubEnvironment W F (some pe)).2.envs.length = W.envs.length + 1 := by
      simp [Env.createSubEnvironment]
    omega
  have hFe : W1.envs[F]? = some (W1.envs[F]) := List.getElem?_eq_getElem hF1
  refine ⟨W1.envs[F], hFe, hk, ?_, ?_⟩
  all_goals
    have hbk : (bindAll W1 W.envs.length (((ps.zip args).map Prod.fst).zip xs)).envs[
        W.envs.length]? = some (callFrame F pe
          (bindPairs [] (((ps.zip args).map Prod.fst).zip xs))) := by
      rw [bindAll_eq]
      show (updateEnv W1.envs _ _)[W.envs.length]? = _
      rw [updateEnv_get_self, hk]
      rfl
    have hbo : ∀ j, j ≠ W.envs.length →
        (bindAll W1 W.envs.length (((ps.zip args).map Prod.fst).zip xs)).envs[j]? =
          W1.envs[j]? := by
      intro j hj
      rw [bindAll_eq]
      exact updateEnv_get_ne _ _ _ _ hj
    have hbF := (hbo F hFk).trans hFe
    have hcases := mergeIfTail_cases _ F W.envs.length pe _ _ hbF hbk
  · intro hc
    obtain ⟨h1, h2, h3⟩ := hcases.1 hc
    refine ⟨(mergeIfTail (bindAll W1 W.envs.length (((ps.zip args).map Prod.fst).zip xs)) F
      W.envs.length true).2, ?_, h2, ?_⟩
    · unfold tailCallFrame
      rw [hx, Res.bind_ok]
      congr 1
      exact Prod.ext h1 rfl
    · intro j hj hjk
      rw [h3 j hj]
      exact hbo j hjk
  · intro hc
    refine ⟨bindAll W1 W.envs.length (((ps.zip args).map Prod.fst).zip xs), ?_, hbk, hbo⟩
    unfold tailCallFrame
    rw [hx, Res.bind_ok, hcases.2 hc]

theorem mergedFrame_lookup (eF : Env) (pe : Nat) (ps : List (Symbol × Base_Object)) :
    (∀ (s : Symbol) (v : Base_Object), mapFind (bindPairs [] ps) (some s) = some v →
      mapFind (mergedFrame eF pe (bindPairs [] ps)).symbolValueMap (some s) = some v) ∧
    (∀ s : SymPtr, mapFind (bindPairs [] ps) s = none →
      mapFind (mergedFrame eF pe (bindPairs [] ps)).symbolValueMap s =
        mapFind eF.symbolValueMap s) :=
  ⟨fun s v h => mapFind_foldl_mapSet (some s) v _ eF.symbolValueMap
      (nodup_keys_bindPairs _ [] List.nodup_nil) h,
    fun s h => mapFind_foldl_other s _ eF.symbolValueMap (not_mem_keys_of_mapFind _ s h)⟩

theorem makeEnvForApply_tail_split (r : Rec) (W : World) (F pe : Nat)
    (prms argl : Base_Object) :
    makeEnvForApply r W F pe prms argl true =
      (makeEnvForApply r W F pe prms argl false).bind fun e =>
        .ok (mergeIfTail e.2 F e.1 true) := by
  have hm : ∀ (X : World) (k : Nat), mergeIfTail X F k false = (k, X) := fun _ _ => rfl
  unfold makeEnvForApply
  simp only [hm]
  by_cases hp : isProperList argl = true
  · simp only [hp, Bool.not_true, Bool.false_eq_true, if_false]
    rw [Res.bind_assoc]
    congr 1
    funext x
    cases h1 : x.2.1 with
    | symbol s =>
      simp only []
      by_cases hn : (s.name == "null") = true
      · simp only [hn, if_true, Res.bind_ok]
      · simp only [hn, if_false, Bool.false_eq_true]
        rw [Res.bind_assoc]
        rfl
    | _ => rfl
  · have hp1 : isProperList argl = false := by simpa using hp
    simp only [hp1, Bool.not_false, if_true]
    rfl

/-- C25: the frame of a call in tail position.  For every parameter list, the frame of a call
made with the tail flag is the frame of the same call made without it, followed by the test of
`F` and the merge.  In a world in which nothing yet refers to the
frame about to be made, for a frame `F` that exists, a `Proc` with the parameters `p1 ... pk`
and the captured frame `procEnv`, and argument forms that hold no procedure of the new frame:
the call made with the tail flag evaluates the argument forms in `F`, against the bindings `F`
has then and while the new child holds nothing, binds the parameters to the values in the
child (whose outer link is `F` and whose lexical link is `procEnv`), and evaluates the body in
the frame it returns.  Let `eF` be the frame `F` when the arguments have been evaluated.  If
`eF` is not closed the body is evaluated in `F` itself, which is then `eF` with its bindings
overwritten by the parameter bindings and its lexical link set to `procEnv`: a parameter
resolves there to its value, any other symbol to what `eF` bound; no frame other than `F` and
the child is changed.  If `eF` is closed the body is evaluated in the child, and `F` like every
frame other than the child is as the arguments left it.  The root is closed from the start;
a frame once closed stays closed through every evaluation; and a `lambda` or `macro` form
evaluated in `F` closes `F`. -/
theorem tail_call_frame_reuse (f : Nat) (W : World) (F procEnv : Nat) (ps : List Symbol)
    (args : List Base_Object) (hF : F < W.envs.length) (hW : W.fresh = true)
    (hargs : (args.all fun a => noRefObj W.envs.length a) = true) :
    (∀ prms argl : Base_Object,
      makeEnvForApply (interp f) W F procEnv prms argl true =
        (makeEnvForApply (interp f) W F procEnv prms argl false).bind fun e =>
          .ok (mergeIfTail e.2 F e.1 true)) ∧
    makeEnvForApply (interp f) W F procEnv (plainParams ps) (vectorToList args) true =
      tailCallFrame f W F procEnv ps args ∧
    (∀ (g : Nat) (fe body : Base_Object) (W0 : World),
      Env.eval f W0 F fe false = .ok (.proc (plainParams ps) body procEnv, W) →
      Env.applyStep g (interp f) W0 F fe (vectorToList args) true =
        (tailCallFrame f W F procEnv ps args).bind fun e => Env.eval f e.2 e.1 body true) ∧
    (∀ (xs : List Base_Object) (W1 : World),
      evalValues f F (Env.createSubEnvironment W F (some procEnv)).2
        ((ps.zip args).map Prod.snd) = .ok (xs, W1) →
      ∃ eF : Env, W1.envs[F]? = some eF ∧
        W1.envs[W.envs.length]? = some (callFrame F procEnv []) ∧
        (eF.closed = false → ∃ Wm : World,
          tailCallFrame f W F procEnv ps args = .ok (F, Wm) ∧
          Wm.envs[F]? = some (mergedFrame eF procEnv
            (bindPairs [] (((ps.zip args).map Prod.fst).zip xs))) ∧
          (∀ j, j ≠ F → j ≠ W.envs.length → Wm.envs[j]? = W1.envs[j]?)) ∧
        (eF.closed = true → ∃ Wc : World,
          tailCallFrame f W F procEnv ps args = .ok (W.envs.length, Wc) ∧
          Wc.envs[W.envs.length]? = some (callFrame F procEnv
            (bindPairs [] (((ps.zip args).map Prod.fst).zip xs))) ∧
          (∀ j, j ≠ W.envs.length → Wc.envs[j]? = W1.envs[j]?))) ∧
    (∀ (eF : Env) (pairs : List (Symbol × Base_Object)),
      (∀ (s : Symbol) (v : Base_Object), mapFind (bindPairs [] pairs) (some s) = some v →
        mapFind (mergedFrame eF procEnv (bindPairs [] pairs)).symbolValueMap (some s) =
          some v) ∧
      (∀ s : SymPtr, mapFind (bindPairs [] pairs) s = none →
        mapFind (mergedFrame eF procEnv (bindPairs [] pairs)).symbolValueMap s =
          mapFind eF.symbolValueMap s)) ∧
    Env.createEnvironment.closedAt 0 = true ∧
    (∀ (fuel : Nat) (Wa Wb : World) (G j : Nat) (o v : Base_Object) (t : Bool),
      Wa.closedAt j = true → Env.eval fuel Wa G o t = .ok (v, Wb) → Wb.closedAt j = true) ∧
    (∀ (g : Nat) (pl body : Base_Object) (t : Bool),
      Env.eval (g + 1) W F (.cons (registerSymbol "lambda") (.cons pl body)) t =
        .ok (.proc pl (.cons (registerSymbol "do") body) F, Env.setClosed W F) ∧
      Env.eval (g + 1) W F (.cons (registerSymbol "macro") (.cons pl body)) t =
        .ok (.macroObj pl (.cons (registerSymbol "do") body) F, Env.setClosed W F) ∧
      (Env.setClosed W F).closedAt F = true) := by
  have hmain := makeEnvForApply_tail f W F procEnv ps args hF hW hargs
  refine ⟨makeEnvForApply_tail_split (interp f) W F procEnv, hmain, ?_, ?_, ?_, rfl, ?_, ?_⟩
  · intro g fe body W0 hfe
    unfold Env.applyStep
    show (Res.bind (Env.eval f W0 F fe false) _) = _
    rw [hfe, Res.bind_ok]
    simp only
    rw [hmain]
    rfl
  · intro xs W1 hx
    exact tailCallFrame_cases f W F procEnv ps args hF hW hargs xs W1 hx
  · intro eF pairs
    exact mergedFrame_lookup eF procEnv pairs
  · intro fuel Wa Wb G j o v t hj h
    exact Env.eval_keeps closedRel fuel Wa G o t v Wb h j hj
  · intro g pl body t
    exact ⟨Env.eval_lambda g W F pl body t, Env.eval_macroForm g W F pl body t,
      closedAt_setClosed W F hF⟩

/-- C25, instances.  In the world after `(define g (lambda (b) (+ a b)))`, frame 1 is an open
child of the root that binds `a` to 1.  The call of a procedure with the parameter `b` and the
captured frame 0, made from frame 1 with the tail flag and the argument form `a`, returns frame
1 itself, which then binds `a` to 1 and `b` to 1 and has the lexical link 0; the same call from
the root, which is closed, returns the new frame 2 whose outer link is the root, and the root
is as before.  Read and evaluated at top level, `(f 1)` with `(g a)` in tail position in `f`
returns 2. -/
theorem tail_call_frame_reuse_witness :
    makeEnvForApply (interp 5) tailCallWorld 1 0 (plainParams [symB])
        (vectorToList [.symbol symA]) true =
      tailCallFrame 5 tailCallWorld 1 0 [symB] [.symbol symA] ∧
    ((tailCallFrame 5 tailCallWorld 1 0 [symB] [.symbol symA]).bind fun e =>
      Res.ok (e.1, e.2.envs[1]?, e.2.envs[0]?)) =
      .ok (1, some
        { outEnvironment := some 0, environmentLex := some 0,
          symbolValueMap := [(some symA, .integer 1), (some symB, .integer 1)],
          closed := false }, tailCallWorld.envs[0]?) ∧
    ((tailCallFrame 5 tailCallWorld 0 0 [symB] [.integer 7]).bind fun e =>
      Res.ok (e.1, e.2.envs[2]?, e.2.envs[0]?, e.2.envs[1]?)) =
      .ok (2, some (callFrame 0 0 [(some symB, .integer 7)]), tailCallWorld.envs[0]?,
        tailCallWorld.envs[1]?) ∧
    (Env.repl 30 5 Env.createEnvironment (IStream.ofList
      "(define g (lambda (b) (+ a b))) (define f (lambda (a) (g a))) (f 1)".data)).value? =
      some [registerSymbol "g", registerSymbol "f", .integer 2] :=
  ⟨(tail_call_frame_reuse 5 tailCallWorld 1 0 [symB] [.symbol symA] (by decide!) (by decide!)
      (by decide)).2.1,
    by decide!, by decide!, by decide!⟩

/-! ## C26: the reader at the end of the input -/

theorem skipLine_failed : ∀ (fuel : Nat) (s : IStream), s.good = false →
    skipLine fuel eofChar s = .timeout := by
  intro fuel
  induction fuel with
  | zero =>
    intro s _
    rw [skipLine, eofChar_ne]
    simp
  | succ n ih =>
    intro s hs
    rw [skipLine, eofChar_ne]
    simp only [if_true]
    obtain ⟨h1, h2, _⟩ := IStream.get_bad s hs
    rw [h1]
    exact ih _ h2

theorem skipLine_no_line_end : ∀ (l : List Char), (∀ x ∈ l, isLineEnd x = false) →
    ∀ (fuel : Nat) (c : Char) (cs : List Char), isLineEnd c = false →
      skipLine fuel c ⟨cs, l, false, false⟩ = .timeout := by
  intro l
  induction l with
  | nil =>
    intro _ fuel c cs hc
    have hc1 : (c != Char.ofNat 0 && c != '\n' && c != '\r') = true := by
      simp only [isLineEnd, Bool.or_eq_false_iff] at hc
      simp [bne, hc.1.1, hc.1.2, hc.2]
    cases fuel with
    | zero => rw [skipLine, hc1]; simp
    | succ n =>
      rw [skipLine, hc1]
      simp only [if_true]
      exact skipLine_failed n _ rfl
  | cons b bs ih =>
    intro hl fuel c cs hc
    have hc1 : (c != Char.ofNat 0 && c != '\n' && c != '\r') = true := by
      simp only [isLineEnd, Bool.or_eq_false_iff] at hc
      simp [bne, hc.1.1, hc.1.2, hc.2]
    cases fuel with
    | zero => rw [skipLine, hc1]; simp
    | succ n =>
      rw [skipLine, hc1]
      simp only [if_true]
      exact ih (fun x hx => hl x (List.mem_cons_of_mem _ hx)) n b (b :: cs)
        (hl b (List.mem_cons_self _ _))

theorem commentSkip_open_comment (l : List Char) (h : ∀ x ∈ l, isLineEnd x = false)
    (fuel : Nat) (cs : List Char) :
    commentSkip fuel ⟨cs, ';' :: l, false, false⟩ = .timeout := by
  unfold commentSkip
  rw [IStream.ws_nonspace cs ';' l (by decide)]
  have e2 : (IStream.peek ⟨cs, ';' :: l, false, false⟩) =
      (some ';', ⟨cs, ';' :: l, false, false⟩) := rfl
  rw [e2]
  cases fuel with
  | zero => rw [commentLoop]; simp
  | succ n =>
    rw [commentLoop]
    have hs : skipLine n ';' ⟨cs, ';' :: l, false, false⟩ = .timeout :=
      skipLine_no_line_end (';' :: l) (by
        intro x hx
        rcases List.mem_cons.1 hx with hx | hx
        · subst hx; decide
        · exact h x hx) n ';' cs (by decide)
    simp [hs]

/-- C26: a comment that the end of input cuts short is never skipped.  For every text `l` without
a line terminator (line feed, carriage return or NUL) the input `;l` keeps `readParse` and
`Env::read` in the loop `while (c != 0 && c != '\n' && c != '\r') c = is.get();` whatever the
number of steps allowed: neither a value nor a parse error is produced. -/
theorem comment_at_end_of_input_loops (l : List Char) (h : ∀ x ∈ l, isLineEnd x = false)
    (fuel : Nat) :
    readParse fuel (IStream.ofList (';' :: l)) = .timeout ∧
      Env.read fuel (IStream.ofList (';' :: l)) = .timeout := by
  have hp : readParse fuel (IStream.ofList (';' :: l)) = .timeout := by
    cases fuel with
    | zero => rw [readParse]
    | succ n =>
      rw [readParse]
      have := commentSkip_open_comment l h n []
      unfold IStream.ofList
      rw [this]
  exact ⟨hp, by unfold Env.read; rw [hp]⟩

/-- C26, witness: the input `; hi`, of any fuel, here 1000. -/
theorem comment_at_end_of_input_loops_witness :
    (∀ x ∈ "hello".toList, isLineEnd x = false) ∧
      readParse 1000 (IStream.ofList (';' :: "hello".toList)) = .timeout ∧
      Env.read 1000 (IStream.ofList (';' :: "hello".toList)) = .timeout :=
  ⟨by decide, comment_at_end_of_input_loops "hello".toList (by decide) 1000⟩

/-! ## C27: predicates under `if` -/

theorem applyBuiltin_predicate (g : Nat) (r : Rec) (b : Builtin) (hb : b ∈ predicates)
    (W : World) (F : Nat) (v : Base_Object) :
    ∃ t : Bool, applyBuiltin g r b W F [v] = .ok (boolToLobj t, W) := by
  simp only [predicates, predicateNames, List.map_cons, List.map_nil, List.mem_cons,
    List.mem_singleton, List.mem_nil_iff, or_false] at hb
  rcases hb with h | h | h | h | h | h | h | h <;> subst h
  · exact ⟨true, rfl⟩
  · exact ⟨_, rfl⟩
  · exact ⟨_, rfl⟩
  · exact ⟨_, rfl⟩
  · cases v <;> exact ⟨_, rfl⟩
  · cases v <;> exact ⟨_, rfl⟩
  · cases v <;> exact ⟨_, rfl⟩
  · cases v <;> exact ⟨_, rfl⟩

theorem boolToLobj_not_null (t : Bool) : (boolToLobj t).isnull = false := by
  cases t <;> decide

theorem Env.eval_quoteForm (f : Nat) (W : World) (F : Nat) (v : Base_Object) (t : Bool) :
    Env.eval (f + 1) W F (quoteForm v) t = .ok (v, W) := rfl

theorem Env.eval_predicate_call (k : Nat) (W : World) (F : Nat) (p : Symbol) (b : Builtin)
    (v : Base_Object) (t : Bool) (hp : p.name ∉ specialNames)
    (hres : Env.findSymbolInMap k W F (some p) = .ok (some (.predefined b))) :
    Env.eval (k + 2) W F (.cons (.symbol p) (.cons (quoteForm v) nil)) t =
      applyBuiltin (k + 1) (interp (k + 1)) b W F [v] := by
  have h0 : (interp (k + 1)).eval W F (.symbol p) false = .ok (.predefined b, W) := by
    show Env.eval (k + 1) W F (.symbol p) false = _
    rw [Env.eval_symbol, hres]
    rfl
  have h1 : (interp (k + 1)).eval W F (quoteForm v) false = .ok (v, W) :=
    Env.eval_quoteForm k W F v false
  rw [Env.eval_app _ _ _ _ _ _ hp]
  simp only [Env.applyStep, evalArgs, h0, h1, Res.bind]
  simp [isProperList, registerSymbol]

/-- C27: the results of the predicates are never `null`.  Each of the names `eq?`, `null?`,
`cons?`, `list?`, `symbol?`, `int?`, `string?`, `proc?` is bound in the root to its procedure.
Applied to one value each of these procedures returns the symbol `t` or the symbol `f` and
leaves the world as it is, and neither symbol is `null`; `eq?` applied to one or more values
returns `t` or `f`, whatever its arguments are and whatever the comparisons of their addresses
answer (it throws only when applied to no argument).  So for every value `v`, in a frame `F` from which the symbol
`p` resolves to one of these procedures, `(if (p (quote v)) A B)` has the outcome of `A`
evaluated in `F`, and `B` is not evaluated.  `=` and `<` applied to Integers return `null` when
the chain of comparisons fails. -/
theorem predicates_always_truthy (k : Nat) (W : World) (F : Nat) (v : Base_Object) :
    (∀ nb ∈ predicateNames,
      rootValue Env.createEnvironment (some ⟨nb.1, none⟩) = some (.predefined nb.2)) ∧
    (∀ b ∈ predicates, ∀ (g : Nat) (r : Rec),
      ∃ t : Bool, applyBuiltin g r b W F [v] = .ok (boolToLobj t, W)) ∧
    (∀ t : Bool, (boolToLobj t).isnull = false) ∧
    (∀ (g : Nat) (r : Rec),
      applyBuiltin g r .eqP W F [] = .throw "Invalid arguments of function 'eq?'" ∧
      ∀ args : List Base_Object, args ≠ [] →
        applyBuiltin g r .eqP W F args =
          .ok (boolToLobj (eqChain W.addressEq args).1,
            { W with addressEq := (eqChain W.addressEq args).2 })) ∧
    (∀ (p : Symbol) (b : Builtin) (A B : Base_Object) (tail : Bool), b ∈ predicates →
      p.name ∉ specialNames →
      Env.findSymbolInMap k W F (some p) = .ok (some (.predefined b)) →
      Env.eval (k + 3) W F (ifPredicateForm p v A B) tail = Env.eval (k + 2) W F A tail) ∧
    (∀ (g : Nat) (r : Rec) (vs : List Int), vs ≠ [] →
      (intChain (fun a b => a == b) (vs.map .integer) = false →
        applyBuiltin g r .numEq W F (vs.map .integer) = .ok (registerSymbol "null", W)) ∧
      (intChain (fun a b => decide (a < b)) (vs.map .integer) = false →
        applyBuiltin g r .lt W F (vs.map .integer) = .ok (registerSymbol "null", W))) := by
  refine ⟨by decide!, fun b hb g r => applyBuiltin_predicate g r b hb W F v,
    boolToLobj_not_null, ?_, ?_, ?_⟩
  · intro g r
    refine ⟨rfl, fun args hargs => ?_⟩
    have hlen : ¬ args.length = 0 := by
      simpa using hargs
    simp only [applyBuiltin, hlen, if_false]
    rfl
  · intro p b A B tail hb hp hres
    unfold ifPredicateForm
    rw [Env.eval_if, Env.eval_predicate_call k W F p b v false hp hres]
    obtain ⟨t, ht⟩ := applyBuiltin_predicate (k + 1) (interp (k + 1)) b hb W F v
    rw [ht]
    simp only [Res.bind_ok, boolToLobj_not_null, Bool.not_false, if_true]
  · intro g r vs hvs
    have hall : allIntegers (vs.map .integer) = true := by
      clear hvs
      induction vs with
      | nil => rfl
      | cons a as ih => simpa [allIntegers] using ih
    have hlen : ¬ (vs.map Base_Object.integer).length = 0 := by
      simpa using hvs
    constructor
    · intro hc
      simp only [applyBuiltin, hall, hc, hlen, if_false, Bool.not_true, Bool.false_eq_true]
    · intro hc
      simp only [applyBuiltin, hall, hc, hlen, if_false, Bool.not_true, Bool.false_eq_true]

/-- C27, instances at top level of the initial world: `(if (null? 1) 1 2)` has the outcome of
the form `1`, and read and evaluated it returns 1; `(if (eq? (quote a) (quote b)) 1 2)` returns
1 although the answer of `eq?` is `f`; `(eq? 1 1)` returns `f`, the two literals being two
objects, and `(if (eq? 1 1) 1 2)` returns 1; two handles to equal lists give `t` when the
comparison of their addresses answers that they are one object, as it does for
`(let (x (cons 1 2)) (eq? x x))`; `(if (= 1 2) 1 2)` and
`(if (< 2 1) 1 2)` return 2. -/
theorem predicates_always_truthy_witness :
    Env.eval 6 Env.createEnvironment 0
        (ifPredicateForm ⟨"null?", none⟩ (.integer 1) (.integer 1) (.integer 2)) false =
      Env.eval 5 Env.createEnvironment 0 (.integer 1) false ∧
    ((readParse 30 (IStream.ofList "(if (null? 1) 1 2)".data)).bind fun x =>
      Env.evalTop 30 Env.createEnvironment 0 x.1) = .ok (.integer 1, Env.createEnvironment) ∧
    ((readParse 30 (IStream.ofList "(null? 1)".data)).bind fun x =>
      Env.evalTop 30 Env.createEnvironment 0 x.1) =
      .ok (registerSymbol "f", Env.createEnvironment) ∧
    ((readParse 40 (IStream.ofList "(if (eq? (quote a) (quote b)) 1 2)".data)).bind fun x =>
      Env.evalTop 30 Env.createEnvironment 0 x.1) = .ok (.integer 1, Env.createEnvironment) ∧
    ((readParse 30 (IStream.ofList "(eq? 1 1)".data)).bind fun x =>
      Env.evalTop 30 Env.createEnvironment 0 x.1) =
      .ok (registerSymbol "f", Env.createEnvironment) ∧
    ((readParse 30 (IStream.ofList "(if (eq? 1 1) 1 2)".data)).bind fun x =>
      Env.evalTop 30 Env.createEnvironment 0 x.1) = .ok (.integer 1, Env.createEnvironment) ∧
    applyBuiltin 0 (interp 0) .eqP { Env.createEnvironment with addressEq := [true] } 0
        [.cons (.integer 1) nil, .cons (.integer 1) nil] =
      .ok (registerSymbol "t", Env.createEnvironment) ∧
    ((readParse 40 (IStream.ofList "(let (x (cons 1 2)) (eq? x x))".data)).bind fun x =>
      Env.evalTop 30 { Env.createEnvironment with addressEq := [true] } 0 x.1).value? =
      some (registerSymbol "t") ∧
    ((readParse 30 (IStream.ofList "(if (= 1 2) 1 2)".data)).bind fun x =>
      Env.evalTop 30 Env.createEnvironment 0 x.1) = .ok (.integer 2, Env.createEnvironment) ∧
    ((readParse 30 (IStream.ofList "(if (< 2 1) 1 2)".data)).bind fun x =>
      Env.evalTop 30 Env.createEnvironment 0 x.1) = .ok (.integer 2, Env.createEnvironment) :=
  ⟨(predicates_always_truthy 3 Env.createEnvironment 0 (.integer 1)).2.2.2.2.1
      ⟨"null?", none⟩ .nullP (.integer 1) (.integer 2) false (by decide) (by decide)
      (by decide!),
    by decide!, by decide!, by decide!, by decide!, by decide!, by decide!, by decide!,
    by decide!, by decide!⟩

/-! ## C8: what a closure keeps of its captured frame -/

/-- A value form that binds `x` in the root changes what the closure returns, also in a
definition of another name; and once the closure has handed out the symbol `x` as its captured
value, forms that do not mention `x` can bind it. -/
theorem value_form_may_bind_x :
    (Env.repl 30 8 Env.createEnvironment (IStream.ofList
      "(define c ((lambda (x) (lambda () x)) 42)) (define y (set! x 5)) (c)".data)).value? =
      some [registerSymbol "c", registerSymbol "y", .integer 5] ∧
    (Env.repl 30 8 Env.createEnvironment (IStream.ofList
      "(define c ((lambda (x) (lambda () x)) 42)) (define y (define x 7)) (c)".data)).value? =
      some [registerSymbol "c", registerSymbol "y", .integer 7] ∧
    (Env.repl 30 8 Env.createEnvironment (IStream.ofList
      "(define c ((lambda (x) (lambda () x)) (quote x))) (define y (c)) (eval (cons (quote set!) (cons y (quote (5))))) (c)".data)).value? =
      some [registerSymbol "c", registerSymbol "y", .integer 5, .integer 5] := by
  refine ⟨by decide!, by decide!, by decide!⟩

end Lisp
